import Mathlib

/-!
# compilerDc: a shallow embedding of the compiler pipeline

The development follows the C sources file by file:

* `lexer.c`      : `create_lexer`, `peek`, `advance`, `skip_whitespace`, `get_next_token`
* `parser.c`     : the recursive-descent parser
* `ir.c`         : `new_temp`, `create_instr`, `generate_expression_ir`, `generate_ir`
* `ir_optimizer.c` : `evaluate_constant_expr`, `is_constant`, `constant_folding`,
  `find_basic_blocks`, `dead_code_elimination`, `optimize_ir`
* `optimizer.c`  : `eliminate_common_subexpressions`, `reduce_strength`,
  `eliminate_tail_recursion`
* `semantic.c`   : the symbol table, `analyze_expression`, `analyze_statement`, `analyze`
* `codegen.c`    : `emit`, `generate_code_from_ir`

Conventions.  A C string is a `List Char` (source text) or a `String` (lexemes,
names); `'\0'` is `Char.ofNat 0`.  The character classes of `<ctype.h>` are the
ones of the "C" locale.  `exit(1)` is an error result carrying the text
written to `stderr`; a write past the end of one of the fixed-size arrays and a
`NULL` passed to `strdup` or `atoi` are error results too.  Scanning loops of
the lexer are given the number of unread characters as fuel, which they cannot
exhaust.  The parsing functions take a fuel argument that bounds the depth of
calls and loop iterations, and report its exhaustion (`timeout`) separately
from failure.
-/

namespace CompilerDc

/-! ## compiler.h : tokens -/

/-- Token tags, `TokenType` of `compiler.h`, in declaration order. -/
inductive TokenType where
  | TOKEN_EOF
  | TOKEN_IDENTIFIER
  | TOKEN_NUMBER
  | TOKEN_PLUS
  | TOKEN_MINUS
  | TOKEN_MULTIPLY
  | TOKEN_DIVIDE
  | TOKEN_LPAREN
  | TOKEN_RPAREN
  | TOKEN_SEMICOLON
  | TOKEN_ASSIGN
  | TOKEN_KEYWORD
  | TOKEN_LBRACE
  | TOKEN_RBRACE
  | TOKEN_COMMA
  | TOKEN_EQUALS
  | TOKEN_NOT_EQUALS
  | TOKEN_LESS
  | TOKEN_GREATER
  | TOKEN_LESS_EQUALS
  | TOKEN_GREATER_EQUALS
  | TOKEN_WHILE
  | TOKEN_IF
  | TOKEN_ELSE
  | TOKEN_RETURN
  deriving DecidableEq, Repr

open TokenType

/-- A token: its tag and its lexeme (`NULL` for end of input). -/
structure Token where
  type : TokenType
  value : Option String
  deriving DecidableEq, Repr

/-- The lexer: the source text and the index of the next unread character.
The C field `length` is `strlen(source)`, here `source.length`. -/
structure Lexer where
  source : List Char
  position : Nat
  deriving DecidableEq, Repr

/-! ## ctype.h in the "C" locale -/

/-- The C `isspace`: space, `\t`, `\n`, `\v`, `\f`, `\r`. -/
def isspace (c : Char) : Bool :=
  c.toNat = 32 || (9 ≤ c.toNat && c.toNat ≤ 13)

/-- The C `isdigit`. -/
def isdigit (c : Char) : Bool :=
  48 ≤ c.toNat && c.toNat ≤ 57

/-- The C `isalpha`. -/
def isalpha (c : Char) : Bool :=
  (65 ≤ c.toNat && c.toNat ≤ 90) || (97 ≤ c.toNat && c.toNat ≤ 122)

/-- The C `isalnum`. -/
def isalnum (c : Char) : Bool :=
  isalpha c || isdigit c

/-! ## lexer.c -/

/-- The NUL character that `peek` and `advance` return at the end of the text. -/
def NUL : Char := Char.ofNat 0

/-- Allocate a lexer at position 0. -/
def create_lexer (source : List Char) : Lexer :=
  { source := source, position := 0 }

/-- The character at the current position, NUL at the end. -/
def peek (lexer : Lexer) : Char :=
  if lexer.position ≥ lexer.source.length then NUL
  else lexer.source.getD lexer.position NUL

/-- Return the current character and step over it; at the end return NUL and
stay. -/
def advance (lexer : Lexer) : Char × Lexer :=
  if lexer.position ≥ lexer.source.length then (NUL, lexer)
  else (lexer.source.getD lexer.position NUL,
        { lexer with position := lexer.position + 1 })

/-- The loop `while (cls(peek(lexer))) advance(lexer);`, run for at most
`fuel` iterations. -/
def advance_while (cls : Char → Bool) : Nat → Lexer → Lexer
  | 0, lexer => lexer
  | fuel + 1, lexer =>
    if cls (peek lexer) then advance_while cls fuel (advance lexer).2 else lexer

/-- The number of characters left, which bounds every scanning loop: a loop
iteration needs a character of the class under the cursor. -/
def remaining (lexer : Lexer) : Nat :=
  lexer.source.length - lexer.position

/-- Skip the white space under the cursor. -/
def skip_whitespace (lexer : Lexer) : Lexer :=
  advance_while isspace (remaining lexer) lexer

/-- The text `strncpy(value, &source[start], position - start)`. -/
def lexeme (lexer : Lexer) (start : Nat) : String :=
  String.mk ((lexer.source.drop start).take (lexer.position - start))

/-- The cases of the `switch` at the end of `get_next_token`. -/
def operator_table : List (Char × TokenType) :=
  [('+', TOKEN_PLUS), ('-', TOKEN_MINUS), ('*', TOKEN_MULTIPLY), ('/', TOKEN_DIVIDE),
   ('(', TOKEN_LPAREN), (')', TOKEN_RPAREN), (';', TOKEN_SEMICOLON), ('=', TOKEN_ASSIGN),
   ('\x7b', TOKEN_LBRACE), ('\x7d', TOKEN_RBRACE), (',', TOKEN_COMMA), ('<', TOKEN_LESS),
   ('>', TOKEN_GREATER)]

/-- The `switch` at the end of `get_next_token`: the tag of a one-character
token, `none` for the `default` case. -/
def operator_type (c : Char) : Option TokenType :=
  operator_table.lookup c

/-- The tail of `get_next_token` ("Handle operators"): one character becomes
the lexeme and the `switch` picks the tag or exits. -/
def operator_token (lexer : Lexer) : Except String (Token × Lexer) :=
  let c := (advance lexer).1
  let lexer := (advance lexer).2
  match operator_type c with
  | some type => .ok (⟨type, some (String.mk [c])⟩, lexer)
  | none => .error ("Unknown token: " ++ String.mk [c])

/-- The function `get_next_token` of `lexer.c`, branch by branch.  The second
`isalpha` block and the `peek(lexer) == '='` tests are kept as written: `peek`
is evaluated again at the position of `current`. -/
def get_next_token (lexer : Lexer) : Except String (Token × Lexer) :=
  let lexer := skip_whitespace lexer
  let current := peek lexer
  if current = NUL then
    .ok (⟨TOKEN_EOF, none⟩, lexer)
  else if isalpha current then
    -- Handle identifiers and keywords
    let start := lexer.position
    let lexer := advance_while isalnum (remaining lexer) lexer
    let value := lexeme lexer start
    if value = "int" ∨ value = "return" ∨ value = "if" ∨ value = "else" then
      .ok (⟨TOKEN_KEYWORD, some value⟩, lexer)
    else
      .ok (⟨TOKEN_IDENTIFIER, some value⟩, lexer)
  else if isdigit current then
    -- Handle numbers
    let start := lexer.position
    let lexer := advance_while isdigit (remaining lexer) lexer
    .ok (⟨TOKEN_NUMBER, some (lexeme lexer start)⟩, lexer)
  else if isalpha current then
    -- Handle multi-character operators and keywords
    let start := lexer.position
    let lexer := advance_while isalnum (remaining lexer) lexer
    let value := lexeme lexer start
    if value = "int" then .ok (⟨TOKEN_KEYWORD, some value⟩, lexer)
    else if value = "return" then .ok (⟨TOKEN_RETURN, some value⟩, lexer)
    else if value = "if" then .ok (⟨TOKEN_IF, some value⟩, lexer)
    else if value = "else" then .ok (⟨TOKEN_ELSE, some value⟩, lexer)
    else if value = "while" then .ok (⟨TOKEN_WHILE, some value⟩, lexer)
    else .ok (⟨TOKEN_IDENTIFIER, some value⟩, lexer)
  -- Handle two-character operators
  else if current = '=' then
    if peek lexer = '=' then
      .ok (⟨TOKEN_EQUALS, some "=="⟩, (advance (advance lexer).2).2)
    else operator_token lexer
  else if current = '!' ∧ peek lexer = '=' then
    .ok (⟨TOKEN_NOT_EQUALS, some "!="⟩, (advance (advance lexer).2).2)
  else if current = '<' ∧ peek lexer = '=' then
    .ok (⟨TOKEN_LESS_EQUALS, some "<="⟩, (advance (advance lexer).2).2)
  else if current = '>' ∧ peek lexer = '=' then
    .ok (⟨TOKEN_GREATER_EQUALS, some ">="⟩, (advance (advance lexer).2).2)
  else operator_token lexer

/-- Repeated calls of `get_next_token` up to and including the first
`TOKEN_EOF`, collecting the tokens.  `none` means that `fuel` calls were made
without reaching `TOKEN_EOF`. -/
def lex_all : Nat → Lexer → Option (Except String (List Token))
  | 0, _ => none
  | fuel + 1, lexer =>
    match get_next_token lexer with
    | .error msg => some (.error msg)
    | .ok (token, lexer) =>
      if token.type = TOKEN_EOF then some (.ok [token])
      else
        match lex_all fuel lexer with
        | none => none
        | some (.error msg) => some (.error msg)
        | some (.ok tokens) => some (.ok (token :: tokens))

/-- Lexical analysis of a whole source text: a fresh lexer and one call per
character plus one for the end of input. -/
def tokenize (source : List Char) : Option (Except String (List Token)) :=
  lex_all (source.length + 1) (create_lexer source)

/-! ## compiler.h : syntax trees -/

/-- The tagged union `ASTNode`, one constructor per node type that the parser
builds, with the union members that node type uses. -/
inductive ASTNode where
  | Program (statements : List ASTNode)
  | FunctionDeclaration (name : String) (parameters : List ASTNode) (body : ASTNode)
  | FunctionCall (name : String) (parameters : List ASTNode)
  | CompoundStatement (statements : List ASTNode)
  | VariableDeclaration (name : String) (type : String) (initializer : Option ASTNode)
  | Assignment (left : ASTNode) (right : ASTNode)
  | Return (left : ASTNode)
  | If (condition : ASTNode) (if_body : ASTNode) (else_body : Option ASTNode)
  | While (condition : ASTNode) (body : ASTNode)
  | BinaryOp (operator : Char) (left : ASTNode) (right : ASTNode)
  | Number (number_value : Int)
  | Identifier (string_value : String)
  deriving Repr

/-- The parser: its lexer and the one token of lookahead. -/
structure Parser where
  lexer : Lexer
  current_token : Token
  deriving DecidableEq, Repr

/-- Outcome of a parsing function: a value and the parser state after it,
`exit(1)` with the message on `stderr`, or fuel exhausted. -/
inductive PResult (α : Type) where
  | ok (value : α) (parser : Parser)
  | error (msg : String)
  | timeout
  deriving Repr

/-! ## stdlib.h -/

/-- Reduce an integer to the range of a 32-bit `int` (two's complement). -/
def wrap32 (z : Int) : Int :=
  (z + 2147483648) % 4294967296 - 2147483648

/-- The value of a run of decimal digits. -/
def digits_value (digits : List Char) : Nat :=
  digits.foldl (fun acc c => 10 * acc + (c.toNat - 48)) 0

/-- The C `atoi` as glibc computes it, `(int) strtol(s, NULL, 10)`: leading
white space, an optional sign, the longest run of digits, saturated to a
`long` and truncated to an `int`. -/
def atoi (s : String) : Int :=
  let cs := s.data.dropWhile isspace
  let negative := cs.head? = some '-'
  let cs := if cs.head? = some '-' ∨ cs.head? = some '+' then cs.tail else cs
  let magnitude : Int := digits_value (cs.takeWhile isdigit)
  let value : Int := if negative then -magnitude else magnitude
  wrap32 (max (-9223372036854775808) (min 9223372036854775807 value))

/-! ## parser.c -/

/-- The function `create_parser` of `parser.c`: the first token is read at
once. -/
def create_parser_from (lexer : Lexer) : Except String Parser :=
  match get_next_token lexer with
  | .error msg => .error msg
  | .ok (token, lexer) => .ok { lexer := lexer, current_token := token }

/-- Consume the current token when it has the expected tag, reading the next
one; otherwise fail. -/
def parser_eat (parser : Parser) (type : TokenType) : Except String Parser :=
  if parser.current_token.type = type then
    match get_next_token parser.lexer with
    | .error msg => .error msg
    | .ok (token, lexer) => .ok { lexer := lexer, current_token := token }
  else
    .error ("Unexpected token type: " ++ toString parser.current_token.type.toCtorIdx)

/-- A `NODE_NUMBER` from the current token. -/
def parse_number (parser : Parser) : PResult ASTNode :=
  match parser.current_token.value with
  | none => .error "atoi(NULL)"
  | some value =>
    match parser_eat parser TOKEN_NUMBER with
    | .error msg => .error msg
    | .ok parser => .ok (.Number (atoi value)) parser

/-- A `NODE_IDENTIFIER` from the current token. -/
def parse_identifier (parser : Parser) : PResult ASTNode :=
  match parser.current_token.value with
  | none => .error "strdup(NULL)"
  | some value =>
    match parser_eat parser TOKEN_IDENTIFIER with
    | .error msg => .error msg
    | .ok parser => .ok (.Identifier value) parser

/-!
The expression functions.

In `parse_term` and `parse_expression` the local `token` points to the current
token; `parser_eat` then releases that token (`free(old_token)`), and the
operator character is chosen afterwards by `token->type == ... ? ... : ...`,
a read through the dangling pointer.  What that read returns is not fixed by
the program, so it is the parameter `stale` of the embedding: `stale token` is
the tag read back for the released `token`.  `Token.type` is the reading in
which released memory keeps its contents.  The reads of `token->type` before
`parser_eat` are ordinary reads.

`parse_function_call` stores its arguments in an array of 10 entries; an
eleventh argument is reported as a failure.
-/

mutual

/-- The function `parse_factor`. -/
def parse_factor (stale : Token → TokenType) : Nat → Parser → PResult ASTNode
  | 0, _ => .timeout
  | fuel + 1, parser =>
    let token := parser.current_token
    if token.type = TOKEN_NUMBER then
      parse_number parser
    else if token.type = TOKEN_IDENTIFIER then
      match token.value with
      | none => .error "strdup(NULL)"
      | some name =>
        match parser_eat parser TOKEN_IDENTIFIER with
        | .error msg => .error msg
        | .ok parser =>
          -- Check if it's a function call
          if parser.current_token.type = TOKEN_LPAREN then
            parse_function_call stale fuel parser name
          else
            .ok (.Identifier name) parser
    else if token.type = TOKEN_LPAREN then
      match parser_eat parser TOKEN_LPAREN with
      | .error msg => .error msg
      | .ok parser =>
        match parse_expression stale fuel parser with
        | .ok node parser =>
          match parser_eat parser TOKEN_RPAREN with
          | .error msg => .error msg
          | .ok parser => .ok node parser
        | .error msg => .error msg
        | .timeout => .timeout
    else
      .error "Unexpected token in factor"

/-- The `while` loop of `parse_term`, `node` being the tree built so far. -/
def parse_term_loop (stale : Token → TokenType) :
    Nat → ASTNode → Parser → PResult ASTNode
  | 0, _, _ => .timeout
  | fuel + 1, node, parser =>
    if parser.current_token.type = TOKEN_MULTIPLY ∨
        parser.current_token.type = TOKEN_DIVIDE then
      let token := parser.current_token
      match (if token.type = TOKEN_MULTIPLY then parser_eat parser TOKEN_MULTIPLY
             else if token.type = TOKEN_DIVIDE then parser_eat parser TOKEN_DIVIDE
             else .ok parser) with
      | .error msg => .error msg
      | .ok parser =>
        let operator := if stale token = TOKEN_MULTIPLY then '*' else '/'
        match parse_factor stale fuel parser with
        | .ok right parser =>
          parse_term_loop stale fuel (.BinaryOp operator node right) parser
        | .error msg => .error msg
        | .timeout => .timeout
    else
      .ok node parser

/-- The function `parse_term`. -/
def parse_term (stale : Token → TokenType) : Nat → Parser → PResult ASTNode
  | 0, _ => .timeout
  | fuel + 1, parser =>
    match parse_factor stale fuel parser with
    | .ok node parser => parse_term_loop stale fuel node parser
    | .error msg => .error msg
    | .timeout => .timeout

/-- The `while` loop of `parse_expression`. -/
def parse_expression_loop (stale : Token → TokenType) :
    Nat → ASTNode → Parser → PResult ASTNode
  | 0, _, _ => .timeout
  | fuel + 1, node, parser =>
    if parser.current_token.type = TOKEN_PLUS ∨
        parser.current_token.type = TOKEN_MINUS then
      let token := parser.current_token
      match (if token.type = TOKEN_PLUS then parser_eat parser TOKEN_PLUS
             else if token.type = TOKEN_MINUS then parser_eat parser TOKEN_MINUS
             else .ok parser) with
      | .error msg => .error msg
      | .ok parser =>
        let operator := if stale token = TOKEN_PLUS then '+' else '-'
        match parse_term stale fuel parser with
        | .ok right parser =>
          parse_expression_loop stale fuel (.BinaryOp operator node right) parser
        | .error msg => .error msg
        | .timeout => .timeout
    else
      .ok node parser

/-- The function `parse_expression`. -/
def parse_expression (stale : Token → TokenType) : Nat → Parser → PResult ASTNode
  | 0, _ => .timeout
  | fuel + 1, parser =>
    match parse_term stale fuel parser with
    | .ok node parser => parse_expression_loop stale fuel node parser
    | .error msg => .error msg
    | .timeout => .timeout

/-- The argument loop of `parse_function_call`; `arguments` are the ones read
so far. -/
def parse_arguments (stale : Token → TokenType) :
    Nat → List ASTNode → Parser → PResult (List ASTNode)
  | 0, _, _ => .timeout
  | fuel + 1, arguments, parser =>
    if parser.current_token.type ≠ TOKEN_RPAREN then
      match (if arguments.length > 0 then parser_eat parser TOKEN_COMMA
             else .ok parser) with
      | .error msg => .error msg
      | .ok parser =>
        match parse_expression stale fuel parser with
        | .ok argument parser =>
          if arguments.length ≥ 10 then .error "argument array overflow"
          else parse_arguments stale fuel (arguments ++ [argument]) parser
        | .error msg => .error msg
        | .timeout => .timeout
    else
      .ok arguments parser

/-- The function `parse_function_call`, entered on the `(`. -/
def parse_function_call (stale : Token → TokenType) :
    Nat → Parser → String → PResult ASTNode
  | 0, _, _ => .timeout
  | fuel + 1, parser, function_name =>
    match parser_eat parser TOKEN_LPAREN with
    | .error msg => .error msg
    | .ok parser =>
      match parse_arguments stale fuel [] parser with
      | .ok arguments parser =>
        match parser_eat parser TOKEN_RPAREN with
        | .error msg => .error msg
        | .ok parser => .ok (.FunctionCall function_name arguments) parser
      | .error msg => .error msg
      | .timeout => .timeout

end

/-!
The statement functions.  `parse_compound_statement` stores its statements in
an array of 100 entries; a further statement is reported as a failure.
-/

mutual

/-- The `while` loop of `parse_compound_statement`. -/
def parse_statements (stale : Token → TokenType) :
    Nat → List ASTNode → Parser → PResult (List ASTNode)
  | 0, _, _ => .timeout
  | fuel + 1, statements, parser =>
    if parser.current_token.type ≠ TOKEN_RBRACE then
      match parse_statement stale fuel parser with
      | .ok statement parser =>
        if statements.length ≥ 100 then .error "statement array overflow"
        else parse_statements stale fuel (statements ++ [statement]) parser
      | .error msg => .error msg
      | .timeout => .timeout
    else
      .ok statements parser

/-- The function `parse_compound_statement`: statements up to, not including,
the closing brace. -/
def parse_compound_statement (stale : Token → TokenType) :
    Nat → Parser → PResult ASTNode
  | 0, _ => .timeout
  | fuel + 1, parser =>
    match parse_statements stale fuel [] parser with
    | .ok statements parser => .ok (.CompoundStatement statements) parser
    | .error msg => .error msg
    | .timeout => .timeout

/-- The function `parse_if_statement`. -/
def parse_if_statement (stale : Token → TokenType) : Nat → Parser → PResult ASTNode
  | 0, _ => .timeout
  | fuel + 1, parser =>
    match parser_eat parser TOKEN_IF with
    | .error msg => .error msg
    | .ok parser =>
    match parser_eat parser TOKEN_LPAREN with
    | .error msg => .error msg
    | .ok parser =>
    match parse_expression stale fuel parser with
    | .error msg => .error msg
    | .timeout => .timeout
    | .ok condition parser =>
    match parser_eat parser TOKEN_RPAREN with
    | .error msg => .error msg
    | .ok parser =>
    match parser_eat parser TOKEN_LBRACE with
    | .error msg => .error msg
    | .ok parser =>
    match parse_compound_statement stale fuel parser with
    | .error msg => .error msg
    | .timeout => .timeout
    | .ok if_body parser =>
    match parser_eat parser TOKEN_RBRACE with
    | .error msg => .error msg
    | .ok parser =>
    -- Check for else
    if parser.current_token.type = TOKEN_ELSE then
      match parser_eat parser TOKEN_ELSE with
      | .error msg => .error msg
      | .ok parser =>
      match parser_eat parser TOKEN_LBRACE with
      | .error msg => .error msg
      | .ok parser =>
      match parse_compound_statement stale fuel parser with
      | .error msg => .error msg
      | .timeout => .timeout
      | .ok else_body parser =>
      match parser_eat parser TOKEN_RBRACE with
      | .error msg => .error msg
      | .ok parser => .ok (.If condition if_body (some else_body)) parser
    else
      .ok (.If condition if_body none) parser

/-- The function `parse_while_statement`. -/
def parse_while_statement (stale : Token → TokenType) :
    Nat → Parser → PResult ASTNode
  | 0, _ => .timeout
  | fuel + 1, parser =>
    match parser_eat parser TOKEN_WHILE with
    | .error msg => .error msg
    | .ok parser =>
    match parser_eat parser TOKEN_LPAREN with
    | .error msg => .error msg
    | .ok parser =>
    match parse_expression stale fuel parser with
    | .error msg => .error msg
    | .timeout => .timeout
    | .ok condition parser =>
    match parser_eat parser TOKEN_RPAREN with
    | .error msg => .error msg
    | .ok parser =>
    match parser_eat parser TOKEN_LBRACE with
    | .error msg => .error msg
    | .ok parser =>
    match parse_compound_statement stale fuel parser with
    | .error msg => .error msg
    | .timeout => .timeout
    | .ok body parser =>
    match parser_eat parser TOKEN_RBRACE with
    | .error msg => .error msg
    | .ok parser => .ok (.While condition body) parser

/-- The function `parse_variable_declaration`. -/
def parse_variable_declaration (stale : Token → TokenType) :
    Nat → Parser → PResult ASTNode
  | 0, _ => .timeout
  | fuel + 1, parser =>
    match parser_eat parser TOKEN_KEYWORD with
    | .error msg => .error msg
    | .ok parser =>
    match parser.current_token.value with
    | none => .error "strdup(NULL)"
    | some name =>
    match parser_eat parser TOKEN_IDENTIFIER with
    | .error msg => .error msg
    | .ok parser =>
    -- Check for initialization
    if parser.current_token.type = TOKEN_ASSIGN then
      match parser_eat parser TOKEN_ASSIGN with
      | .error msg => .error msg
      | .ok parser =>
      match parse_expression stale fuel parser with
      | .error msg => .error msg
      | .timeout => .timeout
      | .ok initializer parser =>
      match parser_eat parser TOKEN_SEMICOLON with
      | .error msg => .error msg
      | .ok parser => .ok (.VariableDeclaration name "int" (some initializer)) parser
    else
      match parser_eat parser TOKEN_SEMICOLON with
      | .error msg => .error msg
      | .ok parser => .ok (.VariableDeclaration name "int" none) parser

/-- The function `parse_return_statement`. -/
def parse_return_statement (stale : Token → TokenType) :
    Nat → Parser → PResult ASTNode
  | 0, _ => .timeout
  | fuel + 1, parser =>
    match parser_eat parser TOKEN_RETURN with
    | .error msg => .error msg
    | .ok parser =>
    match parse_expression stale fuel parser with
    | .error msg => .error msg
    | .timeout => .timeout
    | .ok value parser =>
    match parser_eat parser TOKEN_SEMICOLON with
    | .error msg => .error msg
    | .ok parser => .ok (.Return value) parser

/-- The function `parse_statement`.  In the `TOKEN_IDENTIFIER` case the call
`get_next_token(parser->lexer)` moves the lexer of the parser; the token it
returns is only inspected. -/
def parse_statement (stale : Token → TokenType) : Nat → Parser → PResult ASTNode
  | 0, _ => .timeout
  | fuel + 1, parser =>
    if parser.current_token.type = TOKEN_IF then
      parse_if_statement stale fuel parser
    else if parser.current_token.type = TOKEN_WHILE then
      parse_while_statement stale fuel parser
    else if parser.current_token.type = TOKEN_KEYWORD then
      parse_variable_declaration stale fuel parser
    else if parser.current_token.type = TOKEN_RETURN then
      parse_return_statement stale fuel parser
    else if parser.current_token.type = TOKEN_IDENTIFIER then
      match get_next_token parser.lexer with
      | .error msg => .error msg
      | .ok (next, lexer) =>
        let parser := { parser with lexer := lexer }
        if next.type = TOKEN_ASSIGN then
          -- Assignment statement
          match parse_identifier parser with
          | .error msg => .error msg
          | .timeout => .timeout
          | .ok left parser =>
          match parser_eat parser TOKEN_ASSIGN with
          | .error msg => .error msg
          | .ok parser =>
          match parse_expression stale fuel parser with
          | .error msg => .error msg
          | .timeout => .timeout
          | .ok right parser =>
          match parser_eat parser TOKEN_SEMICOLON with
          | .error msg => .error msg
          | .ok parser => .ok (.Assignment left right) parser
        else
          -- Expression statement (function call)
          match parse_expression stale fuel parser with
          | .error msg => .error msg
          | .timeout => .timeout
          | .ok expr parser =>
          match parser_eat parser TOKEN_SEMICOLON with
          | .error msg => .error msg
          | .ok parser => .ok expr parser
    else
      .error ("Unexpected token in statement: " ++
        toString parser.current_token.type.toCtorIdx)

end

/-- The parameter loop of `parse_function_declaration`.  The parameter array
has 10 entries; an eleventh parameter is reported as a failure.  The member
`initializer` of a parameter node is never written. -/
def parse_parameters : Nat → List ASTNode → Parser → PResult (List ASTNode)
  | 0, _, _ => .timeout
  | fuel + 1, parameters, parser =>
    if parser.current_token.type ≠ TOKEN_RPAREN then
      match (if parameters.length > 0 then parser_eat parser TOKEN_COMMA
             else .ok parser) with
      | .error msg => .error msg
      | .ok parser =>
      match parser_eat parser TOKEN_KEYWORD with
      | .error msg => .error msg
      | .ok parser =>
      match parser.current_token.value with
      | none => .error "strdup(NULL)"
      | some name =>
      match parser_eat parser TOKEN_IDENTIFIER with
      | .error msg => .error msg
      | .ok parser =>
        if parameters.length ≥ 10 then .error "parameter array overflow"
        else parse_parameters fuel
          (parameters ++ [.VariableDeclaration name "int" none]) parser
    else
      .ok parameters parser

/-- The function `parse_function_declaration`. -/
def parse_function_declaration (stale : Token → TokenType) (fuel : Nat)
    (parser : Parser) : PResult ASTNode :=
  match parser_eat parser TOKEN_KEYWORD with
  | .error msg => .error msg
  | .ok parser =>
  match parser.current_token.value with
  | none => .error "strdup(NULL)"
  | some name =>
  match parser_eat parser TOKEN_IDENTIFIER with
  | .error msg => .error msg
  | .ok parser =>
  match parser_eat parser TOKEN_LPAREN with
  | .error msg => .error msg
  | .ok parser =>
  match parse_parameters fuel [] parser with
  | .error msg => .error msg
  | .timeout => .timeout
  | .ok parameters parser =>
  match parser_eat parser TOKEN_RPAREN with
  | .error msg => .error msg
  | .ok parser =>
  match parser_eat parser TOKEN_LBRACE with
  | .error msg => .error msg
  | .ok parser =>
  match parse_compound_statement stale fuel parser with
  | .error msg => .error msg
  | .timeout => .timeout
  | .ok body parser =>
  match parser_eat parser TOKEN_RBRACE with
  | .error msg => .error msg
  | .ok parser => .ok (.FunctionDeclaration name parameters body) parser

/-- The `while` loop of `parse`.  A current token that is neither `TOKEN_EOF`
nor `TOKEN_KEYWORD` leaves the state unchanged for the next iteration.  The
program array has 100 entries; a further function is reported as a failure. -/
def parse_loop (stale : Token → TokenType) :
    Nat → List ASTNode → Parser → PResult (List ASTNode)
  | 0, _, _ => .timeout
  | fuel + 1, statements, parser =>
    if parser.current_token.type ≠ TOKEN_EOF then
      if parser.current_token.type = TOKEN_KEYWORD then
        match parse_function_declaration stale fuel parser with
        | .error msg => .error msg
        | .timeout => .timeout
        | .ok function parser =>
          if statements.length ≥ 100 then .error "program array overflow"
          else parse_loop stale fuel (statements ++ [function]) parser
      else
        parse_loop stale fuel statements parser
    else
      .ok statements parser

/-- The function `parse`. -/
def parse (stale : Token → TokenType) (fuel : Nat) (parser : Parser) :
    PResult ASTNode :=
  match parse_loop stale fuel [] parser with
  | .ok statements parser => .ok (.Program statements) parser
  | .error msg => .error msg
  | .timeout => .timeout

/-- Phases 1 and 2 of `main` on a source text: `create_lexer`,
`create_parser`, `parse`. -/
def parse_source (stale : Token → TokenType) (fuel : Nat) (source : List Char) :
    PResult ASTNode :=
  match create_parser_from (create_lexer source) with
  | .error msg => .error msg
  | .ok parser => parse stale fuel parser

/-! ## ir.h, ir.c -/

/-- IR opcodes, `IROpcode` of `ir.h`, in declaration order. -/
inductive IROpcode where
  | IR_ADD
  | IR_SUB
  | IR_MUL
  | IR_DIV
  | IR_ASSIGN
  | IR_LABEL
  | IR_JUMP
  | IR_JUMPZ
  | IR_JUMPNZ
  | IR_CALL
  | IR_RETURN
  | IR_PARAM
  | IR_ARG
  | IR_COMPARE
  | IR_LOAD
  | IR_STORE
  | IR_SHR
  deriving DecidableEq, Repr

open IROpcode

/-- A label: its name and its number (`-1` for a function entry). -/
structure IRLabel where
  name : String
  number : Int
  deriving DecidableEq, Repr

/-- One IR instruction.  Operands and the label are nullable pointers.  The
member `value` is not written by `create_instr`; it is 0 here until an
assignment to it. -/
structure IRInstr where
  op : IROpcode
  dest : Option String
  src1 : Option String
  src2 : Option String
  label : Option IRLabel
  value : Int
  deriving DecidableEq, Repr

/-- The IR program: the instruction array (`count` is its length) and the two
counters. -/
structure IRProgram where
  instructions : List IRInstr
  temp_count : Nat
  label_count : Nat
  deriving DecidableEq, Repr

/-- An empty program. -/
def create_ir_program : IRProgram :=
  { instructions := [], temp_count := 0, label_count := 0 }

/-- A fresh temporary `t<k>`. -/
def new_temp (program : IRProgram) : String × IRProgram :=
  ("t" ++ toString program.temp_count,
   { program with temp_count := program.temp_count + 1 })

/-- A fresh label `L<k>` numbered `k`. -/
def new_label (program : IRProgram) : IRLabel × IRProgram :=
  ({ name := "L" ++ toString program.label_count, number := program.label_count },
   { program with label_count := program.label_count + 1 })

/-- Append an instruction. -/
def add_instruction (program : IRProgram) (instr : IRInstr) : IRProgram :=
  { program with instructions := program.instructions ++ [instr] }

/-- Allocate an instruction with the given operands and no label. -/
def create_instr (op : IROpcode) (dest src1 src2 : Option String) : IRInstr :=
  { op := op, dest := dest, src1 := src1, src2 := src2, label := none, value := 0 }

mutual

/-- The function `generate_expression_ir`: lower an expression, returning the
operand that holds its value. -/
def generate_expression_ir (program : IRProgram) :
    ASTNode → Except String (String × IRProgram)
  | .Number number_value =>
    let (temp, program) := new_temp program
    let instr := { create_instr IR_ASSIGN (some temp) none none with
                   value := number_value }
    .ok (temp, add_instruction program instr)
  | .Identifier string_value => .ok (string_value, program)
  | .BinaryOp operator left right =>
    match generate_expression_ir program left with
    | .error msg => .error msg
    | .ok (left, program) =>
    match generate_expression_ir program right with
    | .error msg => .error msg
    | .ok (right, program) =>
      let (result, program) := new_temp program
      if operator = '+' then
        .ok (result, add_instruction program
          (create_instr IR_ADD (some result) (some left) (some right)))
      else if operator = '-' then
        .ok (result, add_instruction program
          (create_instr IR_SUB (some result) (some left) (some right)))
      else if operator = '*' then
        .ok (result, add_instruction program
          (create_instr IR_MUL (some result) (some left) (some right)))
      else if operator = '/' then
        .ok (result, add_instruction program
          (create_instr IR_DIV (some result) (some left) (some right)))
      else .error "Unknown operator"
  | .FunctionCall name parameters =>
    match generate_arguments_ir program parameters with
    | .error msg => .error msg
    | .ok program =>
      let (result, program) := new_temp program
      let call := { create_instr IR_CALL (some result) (some name) none with
                    value := parameters.length }
      .ok (result, add_instruction program call)
  | _ => .error "Unknown expression type in IR generation"

/-- The argument loop of the `NODE_FUNCTION_CALL` case. -/
def generate_arguments_ir (program : IRProgram) :
    List ASTNode → Except String IRProgram
  | [] => .ok program
  | argument :: rest =>
    match generate_expression_ir program argument with
    | .error msg => .error msg
    | .ok (arg, program) =>
      generate_arguments_ir
        (add_instruction program (create_instr IR_ARG none (some arg) none)) rest

end

/-- The function `generate_statement_ir`: every case of its `switch` is an
empty `break`. -/
def generate_statement_ir (program : IRProgram) (_node : ASTNode) : IRProgram :=
  program

/-- The parameter loop of `generate_ir`: one `PARAM` per parameter. -/
def generate_parameters_ir (program : IRProgram) : List ASTNode → IRProgram
  | [] => program
  | .VariableDeclaration name _ _ :: rest =>
    generate_parameters_ir
      (add_instruction program (create_instr IR_PARAM (some name) none none)) rest
  | _ :: rest => generate_parameters_ir program rest

/-- The function loop of `generate_ir`. -/
def generate_functions_ir (program : IRProgram) : List ASTNode → IRProgram
  | [] => program
  | .FunctionDeclaration name parameters body :: rest =>
    let label := { create_instr IR_LABEL none none none with
                   label := some { name := name, number := -1 } }
    let program := add_instruction program label
    let program := generate_parameters_ir program parameters
    let program := generate_statement_ir program body
    generate_functions_ir program rest
  | _ :: rest => generate_functions_ir program rest

/-- The function `generate_ir`; a root that is not a program leaves the IR
unchanged. -/
def generate_ir (program : IRProgram) : ASTNode → IRProgram
  | .Program statements => generate_functions_ir program statements
  | _ => program

/-! ## ir_optimizer.c : constant folding -/

/-- The function `evaluate_constant_expr` on 32-bit `int`s.  Sums, differences
and products wrap; a division by zero and `INT_MIN / -1` trap (`none`). -/
def evaluate_constant_expr (op : IROpcode) (left right : Int) : Option Int :=
  match op with
  | IR_ADD => some (wrap32 (left + right))
  | IR_SUB => some (wrap32 (left - right))
  | IR_MUL => some (wrap32 (left * right))
  | IR_DIV =>
    if right = 0 ∨ (left = -2147483648 ∧ right = -1) then none
    else some (Int.tdiv left right)
  | _ => some 0

/-- An assignment of an immediate. -/
def is_constant (instr : IRInstr) : Bool :=
  instr.op = IR_ASSIGN && instr.src1.isNone && instr.src2.isNone

/-- The inner loop of `constant_folding` over the instructions before `i`:
the values of the last immediate assignments to `src1` and to `src2`, if
any. -/
def constant_operands (previous : List IRInstr) (src1 src2 : String) :
    Option Int × Option Int :=
  previous.foldl
    (fun (acc : Option Int × Option Int) prev =>
      match prev.dest with
      | none => acc
      | some dest =>
        let left := if dest = src1 ∧ is_constant prev then some prev.value else acc.1
        let right := if dest = src2 ∧ is_constant prev then some prev.value else acc.2
        (left, right))
    (none, none)

/-- The body of the `for` loop of `constant_folding` at index `i`: the
instruction array afterwards and whether it was changed. -/
def fold_instruction (instructions : List IRInstr) (i : Nat) :
    Except String (List IRInstr × Bool) :=
  match instructions.get? i with
  | none => .ok (instructions, false)
  | some instr =>
    if instr.op = IR_ADD ∨ instr.op = IR_SUB ∨ instr.op = IR_MUL ∨ instr.op = IR_DIV then
      match instr.src1, instr.src2 with
      | some src1, some src2 =>
        match constant_operands (instructions.take i) src1 src2 with
        | (some left_val, some right_val) =>
          match evaluate_constant_expr instr.op left_val right_val with
          | none => .error "Floating point exception"
          | some result =>
            .ok (instructions.set i
              { instr with op := IR_ASSIGN, src1 := none, src2 := none, value := result },
              true)
        | _ => .ok (instructions, false)
      | _, _ => .ok (instructions, false)
    else .ok (instructions, false)

/-- The `for` loop of `constant_folding` from index `i`, `todo` iterations
left. -/
def fold_pass (instructions : List IRInstr) (changed : Bool) :
    Nat → Nat → Except String (List IRInstr × Bool)
  | 0, _ => .ok (instructions, changed)
  | todo + 1, i =>
    match fold_instruction instructions i with
    | .error msg => .error msg
    | .ok (instructions, c) => fold_pass instructions (changed || c) todo (i + 1)

/-- The `do ... while (changed)` loop of `constant_folding`. -/
def constant_folding_loop : Nat → List IRInstr → Option (Except String (List IRInstr))
  | 0, _ => none
  | fuel + 1, instructions =>
    match fold_pass instructions false instructions.length 0 with
    | .error msg => some (.error msg)
    | .ok (instructions, changed) =>
      if changed then constant_folding_loop fuel instructions
      else some (.ok instructions)

/-- The function `constant_folding`.  Every pass that changes the program
turns an arithmetic instruction into an assignment, so `count + 1` passes are
enough. -/
def constant_folding (program : IRProgram) : Option (Except String IRProgram) :=
  match constant_folding_loop (program.instructions.length + 1) program.instructions with
  | none => none
  | some (.error msg) => some (.error msg)
  | some (.ok instructions) => some (.ok { program with instructions := instructions })

/-! ## ir_optimizer.c : basic blocks and dead code elimination -/

/-- A basic block, `BasicBlock` of `ir.h`: the members that
`find_basic_blocks` and `dead_code_elimination` use.  The member `end` is
called `end_index` here. -/
structure BasicBlock where
  start : Int
  end_index : Int
  is_reachable : Bool
  deriving DecidableEq, Repr

/-- The statement `blocks[block_count - 1]->end = value`, guarded by
`block_count > 0`. -/
def set_last_end (blocks : List BasicBlock) (value : Int) : List BasicBlock :=
  match blocks.getLast? with
  | none => blocks
  | some block => blocks.dropLast ++ [{ block with end_index := value }]

/-- The second loop of `find_basic_blocks` from index `i`, `todo` iterations
left: at a label, and at index 0, the end of the newest block is set and a
block is appended whose `start` is the value that `current_start` has before
it is set to `i`. -/
def find_basic_blocks_loop (instructions : List IRInstr) :
    Nat → Nat → Int → List BasicBlock → List BasicBlock
  | 0, _, _, blocks => blocks
  | todo + 1, i, current_start, blocks =>
    match instructions.get? i with
    | none => blocks
    | some instr =>
      if instr.op = IR_LABEL ∨ i = 0 then
        find_basic_blocks_loop instructions todo (i + 1) i
          (set_last_end blocks ((i : Int) - 1) ++
            [{ start := current_start, end_index := (i : Int) - 1, is_reachable := false }])
      else
        find_basic_blocks_loop instructions todo (i + 1) current_start blocks

/-- The function `find_basic_blocks`: the blocks it stores in the program.
The first loop only counts for the allocation. -/
def find_basic_blocks (instructions : List IRInstr) : List BasicBlock :=
  set_last_end (find_basic_blocks_loop instructions instructions.length 0 0 [])
    ((instructions.length : Int) - 1)

/-- The instruction at an `int` index; an index outside the array is an
invalid read. -/
def instruction_at (instructions : List IRInstr) (index : Int) : Except String IRInstr :=
  if index < 0 then .error "invalid read"
  else
    match instructions.get? index.toNat with
    | none => .error "invalid read"
    | some instr => .ok instr

/-- The search for the target block in `dead_code_elimination`, from block
`j`: the index of the first block whose first instruction is a label with the
name of the label of the jump.  The names are compared, and both labels read,
only at a block that starts with a label. -/
def find_target (instructions : List IRInstr) (jump_label : Option IRLabel) :
    List BasicBlock → Nat → Except String (Option Nat)
  | [], _ => .ok none
  | target :: rest, j =>
    match instruction_at instructions target.start with
    | .error msg => .error msg
    | .ok first_instr =>
      if first_instr.op = IR_LABEL then
        match first_instr.label, jump_label with
        | some label, some jump_label =>
          if label.name = jump_label.name then .ok (some j)
          else find_target instructions (some jump_label) rest (j + 1)
        | _, _ => .error "null label"
      else find_target instructions jump_label rest (j + 1)

/-- Set `is_reachable` of block `j`; the flag says whether it was not set
before. -/
def mark_reachable (blocks : List BasicBlock) (j : Nat) : List BasicBlock × Bool :=
  match blocks.get? j with
  | none => (blocks, false)
  | some block =>
    if block.is_reachable then (blocks, false)
    else (blocks.set j { block with is_reachable := true }, true)

/-- The `if` on the last instruction of a reachable block in
`dead_code_elimination`: after a jump, the first block that starts with the
label of the jump is marked. -/
def mark_target (instructions : List IRInstr) (blocks : List BasicBlock)
    (last_instr : IRInstr) (changed : Bool) : Except String (List BasicBlock × Bool) :=
  if last_instr.op = IR_JUMP ∨ last_instr.op = IR_JUMPZ ∨ last_instr.op = IR_JUMPNZ then
    match find_target instructions last_instr.label blocks 0 with
    | .error msg => .error msg
    | .ok none => .ok (blocks, changed)
    | .ok (some j) =>
      .ok ((mark_reachable blocks j).1, changed || (mark_reachable blocks j).2)
  else .ok (blocks, changed)

/-- The body of the `for` loop over the blocks in `dead_code_elimination`, for
block `i`: a block that is not marked is skipped; otherwise the target of its
last instruction is marked, and then the next block, whatever the last
instruction is. -/
def mark_successors (instructions : List IRInstr) (blocks : List BasicBlock) (i : Nat)
    (changed : Bool) : Except String (List BasicBlock × Bool) :=
  match blocks.get? i with
  | none => .ok (blocks, changed)
  | some block =>
    if !block.is_reachable then .ok (blocks, changed)
    else
      match instruction_at instructions block.end_index with
      | .error msg => .error msg
      | .ok last_instr =>
        match mark_target instructions blocks last_instr changed with
        | .error msg => .error msg
        | .ok (blocks, changed) =>
          if i + 1 < blocks.length then
            .ok ((mark_reachable blocks (i + 1)).1, changed || (mark_reachable blocks (i + 1)).2)
          else .ok (blocks, changed)

/-- The `for` loop over the blocks from block `i`, `todo` iterations left. -/
def mark_pass (instructions : List IRInstr) :
    Nat → Nat → List BasicBlock → Bool → Except String (List BasicBlock × Bool)
  | 0, _, blocks, changed => .ok (blocks, changed)
  | todo + 1, i, blocks, changed =>
    match mark_successors instructions blocks i changed with
    | .error msg => .error msg
    | .ok (blocks, changed) => mark_pass instructions todo (i + 1) blocks changed

/-- The `do ... while (changed)` loop of `dead_code_elimination`. -/
def mark_loop (instructions : List IRInstr) :
    Nat → List BasicBlock → Option (Except String (List BasicBlock))
  | 0, _ => none
  | fuel + 1, blocks =>
    match mark_pass instructions blocks.length 0 blocks false with
    | .error msg => some (.error msg)
    | .ok (blocks, changed) =>
      if changed then mark_loop instructions fuel blocks
      else some (.ok blocks)

/-- The test of the last loop of `dead_code_elimination`: the instruction at
index `read` lies in a reachable block. -/
def keep (blocks : List BasicBlock) (read : Nat) : Bool :=
  blocks.any (fun block =>
    block.is_reachable && decide (block.start ≤ (read : Int)) &&
      decide ((read : Int) ≤ block.end_index))

/-- The last loop of `dead_code_elimination` from index `read`: the
instructions that are kept, in order. -/
def remove_unreachable (blocks : List BasicBlock) : List IRInstr → Nat → List IRInstr
  | [], _ => []
  | instr :: rest, read =>
    if keep blocks read then instr :: remove_unreachable blocks rest (read + 1)
    else remove_unreachable blocks rest (read + 1)

/-- The function `dead_code_elimination`.  On an empty program
`find_basic_blocks` stores no block and `blocks[0]` is read uninitialised.
Every pass of the marking loop that changes something marks a block, so
`block_count + 1` passes are enough. -/
def dead_code_elimination (program : IRProgram) : Option (Except String IRProgram) :=
  match find_basic_blocks program.instructions with
  | [] => some (.error "invalid read")
  | entry :: rest =>
    match mark_loop program.instructions (rest.length + 2)
        ({ entry with is_reachable := true } :: rest) with
    | none => none
    | some (.error msg) => some (.error msg)
    | some (.ok blocks) =>
      some (.ok { program with
        instructions := remove_unreachable blocks program.instructions 0 })

/-! ## optimizer.c -/

/-- The function `is_computation`. -/
def is_computation (instr : IRInstr) : Bool :=
  instr.op = IR_ADD || instr.op = IR_SUB || instr.op = IR_MUL || instr.op = IR_DIV

/-- The body of the inner loop of `eliminate_common_subexpressions` for
`next = instructions[j]`: the instruction afterwards.  The sources are compared
with `strcmp`, the second pair only when the first pair is equal, and the
destination of `current` is copied with `strdup`; a null pointer there is an
error. -/
def replace_if_same (current next : IRInstr) : Except String IRInstr :=
  if !is_computation next then .ok next
  else if next.op = current.op then
    match next.src1, current.src1 with
    | some next_src1, some current_src1 =>
      if next_src1 = current_src1 then
        match next.src2, current.src2 with
        | some next_src2, some current_src2 =>
          if next_src2 = current_src2 then
            match current.dest with
            | some dest => .ok { next with op := IR_ASSIGN, src2 := none, src1 := some dest }
            | none => .error "strdup(NULL)"
          else .ok next
        | _, _ => .error "strcmp(NULL)"
      else .ok next
    | _, _ => .error "strcmp(NULL)"
  else .ok next

/-- The inner loop of `eliminate_common_subexpressions` from index `j`, `todo`
iterations left. -/
def common_subexpressions_inner (current : IRInstr) :
    Nat → Nat → List IRInstr → Except String (List IRInstr)
  | 0, _, instructions => .ok instructions
  | todo + 1, j, instructions =>
    match instructions.get? j with
    | none => .ok instructions
    | some next =>
      match replace_if_same current next with
      | .error msg => .error msg
      | .ok next =>
        common_subexpressions_inner current todo (j + 1) (instructions.set j next)

/-- The outer loop of `eliminate_common_subexpressions` from index `i`, `todo`
iterations left. -/
def common_subexpressions_outer :
    Nat → Nat → List IRInstr → Except String (List IRInstr)
  | 0, _, instructions => .ok instructions
  | todo + 1, i, instructions =>
    match instructions.get? i with
    | none => .ok instructions
    | some current =>
      if !is_computation current then
        common_subexpressions_outer todo (i + 1) instructions
      else
        match common_subexpressions_inner current (instructions.length - (i + 1)) (i + 1)
            instructions with
        | .error msg => .error msg
        | .ok instructions => common_subexpressions_outer todo (i + 1) instructions

/-- The function `eliminate_common_subexpressions`. -/
def eliminate_common_subexpressions (program : IRProgram) : Except String IRProgram :=
  match common_subexpressions_outer program.instructions.length 0 program.instructions with
  | .error msg => .error msg
  | .ok instructions => .ok { program with instructions := instructions }

/-- The first `if` of the loop body of `reduce_strength`: a multiplication by
an operand that `atoi` reads as 2 becomes an addition of `src1` to itself. -/
def reduce_multiplication (instr : IRInstr) : Except String IRInstr :=
  if instr.op = IR_MUL then
    match instr.src2 with
    | none => .error "atoi(NULL)"
    | some src2 =>
      if atoi src2 = 2 then
        match instr.src1 with
        | none => .error "strdup(NULL)"
        | some src1 => .ok { instr with op := IR_ADD, src2 := some src1 }
      else .ok instr
  else .ok instr

/-- The second `if` of the loop body of `reduce_strength`: a division by an
operand that `atoi` reads as 2 becomes a shift by `1`. -/
def reduce_division (instr : IRInstr) : Except String IRInstr :=
  if instr.op = IR_DIV then
    match instr.src2 with
    | none => .error "atoi(NULL)"
    | some src2 =>
      if atoi src2 = 2 then .ok { instr with op := IR_SHR, src2 := some "1" }
      else .ok instr
  else .ok instr

/-- The loop body of `reduce_strength` for one instruction. -/
def reduce_instruction (instr : IRInstr) : Except String IRInstr :=
  match reduce_multiplication instr with
  | .error msg => .error msg
  | .ok instr => reduce_division instr

/-- The loop of `reduce_strength` from index `i`, `todo` iterations left. -/
def reduce_strength_loop : Nat → Nat → List IRInstr → Except String (List IRInstr)
  | 0, _, instructions => .ok instructions
  | todo + 1, i, instructions =>
    match instructions.get? i with
    | none => .ok instructions
    | some instr =>
      match reduce_instruction instr with
      | .error msg => .error msg
      | .ok instr => reduce_strength_loop todo (i + 1) (instructions.set i instr)

/-- The function `reduce_strength`. -/
def reduce_strength (program : IRProgram) : Except String IRProgram :=
  match reduce_strength_loop program.instructions.length 0 program.instructions with
  | .error msg => .error msg
  | .ok instructions => .ok { program with instructions := instructions }

/-- The first `if` of the loop body of `eliminate_tail_recursion`: at a label
numbered `-1` the name of the label becomes the current function. -/
def track_function (current_function : Option String) (instr : IRInstr) :
    Except String (Option String) :=
  if instr.op = IR_LABEL then
    match instr.label with
    | none => .error "null label"
    | some label => .ok (if label.number = -1 then some label.name else current_function)
  else .ok current_function

/-- The loop of `eliminate_tail_recursion` from index `i`: the loop ends when
`i` reaches the count, which drops by one at every rewrite, so the initial
count bounds the number of iterations.  The shifting loop that closes the gap
of the deleted `RETURN` is `eraseIdx`. -/
def tail_recursion_loop :
    Nat → Nat → Option String → List IRInstr → Except String (List IRInstr)
  | 0, _, _, instructions => .ok instructions
  | todo + 1, i, current_function, instructions =>
    match instructions.get? i with
    | none => .ok instructions
    | some instr =>
      match track_function current_function instr with
      | .error msg => .error msg
      | .ok current_function =>
        if instr.op = IR_CALL then
          match instr.src1, current_function with
          | some callee, some function =>
            if callee = function then
              match instructions.get? (i + 1) with
              | some next =>
                if next.op = IR_RETURN then
                  tail_recursion_loop todo (i + 1) (some function)
                    ((instructions.set i
                        { instr with op := IR_JUMP,
                                     label := some { name := function, number := -1 } }).eraseIdx
                      (i + 1))
                else tail_recursion_loop todo (i + 1) (some function) instructions
              | none => tail_recursion_loop todo (i + 1) (some function) instructions
            else tail_recursion_loop todo (i + 1) (some function) instructions
          | _, _ => .error "strcmp(NULL)"
        else tail_recursion_loop todo (i + 1) current_function instructions

/-- The function `eliminate_tail_recursion`. -/
def eliminate_tail_recursion (program : IRProgram) : Except String IRProgram :=
  match tail_recursion_loop program.instructions.length 0 none program.instructions with
  | .error msg => .error msg
  | .ok instructions => .ok { program with instructions := instructions }

/-! ## semantic.h, semantic.c -/

/-- A symbol.  The members of `function_data` are written for function symbols
only; for a variable they are 0 and empty here. -/
structure Symbol where
  name : String
  type : String
  scope_level : Int
  is_function : Bool
  param_types : List String
  param_count : Nat
  deriving DecidableEq, Repr

/-- The symbol table: the array of symbols in insertion order (`count` is its
length) and the current scope level. -/
structure SymbolTable where
  symbols : List Symbol
  current_scope : Int
  deriving DecidableEq, Repr

/-- The analyzer state. -/
structure SemanticAnalyzer where
  table : SymbolTable
  current_function : Option String
  has_return : Bool
  error_message : Option String
  deriving DecidableEq, Repr

/-- The text that `vsnprintf(buffer, sizeof(buffer), ...)` leaves in the
1024-byte buffer of `set_error`: the formatted text cut to 1023 characters
(one `Char` stands for one C `char`, as in the lexer). -/
def format_message (text : String) : String :=
  String.mk (text.data.take 1023)

/-- The function `set_error`; `text` is the format with its `%s` filled in. -/
def set_error (analyzer : SemanticAnalyzer) (text : String) : SemanticAnalyzer :=
  { analyzer with error_message := some (format_message text) }

/-- The function `add_symbol`: append a symbol that is not a function at the
current scope level. -/
def add_symbol (table : SymbolTable) (name type : String) : SymbolTable :=
  { table with
    symbols := table.symbols ++
      [{ name := name, type := type, scope_level := table.current_scope,
         is_function := false, param_types := [], param_count := 0 }] }

/-- The function `find_symbol`: search from the newest symbol down to the
oldest one. -/
def find_symbol (table : SymbolTable) (name : String) : Option Symbol :=
  table.symbols.reverse.find? (fun symbol => symbol.name == name)

/-- The function `enter_scope`. -/
def enter_scope (table : SymbolTable) : SymbolTable :=
  { table with current_scope := table.current_scope + 1 }

/-- The `while` loop of `exit_scope`: drop the last symbol as long as it is of
the current scope level. -/
def exit_scope_loop : Nat → SymbolTable → SymbolTable
  | 0, table => table
  | fuel + 1, table =>
    match table.symbols.getLast? with
    | none => table
    | some symbol =>
      if symbol.scope_level = table.current_scope then
        exit_scope_loop fuel { table with symbols := table.symbols.dropLast }
      else table

/-- The function `exit_scope`: remove the symbols of the current level from
the end of the array, then decrement the level.  The loop removes one symbol
per iteration, so `count` iterations are enough. -/
def exit_scope (table : SymbolTable) : SymbolTable :=
  let table := exit_scope_loop table.symbols.length table
  { table with current_scope := table.current_scope - 1 }

/-- The function `create_analyzer`. -/
def create_analyzer : SemanticAnalyzer :=
  { table := { symbols := [], current_scope := 0 },
    current_function := none, has_return := false, error_message := none }

/-- The member `data.string_value` of a node: only an identifier node has it. -/
def string_value : ASTNode → Option String
  | .Identifier string_value => some string_value
  | _ => none

/-- The short-circuit conjunction `first && second` of two analysis steps, also
the shape of `if (!first) return false; second`: the second step runs in the
state the first one left, and only when the first one succeeded. -/
def and_then (first : Bool × SemanticAnalyzer)
    (second : SemanticAnalyzer → Bool × SemanticAnalyzer) : Bool × SemanticAnalyzer :=
  match first with
  | (false, analyzer) => (false, analyzer)
  | (true, analyzer) => second analyzer

mutual

/-- The function `analyze_expression`. -/
def analyze_expression (analyzer : SemanticAnalyzer) :
    ASTNode → Bool × SemanticAnalyzer
  | .Number _ => (true, analyzer)
  | .Identifier string_value =>
    match find_symbol analyzer.table string_value with
    | none => (false, set_error analyzer ("Undefined variable: " ++ string_value))
    | some _ => (true, analyzer)
  | .BinaryOp _ left right =>
    and_then (analyze_expression analyzer left)
      (fun analyzer => analyze_expression analyzer right)
  | .FunctionCall name parameters =>
    match find_symbol analyzer.table name with
    | none => (false, set_error analyzer ("Undefined function: " ++ name))
    | some symbol =>
      if !symbol.is_function then
        (false, set_error analyzer ("Undefined function: " ++ name))
      else if symbol.param_count ≠ parameters.length then
        (false, set_error analyzer ("Wrong number of arguments for function " ++ name))
      else analyze_arguments analyzer parameters
  | _ => (false, analyzer)

/-- The argument loop of the `NODE_FUNCTION_CALL` case: return at the first
argument that is rejected. -/
def analyze_arguments (analyzer : SemanticAnalyzer) :
    List ASTNode → Bool × SemanticAnalyzer
  | [] => (true, analyzer)
  | argument :: rest =>
    and_then (analyze_expression analyzer argument)
      (fun analyzer => analyze_arguments analyzer rest)

end

mutual

/-- The function `analyze_statement`.  In the `NODE_ASSIGNMENT` case the C code
reads `string_value` of the target whatever its node type; a target without
that member is reported as a failure.  A compound statement that fails returns
without leaving its scope. -/
def analyze_statement (analyzer : SemanticAnalyzer) :
    ASTNode → Bool × SemanticAnalyzer
  | .VariableDeclaration name type initializer =>
    match find_symbol analyzer.table name with
    | some _ => (false, set_error analyzer ("Variable already declared: " ++ name))
    | none =>
      let analyzer := { analyzer with table := add_symbol analyzer.table name type }
      match initializer with
      | some initializer => analyze_expression analyzer initializer
      | none => (true, analyzer)
  | .Assignment left right =>
    match string_value left with
    | none => (false, analyzer)
    | some target =>
      match find_symbol analyzer.table target with
      | none =>
        (false, set_error analyzer ("Assignment to undeclared variable: " ++ target))
      | some _ => analyze_expression analyzer right
  | .If condition if_body else_body =>
    let analyzer := { analyzer with table := enter_scope analyzer.table }
    let result :=
      and_then (analyze_expression analyzer condition)
        (fun analyzer => analyze_statement analyzer if_body)
    let result :=
      match else_body with
      | some else_body =>
        and_then result (fun analyzer => analyze_statement analyzer else_body)
      | none => result
    (result.1, { result.2 with table := exit_scope result.2.table })
  | .While condition body =>
    let analyzer := { analyzer with table := enter_scope analyzer.table }
    let while_result :=
      and_then (analyze_expression analyzer condition)
        (fun analyzer => analyze_statement analyzer body)
    (while_result.1, { while_result.2 with table := exit_scope while_result.2.table })
  | .Return left =>
    match analyzer.current_function with
    | none => (false, set_error analyzer "Return statement outside of function")
    | some _ => analyze_expression { analyzer with has_return := true } left
  | .CompoundStatement statements =>
    let analyzer := { analyzer with table := enter_scope analyzer.table }
    and_then (analyze_statements analyzer statements)
      (fun analyzer => (true, { analyzer with table := exit_scope analyzer.table }))
  | node => analyze_expression analyzer node

/-- The statement loop of the `NODE_COMPOUND_STATEMENT` case: return at the
first statement that is rejected. -/
def analyze_statements (analyzer : SemanticAnalyzer) :
    List ASTNode → Bool × SemanticAnalyzer
  | [] => (true, analyzer)
  | statement :: rest =>
    and_then (analyze_statement analyzer statement)
      (fun analyzer => analyze_statements analyzer rest)

end

/-- The first pass of `analyze`: one function symbol per function declaration,
with its parameter count and parameter types.  A parameter that is not a
variable declaration node, whose member `variable.type` the C code would read,
is reported as `none`. -/
def register_functions (table : SymbolTable) : List ASTNode → Option SymbolTable
  | [] => some table
  | .FunctionDeclaration name parameters _ :: rest =>
    match parameters.mapM (fun parameter =>
        match parameter with
        | .VariableDeclaration _ type _ => some type
        | _ => none) with
    | none => none
    | some param_types =>
      register_functions
        { table with
          symbols := table.symbols ++
            [{ name := name, type := "function", scope_level := table.current_scope,
               is_function := true, param_types := param_types,
               param_count := parameters.length }] }
        rest
  | _ :: rest => register_functions table rest

/-- The parameter loop of the second pass of `analyze`: the parameters are
added without a lookup.  A parameter that is not a variable declaration node
is reported as `none`. -/
def add_parameters (table : SymbolTable) : List ASTNode → Option SymbolTable
  | [] => some table
  | .VariableDeclaration name type _ :: rest => add_parameters (add_symbol table name type) rest
  | _ :: _ => none

/-- The body of the second loop of `analyze` for one top-level node.  A
function that fails returns without leaving its scope. -/
def analyze_function (analyzer : SemanticAnalyzer) : ASTNode → Bool × SemanticAnalyzer
  | .FunctionDeclaration name parameters body =>
    let analyzer := { analyzer with current_function := some name, has_return := false }
    let analyzer := { analyzer with table := enter_scope analyzer.table }
    match add_parameters analyzer.table parameters with
    | none => (false, analyzer)
    | some table =>
      and_then (analyze_statement { analyzer with table := table } body)
        (fun analyzer =>
          if !analyzer.has_return && name ≠ "main" then
            (false, set_error analyzer ("Function " ++ name ++ " must return a value"))
          else
            (true, { analyzer with table := exit_scope analyzer.table }))
  | _ => (true, analyzer)

/-- The second loop of `analyze`. -/
def analyze_functions (analyzer : SemanticAnalyzer) : List ASTNode → Bool × SemanticAnalyzer
  | [] => (true, analyzer)
  | node :: rest =>
    and_then (analyze_function analyzer node)
      (fun analyzer => analyze_functions analyzer rest)

/-- The function `analyze`. -/
def analyze (analyzer : SemanticAnalyzer) : ASTNode → Bool × SemanticAnalyzer
  | .Program statements =>
    match register_functions analyzer.table statements with
    | none => (false, analyzer)
    | some table => analyze_functions { analyzer with table := table } statements
  | _ => (false, set_error analyzer "Root node must be a program")

/-! ## Drivers for single functions -/

/-- Run `parse_statement` on a source text: a fresh lexer, `create_parser`,
one call of `parse_statement`. -/
def parse_statement_source (stale : Token → TokenType) (fuel : Nat)
    (source : List Char) : PResult ASTNode :=
  match create_parser_from (create_lexer source) with
  | .error msg => .error msg
  | .ok parser => parse_statement stale fuel parser

/-- Run `parse_expression` on a source text: a fresh lexer, `create_parser`,
one call of `parse_expression`. -/
def parse_expression_source (stale : Token → TokenType) (fuel : Nat)
    (source : List Char) : PResult ASTNode :=
  match create_parser_from (create_lexer source) with
  | .error msg => .error msg
  | .ok parser => parse_expression stale fuel parser

/-- An immediate assignment `ASSIGN dest ← value`, as the `NODE_NUMBER` case
of `generate_expression_ir` builds it. -/
def assign_immediate (dest : String) (value : Int) : IRInstr :=
  { op := IR_ASSIGN, dest := some dest, src1 := none, src2 := none,
    label := none, value := value }

/-- The tree of the program `int main() { int x = 2 + 3 * 4; return x; }`
according to the grammar. -/
def program_x_14 : ASTNode :=
  .Program [.FunctionDeclaration "main" []
    (.CompoundStatement
      [.VariableDeclaration "x" "int"
         (some (.BinaryOp '+' (.Number 2) (.BinaryOp '*' (.Number 3) (.Number 4)))),
       .Return (.Identifier "x")])]

/-! ## The lexer as a function of the unread text -/

/-- The tag that the first word branch of `get_next_token` gives a word. -/
def word_type (value : String) : TokenType :=
  if value = "int" ∨ value = "return" ∨ value = "if" ∨ value = "else" then TOKEN_KEYWORD
  else TOKEN_IDENTIFIER

/-- What `get_next_token` computes, as a function of the unread text alone:
the token and the number of characters consumed. -/
def lex_suffix (s : List Char) : Except String (Token × Nat) :=
  let ws := (s.takeWhile isspace).length
  match s.dropWhile isspace with
  | [] => .ok (⟨TOKEN_EOF, none⟩, ws)
  | c :: rest =>
    if c = NUL then .ok (⟨TOKEN_EOF, none⟩, ws)
    else if isalpha c then
      let w := c :: rest.takeWhile isalnum
      .ok (⟨word_type (String.mk w), some (String.mk w)⟩, ws + w.length)
    else if isdigit c then
      let w := c :: rest.takeWhile isdigit
      .ok (⟨TOKEN_NUMBER, some (String.mk w)⟩, ws + w.length)
    else if c = '=' then
      .ok (⟨TOKEN_EQUALS, some "=="⟩, ws + 1 + min 1 rest.length)
    else
      match operator_type c with
      | some type => .ok (⟨type, some (String.mk [c])⟩, ws + 1)
      | none => .error ("Unknown token: " ++ String.mk [c])

/-! ## Joining lexemes -/

/-- The text of a token: its lexeme, empty for a token without one. -/
def token_text (token : Token) : List Char :=
  (token.value.getD "").data

/-- The lexemes of the tokens joined with single spaces. -/
def join_lexemes (tokens : List Token) : List Char :=
  [' '].intercalate (tokens.map token_text)

/-- A token that the lexer reads back from its own lexeme, alone or after one
space, when the lexeme is followed by a space or by the end of the text. -/
def Relexable (t : Token) : Prop :=
  ∃ cs : List Char, t.value = some (String.mk cs) ∧ cs ≠ [] ∧
    ∀ pre tail : List Char, (pre = [] ∨ pre = [' ']) →
      (tail = [] ∨ ∃ tl, tail = ' ' :: tl) →
      lex_suffix (pre ++ cs ++ tail) = .ok (t, pre.length + cs.length)

/-! ## Fuel, and the expression grammar as a relation -/

/-- A result that more fuel can only complete: it is `timeout` or it is the
second result. -/
def PResult.below {α : Type} (r r2 : PResult α) : Prop :=
  r = .timeout ∨ r = r2

/-- The expression functions at fuel `n` are below themselves at fuel `n + 1`. -/
def ExprMono (stale : Token → TokenType) (n : Nat) : Prop :=
  (∀ p, (parse_factor stale n p).below (parse_factor stale (n + 1) p)) ∧
  (∀ node p, (parse_term_loop stale n node p).below (parse_term_loop stale (n + 1) node p)) ∧
  (∀ p, (parse_term stale n p).below (parse_term stale (n + 1) p)) ∧
  (∀ node p, (parse_expression_loop stale n node p).below
      (parse_expression_loop stale (n + 1) node p)) ∧
  (∀ p, (parse_expression stale n p).below (parse_expression stale (n + 1) p)) ∧
  (∀ args p, (parse_arguments stale n args p).below (parse_arguments stale (n + 1) args p)) ∧
  (∀ p name, (parse_function_call stale n p name).below
      (parse_function_call stale (n + 1) p name))

/-- The three levels of the expression grammar. -/
inductive Level where
  | expression
  | term
  | factor
  deriving DecidableEq, Repr

/-- The expression grammar of the specification, read as the definition of the
tree of a token sequence: a factor is a number, an identifier or an
expression in parentheses; a term is a factor or a term, `*` or `/`, and a
factor; an expression is a term or an expression, `+` or `-`, and a term. -/
inductive Derives : Level → List Token → ASTNode → Prop where
  | number (digits : String) :
    Derives .factor [⟨TOKEN_NUMBER, some digits⟩] (.Number (atoi digits))
  | identifier (name : String) :
    Derives .factor [⟨TOKEN_IDENTIFIER, some name⟩] (.Identifier name)
  | paren (lp rp : Token) (tokens : List Token) (tree : ASTNode) :
    lp.type = TOKEN_LPAREN → rp.type = TOKEN_RPAREN →
    Derives .expression tokens tree → Derives .factor (lp :: tokens ++ [rp]) tree
  | factor (tokens : List Token) (tree : ASTNode) :
    Derives .factor tokens tree → Derives .term tokens tree
  | multiply (op : Token) (tokens1 tokens2 : List Token) (left right : ASTNode) :
    op.type = TOKEN_MULTIPLY → Derives .term tokens1 left → Derives .factor tokens2 right →
    Derives .term (tokens1 ++ op :: tokens2) (.BinaryOp '*' left right)
  | divide (op : Token) (tokens1 tokens2 : List Token) (left right : ASTNode) :
    op.type = TOKEN_DIVIDE → Derives .term tokens1 left → Derives .factor tokens2 right →
    Derives .term (tokens1 ++ op :: tokens2) (.BinaryOp '/' left right)
  | term (tokens : List Token) (tree : ASTNode) :
    Derives .term tokens tree → Derives .expression tokens tree
  | plus (op : Token) (tokens1 tokens2 : List Token) (left right : ASTNode) :
    op.type = TOKEN_PLUS → Derives .expression tokens1 left → Derives .term tokens2 right →
    Derives .expression (tokens1 ++ op :: tokens2) (.BinaryOp '+' left right)
  | minus (op : Token) (tokens1 tokens2 : List Token) (left right : ASTNode) :
    op.type = TOKEN_MINUS → Derives .expression tokens1 left → Derives .term tokens2 right →
    Derives .expression (tokens1 ++ op :: tokens2) (.BinaryOp '-' left right)

/-- Successive calls of `get_next_token` from the first lexer state return the
given tokens and leave the second state. -/
def LexesTo : Lexer → List Token → Lexer → Prop
  | lexer, [], lexer2 => lexer2 = lexer
  | lexer, token :: tokens, lexer2 =>
    ∃ lexer1, get_next_token lexer = .ok (token, lexer1) ∧ LexesTo lexer1 tokens lexer2

/-- The parser holds the first of the tokens as its current token, and its
lexer yields the others and is then in the given state. -/
def Reads (parser : Parser) (tokens : List Token) (lexer2 : Lexer) : Prop :=
  ∃ rest, tokens = parser.current_token :: rest ∧ LexesTo parser.lexer rest lexer2

/-- The parser is the one that `create_parser` builds on the lexer state. -/
def At (lexer : Lexer) (parser : Parser) : Prop :=
  get_next_token lexer = .ok (parser.current_token, parser.lexer)

/-- What the parsing function of a level has to do on a derivation of that
level, in terms of the loop that follows it. -/
def Goal (stale : Token → TokenType) : Level → ASTNode → Parser → Parser → Prop
  | .factor, tree, p, p2 =>
    p2.current_token.type ≠ TOKEN_LPAREN →
    ∃ k, ∀ f, k ≤ f → parse_factor stale f p = .ok tree p2
  | .term, tree, p, p2 =>
    p2.current_token.type ≠ TOKEN_LPAREN →
    ∀ r, r ≠ .timeout → (∃ f, parse_term_loop stale f tree p2 = r) →
      ∃ f, parse_term stale f p = r
  | .expression, tree, p, p2 =>
    p2.current_token.type ≠ TOKEN_LPAREN → p2.current_token.type ≠ TOKEN_MULTIPLY →
    p2.current_token.type ≠ TOKEN_DIVIDE →
    ∀ r, r ≠ .timeout → (∃ f, parse_expression_loop stale f tree p2 = r) →
      ∃ f, parse_expression stale f p = r

/-! ## Semantic analysis: what a step leaves unchanged -/

/-- An expression analysis that started in `analyzer` and ended in `result`
left everything but the error message as it was, and the error message too
when it succeeded. -/
def Untouched (analyzer : SemanticAnalyzer) (result : Bool × SemanticAnalyzer) : Prop :=
  result.2.table = analyzer.table ∧ result.2.has_return = analyzer.has_return ∧
  result.2.current_function = analyzer.current_function ∧
  (result.1 = true → result.2 = analyzer)

mutual

/-- The node is or contains, in a statement position at any depth, a `return`
statement. -/
def contains_return : ASTNode → Bool
  | .Return _ => true
  | .If _ if_body else_body =>
    contains_return if_body ||
      (match else_body with
       | some else_body => contains_return else_body
       | none => false)
  | .While _ body => contains_return body
  | .CompoundStatement statements => any_contains_return statements
  | _ => false

/-- One of the statements is or contains a `return` statement. -/
def any_contains_return : List ASTNode → Bool
  | [] => false
  | statement :: rest => contains_return statement || any_contains_return rest

end

/-- What an accepted statement does to `has_return`, and what every statement
does to `current_function`. -/
def Returns (node_returns : Bool) (analyzer : SemanticAnalyzer)
    (result : Bool × SemanticAnalyzer) : Prop :=
  result.2.current_function = analyzer.current_function ∧
  (result.1 = true → result.2.has_return = (analyzer.has_return || node_returns))

/-- No symbol of the table is of a deeper level than the current one. -/
def Levelled (table : SymbolTable) : Prop :=
  ∀ symbol ∈ table.symbols, symbol.scope_level ≤ table.current_scope

/-- What an accepted statement does to the symbol table: the level is the one
it started at, and the symbols are the ones it started with, followed by
symbols of that level. -/
def Scoped (analyzer : SemanticAnalyzer) (result : Bool × SemanticAnalyzer) : Prop :=
  result.1 = true →
    result.2.table.current_scope = analyzer.table.current_scope ∧
    ∃ added, result.2.table.symbols = analyzer.table.symbols ++ added ∧
      ∀ symbol ∈ added, symbol.scope_level = analyzer.table.current_scope

/-! ## Programs of the semantic examples -/

/-- The tree of `int main() { int x = y; return x; }`. -/
def program_undefined_y : ASTNode :=
  .Program [.FunctionDeclaration "main" []
    (.CompoundStatement
      [.VariableDeclaration "x" "int" (some (.Identifier "y")),
       .Return (.Identifier "x")])]

/-- The tree of `int f() { return 1; } int main() { f = 1; return 0; }`. -/
def program_assign_function : ASTNode :=
  .Program
    [.FunctionDeclaration "f" [] (.CompoundStatement [.Return (.Number 1)]),
     .FunctionDeclaration "main" []
       (.CompoundStatement
         [.Assignment (.Identifier "f") (.Number 1), .Return (.Number 0)])]

/-- The tree of `int f(int a, int b) { return a; } int main() { return f(1); }`. -/
def program_arity : ASTNode :=
  .Program
    [.FunctionDeclaration "f"
       [.VariableDeclaration "a" "int" none, .VariableDeclaration "b" "int" none]
       (.CompoundStatement [.Return (.Identifier "a")]),
     .FunctionDeclaration "main" []
       (.CompoundStatement [.Return (.FunctionCall "f" [.Number 1])])]

/-- The tree of
`int f(int a, int b) { return a; } int main() { return f(f(1), 2); }`. -/
def program_nested_arity : ASTNode :=
  .Program
    [.FunctionDeclaration "f"
       [.VariableDeclaration "a" "int" none, .VariableDeclaration "b" "int" none]
       (.CompoundStatement [.Return (.Identifier "a")]),
     .FunctionDeclaration "main" []
       (.CompoundStatement
         [.Return (.FunctionCall "f" [.FunctionCall "f" [.Number 1], .Number 2])])]

/-- The symbol that the first pass of `analyze` makes for a function. -/
def function_symbol (name : String) (param_types : List String) (param_count : Nat)
    (scope_level : Int) : Symbol :=
  { name := name, type := "function", scope_level := scope_level, is_function := true,
    param_types := param_types, param_count := param_count }

/-- The symbol that `add_symbol` makes. -/
def variable_symbol (name type : String) (scope_level : Int) : Symbol :=
  { name := name, type := type, scope_level := scope_level, is_function := false,
    param_types := [], param_count := 0 }

/-- The analyzer state in which the call `f(1)` of `program_arity` is
analysed: both functions registered, inside the body of `main`. -/
def state_in_main_of_arity : SemanticAnalyzer :=
  { table := { symbols := [function_symbol "f" ["int", "int"] 2 0,
                           function_symbol "main" [] 0 0],
               current_scope := 2 },
    current_function := some "main", has_return := true, error_message := none }

/-! ## Programs of the function examples -/

/-- The tree of `int f(int n) { return g(n); } int g(int x) { return x; }`. -/
def program_forward : ASTNode :=
  .Program
    [.FunctionDeclaration "f" [.VariableDeclaration "n" "int" none]
       (.CompoundStatement [.Return (.FunctionCall "g" [.Identifier "n"])]),
     .FunctionDeclaration "g" [.VariableDeclaration "x" "int" none]
       (.CompoundStatement [.Return (.Identifier "x")])]

/-- The tree of `int f(int g) { return g(1); } int g(int x) { return x; }`. -/
def program_shadowed : ASTNode :=
  .Program
    [.FunctionDeclaration "f" [.VariableDeclaration "g" "int" none]
       (.CompoundStatement [.Return (.FunctionCall "g" [.Number 1])]),
     .FunctionDeclaration "g" [.VariableDeclaration "x" "int" none]
       (.CompoundStatement [.Return (.Identifier "x")])]

/-- The tree of `int main() { }`. -/
def program_empty_main : ASTNode :=
  .Program [.FunctionDeclaration "main" [] (.CompoundStatement [])]

/-- The tree of `int f() { return 1; } int g() { }`. -/
def program_two_functions : ASTNode :=
  .Program
    [.FunctionDeclaration "f" [] (.CompoundStatement [.Return (.Number 1)]),
     .FunctionDeclaration "g" [] (.CompoundStatement [])]

/-- The names and parameter counts of the function declarations among the
top-level nodes, in order. -/
def declared_functions : List ASTNode → List (String × Nat)
  | [] => []
  | .FunctionDeclaration name parameters _ :: rest =>
    (name, parameters.length) :: declared_functions rest
  | _ :: rest => declared_functions rest

/-- The analyzer state in which the call `g(n)` of `program_forward` is
analysed: both functions registered, the parameter `n` of `f` added, inside
the body of `f`. -/
def state_in_f_of_forward : SemanticAnalyzer :=
  { table := { symbols := [function_symbol "f" ["int"] 1 0, function_symbol "g" ["int"] 1 0,
                           variable_symbol "n" "int" 1],
               current_scope := 2 },
    current_function := some "f", has_return := true, error_message := none }

/-- The analyzer state of `program_two_functions` when the second loop of
`analyze` has finished with `f` and comes to `g`. -/
def state_after_f : SemanticAnalyzer :=
  { table := { symbols := [function_symbol "f" [] 0 0, function_symbol "g" [] 0 0],
               current_scope := 0 },
    current_function := some "f", has_return := true, error_message := none }

/-! ## Lowering: definitions for the statements about `generate_ir` -/

/-- The opcodes of the four arithmetic operators, as the inner `switch` of the
`NODE_BINARY_OP` case pairs them. -/
def arithmetic_opcodes : List (Char × IROpcode) :=
  [('+', IR_ADD), ('-', IR_SUB), ('*', IR_MUL), ('/', IR_DIV)]

/-- An arithmetic instruction `op dest ← src1, src2`, as the `NODE_BINARY_OP`
case of `generate_expression_ir` builds it. -/
def arithmetic_instr (op : IROpcode) (dest src1 src2 : String) : IRInstr :=
  { op := op, dest := some dest, src1 := some src1, src2 := some src2,
    label := none, value := 0 }

mutual

/-- The tree is built from numbers, identifiers, the four arithmetic operators
and calls. -/
def lowerable : ASTNode → Bool
  | .Number _ => true
  | .Identifier _ => true
  | .BinaryOp operator left right =>
    (arithmetic_opcodes.lookup operator).isSome && lowerable left && lowerable right
  | .FunctionCall _ parameters => all_lowerable parameters
  | _ => false

/-- Every tree of the list is lowerable. -/
def all_lowerable : List ASTNode → Bool
  | [] => true
  | argument :: rest => lowerable argument && all_lowerable rest

end

/-- The tree of `int main() { return 42; }`. -/
def program_return_42 : ASTNode :=
  .Program [.FunctionDeclaration "main" [] (.CompoundStatement [.Return (.Number 42)])]

/-! ## Common subexpressions: what the pass is expected to leave -/

/-- Every computation has a destination and two sources. -/
def Complete (instr : IRInstr) : Prop :=
  is_computation instr = true →
    instr.dest.isSome = true ∧ instr.src1.isSome = true ∧ instr.src2.isSome = true

/-- Two computations with the same opcode and identical source strings. -/
def same_computation (earlier instr : IRInstr) : Bool :=
  is_computation earlier && is_computation instr && decide (earlier.op = instr.op) &&
    decide (earlier.src1 = instr.src1) && decide (earlier.src2 = instr.src2)

/-- What becomes of an instruction that stands after the instructions
`before`: a computation with an earlier computation of the same opcode and
sources becomes an assignment of the destination of the earliest of them, and
any other instruction stays. -/
def rewritten (before : List IRInstr) (instr : IRInstr) : IRInstr :=
  match before.find? (fun earlier => same_computation earlier instr) with
  | some earliest => { instr with op := IR_ASSIGN, src2 := none, src1 := earliest.dest }
  | none => instr

/-- The instructions after the instructions `before`, each one rewritten with
respect to all the instructions in front of it. -/
def rewritten_after (before : List IRInstr) : List IRInstr → List IRInstr
  | [] => []
  | instr :: rest => rewritten before instr :: rewritten_after (before ++ [instr]) rest

/-- What one run of the inner loop makes of `next`, without the null pointer
cases. -/
def replaced (current next : IRInstr) : IRInstr :=
  if same_computation current next then
    { next with op := IR_ASSIGN, src2 := none, src1 := current.dest }
  else next

/-! ## Strength reduction: what the pass leaves -/

/-- What `reduce_strength` makes of one instruction, without the null pointer
cases: the test of the second source is `atoi(src2) == 2`. -/
def reduced (instr : IRInstr) : IRInstr :=
  if instr.op = IR_MUL ∧ (instr.src2.map atoi) = some 2 then
    { instr with op := IR_ADD, src2 := instr.src1 }
  else if instr.op = IR_DIV ∧ (instr.src2.map atoi) = some 2 then
    { instr with op := IR_SHR, src2 := some "1" }
  else instr

/-! ## Tail calls: what the pass is expected to leave -/

/-- The function whose body an instruction belongs to: the name of the most
recent label numbered `-1`, the instruction itself included. -/
def enclosing_function (current_function : Option String) (instr : IRInstr) :
    Option String :=
  if instr.op = IR_LABEL then
    match instr.label with
    | some label => if label.number = -1 then some label.name else current_function
    | none => current_function
  else current_function

/-- A call of the enclosing function that is immediately followed by a
`RETURN`. -/
def is_self_call_before_return (current_function : Option String) (instr next : IRInstr) :
    Bool :=
  decide (instr.op = IR_CALL) && current_function.isSome &&
    decide (instr.src1 = current_function) && decide (next.op = IR_RETURN)

/-- The jump that replaces a call of the function `name`. -/
def jump_to_entry (instr : IRInstr) (name : String) : IRInstr :=
  { instr with op := IR_JUMP, label := some { name := name, number := -1 } }

/-- The instruction stream with every call of the enclosing function that is
immediately followed by a `RETURN` replaced by a jump to the entry of the
function, and that `RETURN` left out. -/
def tail_calls_rewritten : Option String → List IRInstr → List IRInstr
  | _, [] => []
  | _, [instr] => [instr]
  | current_function, instr :: next :: rest =>
    if is_self_call_before_return (enclosing_function current_function instr) instr next then
      jump_to_entry instr ((enclosing_function current_function instr).getD "") ::
        tail_calls_rewritten (enclosing_function current_function instr) rest
    else
      instr :: tail_calls_rewritten (enclosing_function current_function instr) (next :: rest)

/-- Every label has its `label`, every call its `src1`, and every call stands
after a label numbered `-1`: the conditions under which the loop of
`eliminate_tail_recursion` reads no null pointer. -/
def Guarded : Option String → List IRInstr → Prop
  | _, [] => True
  | current_function, instr :: rest =>
    (instr.op = IR_LABEL → instr.label.isSome = true) ∧
    (instr.op = IR_CALL →
      instr.src1.isSome = true ∧ (enclosing_function current_function instr).isSome = true) ∧
    Guarded (enclosing_function current_function instr) rest

/-- The entry label of the function `name`. -/
def function_label (name : String) : IRInstr :=
  { op := IR_LABEL, dest := none, src1 := none, src2 := none,
    label := some { name := name, number := -1 }, value := 0 }

/-- The call `dest ← name(...)` with `count` arguments. -/
def call_instr (dest name : String) (count : Int) : IRInstr :=
  { op := IR_CALL, dest := some dest, src1 := some name, src2 := none, label := none,
    value := count }

/-- The instruction `RETURN operand`. -/
def return_instr (operand : String) : IRInstr :=
  { op := IR_RETURN, dest := none, src1 := some operand, src2 := none, label := none,
    value := 0 }

/-! ## Constant folding: what one pass leaves -/

/-- The value of the last immediate assignment to `name` among the
instructions `previous`, if there is one. -/
def last_constant (previous : List IRInstr) (name : String) : Option Int :=
  (previous.reverse.find?
    (fun prev => decide (prev.dest = some name) && is_constant prev)).map
      (fun prev => prev.value)

/-- What the loop body of `constant_folding` makes of an instruction that
stands after the instructions `previous`: an arithmetic instruction whose two
sources both have an immediate assignment in front is replaced by the
immediate assignment of the value of the operation, and any other instruction
stays. -/
def folded (previous : List IRInstr) (instr : IRInstr) : Except String IRInstr :=
  if is_computation instr then
    match instr.src1, instr.src2 with
    | some src1, some src2 =>
      match last_constant previous src1, last_constant previous src2 with
      | some left_val, some right_val =>
        match evaluate_constant_expr instr.op left_val right_val with
        | none => .error "Floating point exception"
        | some result =>
          .ok { instr with op := IR_ASSIGN, src1 := none, src2 := none, value := result }
      | _, _ => .ok instr
    | _, _ => .ok instr
  else .ok instr

/-- One pass over the instructions after `before`, from left to right: each
instruction is folded with respect to the instructions in front of it as the
pass has left them. -/
def folded_after (before : List IRInstr) : List IRInstr → Except String (List IRInstr)
  | [] => .ok []
  | instr :: rest =>
    match folded before instr with
    | .error msg => .error msg
    | .ok instr =>
      match folded_after (before ++ [instr]) rest with
      | .error msg => .error msg
      | .ok rest => .ok (instr :: rest)

/-- The result of the operation in the integers. -/
def exact_result (op : IROpcode) (left right : Int) : Int :=
  match op with
  | IR_ADD => left + right
  | IR_SUB => left - right
  | IR_MUL => left * right
  | IR_DIV => Int.tdiv left right
  | _ => 0

/-- The program has a division of constants that traps: an instruction `DIV`
whose two sources both have an immediate assignment among the instructions in
front of it as `constant_folding` leaves them, the values of the last such
assignments being `left` and `right`, where `right` is 0 or the quotient does
not fit an `int` (`INT_MIN / -1`). -/
def ConstantDivisionTraps (program : IRProgram) : Prop :=
  ∃ (before after : List IRInstr) (instr : IRInstr) (folded_before : IRProgram)
      (src1 src2 : String) (left right : Int),
    program.instructions = before ++ instr :: after ∧
    constant_folding { program with instructions := before } = some (.ok folded_before) ∧
    instr.op = IR_DIV ∧ instr.src1 = some src1 ∧ instr.src2 = some src2 ∧
    last_constant folded_before.instructions src1 = some left ∧
    last_constant folded_before.instructions src2 = some right ∧
    (right = 0 ∨ (left = -2147483648 ∧ right = -1))

/-! ## Basic blocks: what marking preserves -/

/-- The instruction at index `read` lies between the bounds of the block. -/
def covers (block : BasicBlock) (read : Nat) : Prop :=
  block.start ≤ (read : Int) ∧ (read : Int) ≤ block.end_index

/-- The second list has the blocks of the first one with the same bounds, and
every block that is marked in the first one is marked in the second one. -/
def Marked (blocks marked : List BasicBlock) : Prop :=
  List.Forall₂
    (fun block later =>
      later.start = block.start ∧ later.end_index = block.end_index ∧
        (block.is_reachable = true → later.is_reachable = true))
    blocks marked

/-- The blocks up to block `i` are marked. -/
def ReachedUpTo (blocks : List BasicBlock) (i : Nat) : Prop :=
  ∀ k block, k ≤ i → blocks.get? k = some block → block.is_reachable = true

/-- Every block is marked. -/
def AllReached (blocks : List BasicBlock) : Prop :=
  ∀ block ∈ blocks, block.is_reachable = true

/-- The state of the second loop of `find_basic_blocks` in front of index `i`:
every index in front of `current_start` lies in a block that is not the newest
one, and the newest block starts at or before `current_start`. -/
def Partitioned (i : Nat) (current_start : Int) (blocks : List BasicBlock) : Prop :=
  current_start ≤ (i : Int) ∧
  (∀ read : Nat, (read : Int) < current_start → ∃ block ∈ blocks.dropLast, covers block read) ∧
  (∀ newest, blocks.getLast? = some newest → newest.start ≤ current_start) ∧
  (0 < i → blocks ≠ [])

/-! ## Destinations of the generated instructions -/

/-- The destinations of the instructions that have one, in order. -/
def destinations (instructions : List IRInstr) : List String :=
  instructions.filterMap (fun instr => instr.dest)

/-- The names `t<start>`, ..., `t<start + count - 1>`. -/
def temp_names (start count : Nat) : List String :=
  (List.range' start count).map (fun k => "t" ++ toString k)

/-- What a lowering step that started in `state` and ended in `result` has
done: it has appended instructions whose destinations are the temporaries
numbered from the counter of `state` up to the counter of `result`, in
order. -/
def Allocates (state result : IRProgram) : Prop :=
  state.temp_count ≤ result.temp_count ∧
  ∃ added, result.instructions = state.instructions ++ added ∧
    destinations added = temp_names state.temp_count (result.temp_count - state.temp_count)

/-! ## codegen.h, codegen.c : the emitter of the IR -/

/-- The code generator, `CodeGenerator` of `codegen.h`.  The member `output`
is the text written to the output file so far; the member `variables` is
called `variable_offsets` here and pairs the names with their offsets. -/
structure CodeGenerator where
  output : String
  label_count : Int
  stack_offset : Int
  variable_offsets : List (String × Int)
  deriving DecidableEq, Repr

/-- The function `create_generator`: the output file is opened for writing,
so it is empty. -/
def create_generator : CodeGenerator :=
  { output := "", label_count := 0, stack_offset := 0, variable_offsets := [] }

/-- The function `emit` on a format without conversions, or with its
conversions filled in: the text is appended to the output. -/
def emit (gen : CodeGenerator) (text : String) : CodeGenerator :=
  { gen with output := gen.output ++ text }

/-- A call of `emit` whose format has one `%s`, between the texts `before` and
`after`.  The argument is a nullable pointer; a null pointer for `%s` is not
defined and is an error result here. -/
def emit_string (gen : CodeGenerator) (before : String) (argument : Option String)
    (after : String) : Except String CodeGenerator :=
  match argument with
  | none => .error "printf(NULL)"
  | some text => .ok (emit gen (before ++ text ++ after))

/-- A call of `emit` whose format has one `%s` that is filled with
`instr->label->name`; a null label is an invalid read. -/
def emit_label_name (gen : CodeGenerator) (before : String) (label : Option IRLabel)
    (after : String) : Except String CodeGenerator :=
  match label with
  | none => .error "null label"
  | some label => .ok (emit gen (before ++ label.name ++ after))

/-- The three calls of `emit` of the cases `IR_ADD`, `IR_SUB` and `IR_MUL`,
which differ in the mnemonic only. -/
def emit_arithmetic (gen : CodeGenerator) (mnemonic : String) (instr : IRInstr) :
    Except String CodeGenerator :=
  match emit_string gen "    movq " instr.src1 ", %rax\n" with
  | .error msg => .error msg
  | .ok gen =>
    match emit_string gen ("    " ++ mnemonic ++ " ") instr.src2 ", %rax\n" with
    | .error msg => .error msg
    | .ok gen => emit_string gen "    movq %rax, " instr.dest "\n"

/-- The body of the loop of `generate_code_from_ir`: the `switch` on the
opcode.  It has the eleven cases below and no `default`; the case `IR_CALL` is
a comment and a `break`. -/
def generate_instruction_code (gen : CodeGenerator) (instr : IRInstr) :
    Except String CodeGenerator :=
  match instr.op with
  | IR_LABEL =>
    match emit_label_name gen "" instr.label ":\n" with
    | .error msg => .error msg
    | .ok gen =>
      match instr.label with
      | none => .error "null label"
      | some label =>
        if label.number = -1 then
          .ok (emit (emit gen "    pushq %rbp\n") "    movq %rsp, %rbp\n")
        else .ok gen
  | IR_ADD => emit_arithmetic gen "addq" instr
  | IR_SUB => emit_arithmetic gen "subq" instr
  | IR_MUL => emit_arithmetic gen "imulq" instr
  | IR_DIV =>
    match emit_string gen "    movq " instr.src1 ", %rax\n" with
    | .error msg => .error msg
    | .ok gen =>
      match emit_string (emit gen "    cqto\n") "    idivq " instr.src2 "\n" with
      | .error msg => .error msg
      | .ok gen => emit_string gen "    movq %rax, " instr.dest "\n"
  | IR_ASSIGN =>
    let gen :=
      match instr.src1 with
      | some src1 => emit gen ("    movq " ++ src1 ++ ", %rax\n")
      | none => emit gen ("    movq $" ++ toString instr.value ++ ", %rax\n")
    emit_string gen "    movq %rax, " instr.dest "\n"
  | IR_JUMP => emit_label_name gen "    jmp " instr.label "\n"
  | IR_JUMPZ =>
    match emit_string gen "    cmpq $0, " instr.src1 "\n" with
    | .error msg => .error msg
    | .ok gen => emit_label_name gen "    je " instr.label "\n"
  | IR_JUMPNZ =>
    match emit_string gen "    cmpq $0, " instr.src1 "\n" with
    | .error msg => .error msg
    | .ok gen => emit_label_name gen "    jne " instr.label "\n"
  | IR_CALL => .ok gen
  | IR_RETURN =>
    let gen :=
      match instr.src1 with
      | some src1 => emit gen ("    movq " ++ src1 ++ ", %rax\n")
      | none => gen
    .ok (emit (emit (emit gen "    movq %rbp, %rsp\n") "    popq %rbp\n") "    ret\n")
  | IR_PARAM => .ok gen
  | IR_ARG => .ok gen
  | IR_COMPARE => .ok gen
  | IR_LOAD => .ok gen
  | IR_STORE => .ok gen
  | IR_SHR => .ok gen

/-- The loop of `generate_code_from_ir` over the instructions. -/
def generate_instructions_code (gen : CodeGenerator) :
    List IRInstr → Except String CodeGenerator
  | [] => .ok gen
  | instr :: rest =>
    match generate_instruction_code gen instr with
    | .error msg => .error msg
    | .ok gen => generate_instructions_code gen rest

/-- The function `generate_code_from_ir`: the header, then the code of each
instruction in order. -/
def generate_code_from_ir (gen : CodeGenerator) (program : IRProgram) :
    Except String CodeGenerator :=
  let gen := emit gen "    .global main\n"
  let gen := emit gen "    .text\n"
  generate_instructions_code gen program.instructions

/-- The IR of a function `main` that calls `f` and returns the result:
`LABEL main`, `CALL t0 ← f`, `RETURN t0`. -/
def program_call_f : IRProgram :=
  { instructions := [function_label "main", call_instr "t0" "f" 0, return_instr "t0"],
    temp_count := 1, label_count := 0 }

/-! ## Basic blocks: bounds, labels and overlap -/

/-- The list of blocks has a first and a second block, both start at index 0
and both end at an index that is not negative: index 0 lies in both. -/
def FirstTwoOverlap (blocks : List BasicBlock) : Prop :=
  ∃ first second more, blocks = first :: second :: more ∧
    first.start = 0 ∧ 0 ≤ first.end_index ∧ second.start = 0 ∧ 0 ≤ second.end_index

/-- Every `LABEL`, `JUMP`, `JUMPZ` and `JUMPNZ` instruction carries a label. -/
def Labelled (instructions : List IRInstr) : Prop :=
  ∀ instr ∈ instructions,
    instr.op = IR_LABEL ∨ instr.op = IR_JUMP ∨ instr.op = IR_JUMPZ ∨ instr.op = IR_JUMPNZ →
    instr.label.isSome = true

/-- The bounds of every block are indices of the instruction array. -/
def InBounds (count : Nat) (blocks : List BasicBlock) : Prop :=
  ∀ block ∈ blocks, 0 ≤ block.start ∧ block.start < (count : Int) ∧
    0 ≤ block.end_index ∧ block.end_index < (count : Int)

/-! ## ir_optimizer.c : the driver `optimize_ir` -/

/-- The function `optimize_ir`: `constant_folding`, then
`dead_code_elimination`. -/
def optimize_ir (program : IRProgram) : Option (Except String IRProgram) :=
  match constant_folding program with
  | none => none
  | some (.error msg) => some (.error msg)
  | some (.ok program) => dead_code_elimination program

/-- The label `L<number>`, as `new_label` names it. -/
def numbered_label (number : Nat) : IRInstr :=
  { op := IR_LABEL, dest := none, src1 := none, src2 := none,
    label := some { name := "L" ++ toString number, number := number }, value := 0 }

/-- The IR program `LABEL main`, `JUMPZ t0 → L0`, `ASSIGN t1 ← 1`, `LABEL L0`,
`RETURN t1`. -/
def program_branch : IRProgram :=
  { instructions :=
      [function_label "main",
       { op := IR_JUMPZ, dest := none, src1 := some "t0", src2 := none,
         label := some { name := "L0", number := 0 }, value := 0 },
       assign_immediate "t1" 1,
       numbered_label 0,
       return_instr "t1"],
    temp_count := 2, label_count := 1 }

/-! ## Constant folding: a redefined operand -/

/-- The copy `ASSIGN dest ← src`. -/
def copy_instr (dest src : String) : IRInstr :=
  { op := IR_ASSIGN, dest := some dest, src1 := some src, src2 := none, label := none,
    value := 0 }

/-- The IR program `ASSIGN x ← 5`, `ASSIGN x ← y`, `ASSIGN t0 ← 1`,
`ADD t1 ← x, t0`. -/
def program_redefined : IRProgram :=
  { instructions :=
      [assign_immediate "x" 5, copy_instr "x" "y", assign_immediate "t0" 1,
       arithmetic_instr IR_ADD "t1" "x" "t0"],
    temp_count := 2, label_count := 0 }

/-! ## The symbol table as a stack of scopes -/

/-- One step on a symbol table: a call of `add_symbol`, of `enter_scope` or of
`exit_scope`. -/
inductive TableStep where
  | add (name type : String)
  | enter
  | exit
  deriving DecidableEq, Repr

/-- The table after a sequence of steps.  A call of `exit_scope` that does not
match an earlier call of `enter_scope`, which is one at level 0, is not
allowed (`none`). -/
def apply_steps (table : SymbolTable) : List TableStep → Option SymbolTable
  | [] => some table
  | .add name type :: rest => apply_steps (add_symbol table name type) rest
  | .enter :: rest => apply_steps (enter_scope table) rest
  | .exit :: rest =>
    if 0 < table.current_scope then apply_steps (exit_scope table) rest else none

/-- The symbols stand in the order of their levels, and none is of a deeper
level than the current one. -/
def Stacked (table : SymbolTable) : Prop :=
  Levelled table ∧
  table.symbols.Pairwise (fun older newer => older.scope_level ≤ newer.scope_level)

/-- The symbols of the level `level`, in order. -/
def symbols_of_level (symbols : List Symbol) (level : Int) : List Symbol :=
  symbols.filter (fun symbol => decide (symbol.scope_level = level))

/-- The symbols of the other levels, in order. -/
def symbols_off_level (symbols : List Symbol) (level : Int) : List Symbol :=
  symbols.filter (fun symbol => decide (symbol.scope_level ≠ level))

/-! ## Programs of the scope examples -/

/-- No two symbols of the table have the same name and the same level. -/
def DistinctPerLevel (table : SymbolTable) : Prop :=
  table.symbols.Pairwise
    (fun older newer => ¬ (older.name = newer.name ∧ older.scope_level = newer.scope_level))

/-- The tree of `int f(int a, int a) { return a; }`. -/
def program_duplicate_parameter : ASTNode :=
  .Program
    [.FunctionDeclaration "f"
       [.VariableDeclaration "a" "int" none, .VariableDeclaration "a" "int" none]
       (.CompoundStatement [.Return (.Identifier "a")])]

/-- The tree of `int f() { return 1; } int f() { return 2; }`. -/
def program_duplicate_function : ASTNode :=
  .Program
    [.FunctionDeclaration "f" [] (.CompoundStatement [.Return (.Number 1)]),
     .FunctionDeclaration "f" [] (.CompoundStatement [.Return (.Number 2)])]

/-- The tree of
`int f(int n) { int x = n; if (x) { int y = 2; } else { int y = 3; }
while (x) int z = 4; return x; } int main() { return f(1); }`. -/
def program_nested_scopes : ASTNode :=
  .Program
    [.FunctionDeclaration "f" [.VariableDeclaration "n" "int" none]
       (.CompoundStatement
         [.VariableDeclaration "x" "int" (some (.Identifier "n")),
          .If (.Identifier "x")
            (.CompoundStatement [.VariableDeclaration "y" "int" (some (.Number 2))])
            (some (.CompoundStatement [.VariableDeclaration "y" "int" (some (.Number 3))])),
          .While (.Identifier "x") (.VariableDeclaration "z" "int" (some (.Number 4))),
          .Return (.Identifier "x")]),
     .FunctionDeclaration "main" []
       (.CompoundStatement [.Return (.FunctionCall "f" [.Number 1])])]

/-! # Theorems -/

/-! ## Lexer: scanning lemmas -/

theorem drop_eq_nil_iff_le {src : List Char} {pos : Nat} (h : src.drop pos = []) : src.length ≤ pos := by
  simpa using h

theorem drop_eq_cons {src : List Char} {pos : Nat} {c : Char} {rest : List Char}
    (h : src.drop pos = c :: rest) :
    pos < src.length ∧ src.getD pos NUL = c ∧ src.drop (pos + 1) = rest := by
  induction src generalizing pos with
  | nil => simp at h
  | cons a as ih =>
    cases pos with
    | zero =>
      simp only [List.drop_zero, List.cons.injEq] at h
      refine ⟨by simp, ?_, by simpa using h.2⟩
      rw [← h.1]; rfl
    | succ n =>
      simp only [List.drop_succ_cons] at h
      obtain ⟨h1, h2, h3⟩ := ih h
      refine ⟨by simpa using h1, ?_, by simpa using h3⟩
      rw [← h2]; rfl

theorem peek_of_drop_nil {l : Lexer} (h : l.source.drop l.position = []) : peek l = NUL := by
  have := drop_eq_nil_iff_le h
  simp [peek, this]

theorem peek_of_drop_cons {l : Lexer} {c rest} (h : l.source.drop l.position = c :: rest) : peek l = c := by
  have := drop_eq_cons h
  rw [peek, if_neg (by have := this.1; omega), this.2.1]

theorem advance_of_drop_cons {l : Lexer} {c rest} (h : l.source.drop l.position = c :: rest) :
    advance l = (c, ⟨l.source, l.position + 1⟩) := by
  have := drop_eq_cons h
  rw [advance, if_neg (by have := this.1; omega), this.2.1]

theorem advance_of_drop_nil {l : Lexer} (h : l.source.drop l.position = []) : advance l = (NUL, l) := by
  have := drop_eq_nil_iff_le h
  simp [advance, this]

theorem advance_while_eq (cls : Char → Bool) (hcls : cls NUL = false) :
    ∀ (fuel : Nat) (src : List Char) (pos : Nat) (suffix : List Char),
      src.drop pos = suffix → suffix.length ≤ fuel →
      advance_while cls fuel ⟨src, pos⟩ = ⟨src, pos + (suffix.takeWhile cls).length⟩ := by
  intro fuel
  induction fuel with
  | zero =>
    intro src pos suffix h hl
    have : suffix = [] := by simpa using hl
    subst this
    simp [advance_while]
  | succ n ih =>
    intro src pos suffix h hl
    cases suffix with
    | nil =>
      have hp : peek ⟨src, pos⟩ = NUL := peek_of_drop_nil h
      simp [advance_while, hp, hcls]
    | cons c rest =>
      have hp : peek ⟨src, pos⟩ = c := peek_of_drop_cons h
      have ha := advance_of_drop_cons (l := ⟨src, pos⟩) h
      have hd := (drop_eq_cons h).2.2
      by_cases hc : cls c = true
      · simp only [advance_while, hp, hc, if_true, ha]
        rw [ih src (pos + 1) rest hd (by simpa using hl)]
        simp [List.takeWhile, hc]; omega
      · simp [advance_while, hp, hc, List.takeWhile]

/-- A scanning loop started with the remaining length as fuel stops where the
class stops. -/
theorem scan_eq (cls : Char → Bool) (hcls : cls NUL = false) (l : Lexer) :
    advance_while cls (remaining l) l
      = ⟨l.source, l.position + ((l.source.drop l.position).takeWhile cls).length⟩ := by
  have := advance_while_eq cls hcls (remaining l) l.source l.position _ rfl
    (by simp [remaining])
  simpa using this

theorem drop_add_takeWhile (p : Char → Bool) (src : List Char) (pos : Nat) :
    src.drop (pos + ((src.drop pos).takeWhile p).length) = (src.drop pos).dropWhile p := by
  have key : ∀ s : List Char, s.drop (s.takeWhile p).length = s.dropWhile p := by
    intro s
    induction s with
    | nil => simp
    | cons a as ih =>
      by_cases h : p a = true
      · simp [List.takeWhile, List.dropWhile, h, ih]
      · simp [List.takeWhile, List.dropWhile, h]
  rw [← key, List.drop_drop, Nat.add_comm]

theorem take_length_takeWhile (p : Char → Bool) (s : List Char) :
    s.take (s.takeWhile p).length = s.takeWhile p := by
  induction s with
  | nil => simp
  | cons a as ih =>
    by_cases h : p a = true
    · simp [List.takeWhile, h, ih]
    · simp [List.takeWhile, h]

theorem isalnum_of_isalpha {c : Char} (h : isalpha c = true) : isalnum c = true := by
  simp [isalnum, h]

theorem isalnum_of_isdigit {c : Char} (h : isdigit c = true) : isalnum c = true := by
  simp [isalnum, h]

theorem scan_lexeme (cls : Char → Bool) (hcls : cls NUL = false) (src : List Char)
    (pos : Nat) (c : Char) (rest : List Char) (hd : src.drop pos = c :: rest)
    (hc : cls c = true) :
    advance_while cls (remaining ⟨src, pos⟩) ⟨src, pos⟩
        = ⟨src, pos + (c :: rest.takeWhile cls).length⟩
      ∧ lexeme ⟨src, pos + (c :: rest.takeWhile cls).length⟩ pos
        = String.mk (c :: rest.takeWhile cls) := by
  have htw : (c :: rest).takeWhile cls = c :: rest.takeWhile cls := by
    simp [List.takeWhile, hc]
  constructor
  · have hsc := scan_eq cls hcls ⟨src, pos⟩
    simp only [hd, htw] at hsc
    exact hsc
  · simp only [lexeme, hd]
    rw [Nat.add_sub_cancel_left, ← htw, take_length_takeWhile]

theorem get_next_token_eq (l : Lexer) :
    get_next_token l =
      match lex_suffix (l.source.drop l.position) with
      | .ok (t, n) => .ok (t, ⟨l.source, l.position + n⟩)
      | .error msg => .error msg := by
  have hskip : skip_whitespace l = ⟨l.source, l.position + ((l.source.drop l.position).takeWhile isspace).length⟩ :=
    scan_eq isspace (by decide) l
  have hd1 := drop_add_takeWhile isspace l.source l.position
  generalize hws : ((l.source.drop l.position).takeWhile isspace).length = ws at hskip hd1
  unfold get_next_token lex_suffix
  simp only [hskip, hws]
  cases hs : (l.source.drop l.position).dropWhile isspace with
  | nil =>
    rw [hs] at hd1
    have hpk : peek ⟨l.source, l.position + ws⟩ = NUL := peek_of_drop_nil hd1
    simp only [hpk, if_true]
  | cons c rest =>
    rw [hs] at hd1
    have hpk : peek ⟨l.source, l.position + ws⟩ = c := peek_of_drop_cons hd1
    simp only [hpk]
    by_cases hnul : c = NUL
    · simp only [hnul, if_true]
    · simp only [hnul, if_false]
      by_cases halpha : isalpha c = true
      · simp only [halpha, if_true]
        obtain ⟨hsc, hlex⟩ := scan_lexeme isalnum (by decide) l.source (l.position + ws)
          c rest hd1 (isalnum_of_isalpha halpha)
        simp only [hsc, hlex, word_type]
        split <;> simp [Nat.add_assoc]
      · simp only [halpha, Bool.false_eq_true, if_false]
        by_cases hdig : isdigit c = true
        · simp only [hdig, if_true]
          obtain ⟨hsc, hlex⟩ := scan_lexeme isdigit (by decide) l.source (l.position + ws)
            c rest hd1 hdig
          simp only [hsc, hlex]
          simp [Nat.add_assoc]
        · simp only [hdig, Bool.false_eq_true, if_false]
          have hadv := advance_of_drop_cons (l := ⟨l.source, l.position + ws⟩) hd1
          have hd2 := (drop_eq_cons hd1).2.2
          by_cases heq : c = '='
          · subst heq
            simp only [if_true, hadv]
            cases rest with
            | nil =>
              rw [advance_of_drop_nil (l := ⟨l.source, l.position + ws + 1⟩) hd2]
              simp [Nat.add_assoc]
            | cons d rest2 =>
              rw [advance_of_drop_cons (l := ⟨l.source, l.position + ws + 1⟩) hd2]
              simp [Nat.add_assoc]
          · have h1 : ¬ (c = '!' ∧ c = '=') := fun h => heq h.2
            have h2 : ¬ (c = '<' ∧ c = '=') := fun h => heq h.2
            have h3 : ¬ (c = '>' ∧ c = '=') := fun h => heq h.2
            simp only [heq, and_false, if_false]
            unfold operator_token
            rw [hadv]
            simp only []
            cases operator_type c with
            | none => rfl
            | some type => simp [Nat.add_assoc]


theorem lookup_mem (table : List (Char × TokenType)) (c : Char) (type : TokenType)
    (h : table.lookup c = some type) : (c, type) ∈ table := by
  induction table with
  | nil => simp at h
  | cons x xs ih =>
    obtain ⟨a, b⟩ := x
    by_cases hc : c = a
    · subst hc
      simp only [List.lookup, beq_self_eq_true, Option.some.injEq] at h
      subst h
      exact List.mem_cons_self _ _
    · have hb : (c == a) = false := by simpa using hc
      simp only [List.lookup, hb] at h
      exact List.mem_cons_of_mem _ (ih h)

theorem operator_type_ne_eof {c : Char} {type : TokenType} (h : operator_type c = some type) :
    type ≠ TOKEN_EOF := by
  have hmem := lookup_mem operator_table c type h
  have hall : ∀ x ∈ operator_table, x.2 ≠ TOKEN_EOF := by decide
  exact hall _ hmem

theorem word_type_ne_eof (value : String) : word_type value ≠ TOKEN_EOF := by
  unfold word_type
  split_ifs <;> simp

theorem length_takeWhile_add_dropWhile (p : Char → Bool) (s : List Char) :
    (s.takeWhile p).length + (s.dropWhile p).length = s.length := by
  rw [← List.length_append, List.takeWhile_append_dropWhile]

theorem length_takeWhile_le (p : Char → Bool) (s : List Char) :
    (s.takeWhile p).length ≤ s.length := by
  have := length_takeWhile_add_dropWhile p s
  omega

theorem head_dropWhile_not (p : Char → Bool) (s : List Char) (c : Char) (rest : List Char)
    (h : s.dropWhile p = c :: rest) : p c = false := by
  induction s with
  | nil => simp at h
  | cons a as ih =>
    by_cases ha : p a = true
    · simp only [List.dropWhile, ha] at h
      exact ih h
    · simp only [List.dropWhile, ha] at h
      simp only [List.cons.injEq] at h
      rw [← h.1]; simpa using ha

/-- What one call of the lexer does to the unread text. -/
theorem lex_suffix_progress (s : List Char) (t : Token) (n : Nat)
    (h : lex_suffix s = .ok (t, n)) :
    n ≤ s.length ∧
    (t.type = TOKEN_EOF → t = ⟨TOKEN_EOF, none⟩ ∧ lex_suffix (s.drop n) = .ok (t, 0)) ∧
    (t.type ≠ TOKEN_EOF → 0 < n) := by
  have hlen := length_takeWhile_add_dropWhile isspace s
  have hdropws : s.drop (s.takeWhile isspace).length = s.dropWhile isspace := by
    have := drop_add_takeWhile isspace s 0
    simpa using this
  unfold lex_suffix at h
  simp only [] at h
  cases hs : s.dropWhile isspace with
  | nil =>
    rw [hs] at h hlen hdropws
    simp only [Except.ok.injEq, Prod.mk.injEq] at h
    obtain ⟨rfl, rfl⟩ := h
    refine ⟨by simp at hlen; omega, fun _ => ⟨rfl, ?_⟩, fun hne => absurd rfl hne⟩
    rw [hdropws]; rfl
  | cons c rest =>
    rw [hs] at h hlen hdropws
    have hnsp := head_dropWhile_not isspace s c rest hs
    simp only [List.length_cons] at hlen
    simp only [] at h
    by_cases hnul : c = NUL
    · simp only [hnul, if_true, Except.ok.injEq, Prod.mk.injEq] at h
      obtain ⟨rfl, rfl⟩ := h
      refine ⟨by omega, fun _ => ⟨rfl, ?_⟩, fun hne => absurd rfl hne⟩
      rw [hdropws, hnul]; rfl
    · simp only [hnul, if_false] at h
      by_cases halpha : isalpha c = true
      · simp only [halpha, if_true, Except.ok.injEq, Prod.mk.injEq] at h
        obtain ⟨rfl, rfl⟩ := h
        have := length_takeWhile_le isalnum rest
        refine ⟨by simp only [List.length_cons]; omega, fun he => absurd he (word_type_ne_eof _),
          fun _ => by simp⟩
      · simp only [halpha, Bool.false_eq_true, if_false] at h
        by_cases hdig : isdigit c = true
        · simp only [hdig, if_true, Except.ok.injEq, Prod.mk.injEq] at h
          obtain ⟨rfl, rfl⟩ := h
          have := length_takeWhile_le isdigit rest
          refine ⟨by simp only [List.length_cons]; omega, fun he => by simp at he, fun _ => by simp⟩
        · simp only [hdig, Bool.false_eq_true, if_false] at h
          by_cases heq : c = '='
          · simp only [heq, if_true, Except.ok.injEq, Prod.mk.injEq] at h
            obtain ⟨rfl, rfl⟩ := h
            refine ⟨by omega, fun he => by simp at he, fun _ => by omega⟩
          · simp only [heq, if_false] at h
            cases hop : operator_type c with
            | none => rw [hop] at h; simp at h
            | some type =>
              rw [hop] at h
              simp only [Except.ok.injEq, Prod.mk.injEq] at h
              obtain ⟨rfl, rfl⟩ := h
              refine ⟨by omega, fun he => absurd he (operator_type_ne_eof hop), fun _ => by omega⟩

/-- Every call that returns a token other than `TOKEN_EOF` moves the position
forward, inside the text; a call that returns `TOKEN_EOF` returns it without
lexeme and returns it again from the state it leaves. -/
theorem get_next_token_progress (l : Lexer) (t : Token) (l2 : Lexer)
    (h : get_next_token l = .ok (t, l2)) :
    l2.source = l.source ∧
    (t.type ≠ TOKEN_EOF → l.position < l2.position ∧ l2.position ≤ l.source.length) ∧
    (t.type = TOKEN_EOF → t = ⟨TOKEN_EOF, none⟩ ∧ get_next_token l2 = .ok (t, l2)) := by
  rw [get_next_token_eq] at h
  cases hs : lex_suffix (l.source.drop l.position) with
  | error msg => rw [hs] at h; simp at h
  | ok r =>
    obtain ⟨t', n⟩ := r
    rw [hs] at h
    simp only [Except.ok.injEq, Prod.mk.injEq] at h
    obtain ⟨rfl, rfl⟩ := h
    obtain ⟨hle, heof, hne⟩ := lex_suffix_progress _ _ _ hs
    simp only [List.length_drop] at hle
    refine ⟨rfl, fun h1 => ?_, fun h1 => ⟨(heof h1).1, ?_⟩⟩
    · have := hne h1
      constructor <;> (dsimp only; omega)
    · rw [get_next_token_eq]
      have h2 := (heof h1).2
      rw [List.drop_drop] at h2
      have h3 : lex_suffix (List.drop (l.position + n) l.source) = .ok (t', 0) := by
        exact h2
      simp only [h3, Nat.add_zero]

theorem lex_all_total : ∀ (fuel : Nat) (l : Lexer), remaining l < fuel →
    ∃ r, lex_all fuel l = some r ∧
      ∀ tokens, r = .ok tokens →
        tokens.length ≤ fuel ∧ tokens.getLast? = some ⟨TOKEN_EOF, none⟩ ∧
        ∀ t ∈ tokens.dropLast, t.type ≠ TOKEN_EOF := by
  intro fuel
  induction fuel with
  | zero => intro l h; omega
  | succ n ih =>
    intro l hrem
    cases hg : get_next_token l with
    | error msg =>
      refine ⟨.error msg, by simp [lex_all, hg], fun tokens h => by simp at h⟩
    | ok r =>
      obtain ⟨t, l2⟩ := r
      obtain ⟨hsrc, hne, heof⟩ := get_next_token_progress l t l2 hg
      by_cases ht : t.type = TOKEN_EOF
      · refine ⟨.ok [t], by simp [lex_all, hg, ht], fun tokens h => ?_⟩
        simp only [Except.ok.injEq] at h
        subst h
        rw [(heof ht).1]
        simp
      · have hpos := hne ht
        have hrem2 : remaining l2 < n := by
          simp only [remaining, hsrc] at hrem ⊢
          omega
        obtain ⟨r2, hr2, hprop⟩ := ih l2 hrem2
        cases r2 with
        | error msg =>
          refine ⟨.error msg, by simp [lex_all, hg, ht, hr2], fun tokens h => by simp at h⟩
        | ok tokens2 =>
          refine ⟨.ok (t :: tokens2), by simp [lex_all, hg, ht, hr2], fun tokens h => ?_⟩
          simp only [Except.ok.injEq] at h
          subst h
          obtain ⟨h1, h2, h3⟩ := hprop tokens2 rfl
          have hne2 : tokens2 ≠ [] := by
            intro he; rw [he] at h2; simp at h2
          obtain ⟨a, as, rfl⟩ := List.exists_cons_of_ne_nil hne2
          refine ⟨by simp at h1 ⊢; omega, ?_, ?_⟩
          · rw [List.getLast?_cons_cons]; exact h2
          · intro x hx
            simp only [List.dropLast_cons₂, List.mem_cons] at hx
            rcases hx with rfl | hx
            · exact ht
            · exact h3 x hx

/-! ## Lexer: termination and the round trip through lexemes -/

/-- C6.  For every source text of length n, the calls of `get_next_token` on
a fresh lexer, repeated until `TOKEN_EOF`, end within n + 1 calls in a lexical
failure or in `TOKEN_EOF` (the tokens before it are not `TOKEN_EOF`); at every
position a call that returns another token moves the position forward in the
same text, and a call that returns `TOKEN_EOF` returns it without lexeme and
the call after it returns the same token from the same state. -/
theorem lexer_reaches_eof (source : List Char) :
    (∃ result, tokenize source = some result ∧
      ∀ tokens, result = .ok tokens →
        tokens.length ≤ source.length + 1 ∧
        tokens.getLast? = some ⟨TOKEN_EOF, none⟩ ∧
        ∀ token ∈ tokens.dropLast, token.type ≠ TOKEN_EOF)
    ∧ (∀ position token lexer, get_next_token ⟨source, position⟩ = .ok (token, lexer) →
        token.type ≠ TOKEN_EOF → position < lexer.position ∧ lexer.source = source)
    ∧ (∀ position token lexer, get_next_token ⟨source, position⟩ = .ok (token, lexer) →
        token.type = TOKEN_EOF →
          token.value = none ∧ get_next_token lexer = .ok (token, lexer)) := by
  refine ⟨?_, ?_, ?_⟩
  · exact lex_all_total (source.length + 1) (create_lexer source)
      (by simp [remaining, create_lexer])
  · intro position token lexer h hne
    obtain ⟨h1, h2, _⟩ := get_next_token_progress _ _ _ h
    exact ⟨(h2 hne).1, h1⟩
  · intro position token lexer h he
    obtain ⟨_, _, h3⟩ := get_next_token_progress _ _ _ h
    obtain ⟨h4, h5⟩ := h3 he
    exact ⟨by rw [h4], h5⟩

theorem takeWhile_append_stop (p : Char → Bool) (w tail : List Char)
    (hw : ∀ x ∈ w, p x = true) (ht : tail = [] ∨ ∃ tl, tail = ' ' :: tl) (hsp : p ' ' = false) :
    (w ++ tail).takeWhile p = w := by
  induction w with
  | nil =>
    rcases ht with rfl | ⟨tl, rfl⟩
    · simp
    · simp [List.takeWhile, hsp]
  | cons a as ih =>
    have ha : p a = true := hw a (List.mem_cons_self _ _)
    have := ih (fun x hx => hw x (List.mem_cons_of_mem _ hx))
    simp [List.takeWhile, ha, this]

theorem takeWhile_all (p : Char → Bool) (s : List Char) : ∀ x ∈ s.takeWhile p, p x = true := by
  induction s with
  | nil => simp
  | cons a as ih =>
    by_cases h : p a = true
    · simp only [List.takeWhile, h]
      intro x hx
      rcases List.mem_cons.mp hx with rfl | hx
      · exact h
      · exact ih x hx
    · simp [List.takeWhile, h]

theorem space_prefix (pre : List Char) (hpre : pre = [] ∨ pre = [' ']) (c : Char) (rest : List Char)
    (hc : isspace c = false) :
    (pre ++ c :: rest).takeWhile isspace = pre ∧ (pre ++ c :: rest).dropWhile isspace = c :: rest := by
  rcases hpre with rfl | rfl
  · simp [List.takeWhile, List.dropWhile, hc]
  · have : isspace ' ' = true := by decide
    simp [List.takeWhile, List.dropWhile, hc, this]

theorem lex_suffix_relexable (s : List Char) (t : Token) (n : Nat)
    (h : lex_suffix s = .ok (t, n)) (hne : t.type ≠ TOKEN_EOF) : Relexable t := by
  unfold lex_suffix at h
  simp only [] at h
  cases hs : s.dropWhile isspace with
  | nil =>
    rw [hs] at h
    simp only [Except.ok.injEq, Prod.mk.injEq] at h
    obtain ⟨rfl, rfl⟩ := h
    exact absurd rfl hne
  | cons c rest =>
    rw [hs] at h
    have hnsp := head_dropWhile_not isspace s c rest hs
    simp only [] at h
    by_cases hnul : c = NUL
    · simp only [hnul, if_true, Except.ok.injEq, Prod.mk.injEq] at h
      obtain ⟨rfl, rfl⟩ := h
      exact absurd rfl hne
    · simp only [hnul, if_false] at h
      by_cases halpha : isalpha c = true
      · simp only [halpha, if_true, Except.ok.injEq, Prod.mk.injEq] at h
        obtain ⟨rfl, rfl⟩ := h
        refine ⟨c :: rest.takeWhile isalnum, rfl, by simp, fun pre tail hpre htail => ?_⟩
        have htw := takeWhile_append_stop isalnum (rest.takeWhile isalnum) tail
          (takeWhile_all isalnum rest) htail (by decide)
        obtain ⟨h1, h2⟩ := space_prefix pre hpre c (rest.takeWhile isalnum ++ tail) hnsp
        unfold lex_suffix
        simp only [List.append_assoc, List.cons_append, h1, h2, hnul, halpha, if_true, if_false, htw]
      · simp only [halpha, Bool.false_eq_true, if_false] at h
        by_cases hdig : isdigit c = true
        · simp only [hdig, if_true, Except.ok.injEq, Prod.mk.injEq] at h
          obtain ⟨rfl, rfl⟩ := h
          refine ⟨c :: rest.takeWhile isdigit, rfl, by simp, fun pre tail hpre htail => ?_⟩
          have htw := takeWhile_append_stop isdigit (rest.takeWhile isdigit) tail
            (takeWhile_all isdigit rest) htail (by decide)
          obtain ⟨h1, h2⟩ := space_prefix pre hpre c (rest.takeWhile isdigit ++ tail) hnsp
          unfold lex_suffix
          simp only [List.append_assoc, List.cons_append, h1, h2, hnul, halpha, hdig,
            Bool.false_eq_true, if_true, if_false, htw]
        · simp only [hdig, Bool.false_eq_true, if_false] at h
          by_cases heq : c = '='
          · simp only [heq, if_true, Except.ok.injEq, Prod.mk.injEq] at h
            obtain ⟨rfl, rfl⟩ := h
            refine ⟨['=', '='], rfl, by simp, fun pre tail hpre htail => ?_⟩
            obtain ⟨h1, h2⟩ := space_prefix pre hpre '=' ('=' :: tail) (by decide)
            unfold lex_suffix
            simp only [List.append_assoc, List.cons_append, List.nil_append, h1, h2]
            simp [NUL, isalpha, isdigit]
          · simp only [heq, if_false] at h
            cases hop : operator_type c with
            | none => rw [hop] at h; simp at h
            | some type =>
              rw [hop] at h
              simp only [Except.ok.injEq, Prod.mk.injEq] at h
              obtain ⟨rfl, rfl⟩ := h
              refine ⟨[c], rfl, by simp, fun pre tail hpre htail => ?_⟩
              obtain ⟨h1, h2⟩ := space_prefix pre hpre c tail hnsp
              unfold lex_suffix
              simp only [List.append_assoc, List.cons_append, List.nil_append, h1, h2, hnul, halpha,
                hdig, heq, Bool.false_eq_true, if_false, hop, List.length_singleton]


theorem join_lexemes_nil : join_lexemes [] = [] := rfl

theorem join_lexemes_single (t : Token) : join_lexemes [t] = token_text t := by
  simp [join_lexemes, List.intercalate]

theorem join_lexemes_cons_cons (t u : Token) (us : List Token) :
    join_lexemes (t :: u :: us) = token_text t ++ ' ' :: join_lexemes (u :: us) := by
  simp [join_lexemes, List.intercalate]

theorem lex_all_relexable : ∀ (fuel : Nat) (l : Lexer) (tokens : List Token),
    lex_all fuel l = some (.ok tokens) →
    ∃ ts, tokens = ts ++ [⟨TOKEN_EOF, none⟩] ∧ ∀ t ∈ ts, Relexable t := by
  intro fuel
  induction fuel with
  | zero => intro l tokens h; simp [lex_all] at h
  | succ n ih =>
    intro l tokens h
    cases hg : get_next_token l with
    | error msg => simp [lex_all, hg] at h
    | ok r =>
      obtain ⟨t, l2⟩ := r
      by_cases ht : t.type = TOKEN_EOF
      · simp only [lex_all, hg, ht, if_true, Option.some.injEq, Except.ok.injEq] at h
        obtain ⟨_, _, h3⟩ := get_next_token_progress l t l2 hg
        refine ⟨[], ?_, by simp⟩
        rw [← h, (h3 ht).1]; rfl
      · simp only [lex_all, hg, ht, if_false] at h
        cases hr : lex_all n l2 with
        | none => rw [hr] at h; simp at h
        | some r2 =>
          cases r2 with
          | error msg => rw [hr] at h; simp at h
          | ok tokens2 =>
            rw [hr] at h
            simp only [Option.some.injEq, Except.ok.injEq] at h
            obtain ⟨ts, hts, hall⟩ := ih l2 tokens2 hr
            refine ⟨t :: ts, by rw [← h, hts]; rfl, ?_⟩
            intro x hx
            rcases List.mem_cons.mp hx with rfl | hx
            · rw [get_next_token_eq] at hg
              cases hs : lex_suffix (l.source.drop l.position) with
              | error msg => rw [hs] at hg; simp at hg
              | ok r3 =>
                obtain ⟨t3, n3⟩ := r3
                rw [hs] at hg
                simp only [Except.ok.injEq, Prod.mk.injEq] at hg
                rw [← hg.1]
                exact lex_suffix_relexable _ _ _ hs (by rw [hg.1]; exact ht)
            · exact hall x hx

theorem relex_all : ∀ (ts : List Token), (∀ t ∈ ts, Relexable t) →
    ∀ (fuel : Nat) (src : List Char) (pos : Nat) (pre : List Char),
      ts.length < fuel → (pre = [] ∨ pre = [' ']) →
      src.drop pos = pre ++ join_lexemes ts →
      lex_all fuel ⟨src, pos⟩ = some (.ok (ts ++ [⟨TOKEN_EOF, none⟩])) := by
  intro ts
  induction ts with
  | nil =>
    intro _ fuel src pos pre hf hpre hd
    obtain ⟨n, rfl⟩ : ∃ n, fuel = n + 1 := ⟨fuel - 1, by omega⟩
    have hg : get_next_token ⟨src, pos⟩ = .ok (⟨TOKEN_EOF, none⟩, ⟨src, pos + pre.length⟩) := by
      rw [get_next_token_eq]
      simp only [hd, join_lexemes_nil, List.append_nil]
      rcases hpre with rfl | rfl <;> rfl
    simp [lex_all, hg]
  | cons t ts ih =>
    intro hall fuel src pos pre hf hpre hd
    obtain ⟨n, rfl⟩ : ∃ n, fuel = n + 1 := ⟨fuel - 1, by omega⟩
    obtain ⟨cs, hval, hcs, hrelex⟩ := hall t (List.mem_cons_self _ _)
    have htext : token_text t = cs := by simp [token_text, hval]
    have hne : t.type ≠ TOKEN_EOF := by
      intro he
      have h0 := hrelex [] [] (Or.inl rfl) (Or.inl rfl)
      have := (lex_suffix_progress _ _ _ h0).2.1 he
      rw [this.1] at hval
      simp at hval
    have hall2 : ∀ x ∈ ts, Relexable x := fun x hx => hall x (List.mem_cons_of_mem _ hx)
    -- the text after the lexeme of `t`
    obtain ⟨tail, htail, hjoin, hnext⟩ : ∃ tail, (tail = [] ∨ ∃ tl, tail = ' ' :: tl) ∧
        join_lexemes (t :: ts) = cs ++ tail ∧
        ∃ pre2, (pre2 = [] ∨ pre2 = [' ']) ∧ tail = pre2 ++ join_lexemes ts := by
      cases ts with
      | nil =>
        exact ⟨[], Or.inl rfl, by rw [join_lexemes_single, htext]; simp,
          [], Or.inl rfl, by simp [join_lexemes_nil]⟩
      | cons u us =>
        exact ⟨' ' :: join_lexemes (u :: us), Or.inr ⟨_, rfl⟩,
          by rw [join_lexemes_cons_cons, htext], [' '], Or.inr rfl, rfl⟩
    obtain ⟨pre2, hpre2, htail2⟩ := hnext
    have hsuf : src.drop pos = pre ++ cs ++ tail := by
      rw [hd, hjoin, List.append_assoc]
    have hg : get_next_token ⟨src, pos⟩ = .ok (t, ⟨src, pos + (pre.length + cs.length)⟩) := by
      rw [get_next_token_eq]
      simp only [hsuf, hrelex pre tail hpre htail]
    have hd2 : src.drop (pos + (pre.length + cs.length)) = pre2 ++ join_lexemes ts := by
      rw [← List.drop_drop, hsuf, ← htail2]
      have : pre.length + cs.length = (pre ++ cs).length := by simp
      rw [this, List.drop_left]
    have hrec := ih hall2 n src (pos + (pre.length + cs.length)) pre2
      (by simp at hf; omega) hpre2 hd2
    simp [lex_all, hg, hne, hrec]

theorem length_le_join_lexemes : ∀ (ts : List Token), (∀ t ∈ ts, Relexable t) →
    ts.length ≤ (join_lexemes ts).length := by
  intro ts
  induction ts with
  | nil => intro _; simp
  | cons t ts ih =>
    intro hall
    obtain ⟨cs, hval, hcs, _⟩ := hall t (List.mem_cons_self _ _)
    have htext : token_text t = cs := by simp [token_text, hval]
    have hpos : 0 < cs.length := List.length_pos.mpr hcs
    have := ih (fun x hx => hall x (List.mem_cons_of_mem _ hx))
    cases ts with
    | nil => rw [join_lexemes_single, htext]; simpa using hpos
    | cons u us =>
      rw [join_lexemes_cons_cons, htext]
      simp only [List.length_append, List.length_cons] at this ⊢
      omega

/-- C7.  When lexing a source text succeeds with the tokens t1..tk followed
by `TOKEN_EOF`, lexing the lexemes of t1..tk joined with single spaces
succeeds with the same tokens (tags and lexemes) followed by `TOKEN_EOF`. -/
theorem lex_join_roundtrip (source : List Char) (tokens : List Token)
    (h : tokenize source = some (.ok tokens)) :
    tokenize (join_lexemes tokens.dropLast) = some (.ok tokens) := by
  obtain ⟨ts, hts, hall⟩ := lex_all_relexable _ _ _ h
  subst hts
  rw [List.dropLast_concat]
  unfold tokenize create_lexer
  exact relex_all ts hall _ _ 0 [] (by have := length_le_join_lexemes ts hall; omega)
    (Or.inl rfl) (by simp)

/-- Witness for C7: `int x=1+ 2;` lexes to six tokens (`=1` is read as `==`),
and their lexemes joined with spaces, `int x == + 2 ;`, lex to the same six
tokens. -/
theorem lex_join_roundtrip_witness :
    tokenize "int x=1+ 2;".toList
      = some (.ok [⟨TOKEN_KEYWORD, some "int"⟩, ⟨TOKEN_IDENTIFIER, some "x"⟩,
          ⟨TOKEN_EQUALS, some "=="⟩, ⟨TOKEN_PLUS, some "+"⟩, ⟨TOKEN_NUMBER, some "2"⟩,
          ⟨TOKEN_SEMICOLON, some ";"⟩, ⟨TOKEN_EOF, none⟩])
    ∧ tokenize "int x == + 2 ;".toList
      = some (.ok [⟨TOKEN_KEYWORD, some "int"⟩, ⟨TOKEN_IDENTIFIER, some "x"⟩,
          ⟨TOKEN_EQUALS, some "=="⟩, ⟨TOKEN_PLUS, some "+"⟩, ⟨TOKEN_NUMBER, some "2"⟩,
          ⟨TOKEN_SEMICOLON, some ";"⟩, ⟨TOKEN_EOF, none⟩]) :=
  ⟨rfl, lex_join_roundtrip "int x=1+ 2;".toList _ rfl⟩

/-! ## End-to-end scenarios -/

/-- C1 (code defect).  On the source `int main() { return 42; }` the lexer
tags the word `return` as `TOKEN_KEYWORD`, so `parse_statement` takes the
variable-declaration branch and `parse` stops with `Unexpected token type: 2`
on the number 42, whatever the fuel; no assembly is produced. -/
theorem pipeline_return_42_stops_in_parse :
    tokenize "int main() \x7b return 42; \x7d".toList
      = some (.ok [⟨TOKEN_KEYWORD, some "int"⟩, ⟨TOKEN_IDENTIFIER, some "main"⟩,
          ⟨TOKEN_LPAREN, some "("⟩, ⟨TOKEN_RPAREN, some ")"⟩,
          ⟨TOKEN_LBRACE, some "\x7b"⟩, ⟨TOKEN_KEYWORD, some "return"⟩,
          ⟨TOKEN_NUMBER, some "42"⟩, ⟨TOKEN_SEMICOLON, some ";"⟩,
          ⟨TOKEN_RBRACE, some "\x7d"⟩, ⟨TOKEN_EOF, none⟩])
    ∧ (∀ (stale : Token → TokenType) (fuel : Nat),
        parse_source stale (fuel + 5) "int main() \x7b return 42; \x7d".toList
          = .error "Unexpected token type: 2")
    ∧ ¬ ∃ stale fuel ast parser,
        parse_source stale fuel "int main() \x7b return 42; \x7d".toList = .ok ast parser := by
  refine ⟨rfl, fun _ _ => rfl, ?_⟩
  rintro ⟨stale, fuel, ast, parser, h⟩
  rcases fuel with _ | _ | _ | _ | _ | fuel <;> exact PResult.noConfusion h

/-- C2 (counterexample).  On the source
`int main() { int x = 2 + 3 * 4; return x; }` no IR is reached, since `parse`
succeeds for no fuel; and on the tree of that program `generate_ir` emits the
entry label of `main` only, which constant folding leaves as it is: there is
no `ASSIGN x ← 14`. -/
theorem initializer_not_single_assign :
    (¬ ∃ stale fuel ast parser,
        parse_source stale fuel "int main() \x7b int x = 2 + 3 * 4; return x; \x7d".toList
          = .ok ast parser)
    ∧ constant_folding (generate_ir create_ir_program program_x_14)
        = some (.ok
            { instructions :=
                [{ op := IR_LABEL, dest := none, src1 := none, src2 := none,
                   label := some { name := "main", number := -1 }, value := 0 }],
              temp_count := 0, label_count := 0 }) := by
  refine ⟨?_, rfl⟩
  rintro ⟨stale, fuel, ast, parser, h⟩
  rcases fuel with _ | _ | _ | _ | _ | fuel <;> exact PResult.noConfusion h

/-- C2 (amended).  For the initializer expression `2 + 3 * 4`, that is the tree
`BinaryOp(+, 2, BinaryOp(*, 3, 4))`, `generate_expression_ir` on the empty
program returns the operand `t4`, and `constant_folding` turns the five
instructions into the immediate assignments `t0 ← 2`, `t1 ← 3`, `t2 ← 4`,
`t3 ← 12`, `t4 ← 14`: no arithmetic instruction is left and the operand of the
initializer is defined by the immediate 14, the temporaries being kept. -/
theorem initializer_folds_to_14 :
    ∃ program,
      generate_expression_ir create_ir_program
          (.BinaryOp '+' (.Number 2) (.BinaryOp '*' (.Number 3) (.Number 4)))
        = .ok ("t4", program)
      ∧ program.instructions.map (fun instr => instr.op)
          = [IR_ASSIGN, IR_ASSIGN, IR_ASSIGN, IR_MUL, IR_ADD]
      ∧ constant_folding program
          = some (.ok
              { instructions :=
                  [assign_immediate "t0" 2, assign_immediate "t1" 3,
                   assign_immediate "t2" 4, assign_immediate "t3" 12,
                   assign_immediate "t4" 14],
                temp_count := 5, label_count := 0 }) :=
  ⟨_, rfl, rfl, rfl⟩

/-! ## Lexer: the tags of words and operators -/

/-- C3 (code defect).  The words `return`, `if` and `else` come back with the
tag `TOKEN_KEYWORD` and the word `while` with the tag `TOKEN_IDENTIFIER`: the
first `isalpha` block of `get_next_token` returns before the block that knows
the tags `TOKEN_RETURN`, `TOKEN_IF`, `TOKEN_ELSE`, `TOKEN_WHILE`. -/
theorem keyword_tags_collapse :
    get_next_token (create_lexer "return".toList)
      = .ok (⟨TOKEN_KEYWORD, some "return"⟩, ⟨"return".toList, 6⟩)
    ∧ get_next_token (create_lexer "if".toList)
      = .ok (⟨TOKEN_KEYWORD, some "if"⟩, ⟨"if".toList, 2⟩)
    ∧ get_next_token (create_lexer "else".toList)
      = .ok (⟨TOKEN_KEYWORD, some "else"⟩, ⟨"else".toList, 4⟩)
    ∧ get_next_token (create_lexer "while".toList)
      = .ok (⟨TOKEN_IDENTIFIER, some "while"⟩, ⟨"while".toList, 5⟩) :=
  ⟨rfl, rfl, rfl, rfl⟩

/-- C4 (code defect).  On every text that starts with `=`, whatever follows,
`get_next_token` returns `TOKEN_EQUALS` with the lexeme `==` and steps over
two characters (one when the text ends there): the test
`peek(lexer) == '='` looks at the `=` itself.  `TOKEN_ASSIGN` is not
returned. -/
theorem single_equals_lexed_as_equals (rest : List Char) :
    get_next_token (create_lexer ('=' :: rest))
      = .ok (⟨TOKEN_EQUALS, some "=="⟩,
             ⟨'=' :: rest, min 2 (rest.length + 1)⟩) := by
  cases rest with
  | nil => rfl
  | cons c cs =>
    simp [get_next_token, create_lexer, skip_whitespace, remaining, advance_while,
      peek, advance, isspace, isalpha, isdigit, NUL]

/-- C5 (code defect).  Of the two-character operators only `==` is
recognised.  On `!=` the lexer fails with `Unknown token: !`; on `<=` and `>=`
it returns the one-character tokens `<` and `>` and consumes one character:
the tests `peek(lexer) == '='` compare the first character, not the second. -/
theorem two_char_operators_not_recognised :
    get_next_token (create_lexer "== b".toList)
      = .ok (⟨TOKEN_EQUALS, some "=="⟩, ⟨"== b".toList, 2⟩)
    ∧ get_next_token (create_lexer "!= b".toList) = .error "Unknown token: !"
    ∧ get_next_token (create_lexer "<= b".toList)
      = .ok (⟨TOKEN_LESS, some "<"⟩, ⟨"<= b".toList, 1⟩)
    ∧ get_next_token (create_lexer ">= b".toList)
      = .ok (⟨TOKEN_GREATER, some ">"⟩, ⟨">= b".toList, 1⟩) :=
  ⟨rfl, rfl, rfl, rfl⟩

/-! ## Parser: expressions -/

theorem expr_mono_zero (stale : Token → TokenType) : ExprMono stale 0 := by
  refine ⟨?_, ?_, ?_, ?_, ?_, ?_, ?_⟩ <;> intros <;> exact Or.inl rfl

theorem below_eat {β : Type} (x : Except String Parser) (k k2 : Parser → PResult β) :
    (∀ p, (k p).below (k2 p)) →
    PResult.below
      (match x with
        | .error msg => .error msg
        | .ok p => k p)
      (match x with
        | .error msg => .error msg
        | .ok p => k2 p) := by
  intro hk
  cases x with
  | error msg => exact Or.inr rfl
  | ok p => exact hk p

theorem expr_mono_succ (stale : Token → TokenType) (n : Nat) (ih : ExprMono stale n) :
    ExprMono stale (n + 1) := by
  obtain ⟨hf, htl, ht, hel, he, ha, hc⟩ := ih
  refine ⟨?_, ?_, ?_, ?_, ?_, ?_, ?_⟩
  · -- parse_factor
    intro p
    rw [parse_factor, parse_factor]
    by_cases h1 : p.current_token.type = TOKEN_NUMBER
    · simp only [h1, if_true]; exact Or.inr rfl
    · simp only [h1, if_false]
      by_cases h2 : p.current_token.type = TOKEN_IDENTIFIER
      · simp only [h2, if_true]
        cases p.current_token.value with
        | none => exact Or.inr rfl
        | some name =>
          refine below_eat _ _ _ (fun p2 => ?_)
          by_cases h4 : p2.current_token.type = TOKEN_LPAREN
          · simp only [h4, if_true]; exact hc p2 name
          · simp only [h4, if_false]; exact Or.inr rfl
      · simp only [h2, if_false]
        by_cases h3 : p.current_token.type = TOKEN_LPAREN
        · simp only [h3, if_true]
          refine below_eat _ _ _ (fun p2 => ?_)
          rcases he p2 with h | h
          · rw [h]; exact Or.inl rfl
          · rw [← h]
            cases parse_expression stale n p2 with
            | error msg => exact Or.inr rfl
            | timeout => exact Or.inl rfl
            | ok a p3 =>
              dsimp only
              exact Or.inr rfl
        · simp only [h3, if_false]; exact Or.inr rfl
  · -- parse_term_loop
    intro node p
    rw [parse_term_loop, parse_term_loop]
    by_cases h1 : p.current_token.type = TOKEN_MULTIPLY ∨ p.current_token.type = TOKEN_DIVIDE
    · rw [if_pos h1, if_pos h1]
      refine below_eat _ _ _ (fun p2 => ?_)
      rcases hf p2 with h | h
      · rw [h]; exact Or.inl rfl
      · rw [← h]
        cases parse_factor stale n p2 with
        | error msg => exact Or.inr rfl
        | timeout => exact Or.inl rfl
        | ok a p3 =>
          dsimp only
          exact htl _ p3
    · rw [if_neg h1, if_neg h1]; exact Or.inr rfl
  · -- parse_term
    intro p
    rw [parse_term, parse_term]
    rcases hf p with h | h
    · rw [h]; exact Or.inl rfl
    · rw [← h]
      cases parse_factor stale n p with
      | error msg => exact Or.inr rfl
      | timeout => exact Or.inl rfl
      | ok a p3 =>
        dsimp only
        exact htl _ p3
  · -- parse_expression_loop
    intro node p
    rw [parse_expression_loop, parse_expression_loop]
    by_cases h1 : p.current_token.type = TOKEN_PLUS ∨ p.current_token.type = TOKEN_MINUS
    · rw [if_pos h1, if_pos h1]
      refine below_eat _ _ _ (fun p2 => ?_)
      rcases ht p2 with h | h
      · rw [h]; exact Or.inl rfl
      · rw [← h]
        cases parse_term stale n p2 with
        | error msg => exact Or.inr rfl
        | timeout => exact Or.inl rfl
        | ok a p3 =>
          dsimp only
          exact hel _ p3
    · rw [if_neg h1, if_neg h1]; exact Or.inr rfl
  · -- parse_expression
    intro p
    rw [parse_expression, parse_expression]
    rcases ht p with h | h
    · rw [h]; exact Or.inl rfl
    · rw [← h]
      cases parse_term stale n p with
      | error msg => exact Or.inr rfl
      | timeout => exact Or.inl rfl
      | ok a p3 =>
        dsimp only
        exact hel _ p3
  · -- parse_arguments
    intro args p
    rw [parse_arguments, parse_arguments]
    by_cases h1 : p.current_token.type ≠ TOKEN_RPAREN
    · rw [if_pos h1, if_pos h1]
      refine below_eat _ _ _ (fun p2 => ?_)
      rcases he p2 with h | h
      · rw [h]; exact Or.inl rfl
      · rw [← h]
        cases parse_expression stale n p2 with
        | error msg => exact Or.inr rfl
        | timeout => exact Or.inl rfl
        | ok a p3 =>
          dsimp only
          by_cases h2 : args.length ≥ 10
          · rw [if_pos h2, if_pos h2]; exact Or.inr rfl
          · rw [if_neg h2, if_neg h2]; exact ha _ p3
    · rw [if_neg h1, if_neg h1]; exact Or.inr rfl
  · -- parse_function_call
    intro p name
    rw [parse_function_call, parse_function_call]
    refine below_eat _ _ _ (fun p2 => ?_)
    rcases ha [] p2 with h | h
    · rw [h]; exact Or.inl rfl
    · rw [← h]
      cases parse_arguments stale n [] p2 with
      | error msg => exact Or.inr rfl
      | timeout => exact Or.inl rfl
      | ok a p3 =>
        dsimp only
        exact Or.inr rfl

theorem expr_mono (stale : Token → TokenType) : ∀ n, ExprMono stale n
  | 0 => expr_mono_zero stale
  | n + 1 => expr_mono_succ stale n (expr_mono stale n)

theorem below_le {α : Type} (g : Nat → PResult α) (hg : ∀ n, (g n).below (g (n + 1)))
    (f f2 : Nat) (hle : f ≤ f2) (r : PResult α) (hr : g f = r) (hne : r ≠ .timeout) :
    g f2 = r := by
  induction hle with
  | refl => exact hr
  | step _ ih =>
    rcases hg _ with h | h
    · rw [ih] at h; exact absurd h hne
    · rw [← h]; exact ih

theorem parse_factor_mono (stale : Token → TokenType) (p : Parser) (f f2 : Nat) (hle : f ≤ f2)
    (r : PResult ASTNode) (hr : parse_factor stale f p = r) (hne : r ≠ .timeout) :
    parse_factor stale f2 p = r :=
  below_le (fun n => parse_factor stale n p) (fun n => (expr_mono stale n).1 p) f f2 hle r hr hne

theorem parse_term_loop_mono (stale : Token → TokenType) (node : ASTNode) (p : Parser)
    (f f2 : Nat) (hle : f ≤ f2)
    (r : PResult ASTNode) (hr : parse_term_loop stale f node p = r) (hne : r ≠ .timeout) :
    parse_term_loop stale f2 node p = r :=
  below_le (fun n => parse_term_loop stale n node p) (fun n => (expr_mono stale n).2.1 node p)
    f f2 hle r hr hne

theorem parse_term_mono (stale : Token → TokenType) (p : Parser) (f f2 : Nat) (hle : f ≤ f2)
    (r : PResult ASTNode) (hr : parse_term stale f p = r) (hne : r ≠ .timeout) :
    parse_term stale f2 p = r :=
  below_le (fun n => parse_term stale n p) (fun n => (expr_mono stale n).2.2.1 p) f f2 hle r hr hne

theorem parse_expression_loop_mono (stale : Token → TokenType) (node : ASTNode) (p : Parser)
    (f f2 : Nat) (hle : f ≤ f2)
    (r : PResult ASTNode) (hr : parse_expression_loop stale f node p = r) (hne : r ≠ .timeout) :
    parse_expression_loop stale f2 node p = r :=
  below_le (fun n => parse_expression_loop stale n node p)
    (fun n => (expr_mono stale n).2.2.2.1 node p) f f2 hle r hr hne

theorem parse_expression_mono (stale : Token → TokenType) (p : Parser) (f f2 : Nat) (hle : f ≤ f2)
    (r : PResult ASTNode) (hr : parse_expression stale f p = r) (hne : r ≠ .timeout) :
    parse_expression stale f2 p = r :=
  below_le (fun n => parse_expression stale n p) (fun n => (expr_mono stale n).2.2.2.2.1 p)
    f f2 hle r hr hne

theorem lexesTo_append (ts1 ts2 : List Token) : ∀ (l l2 : Lexer),
    LexesTo l (ts1 ++ ts2) l2 → ∃ l1, LexesTo l ts1 l1 ∧ LexesTo l1 ts2 l2 := by
  induction ts1 with
  | nil => intro l l2 h; exact ⟨l, rfl, h⟩
  | cons t ts ih =>
    intro l l2 h
    obtain ⟨la, hg, hrest⟩ := h
    obtain ⟨l1, h1, h2⟩ := ih la l2 hrest
    exact ⟨l1, ⟨la, hg, h1⟩, h2⟩

theorem derives_ne_nil {level : Level} {tokens : List Token} {tree : ASTNode}
    (h : Derives level tokens tree) : tokens ≠ [] := by
  induction h with
  | number => simp
  | identifier => simp
  | paren => simp
  | factor _ _ _ ih => exact ih
  | multiply => simp
  | divide => simp
  | term _ _ _ ih => exact ih
  | plus => simp
  | minus => simp

theorem eat_at (p p2 : Parser) (type : TokenType) (hty : p.current_token.type = type)
    (hat : At p.lexer p2) : parser_eat p type = .ok p2 := by
  unfold At at hat
  simp [parser_eat, hty, hat]

/-- Splitting what the parser reads at an operator: the parser on the
operator, and the parser on the first token after it. -/
theorem reads_split (p : Parser) (ts1 ts2 : List Token) (op : Token) (l2 : Lexer)
    (h1 : ts1 ≠ []) (h2 : ts2 ≠ []) (h : Reads p (ts1 ++ op :: ts2) l2) :
    ∃ (l1 : Lexer) (pop pnext : Parser),
      Reads p ts1 l1 ∧ At l1 pop ∧ pop.current_token = op ∧
      At pop.lexer pnext ∧ Reads pnext ts2 l2 := by
  obtain ⟨rest, hcons, hlex⟩ := h
  obtain ⟨t1, r1, rfl⟩ := List.exists_cons_of_ne_nil h1
  obtain ⟨t2, r2, rfl⟩ := List.exists_cons_of_ne_nil h2
  simp only [List.cons_append, List.cons.injEq] at hcons
  obtain ⟨rfl, rfl⟩ := hcons
  obtain ⟨l1, ha, hb⟩ := lexesTo_append r1 (op :: t2 :: r2) _ _ hlex
  obtain ⟨lop, hgop, hc⟩ := hb
  obtain ⟨lnext, hgnext, hd⟩ := hc
  exact ⟨l1, ⟨lop, op⟩, ⟨lnext, t2⟩, ⟨r1, rfl, ha⟩, hgop, rfl, hgnext, ⟨r2, rfl, hd⟩⟩

theorem term_loop_stop (stale : Token → TokenType) (tree : ASTNode) (p : Parser)
    (h1 : p.current_token.type ≠ TOKEN_MULTIPLY) (h2 : p.current_token.type ≠ TOKEN_DIVIDE) :
    parse_term_loop stale 1 tree p = .ok tree p := by
  rw [parse_term_loop]
  simp [h1, h2]

theorem expression_loop_stop (stale : Token → TokenType) (tree : ASTNode) (p : Parser)
    (h1 : p.current_token.type ≠ TOKEN_PLUS) (h2 : p.current_token.type ≠ TOKEN_MINUS) :
    parse_expression_loop stale 1 tree p = .ok tree p := by
  rw [parse_expression_loop]
  simp [h1, h2]

theorem term_loop_step (stale : Token → TokenType) (hstale : ∀ t, stale t = t.type)
    (left right : ASTNode) (pop pnext p2 : Parser) (c : Char)
    (hop : (pop.current_token.type = TOKEN_MULTIPLY ∧ c = '*') ∨
           (pop.current_token.type = TOKEN_DIVIDE ∧ c = '/'))
    (hnext : At pop.lexer pnext) (m : Nat)
    (hright : parse_factor stale m pnext = .ok right p2) :
    parse_term_loop stale (m + 1) left pop
      = parse_term_loop stale m (.BinaryOp c left right) p2 := by
  rw [parse_term_loop]
  rcases hop with ⟨hty, rfl⟩ | ⟨hty, rfl⟩
  · simp [hty, hstale, eat_at pop pnext _ hty hnext, hright]
  · simp [hty, hstale, eat_at pop pnext _ hty hnext, hright]

theorem expression_loop_step (stale : Token → TokenType) (hstale : ∀ t, stale t = t.type)
    (left right : ASTNode) (pop pnext p2 : Parser) (c : Char)
    (hop : (pop.current_token.type = TOKEN_PLUS ∧ c = '+') ∨
           (pop.current_token.type = TOKEN_MINUS ∧ c = '-'))
    (hnext : At pop.lexer pnext) (m : Nat)
    (hright : parse_term stale m pnext = .ok right p2) :
    parse_expression_loop stale (m + 1) left pop
      = parse_expression_loop stale m (.BinaryOp c left right) p2 := by
  rw [parse_expression_loop]
  rcases hop with ⟨hty, rfl⟩ | ⟨hty, rfl⟩
  · simp [hty, hstale, eat_at pop pnext _ hty hnext, hright]
  · simp [hty, hstale, eat_at pop pnext _ hty hnext, hright]

/-- A term followed by an operator of its level and a factor. -/
theorem goal_term_step (stale : Token → TokenType) (hstale : ∀ t, stale t = t.type)
    (left right : ASTNode) (p pop pnext p2 : Parser) (c : Char)
    (hop : (pop.current_token.type = TOKEN_MULTIPLY ∧ c = '*') ∨
           (pop.current_token.type = TOKEN_DIVIDE ∧ c = '/'))
    (hnext : At pop.lexer pnext)
    (ih1 : Goal stale .term left p pop) (ih2 : Goal stale .factor right pnext p2) :
    Goal stale .term (.BinaryOp c left right) p p2 := by
  intro hlp r hr hloop
  obtain ⟨f1, hloop⟩ := hloop
  obtain ⟨k, hk⟩ := ih2 hlp
  have hpop : pop.current_token.type ≠ TOKEN_LPAREN := by
    rcases hop with ⟨h, _⟩ | ⟨h, _⟩ <;> rw [h] <;> decide
  refine ih1 hpop r hr ⟨max k f1 + 1, ?_⟩
  rw [term_loop_step stale hstale left right pop pnext p2 c hop hnext _
    (hk _ (Nat.le_max_left k f1))]
  exact parse_term_loop_mono stale _ p2 f1 _ (Nat.le_max_right k f1) r hloop hr

/-- An expression followed by an operator of its level and a term. -/
theorem goal_expression_step (stale : Token → TokenType) (hstale : ∀ t, stale t = t.type)
    (left right : ASTNode) (p pop pnext p2 : Parser) (c : Char)
    (hop : (pop.current_token.type = TOKEN_PLUS ∧ c = '+') ∨
           (pop.current_token.type = TOKEN_MINUS ∧ c = '-'))
    (hnext : At pop.lexer pnext)
    (ih1 : Goal stale .expression left p pop) (ih2 : Goal stale .term right pnext p2) :
    Goal stale .expression (.BinaryOp c left right) p p2 := by
  intro hlp hm hd r hr hloop
  obtain ⟨f1, hloop⟩ := hloop
  obtain ⟨f0, hf0⟩ := ih2 hlp (.ok right p2) (by simp)
    ⟨1, term_loop_stop stale right p2 hm hd⟩
  have hpop : pop.current_token.type ≠ TOKEN_LPAREN ∧ pop.current_token.type ≠ TOKEN_MULTIPLY
      ∧ pop.current_token.type ≠ TOKEN_DIVIDE := by
    rcases hop with ⟨h, _⟩ | ⟨h, _⟩ <;> rw [h] <;> decide
  refine ih1 hpop.1 hpop.2.1 hpop.2.2 r hr ⟨max f0 f1 + 1, ?_⟩
  rw [expression_loop_step stale hstale left right pop pnext p2 c hop hnext _
    (parse_term_mono stale pnext f0 _ (Nat.le_max_left f0 f1) _ hf0 (by simp))]
  exact parse_expression_loop_mono stale _ p2 f1 _ (Nat.le_max_right f0 f1) r hloop hr

theorem derives_goal (stale : Token → TokenType) (hstale : ∀ t, stale t = t.type)
    {level : Level} {tokens : List Token} {tree : ASTNode} (hd : Derives level tokens tree) :
    ∀ (p : Parser) (l2 : Lexer) (p2 : Parser),
      Reads p tokens l2 → At l2 p2 → Goal stale level tree p p2 := by
  induction hd with
  | number digits =>
    intro p l2 p2 hr hat hlp
    obtain ⟨rest, hcons, hlex⟩ := hr
    simp only [List.cons.injEq] at hcons
    obtain ⟨htok, hrest⟩ := hcons
    subst hrest
    have hl : l2 = p.lexer := hlex
    subst hl
    refine ⟨1, fun f hf => ?_⟩
    obtain ⟨n, rfl⟩ : ∃ n, f = n + 1 := ⟨f - 1, by omega⟩
    have hty : p.current_token.type = TOKEN_NUMBER := by rw [← htok]
    have hval : p.current_token.value = some digits := by rw [← htok]
    rw [parse_factor]
    simp [hty, parse_number, hval, eat_at p p2 _ hty hat]
  | identifier name =>
    intro p l2 p2 hr hat hlp
    obtain ⟨rest, hcons, hlex⟩ := hr
    simp only [List.cons.injEq] at hcons
    obtain ⟨htok, hrest⟩ := hcons
    subst hrest
    have hl : l2 = p.lexer := hlex
    subst hl
    refine ⟨1, fun f hf => ?_⟩
    obtain ⟨n, rfl⟩ : ∃ n, f = n + 1 := ⟨f - 1, by omega⟩
    have hty : p.current_token.type = TOKEN_IDENTIFIER := by rw [← htok]
    have hval : p.current_token.value = some name := by rw [← htok]
    rw [parse_factor]
    simp [hty, hval, eat_at p p2 _ hty hat, hlp]
  | paren lp rp tokens tree hlpt hrpt hd ih =>
    intro p l2 p2 hr hat hlp
    obtain ⟨rest, hcons, hlex⟩ := hr
    simp only [List.cons_append, List.cons.injEq] at hcons
    obtain ⟨htok, hrest⟩ := hcons
    subst hrest
    obtain ⟨l1, hl1, hl2⟩ := lexesTo_append tokens [rp] _ _ hlex
    obtain ⟨lrp, hgrp, hend⟩ := hl2
    have hend2 : l2 = lrp := hend
    subst hend2
    obtain ⟨t, r, rfl⟩ := List.exists_cons_of_ne_nil (derives_ne_nil hd)
    obtain ⟨la, hga, hla⟩ := hl1
    have hty : p.current_token.type = TOKEN_LPAREN := by rw [← htok]; exact hlpt
    have hreads : Reads ⟨la, t⟩ (t :: r) l1 := ⟨r, rfl, hla⟩
    have hatrp : At l1 ⟨l2, rp⟩ := hgrp
    have hgoal := ih ⟨la, t⟩ l1 ⟨l2, rp⟩ hreads hatrp
    have hrp : (⟨l2, rp⟩ : Parser).current_token.type = TOKEN_RPAREN := hrpt
    obtain ⟨f0, hf0⟩ := hgoal (by rw [hrp]; decide) (by rw [hrp]; decide) (by rw [hrp]; decide)
      (.ok tree ⟨l2, rp⟩) (by simp)
      ⟨1, expression_loop_stop stale tree _ (by rw [hrp]; decide) (by rw [hrp]; decide)⟩
    refine ⟨f0 + 1, fun f hf => ?_⟩
    obtain ⟨n, rfl⟩ : ∃ n, f = n + 1 := ⟨f - 1, by omega⟩
    have hexp := parse_expression_mono stale ⟨la, t⟩ f0 n (by omega) _ hf0 (by simp)
    have heat1 : parser_eat p TOKEN_LPAREN = .ok ⟨la, t⟩ := eat_at p ⟨la, t⟩ _ hty hga
    have heat2 : parser_eat ⟨l2, rp⟩ TOKEN_RPAREN = .ok p2 := eat_at ⟨l2, rp⟩ p2 _ hrp hat
    rw [parse_factor]
    simp [hty, heat1, hexp, heat2]
  | factor tokens tree hd ih =>
    intro p l2 p2 hr hat hlp r hne hloop
    obtain ⟨f1, hloop⟩ := hloop
    obtain ⟨k, hk⟩ := ih p l2 p2 hr hat hlp
    refine ⟨max k f1 + 1, ?_⟩
    rw [parse_term, hk _ (Nat.le_max_left k f1)]
    exact parse_term_loop_mono stale _ p2 f1 _ (Nat.le_max_right k f1) r hloop hne
  | multiply op tokens1 tokens2 left right hop hd1 hd2 ih1 ih2 =>
    intro p l2 p2 hr hat
    obtain ⟨l1, pop, pnext, hr1, hatop, hpop, hnext, hr2⟩ :=
      reads_split p tokens1 tokens2 op l2 (derives_ne_nil hd1) (derives_ne_nil hd2) hr
    exact goal_term_step stale hstale left right p pop pnext p2 '*'
      (Or.inl ⟨by rw [hpop]; exact hop, rfl⟩) hnext
      (ih1 p l1 pop hr1 hatop) (ih2 pnext l2 p2 hr2 hat)
  | divide op tokens1 tokens2 left right hop hd1 hd2 ih1 ih2 =>
    intro p l2 p2 hr hat
    obtain ⟨l1, pop, pnext, hr1, hatop, hpop, hnext, hr2⟩ :=
      reads_split p tokens1 tokens2 op l2 (derives_ne_nil hd1) (derives_ne_nil hd2) hr
    exact goal_term_step stale hstale left right p pop pnext p2 '/'
      (Or.inr ⟨by rw [hpop]; exact hop, rfl⟩) hnext
      (ih1 p l1 pop hr1 hatop) (ih2 pnext l2 p2 hr2 hat)
  | term tokens tree hd ih =>
    intro p l2 p2 hr hat hlp hm hdv r hne hloop
    obtain ⟨f1, hloop⟩ := hloop
    obtain ⟨f0, hf0⟩ := ih p l2 p2 hr hat hlp (.ok tree p2) (by simp)
      ⟨1, term_loop_stop stale tree p2 hm hdv⟩
    refine ⟨max f0 f1 + 1, ?_⟩
    rw [parse_expression,
      parse_term_mono stale p f0 _ (Nat.le_max_left f0 f1) _ hf0 (by simp)]
    exact parse_expression_loop_mono stale _ p2 f1 _ (Nat.le_max_right f0 f1) r hloop hne
  | plus op tokens1 tokens2 left right hop hd1 hd2 ih1 ih2 =>
    intro p l2 p2 hr hat
    obtain ⟨l1, pop, pnext, hr1, hatop, hpop, hnext, hr2⟩ :=
      reads_split p tokens1 tokens2 op l2 (derives_ne_nil hd1) (derives_ne_nil hd2) hr
    exact goal_expression_step stale hstale left right p pop pnext p2 '+'
      (Or.inl ⟨by rw [hpop]; exact hop, rfl⟩) hnext
      (ih1 p l1 pop hr1 hatop) (ih2 pnext l2 p2 hr2 hat)
  | minus op tokens1 tokens2 left right hop hd1 hd2 ih1 ih2 =>
    intro p l2 p2 hr hat
    obtain ⟨l1, pop, pnext, hr1, hatop, hpop, hnext, hr2⟩ :=
      reads_split p tokens1 tokens2 op l2 (derives_ne_nil hd1) (derives_ne_nil hd2) hr
    exact goal_expression_step stale hstale left right p pop pnext p2 '-'
      (Or.inr ⟨by rw [hpop]; exact hop, rfl⟩) hnext
      (ih1 p l1 pop hr1 hatop) (ih2 pnext l2 p2 hr2 hat)

theorem at_of_create (lexer : Lexer) (parser : Parser)
    (h : create_parser_from lexer = .ok parser) : At lexer parser := by
  unfold create_parser_from at h
  unfold At
  cases hg : get_next_token lexer with
  | error msg => rw [hg] at h; simp at h
  | ok r =>
    obtain ⟨t, l⟩ := r
    rw [hg] at h
    simp only [Except.ok.injEq] at h
    rw [← h]

/-- What `parse_expression` would build if the tag of a token could still be
read after `parser_eat` has freed the token (`hstale`).  For every token
sequence that the expression grammar derives as an expression (operands are
numbers, identifiers or expressions in parentheses; `*` and `/` combine a term
with a factor, `+` and `-` an expression with a term, so both levels associate
to the left and the multiplicative one binds tighter), `parse_expression`,
started on a parser that has read the first token and followed by a token that
is no operator and no `(`, then returns the tree of the derivation and stops
on that token, for every sufficient fuel. -/
theorem parse_expression_builds_grammar_tree
    (stale : Token → TokenType) (hstale : ∀ token, stale token = token.type)
    (tokens : List Token) (tree : ASTNode) (hd : Derives .expression tokens tree)
    (lexer lexer2 : Lexer) (hlex : LexesTo lexer tokens lexer2)
    (parser parser2 : Parser)
    (hp : create_parser_from lexer = .ok parser)
    (hp2 : create_parser_from lexer2 = .ok parser2)
    (hstop : parser2.current_token.type ∉
      [TOKEN_PLUS, TOKEN_MINUS, TOKEN_MULTIPLY, TOKEN_DIVIDE, TOKEN_LPAREN]) :
    ∃ fuel0, ∀ fuel, fuel0 ≤ fuel → parse_expression stale fuel parser = .ok tree parser2 := by
  have hat := at_of_create lexer parser hp
  have hat2 := at_of_create lexer2 parser2 hp2
  obtain ⟨t, rest, rfl⟩ := List.exists_cons_of_ne_nil (derives_ne_nil hd)
  obtain ⟨l1, hg, hrest⟩ := hlex
  unfold At at hat
  rw [hg] at hat
  simp only [Except.ok.injEq, Prod.mk.injEq] at hat
  have hreads : Reads parser (t :: rest) lexer2 := ⟨rest, by rw [hat.1], by rw [← hat.2]; exact hrest⟩
  simp only [List.mem_cons, List.mem_singleton, List.not_mem_nil, or_false, not_or] at hstop
  obtain ⟨h1, h2, h3, h4, h5⟩ := hstop
  obtain ⟨f0, hf0⟩ := derives_goal stale hstale hd parser lexer2 parser2 hreads hat2 h5 h3 h4
    (.ok tree parser2) (by simp) ⟨1, expression_loop_stop stale tree parser2 h1 h2⟩
  exact ⟨f0, fun f hf => parse_expression_mono stale parser f0 f hf _ hf0 (by simp)⟩

/-- The three expressions `2 + 3 * 4`, `a - b - c` and `(a + b) * c`, lexed
and parsed from their source text, when the read of a freed token returns the
tag that the token held. -/
theorem parse_expression_builds_grammar_tree_witness :
    (∃ fuel0, ∀ fuel, fuel0 ≤ fuel →
      parse_expression_source Token.type fuel "2 + 3 * 4".toList
        = .ok (.BinaryOp '+' (.Number 2) (.BinaryOp '*' (.Number 3) (.Number 4)))
            ⟨⟨"2 + 3 * 4".toList, 9⟩, ⟨TOKEN_EOF, none⟩⟩)
    ∧ (∃ fuel0, ∀ fuel, fuel0 ≤ fuel →
      parse_expression_source Token.type fuel "a - b - c;".toList
        = .ok (.BinaryOp '-' (.BinaryOp '-' (.Identifier "a") (.Identifier "b")) (.Identifier "c"))
            ⟨⟨"a - b - c;".toList, 10⟩, ⟨TOKEN_SEMICOLON, some ";"⟩⟩)
    ∧ (∃ fuel0, ∀ fuel, fuel0 ≤ fuel →
      parse_expression_source Token.type fuel "(a + b) * c".toList
        = .ok (.BinaryOp '*' (.BinaryOp '+' (.Identifier "a") (.Identifier "b")) (.Identifier "c"))
            ⟨⟨"(a + b) * c".toList, 11⟩, ⟨TOKEN_EOF, none⟩⟩) := by
  have hlex1 : LexesTo (create_lexer "2 + 3 * 4".toList)
      [⟨TOKEN_NUMBER, some "2"⟩, ⟨TOKEN_PLUS, some "+"⟩, ⟨TOKEN_NUMBER, some "3"⟩,
       ⟨TOKEN_MULTIPLY, some "*"⟩, ⟨TOKEN_NUMBER, some "4"⟩]
      ⟨"2 + 3 * 4".toList, 9⟩ :=
    ⟨⟨"2 + 3 * 4".toList, 1⟩, rfl, ⟨"2 + 3 * 4".toList, 3⟩, rfl,
      ⟨"2 + 3 * 4".toList, 5⟩, rfl, ⟨"2 + 3 * 4".toList, 7⟩, rfl,
      ⟨"2 + 3 * 4".toList, 9⟩, rfl, rfl⟩
  have hlex2 : LexesTo (create_lexer "a - b - c;".toList)
      [⟨TOKEN_IDENTIFIER, some "a"⟩, ⟨TOKEN_MINUS, some "-"⟩, ⟨TOKEN_IDENTIFIER, some "b"⟩,
       ⟨TOKEN_MINUS, some "-"⟩, ⟨TOKEN_IDENTIFIER, some "c"⟩]
      ⟨"a - b - c;".toList, 9⟩ :=
    ⟨⟨"a - b - c;".toList, 1⟩, rfl, ⟨"a - b - c;".toList, 3⟩, rfl,
      ⟨"a - b - c;".toList, 5⟩, rfl, ⟨"a - b - c;".toList, 7⟩, rfl,
      ⟨"a - b - c;".toList, 9⟩, rfl, rfl⟩
  have hlex3 : LexesTo (create_lexer "(a + b) * c".toList)
      [⟨TOKEN_LPAREN, some "("⟩, ⟨TOKEN_IDENTIFIER, some "a"⟩, ⟨TOKEN_PLUS, some "+"⟩,
       ⟨TOKEN_IDENTIFIER, some "b"⟩, ⟨TOKEN_RPAREN, some ")"⟩, ⟨TOKEN_MULTIPLY, some "*"⟩,
       ⟨TOKEN_IDENTIFIER, some "c"⟩]
      ⟨"(a + b) * c".toList, 11⟩ :=
    ⟨⟨"(a + b) * c".toList, 1⟩, rfl, ⟨"(a + b) * c".toList, 2⟩, rfl,
      ⟨"(a + b) * c".toList, 4⟩, rfl, ⟨"(a + b) * c".toList, 6⟩, rfl,
      ⟨"(a + b) * c".toList, 7⟩, rfl, ⟨"(a + b) * c".toList, 9⟩, rfl,
      ⟨"(a + b) * c".toList, 11⟩, rfl, rfl⟩
  have hd1 : Derives .expression
      [⟨TOKEN_NUMBER, some "2"⟩, ⟨TOKEN_PLUS, some "+"⟩, ⟨TOKEN_NUMBER, some "3"⟩,
       ⟨TOKEN_MULTIPLY, some "*"⟩, ⟨TOKEN_NUMBER, some "4"⟩]
      (.BinaryOp '+' (.Number 2) (.BinaryOp '*' (.Number 3) (.Number 4))) :=
    Derives.plus ⟨TOKEN_PLUS, some "+"⟩ [⟨TOKEN_NUMBER, some "2"⟩] _ _ _ rfl
      (Derives.term _ _ (Derives.factor _ _ (Derives.number "2")))
      (Derives.multiply ⟨TOKEN_MULTIPLY, some "*"⟩ [⟨TOKEN_NUMBER, some "3"⟩] _ _ _ rfl
        (Derives.factor _ _ (Derives.number "3")) (Derives.number "4"))
  have hd2 : Derives .expression
      [⟨TOKEN_IDENTIFIER, some "a"⟩, ⟨TOKEN_MINUS, some "-"⟩, ⟨TOKEN_IDENTIFIER, some "b"⟩,
       ⟨TOKEN_MINUS, some "-"⟩, ⟨TOKEN_IDENTIFIER, some "c"⟩]
      (.BinaryOp '-' (.BinaryOp '-' (.Identifier "a") (.Identifier "b")) (.Identifier "c")) :=
    Derives.minus ⟨TOKEN_MINUS, some "-"⟩
      [⟨TOKEN_IDENTIFIER, some "a"⟩, ⟨TOKEN_MINUS, some "-"⟩, ⟨TOKEN_IDENTIFIER, some "b"⟩]
      _ _ _ rfl
      (Derives.minus ⟨TOKEN_MINUS, some "-"⟩ [⟨TOKEN_IDENTIFIER, some "a"⟩] _ _ _ rfl
        (Derives.term _ _ (Derives.factor _ _ (Derives.identifier "a")))
        (Derives.factor _ _ (Derives.identifier "b")))
      (Derives.factor _ _ (Derives.identifier "c"))
  have hd3 : Derives .expression
      [⟨TOKEN_LPAREN, some "("⟩, ⟨TOKEN_IDENTIFIER, some "a"⟩, ⟨TOKEN_PLUS, some "+"⟩,
       ⟨TOKEN_IDENTIFIER, some "b"⟩, ⟨TOKEN_RPAREN, some ")"⟩, ⟨TOKEN_MULTIPLY, some "*"⟩,
       ⟨TOKEN_IDENTIFIER, some "c"⟩]
      (.BinaryOp '*' (.BinaryOp '+' (.Identifier "a") (.Identifier "b")) (.Identifier "c")) :=
    Derives.term _ _
      (Derives.multiply ⟨TOKEN_MULTIPLY, some "*"⟩
        [⟨TOKEN_LPAREN, some "("⟩, ⟨TOKEN_IDENTIFIER, some "a"⟩, ⟨TOKEN_PLUS, some "+"⟩,
         ⟨TOKEN_IDENTIFIER, some "b"⟩, ⟨TOKEN_RPAREN, some ")"⟩] _ _ _ rfl
        (Derives.factor _ _
          (Derives.paren ⟨TOKEN_LPAREN, some "("⟩ ⟨TOKEN_RPAREN, some ")"⟩
            [⟨TOKEN_IDENTIFIER, some "a"⟩, ⟨TOKEN_PLUS, some "+"⟩, ⟨TOKEN_IDENTIFIER, some "b"⟩]
            _ rfl rfl
            (Derives.plus ⟨TOKEN_PLUS, some "+"⟩ [⟨TOKEN_IDENTIFIER, some "a"⟩] _ _ _ rfl
              (Derives.term _ _ (Derives.factor _ _ (Derives.identifier "a")))
              (Derives.factor _ _ (Derives.identifier "b")))))
        (Derives.identifier "c"))
  exact
    ⟨parse_expression_builds_grammar_tree Token.type (fun _ => rfl) _ _ hd1 _ _ hlex1
        ⟨⟨"2 + 3 * 4".toList, 1⟩, ⟨TOKEN_NUMBER, some "2"⟩⟩
        ⟨⟨"2 + 3 * 4".toList, 9⟩, ⟨TOKEN_EOF, none⟩⟩ rfl rfl (by decide),
     parse_expression_builds_grammar_tree Token.type (fun _ => rfl) _ _ hd2 _ _ hlex2
        ⟨⟨"a - b - c;".toList, 1⟩, ⟨TOKEN_IDENTIFIER, some "a"⟩⟩
        ⟨⟨"a - b - c;".toList, 10⟩, ⟨TOKEN_SEMICOLON, some ";"⟩⟩ rfl rfl (by decide),
     parse_expression_builds_grammar_tree Token.type (fun _ => rfl) _ _ hd3 _ _ hlex3
        ⟨⟨"(a + b) * c".toList, 1⟩, ⟨TOKEN_LPAREN, some "("⟩⟩
        ⟨⟨"(a + b) * c".toList, 11⟩, ⟨TOKEN_EOF, none⟩⟩ rfl rfl (by decide)⟩

/-- The operator character depends on the read through the released token:
when that read does not return the tag any more, every operator of `2 + 3 * 4`
is recorded as the second one of its level. -/
theorem operator_follows_stale_read (fuel : Nat) :
    parse_expression_source (fun _ => TOKEN_EOF) (fuel + 6) "2 + 3 * 4".toList
      = .ok (.BinaryOp '-' (.Number 2) (.BinaryOp '/' (.Number 3) (.Number 4)))
          ⟨⟨"2 + 3 * 4".toList, 9⟩, ⟨TOKEN_EOF, none⟩⟩ := rfl

/-! ## C9: the operator of a binary node -/

/-- C9: `parse_term` and `parse_expression` do not record the operator of the
source.  They keep a pointer to the operator token, call `parser_eat`, which
frees that token, and then choose the operator character by reading the tag
through the pointer: `stale` is what that read returns.  The grouping of
`2 + 3 * 4` and of `(a + b) * c` is the one of the grammar, but each operator
character is the one of the source only if the read of the freed token still
returns its tag; when it returns anything else, `+` is recorded as `-` and `*`
as `/`, and `2 + 3 * 4` gives `BinaryOp(-, 2, BinaryOp(/, 3, 4))`.  Only
`a - b - c`, whose operators are the ones of the `else` branch, does not
depend on the read. -/
theorem operator_read_from_freed_token :
    (∀ (stale : Token → TokenType) (fuel : Nat),
      parse_expression_source stale (fuel + 6) "2 + 3 * 4".toList
        = .ok (.BinaryOp (if stale ⟨TOKEN_PLUS, some "+"⟩ = TOKEN_PLUS then '+' else '-')
                (.Number 2)
                (.BinaryOp
                  (if stale ⟨TOKEN_MULTIPLY, some "*"⟩ = TOKEN_MULTIPLY then '*' else '/')
                  (.Number 3) (.Number 4)))
            ⟨⟨"2 + 3 * 4".toList, 9⟩, ⟨TOKEN_EOF, none⟩⟩) ∧
    (∀ (stale : Token → TokenType) (fuel : Nat),
      stale ⟨TOKEN_PLUS, some "+"⟩ ≠ TOKEN_PLUS →
      stale ⟨TOKEN_MULTIPLY, some "*"⟩ ≠ TOKEN_MULTIPLY →
      parse_expression_source stale (fuel + 6) "2 + 3 * 4".toList
        = .ok (.BinaryOp '-' (.Number 2) (.BinaryOp '/' (.Number 3) (.Number 4)))
            ⟨⟨"2 + 3 * 4".toList, 9⟩, ⟨TOKEN_EOF, none⟩⟩) ∧
    (∀ (stale : Token → TokenType) (fuel : Nat),
      stale ⟨TOKEN_PLUS, some "+"⟩ ≠ TOKEN_PLUS →
      stale ⟨TOKEN_MULTIPLY, some "*"⟩ ≠ TOKEN_MULTIPLY →
      parse_expression_source stale (fuel + 9) "(a + b) * c".toList
        = .ok (.BinaryOp '/' (.BinaryOp '-' (.Identifier "a") (.Identifier "b"))
                (.Identifier "c"))
            ⟨⟨"(a + b) * c".toList, 11⟩, ⟨TOKEN_EOF, none⟩⟩) ∧
    (∀ (stale : Token → TokenType) (fuel : Nat),
      stale ⟨TOKEN_MINUS, some "-"⟩ ≠ TOKEN_PLUS →
      parse_expression_source stale (fuel + 6) "a - b - c;".toList
        = .ok (.BinaryOp '-' (.BinaryOp '-' (.Identifier "a") (.Identifier "b"))
                (.Identifier "c"))
            ⟨⟨"a - b - c;".toList, 10⟩, ⟨TOKEN_SEMICOLON, some ";"⟩⟩) := by
  have h1 : ∀ (stale : Token → TokenType) (fuel : Nat),
      parse_expression_source stale (fuel + 6) "2 + 3 * 4".toList
        = .ok (.BinaryOp (if stale ⟨TOKEN_PLUS, some "+"⟩ = TOKEN_PLUS then '+' else '-')
                (.Number 2)
                (.BinaryOp
                  (if stale ⟨TOKEN_MULTIPLY, some "*"⟩ = TOKEN_MULTIPLY then '*' else '/')
                  (.Number 3) (.Number 4)))
            ⟨⟨"2 + 3 * 4".toList, 9⟩, ⟨TOKEN_EOF, none⟩⟩ := fun _ _ => rfl
  have h3 : ∀ (stale : Token → TokenType) (fuel : Nat),
      parse_expression_source stale (fuel + 9) "(a + b) * c".toList
        = .ok (.BinaryOp
                (if stale ⟨TOKEN_MULTIPLY, some "*"⟩ = TOKEN_MULTIPLY then '*' else '/')
                (.BinaryOp (if stale ⟨TOKEN_PLUS, some "+"⟩ = TOKEN_PLUS then '+' else '-')
                  (.Identifier "a") (.Identifier "b"))
                (.Identifier "c"))
            ⟨⟨"(a + b) * c".toList, 11⟩, ⟨TOKEN_EOF, none⟩⟩ := fun _ _ => rfl
  have h2 : ∀ (stale : Token → TokenType) (fuel : Nat),
      parse_expression_source stale (fuel + 6) "a - b - c;".toList
        = .ok (.BinaryOp (if stale ⟨TOKEN_MINUS, some "-"⟩ = TOKEN_PLUS then '+' else '-')
                (.BinaryOp (if stale ⟨TOKEN_MINUS, some "-"⟩ = TOKEN_PLUS then '+' else '-')
                  (.Identifier "a") (.Identifier "b"))
                (.Identifier "c"))
            ⟨⟨"a - b - c;".toList, 10⟩, ⟨TOKEN_SEMICOLON, some ";"⟩⟩ := fun _ _ => rfl
  refine ⟨h1, ?_, ?_, ?_⟩
  · intro stale fuel hp hm
    rw [h1, if_neg hp, if_neg hm]
  · intro stale fuel hp hm
    rw [h3, if_neg hp, if_neg hm]
  · intro stale fuel hp
    rw [h2, if_neg hp]

/-! ## Parser: acceptance -/

/-- C8 (code defect).  `parse` rejects `int main() { return 42; }`, a program
of the grammar, and accepts `return main() { }`, which is not one, returning a
program with the function `main`; on the source `x` it makes no progress for
any fuel. -/
theorem parse_disagrees_with_grammar :
    (∀ (stale : Token → TokenType) (fuel : Nat),
        parse_source stale (fuel + 5) "int main() \x7b return 42; \x7d".toList
          = .error "Unexpected token type: 2")
    ∧ (∀ (stale : Token → TokenType) (fuel : Nat),
        parse_source stale (fuel + 3) "return main() \x7b \x7d".toList
          = .ok (.Program [.FunctionDeclaration "main" [] (.CompoundStatement [])])
              ⟨⟨"return main() \x7b \x7d".toList, 17⟩, ⟨TOKEN_EOF, none⟩⟩)
    ∧ (∀ (stale : Token → TokenType) (fuel : Nat),
        parse_source stale fuel "x".toList = .timeout) := by
  refine ⟨fun _ _ => rfl, fun _ _ => rfl, fun stale fuel => ?_⟩
  induction fuel with
  | zero => rfl
  | succ n ih => exact ih

/-- C10 (code defect).  On `x = 5;` the call `get_next_token(parser->lexer)`
that is meant to look ahead consumes `= ` (as `TOKEN_EQUALS`), the expression
branch is taken, and `parse_statement` fails on the number 5 with
`Unexpected token type: 2`.  On `x =1;` it succeeds, returning
`Identifier x` instead of an assignment, `=1` having been skipped. -/
theorem assignment_statement_not_parsed :
    (∀ (stale : Token → TokenType) (fuel : Nat),
        parse_statement_source stale (fuel + 4) "x = 5;".toList
          = .error "Unexpected token type: 2")
    ∧ (∀ (stale : Token → TokenType) (fuel : Nat),
        parse_statement_source stale (fuel + 4) "x =1;".toList
          = .ok (.Identifier "x") ⟨⟨"x =1;".toList, 5⟩, ⟨TOKEN_EOF, none⟩⟩) :=
  ⟨fun _ _ => rfl, fun _ _ => rfl⟩

/-! ## C11: the top-level loop of the parser -/

theorem parse_loop_spins (stale : Token → TokenType) (parser : Parser)
    (heof : parser.current_token.type ≠ TOKEN_EOF)
    (hkw : parser.current_token.type ≠ TOKEN_KEYWORD) :
    ∀ fuel statements, parse_loop stale fuel statements parser = .timeout := by
  intro fuel
  induction fuel with
  | zero => intro statements; rfl
  | succ fuel ih =>
    intro statements
    rw [parse_loop, if_pos heof, if_neg hkw]
    exact ih statements

/-- C11: `parse` does not terminate on every source.  When the first token of
the source is neither `TOKEN_EOF` nor a `TOKEN_KEYWORD`, the loop of `parse`
consumes nothing and reports nothing: whatever the number of iterations
allowed, `parse` has neither returned a program nor failed with a parse
error. -/
theorem parse_spins_off_keyword (stale : Token → TokenType) (source : List Char)
    (parser : Parser)
    (hcreate : create_parser_from (create_lexer source) = .ok parser)
    (heof : parser.current_token.type ≠ TOKEN_EOF)
    (hkw : parser.current_token.type ≠ TOKEN_KEYWORD) :
    ∀ fuel, parse_source stale fuel source = .timeout := by
  intro fuel
  simp only [parse_source, hcreate, parse, parse_loop_spins stale parser heof hkw]

/-- The source `x` of C11: its first token is the identifier `x`, and `parse`
has not returned after any number of iterations. -/
theorem parse_spins_off_keyword_witness :
    create_parser_from (create_lexer "x".toList)
        = .ok ⟨⟨"x".toList, 1⟩, ⟨TOKEN_IDENTIFIER, some "x"⟩⟩ ∧
      ∀ fuel, parse_source (fun token => token.type) fuel "x".toList = .timeout :=
  ⟨rfl, parse_spins_off_keyword _ _ _ rfl (by decide) (by decide)⟩

/-! ## Semantic analysis: expressions leave the state as it is -/

theorem untouched_refl (analyzer : SemanticAnalyzer) (b : Bool) : Untouched analyzer (b, analyzer) :=
  ⟨rfl, rfl, rfl, fun _ => rfl⟩

theorem untouched_set_error (analyzer : SemanticAnalyzer) (text : String) :
    Untouched analyzer (false, set_error analyzer text) :=
  ⟨rfl, rfl, rfl, fun h => by cases h⟩

theorem untouched_and_then {a : SemanticAnalyzer} {r1 : Bool × SemanticAnalyzer}
    {f : SemanticAnalyzer → Bool × SemanticAnalyzer}
    (h1 : Untouched a r1) (h2 : ∀ b, Untouched b (f b)) :
    Untouched a (and_then r1 f) := by
  obtain ⟨ok, b⟩ := r1
  cases ok with
  | false => exact ⟨h1.1, h1.2.1, h1.2.2.1, fun h => by cases h⟩
  | true =>
    have hb : b = a := h1.2.2.2 rfl
    subst hb
    exact h2 b

mutual

theorem analyze_expression_untouched :
    (node : ASTNode) → (analyzer : SemanticAnalyzer) →
      Untouched analyzer (analyze_expression analyzer node)
  | .Number _, analyzer => untouched_refl _ _
  | .Identifier name, analyzer => by
    rw [analyze_expression]
    cases find_symbol analyzer.table name with
    | none => exact untouched_set_error _ _
    | some _ => exact untouched_refl _ _
  | .BinaryOp _ left right, analyzer => by
    rw [analyze_expression]
    exact untouched_and_then (analyze_expression_untouched left analyzer)
      (fun b => analyze_expression_untouched right b)
  | .FunctionCall name parameters, analyzer => by
    rw [analyze_expression]
    cases find_symbol analyzer.table name with
    | none => exact untouched_set_error _ _
    | some symbol =>
      simp only []
      split
      · exact untouched_set_error _ _
      · split
        · exact untouched_set_error _ _
        · exact analyze_arguments_untouched parameters analyzer
  | .Program _, analyzer => untouched_refl _ _
  | .FunctionDeclaration _ _ _, analyzer => untouched_refl _ _
  | .CompoundStatement _, analyzer => untouched_refl _ _
  | .VariableDeclaration _ _ _, analyzer => untouched_refl _ _
  | .Assignment _ _, analyzer => untouched_refl _ _
  | .Return _, analyzer => untouched_refl _ _
  | .If _ _ _, analyzer => untouched_refl _ _
  | .While _ _, analyzer => untouched_refl _ _

theorem analyze_arguments_untouched :
    (arguments : List ASTNode) → (analyzer : SemanticAnalyzer) →
      Untouched analyzer (analyze_arguments analyzer arguments)
  | [], analyzer => untouched_refl _ _
  | argument :: rest, analyzer => by
    rw [analyze_arguments]
    exact untouched_and_then (analyze_expression_untouched argument analyzer)
      (fun b => analyze_arguments_untouched rest b)

end


/-! ## Semantic analysis: statements, `has_return` and the scopes -/

theorem returns_of_untouched {a : SemanticAnalyzer} {r : Bool × SemanticAnalyzer}
    (h : Untouched a r) : Returns false a r :=
  ⟨h.2.2.1, fun _ => by rw [h.2.1, Bool.or_false]⟩

theorem returns_and_then {a : SemanticAnalyzer} {r1 : Bool × SemanticAnalyzer}
    {f : SemanticAnalyzer → Bool × SemanticAnalyzer} {x y : Bool}
    (h1 : Returns x a r1) (h2 : ∀ b, Returns y b (f b)) :
    Returns (x || y) a (and_then r1 f) := by
  obtain ⟨ok, b⟩ := r1
  cases ok with
  | false => exact ⟨h1.1, fun h => by cases h⟩
  | true =>
    have hb := h1.2 rfl
    refine ⟨(h2 b).1.trans h1.1, fun h => ?_⟩
    have := (h2 b).2 h
    simp only [and_then] at this ⊢
    rw [this, hb, Bool.or_assoc]

theorem returns_exit {a : SemanticAnalyzer} {r : Bool × SemanticAnalyzer} {x : Bool}
    (table : SymbolTable → SymbolTable)
    (h : Returns x { a with table := enter_scope a.table } r) :
    Returns x a (r.1, { r.2 with table := table r.2.table }) :=
  ⟨h.1, h.2⟩


theorem analyze_statement_declaration (analyzer : SemanticAnalyzer) (name type : String)
    (initializer : Option ASTNode) :
    analyze_statement analyzer (.VariableDeclaration name type initializer) =
      match find_symbol analyzer.table name with
      | some _ => (false, set_error analyzer ("Variable already declared: " ++ name))
      | none =>
        match initializer with
        | some initializer =>
          analyze_expression { analyzer with table := add_symbol analyzer.table name type }
            initializer
        | none => (true, { analyzer with table := add_symbol analyzer.table name type }) := rfl

theorem analyze_statement_assignment (analyzer : SemanticAnalyzer) (left right : ASTNode) :
    analyze_statement analyzer (.Assignment left right) =
      match string_value left with
      | none => (false, analyzer)
      | some target =>
        match find_symbol analyzer.table target with
        | none =>
          (false, set_error analyzer ("Assignment to undeclared variable: " ++ target))
        | some _ => analyze_expression analyzer right := rfl

theorem analyze_statement_if (analyzer : SemanticAnalyzer) (condition if_body : ASTNode) :
    analyze_statement analyzer (.If condition if_body none) =
      ((and_then (analyze_expression { analyzer with table := enter_scope analyzer.table }
            condition) (fun analyzer => analyze_statement analyzer if_body)).1,
       { (and_then (analyze_expression { analyzer with table := enter_scope analyzer.table }
            condition) (fun analyzer => analyze_statement analyzer if_body)).2 with
         table := exit_scope
           (and_then (analyze_expression { analyzer with table := enter_scope analyzer.table }
            condition) (fun analyzer => analyze_statement analyzer if_body)).2.table }) := rfl

theorem analyze_statement_if_else (analyzer : SemanticAnalyzer)
    (condition if_body else_body : ASTNode) :
    analyze_statement analyzer (.If condition if_body (some else_body)) =
      ((and_then (and_then (analyze_expression
            { analyzer with table := enter_scope analyzer.table } condition)
            (fun analyzer => analyze_statement analyzer if_body))
          (fun analyzer => analyze_statement analyzer else_body)).1,
       { (and_then (and_then (analyze_expression
            { analyzer with table := enter_scope analyzer.table } condition)
            (fun analyzer => analyze_statement analyzer if_body))
          (fun analyzer => analyze_statement analyzer else_body)).2 with
         table := exit_scope
           (and_then (and_then (analyze_expression
            { analyzer with table := enter_scope analyzer.table } condition)
            (fun analyzer => analyze_statement analyzer if_body))
          (fun analyzer => analyze_statement analyzer else_body)).2.table }) := rfl

theorem analyze_statement_while (analyzer : SemanticAnalyzer) (condition body : ASTNode) :
    analyze_statement analyzer (.While condition body) =
      ((and_then (analyze_expression { analyzer with table := enter_scope analyzer.table }
            condition) (fun analyzer => analyze_statement analyzer body)).1,
       { (and_then (analyze_expression { analyzer with table := enter_scope analyzer.table }
            condition) (fun analyzer => analyze_statement analyzer body)).2 with
         table := exit_scope
           (and_then (analyze_expression { analyzer with table := enter_scope analyzer.table }
            condition) (fun analyzer => analyze_statement analyzer body)).2.table }) := rfl

theorem analyze_statement_return (analyzer : SemanticAnalyzer) (left : ASTNode) :
    analyze_statement analyzer (.Return left) =
      match analyzer.current_function with
      | none => (false, set_error analyzer "Return statement outside of function")
      | some _ => analyze_expression { analyzer with has_return := true } left := rfl

theorem analyze_statement_compound (analyzer : SemanticAnalyzer) (statements : List ASTNode) :
    analyze_statement analyzer (.CompoundStatement statements) =
      and_then (analyze_statements { analyzer with table := enter_scope analyzer.table }
          statements)
        (fun analyzer => (true, { analyzer with table := exit_scope analyzer.table })) := rfl

theorem analyze_statements_cons (analyzer : SemanticAnalyzer) (statement : ASTNode)
    (rest : List ASTNode) :
    analyze_statements analyzer (statement :: rest) =
      and_then (analyze_statement analyzer statement)
        (fun analyzer => analyze_statements analyzer rest) := rfl

mutual

theorem analyze_statement_returns :
    (node : ASTNode) → (analyzer : SemanticAnalyzer) →
      Returns (contains_return node) analyzer (analyze_statement analyzer node)
  | .VariableDeclaration name type initializer, analyzer => by
    rw [analyze_statement_declaration]
    cases find_symbol analyzer.table name with
    | some _ => exact returns_of_untouched (untouched_set_error _ _)
    | none =>
      cases initializer with
      | none => exact ⟨rfl, fun _ => by simp [contains_return]⟩
      | some initializer =>
        have h := analyze_expression_untouched initializer
          { analyzer with table := add_symbol analyzer.table name type }
        exact ⟨h.2.2.1, fun _ => (h.2.1.trans (by simp [contains_return]))⟩
  | .Assignment left right, analyzer => by
    rw [analyze_statement_assignment]
    cases string_value left with
    | none => exact returns_of_untouched (untouched_refl _ _)
    | some target =>
      dsimp only
      cases find_symbol analyzer.table target with
      | none => exact returns_of_untouched (untouched_set_error _ _)
      | some _ => exact returns_of_untouched (analyze_expression_untouched right analyzer)
  | .If condition if_body none, analyzer => by
    rw [analyze_statement_if]
    have h1 := returns_and_then
      (returns_of_untouched (analyze_expression_untouched condition
        { analyzer with table := enter_scope analyzer.table }))
      (fun b => analyze_statement_returns if_body b)
    have := returns_exit exit_scope h1
    simpa [contains_return] using this
  | .If condition if_body (some else_body), analyzer => by
    rw [analyze_statement_if_else]
    have h1 := returns_and_then
      (returns_of_untouched (analyze_expression_untouched condition
        { analyzer with table := enter_scope analyzer.table }))
      (fun b => analyze_statement_returns if_body b)
    have h2 := returns_and_then h1 (fun b => analyze_statement_returns else_body b)
    have := returns_exit exit_scope h2
    simpa [contains_return] using this
  | .While condition body, analyzer => by
    rw [analyze_statement_while]
    have h1 := returns_and_then
      (returns_of_untouched (analyze_expression_untouched condition
        { analyzer with table := enter_scope analyzer.table }))
      (fun b => analyze_statement_returns body b)
    have := returns_exit exit_scope h1
    simpa [contains_return] using this
  | .Return left, analyzer => by
    rw [analyze_statement_return]
    split
    · exact ⟨rfl, fun h => by cases h⟩
    · have h := analyze_expression_untouched left { analyzer with has_return := true }
      exact ⟨h.2.2.1, fun _ => (h.2.1.trans (by simp [contains_return]))⟩
  | .CompoundStatement statements, analyzer => by
    rw [analyze_statement_compound]
    have h1 := returns_and_then (y := false)
      (f := fun analyzer => (true, { analyzer with table := exit_scope analyzer.table }))
      (analyze_statements_returns statements
        { analyzer with table := enter_scope analyzer.table })
      (fun b => ⟨rfl, fun _ => by simp⟩)
    have h2 : Returns (any_contains_return statements) analyzer _ := ⟨h1.1, by simpa using h1.2⟩
    simpa [contains_return] using h2
  | .Program statements, analyzer =>
    returns_of_untouched (analyze_expression_untouched (.Program statements) analyzer)
  | .FunctionDeclaration name parameters body, analyzer =>
    returns_of_untouched
      (analyze_expression_untouched (.FunctionDeclaration name parameters body) analyzer)
  | .FunctionCall name parameters, analyzer =>
    returns_of_untouched (analyze_expression_untouched (.FunctionCall name parameters) analyzer)
  | .BinaryOp operator left right, analyzer =>
    returns_of_untouched (analyze_expression_untouched (.BinaryOp operator left right) analyzer)
  | .Number number_value, analyzer =>
    returns_of_untouched (analyze_expression_untouched (.Number number_value) analyzer)
  | .Identifier name, analyzer =>
    returns_of_untouched (analyze_expression_untouched (.Identifier name) analyzer)

theorem analyze_statements_returns :
    (statements : List ASTNode) → (analyzer : SemanticAnalyzer) →
      Returns (any_contains_return statements) analyzer
        (analyze_statements analyzer statements)
  | [], analyzer => ⟨rfl, fun _ => by simp [analyze_statements, any_contains_return]⟩
  | statement :: rest, analyzer => by
    rw [analyze_statements_cons, any_contains_return]
    exact returns_and_then (analyze_statement_returns statement analyzer)
      (fun b => analyze_statements_returns rest b)

end

theorem exit_scope_loop_append (old : List Symbol) (level : Int)
    (hold : ∀ symbol ∈ old, symbol.scope_level ≠ level) :
    ∀ (added : List Symbol) (fuel : Nat), added.length ≤ fuel →
      (∀ symbol ∈ added, symbol.scope_level = level) →
      exit_scope_loop fuel ⟨old ++ added, level⟩ = ⟨old, level⟩ := by
  intro added
  induction added using List.reverseRecOn with
  | nil =>
    intro fuel _ _
    cases fuel with
    | zero => simp [exit_scope_loop]
    | succ fuel =>
      rw [exit_scope_loop]
      simp only [List.append_nil]
      cases hlast : old.getLast? with
      | none => rfl
      | some symbol =>
        have hmem : symbol ∈ old := List.mem_of_getLast?_eq_some hlast
        simp only [if_neg (hold symbol hmem)]
  | append_singleton added symbol ih =>
    intro fuel hfuel hadded
    cases fuel with
    | zero => simp at hfuel
    | succ fuel =>
      rw [exit_scope_loop]
      have hlast : (old ++ (added ++ [symbol])).getLast? = some symbol := by
        rw [← List.append_assoc]; simp
      simp only [hlast]
      rw [if_pos (hadded symbol (by simp))]
      have hdrop : (old ++ (added ++ [symbol])).dropLast = old ++ added := by
        rw [← List.append_assoc]; simp
      simp only [hdrop]
      exact ih fuel (by simpa using hfuel) (fun s hs => hadded s (by simp [hs]))

theorem exit_scope_append (old added : List Symbol) (level : Int)
    (hold : ∀ symbol ∈ old, symbol.scope_level ≠ level)
    (hadded : ∀ symbol ∈ added, symbol.scope_level = level) :
    exit_scope ⟨old ++ added, level⟩ = ⟨old, level - 1⟩ := by
  unfold exit_scope
  simp only []
  rw [exit_scope_loop_append old level hold added _ (by simp) hadded]

theorem scoped_of_untouched {a : SemanticAnalyzer} {r : Bool × SemanticAnalyzer}
    (h : Untouched a r) : Scoped a r := by
  intro _
  rw [h.1]
  exact ⟨rfl, [], by simp, by simp⟩

theorem levelled_of_scoped {a b : SemanticAnalyzer} (ha : Levelled a.table)
    (h : Scoped a (true, b)) : Levelled b.table := by
  obtain ⟨hscope, added, hsymbols, hadded⟩ := h rfl
  intro symbol hmem
  simp only [] at hscope hsymbols
  rw [hsymbols] at hmem
  rw [hscope]
  rcases List.mem_append.mp hmem with hm | hm
  · exact ha symbol hm
  · exact le_of_eq (hadded symbol hm)

theorem scoped_and_then {a : SemanticAnalyzer} {r1 : Bool × SemanticAnalyzer}
    {f : SemanticAnalyzer → Bool × SemanticAnalyzer}
    (ha : Levelled a.table) (h1 : Scoped a r1)
    (h2 : ∀ b, Levelled b.table → Scoped b (f b)) :
    Scoped a (and_then r1 f) := by
  obtain ⟨ok, b⟩ := r1
  cases ok with
  | false => intro h; cases h
  | true =>
    intro h
    have hb := levelled_of_scoped ha h1
    obtain ⟨hscope, added, hsymbols, hadded⟩ := h1 rfl
    obtain ⟨hscope2, added2, hsymbols2, hadded2⟩ := h2 b hb h
    simp only [] at hscope hsymbols
    simp only [and_then]
    refine ⟨hscope2.trans hscope, added ++ added2, ?_, ?_⟩
    · rw [hsymbols2, hsymbols, List.append_assoc]
    · intro symbol hmem
      rcases List.mem_append.mp hmem with hm | hm
      · exact hadded symbol hm
      · rw [hadded2 symbol hm, hscope]

theorem levelled_enter {table : SymbolTable} (h : Levelled table) :
    Levelled (enter_scope table) := by
  intro symbol hmem
  have := h symbol hmem
  simp only [enter_scope] at hmem ⊢
  omega

/-- A scope that was entered, used by accepted statements and left again
leaves the table it was entered from. -/
theorem restored_of_scoped {a : SemanticAnalyzer} {r : Bool × SemanticAnalyzer}
    (ha : Levelled a.table)
    (h : Scoped { a with table := enter_scope a.table } r) (hok : r.1 = true) :
    exit_scope r.2.table = a.table := by
  obtain ⟨hscope, added, hsymbols, hadded⟩ := h hok
  simp only [enter_scope] at hscope hsymbols hadded
  have htable : r.2.table = ⟨a.table.symbols ++ added, a.table.current_scope + 1⟩ := by
    cases hr : r.2.table with
    | mk symbols current_scope =>
      rw [hr] at hscope hsymbols
      simp only [] at hscope hsymbols
      rw [hscope, hsymbols]
  rw [htable, exit_scope_append _ _ _ _ hadded]
  · simp
  · intro symbol hmem
    have := ha symbol hmem
    omega

theorem scoped_exit {a : SemanticAnalyzer} {r : Bool × SemanticAnalyzer}
    (ha : Levelled a.table)
    (h : Scoped { a with table := enter_scope a.table } r) :
    Scoped a (r.1, { r.2 with table := exit_scope r.2.table }) := by
  intro hok
  simp only [] at hok ⊢
  rw [restored_of_scoped ha h hok]
  exact ⟨rfl, [], by simp, by simp⟩

mutual

theorem analyze_statement_scoped :
    (node : ASTNode) → (analyzer : SemanticAnalyzer) → Levelled analyzer.table →
      Scoped analyzer (analyze_statement analyzer node)
  | .VariableDeclaration name type initializer, analyzer, _ => by
    rw [analyze_statement_declaration]
    cases find_symbol analyzer.table name with
    | some _ => intro h; cases h
    | none =>
      have hadd : Scoped analyzer
          (true, { analyzer with table := add_symbol analyzer.table name type }) :=
        fun _ => ⟨rfl, _, rfl, by simp⟩
      cases initializer with
      | none => exact hadd
      | some initializer =>
        have h := analyze_expression_untouched initializer
          { analyzer with table := add_symbol analyzer.table name type }
        intro hok
        have := h.2.2.2 hok
        dsimp only at this ⊢
        rw [this]
        exact hadd rfl
  | .Assignment left right, analyzer, _ => by
    rw [analyze_statement_assignment]
    cases string_value left with
    | none => intro h; cases h
    | some target =>
      dsimp only
      cases find_symbol analyzer.table target with
      | none => intro h; cases h
      | some _ => exact scoped_of_untouched (analyze_expression_untouched right analyzer)
  | .If condition if_body none, analyzer, ha => by
    rw [analyze_statement_if]
    exact scoped_exit ha (scoped_and_then (levelled_enter ha)
      (scoped_of_untouched (analyze_expression_untouched condition _))
      (fun b hb => analyze_statement_scoped if_body b hb))
  | .If condition if_body (some else_body), analyzer, ha => by
    rw [analyze_statement_if_else]
    exact scoped_exit ha (scoped_and_then (levelled_enter ha)
      (scoped_and_then (levelled_enter ha)
        (scoped_of_untouched (analyze_expression_untouched condition _))
        (fun b hb => analyze_statement_scoped if_body b hb))
      (fun b hb => analyze_statement_scoped else_body b hb))
  | .While condition body, analyzer, ha => by
    rw [analyze_statement_while]
    exact scoped_exit ha (scoped_and_then (levelled_enter ha)
      (scoped_of_untouched (analyze_expression_untouched condition _))
      (fun b hb => analyze_statement_scoped body b hb))
  | .Return left, analyzer, _ => by
    rw [analyze_statement_return]
    split
    · intro h; cases h
    · exact scoped_of_untouched (a := { analyzer with has_return := true })
        (analyze_expression_untouched left _)
  | .CompoundStatement statements, analyzer, ha => by
    rw [analyze_statement_compound]
    have h := analyze_statements_scoped statements
      { analyzer with table := enter_scope analyzer.table } (levelled_enter ha)
    have h2 := scoped_exit ha h
    intro hok
    cases hr : analyze_statements { analyzer with table := enter_scope analyzer.table }
        statements with
    | mk ok b =>
      rw [hr] at hok h2
      cases ok with
      | false => cases hok
      | true => exact h2 rfl
  | .Program statements, analyzer, _ =>
    scoped_of_untouched (analyze_expression_untouched (.Program statements) analyzer)
  | .FunctionDeclaration name parameters body, analyzer, _ =>
    scoped_of_untouched
      (analyze_expression_untouched (.FunctionDeclaration name parameters body) analyzer)
  | .FunctionCall name parameters, analyzer, _ =>
    scoped_of_untouched (analyze_expression_untouched (.FunctionCall name parameters) analyzer)
  | .BinaryOp operator left right, analyzer, _ =>
    scoped_of_untouched (analyze_expression_untouched (.BinaryOp operator left right) analyzer)
  | .Number number_value, analyzer, _ =>
    scoped_of_untouched (analyze_expression_untouched (.Number number_value) analyzer)
  | .Identifier name, analyzer, _ =>
    scoped_of_untouched (analyze_expression_untouched (.Identifier name) analyzer)

theorem analyze_statements_scoped :
    (statements : List ASTNode) → (analyzer : SemanticAnalyzer) → Levelled analyzer.table →
      Scoped analyzer (analyze_statements analyzer statements)
  | [], analyzer, _ => fun _ => ⟨rfl, [], by simp [analyze_statements], by simp⟩
  | statement :: rest, analyzer, ha => by
    rw [analyze_statements_cons]
    exact scoped_and_then ha (analyze_statement_scoped statement analyzer ha)
      (fun b hb => analyze_statements_scoped rest b hb)

end

/-! ## Semantic analysis: lookup -/

theorem find_symbol_eq_none_iff (table : SymbolTable) (name : String) :
    find_symbol table name = none ↔ ∀ symbol ∈ table.symbols, symbol.name ≠ name := by
  simp [find_symbol]

theorem find_symbol_ne_none_iff (table : SymbolTable) (name : String) :
    find_symbol table name ≠ none ↔ ∃ symbol ∈ table.symbols, symbol.name = name := by
  rw [Ne, find_symbol_eq_none_iff]
  push_neg
  rfl

theorem format_message_short (text : String) (h : text.length ≤ 1023) :
    format_message text = text := by
  unfold format_message
  rw [List.take_of_length_le h]

theorem analyze_arguments_all (analyzer : SemanticAnalyzer) :
    ∀ arguments : List ASTNode,
      (analyze_arguments analyzer arguments).1 = true ↔
        ∀ argument ∈ arguments, (analyze_expression analyzer argument).1 = true := by
  intro arguments
  induction arguments with
  | nil => simp [analyze_arguments]
  | cons argument rest ih =>
    rw [analyze_arguments]
    have h := analyze_expression_untouched argument analyzer
    rcases hr : analyze_expression analyzer argument with ⟨ok, b⟩
    rw [hr] at h
    cases ok with
    | false => simp [and_then, hr]
    | true =>
      have hb : b = analyzer := h.2.2.2 rfl
      subst hb
      simp only [and_then, List.mem_cons, forall_eq_or_imp, hr, true_and]
      exact ih

/-! ## C12 to C15: identifiers, declarations, assignments, calls -/

/-- C12: `analyze_expression` rejects `Identifier(name)` exactly when
`find_symbol` finds no symbol called `name`, and it then leaves the message
`Undefined variable: <name>` as `set_error` formats it (the whole text when the
name has at most 1003 characters); an identifier that is found is accepted
without any change of state.  `analyze` rejects the tree of
`int main() { int x = y; return x; }` with `Undefined variable: y`. -/
theorem undefined_variable_iff (analyzer : SemanticAnalyzer) (name : String) :
    ((analyze_expression analyzer (.Identifier name)).1 = false ↔
      find_symbol analyzer.table name = none) ∧
    (find_symbol analyzer.table name = none →
      analyze_expression analyzer (.Identifier name) =
        (false, { analyzer with
          error_message := some (format_message ("Undefined variable: " ++ name)) })) ∧
    (find_symbol analyzer.table name ≠ none →
      analyze_expression analyzer (.Identifier name) = (true, analyzer)) ∧
    (name.length ≤ 1003 →
      format_message ("Undefined variable: " ++ name) = "Undefined variable: " ++ name) ∧
    (analyze create_analyzer program_undefined_y).1 = false ∧
    (analyze create_analyzer program_undefined_y).2.error_message
      = some "Undefined variable: y" := by
  refine ⟨?_, ?_, ?_, ?_, rfl, rfl⟩
  · rw [analyze_expression]
    cases find_symbol analyzer.table name <;> simp
  · intro h
    rw [analyze_expression, h]
    rfl
  · intro h
    rw [analyze_expression]
    cases hf : find_symbol analyzer.table name with
    | none => exact absurd hf h
    | some _ => rfl
  · intro h
    apply format_message_short
    rw [String.length_append]
    have : "Undefined variable: ".length = 20 := by decide
    omega

/-- C13: `analyze_statement` on a variable declaration.  When a symbol called
`name` is in the table (at whatever level), the declaration fails with
`Variable already declared: <name>` and the table is as it was; failing with
the table unchanged happens in no other case.  Otherwise the table gets one
more symbol, a variable called `name` at the current level, and the result is
that of the initializer analysed in the new table, or `true` without an
initializer. -/
theorem variable_declaration_checked (analyzer : SemanticAnalyzer) (name type : String)
    (initializer : Option ASTNode) :
    (find_symbol analyzer.table name ≠ none ↔
      ∃ symbol ∈ analyzer.table.symbols, symbol.name = name) ∧
    (find_symbol analyzer.table name ≠ none →
      analyze_statement analyzer (.VariableDeclaration name type initializer) =
        (false, set_error analyzer ("Variable already declared: " ++ name))) ∧
    (((analyze_statement analyzer (.VariableDeclaration name type initializer)).1 = false ∧
        (analyze_statement analyzer (.VariableDeclaration name type initializer)).2.table
          = analyzer.table) ↔
      find_symbol analyzer.table name ≠ none) ∧
    (find_symbol analyzer.table name = none →
      (analyze_statement analyzer (.VariableDeclaration name type initializer)).2.table.symbols
          = analyzer.table.symbols ++
              [variable_symbol name type analyzer.table.current_scope] ∧
      (analyze_statement analyzer (.VariableDeclaration name type initializer)).2.table.current_scope
          = analyzer.table.current_scope ∧
      (∀ value, initializer = some value →
        analyze_statement analyzer (.VariableDeclaration name type initializer) =
          analyze_expression { analyzer with table := add_symbol analyzer.table name type }
            value) ∧
      (initializer = none →
        analyze_statement analyzer (.VariableDeclaration name type initializer) =
          (true, { analyzer with table := add_symbol analyzer.table name type }))) := by
  have hpresent : find_symbol analyzer.table name ≠ none →
      analyze_statement analyzer (.VariableDeclaration name type initializer) =
        (false, set_error analyzer ("Variable already declared: " ++ name)) := by
    intro h
    rw [analyze_statement_declaration]
    cases hf : find_symbol analyzer.table name with
    | none => exact absurd hf h
    | some _ => rfl
  have hsome : find_symbol analyzer.table name = none → ∀ value, initializer = some value →
      analyze_statement analyzer (.VariableDeclaration name type initializer) =
        analyze_expression { analyzer with table := add_symbol analyzer.table name type }
          value := by
    intro h value hvalue
    rw [analyze_statement_declaration, h, hvalue]
  have hnone : find_symbol analyzer.table name = none → initializer = none →
      analyze_statement analyzer (.VariableDeclaration name type initializer) =
        (true, { analyzer with table := add_symbol analyzer.table name type }) := by
    intro h hvalue
    rw [analyze_statement_declaration, h, hvalue]
  have htable : find_symbol analyzer.table name = none →
      (analyze_statement analyzer (.VariableDeclaration name type initializer)).2.table
        = add_symbol analyzer.table name type := by
    intro h
    rcases hi : initializer with _ | value
    · rw [← hi, hnone h hi]
    · rw [← hi, hsome h value hi]
      exact (analyze_expression_untouched value
        { analyzer with table := add_symbol analyzer.table name type }).1
  refine ⟨find_symbol_ne_none_iff _ _, hpresent, ⟨?_, ?_⟩, ?_⟩
  · rintro ⟨_, hsame⟩ hnone
    rw [htable hnone] at hsame
    have := congrArg (fun table => table.symbols.length) hsame
    simp [add_symbol] at this
  · intro h
    rw [hpresent h]
    exact ⟨rfl, rfl⟩
  · intro h
    refine ⟨?_, ?_, hsome h, hnone h⟩
    · rw [htable h]; rfl
    · rw [htable h]; rfl

/-- C14: the `NODE_ASSIGNMENT` case of `analyze_statement` only looks the target
up.  An assignment of a number to any name that is in the table is accepted,
whatever the kind of the symbol, and so `analyze` accepts the tree of
`int f() { return 1; } int main() { f = 1; return 0; }`, in which the target
of the assignment is the function `f`. -/
theorem assignment_to_function_accepted :
    (∀ (analyzer : SemanticAnalyzer) (name : String) (symbol : Symbol) (value : Int),
      find_symbol analyzer.table name = some symbol →
      analyze_statement analyzer (.Assignment (.Identifier name) (.Number value))
        = (true, analyzer)) ∧
    find_symbol
        { symbols := [function_symbol "f" [] 0 0, function_symbol "main" [] 0 0],
          current_scope := 2 } "f"
      = some (function_symbol "f" [] 0 0) ∧
    (analyze create_analyzer program_assign_function).1 = true ∧
    (analyze create_analyzer program_assign_function).2.error_message = none := by
  refine ⟨?_, rfl, rfl, rfl⟩
  intro analyzer name symbol value h
  rw [analyze_statement_assignment]
  simp only [string_value, h]
  rfl

theorem analyze_arguments_rejected (analyzer : SemanticAnalyzer) (argument : ASTNode)
    (after : List ASTNode) (hrejected : (analyze_expression analyzer argument).1 = false) :
    ∀ before : List ASTNode,
      (∀ earlier ∈ before, (analyze_expression analyzer earlier).1 = true) →
      analyze_arguments analyzer (before ++ argument :: after)
        = analyze_expression analyzer argument := by
  intro before
  induction before with
  | nil =>
    intro _
    rw [List.nil_append, analyze_arguments]
    rcases hr : analyze_expression analyzer argument with ⟨ok, b⟩
    rw [hr] at hrejected
    simp only [] at hrejected
    subst hrejected
    rfl
  | cons first rest ih =>
    intro haccepted
    rw [List.cons_append, analyze_arguments]
    have h := analyze_expression_untouched first analyzer
    have hfirst := haccepted first (by simp)
    rcases hr : analyze_expression analyzer first with ⟨ok, b⟩
    rw [hr] at h hfirst
    simp only [] at hfirst
    subst hfirst
    have hb : b = analyzer := h.2.2.2 rfl
    subst hb
    simp only [and_then]
    exact ih (fun earlier hmem => haccepted earlier (by simp [hmem]))

theorem analyze_arguments_first_rejected (analyzer : SemanticAnalyzer) :
    ∀ arguments : List ASTNode, (analyze_arguments analyzer arguments).1 = false →
      ∃ before argument after, arguments = before ++ argument :: after ∧
        (∀ earlier ∈ before, (analyze_expression analyzer earlier).1 = true) ∧
        (analyze_expression analyzer argument).1 = false := by
  intro arguments
  induction arguments with
  | nil => intro h; simp [analyze_arguments] at h
  | cons first rest ih =>
    intro h
    by_cases hfirst : (analyze_expression analyzer first).1 = true
    · have hu := analyze_expression_untouched first analyzer
      rw [analyze_arguments] at h
      rcases hr : analyze_expression analyzer first with ⟨ok, b⟩
      rw [hr] at h hu hfirst
      simp only [] at hfirst
      subst hfirst
      have hb : b = analyzer := hu.2.2.2 rfl
      subst hb
      simp only [and_then] at h
      obtain ⟨before, argument, after, hsplit, haccepted, hrejected⟩ := ih h
      refine ⟨first :: before, argument, after, by rw [hsplit]; rfl, ?_, hrejected⟩
      intro earlier hmem
      rcases List.mem_cons.mp hmem with he | he
      · rw [he, hr]
      · exact haccepted earlier he
    · exact ⟨[], first, rest, rfl, by simp, by simpa using hfirst⟩

/-- C15, the counterexample: the call `f(f(1), 2)` with `f` a function of two
parameters.  The number of arguments is the number of parameters, and the call
still fails with the arity error of `f`: the error is the one of its first
argument, the call `f(1)`.  The program
`int f(int a, int b) { return a; } int main() { return f(f(1), 2); }` is
rejected in this way. -/
theorem nested_arity_error_with_equal_counts :
    find_symbol state_in_main_of_arity.table "f"
      = some (function_symbol "f" ["int", "int"] 2 0) ∧
    [ASTNode.FunctionCall "f" [.Number 1], ASTNode.Number 2].length
      = (function_symbol "f" ["int", "int"] 2 0).param_count ∧
    analyze_expression state_in_main_of_arity
        (.FunctionCall "f" [.FunctionCall "f" [.Number 1], .Number 2])
      = (false, { state_in_main_of_arity with
          error_message := some "Wrong number of arguments for function f" }) ∧
    analyze create_analyzer program_nested_arity
      = (false, { state_in_main_of_arity with
          error_message := some "Wrong number of arguments for function f" }) :=
  ⟨rfl, rfl, rfl, rfl⟩

/-- C15, amended: a call `name(arguments)` whose name resolves to a function
symbol.  When the number of arguments differs from the parameter count of the
symbol the call fails with `Wrong number of arguments for function <name>`,
before any argument is analysed.  When the numbers agree, the result is that
of the argument loop: the call is accepted exactly when every argument is
accepted, and otherwise its result is the result of the first argument that is
rejected.  So the call fails with the arity error of `name` exactly when the
numbers differ or the first rejected argument fails with that error. -/
theorem call_arity_checked (analyzer : SemanticAnalyzer) (name : String)
    (arguments : List ASTNode) (symbol : Symbol)
    (hfound : find_symbol analyzer.table name = some symbol)
    (hfunction : symbol.is_function = true) :
    (arguments.length ≠ symbol.param_count →
      analyze_expression analyzer (.FunctionCall name arguments) =
        (false, { analyzer with
          error_message :=
            some (format_message ("Wrong number of arguments for function " ++ name)) })) ∧
    (arguments.length = symbol.param_count →
      analyze_expression analyzer (.FunctionCall name arguments)
          = analyze_arguments analyzer arguments ∧
      ((analyze_expression analyzer (.FunctionCall name arguments)).1 = true ↔
        ∀ argument ∈ arguments, (analyze_expression analyzer argument).1 = true) ∧
      ((analyze_expression analyzer (.FunctionCall name arguments)).1 = true →
        analyze_expression analyzer (.FunctionCall name arguments) = (true, analyzer)) ∧
      ((analyze_expression analyzer (.FunctionCall name arguments)).1 = false →
        ∃ before argument after, arguments = before ++ argument :: after ∧
          (∀ earlier ∈ before, (analyze_expression analyzer earlier).1 = true) ∧
          (analyze_expression analyzer argument).1 = false ∧
          analyze_expression analyzer (.FunctionCall name arguments)
            = analyze_expression analyzer argument)) ∧
    (analyze_expression analyzer (.FunctionCall name arguments) =
        (false, { analyzer with
          error_message :=
            some (format_message ("Wrong number of arguments for function " ++ name)) }) ↔
      arguments.length ≠ symbol.param_count ∨
      ∃ before argument after, arguments = before ++ argument :: after ∧
        (∀ earlier ∈ before, (analyze_expression analyzer earlier).1 = true) ∧
        analyze_expression analyzer argument =
          (false, { analyzer with
            error_message :=
              some (format_message ("Wrong number of arguments for function " ++ name)) })) := by
  have hcall : analyze_expression analyzer (.FunctionCall name arguments) =
      if symbol.param_count ≠ arguments.length then
        (false, set_error analyzer ("Wrong number of arguments for function " ++ name))
      else analyze_arguments analyzer arguments := by
    rw [analyze_expression]
    simp only [hfound, hfunction]
    rfl
  have hdiffer : arguments.length ≠ symbol.param_count →
      analyze_expression analyzer (.FunctionCall name arguments) =
        (false, { analyzer with
          error_message :=
            some (format_message ("Wrong number of arguments for function " ++ name)) }) := by
    intro h
    rw [hcall, if_pos (fun heq => h heq.symm)]
    rfl
  have hagree : arguments.length = symbol.param_count →
      analyze_expression analyzer (.FunctionCall name arguments)
        = analyze_arguments analyzer arguments := by
    intro h
    rw [hcall, if_neg (fun hne => hne h.symm)]
  have hfirst : arguments.length = symbol.param_count →
      (analyze_expression analyzer (.FunctionCall name arguments)).1 = false →
      ∃ before argument after, arguments = before ++ argument :: after ∧
        (∀ earlier ∈ before, (analyze_expression analyzer earlier).1 = true) ∧
        (analyze_expression analyzer argument).1 = false ∧
        analyze_expression analyzer (.FunctionCall name arguments)
          = analyze_expression analyzer argument := by
    intro h hfail
    rw [hagree h] at hfail ⊢
    obtain ⟨before, argument, after, hsplit, haccepted, hrejected⟩ :=
      analyze_arguments_first_rejected analyzer arguments hfail
    refine ⟨before, argument, after, hsplit, haccepted, hrejected, ?_⟩
    rw [hsplit]
    exact analyze_arguments_rejected analyzer argument after hrejected before haccepted
  refine ⟨hdiffer, ?_, ?_⟩
  · intro h
    refine ⟨hagree h, ?_, ?_, hfirst h⟩
    · rw [hagree h]; exact analyze_arguments_all analyzer arguments
    · intro hok
      have := (analyze_expression_untouched (.FunctionCall name arguments) analyzer).2.2.2 hok
      exact Prod.ext hok this
  · constructor
    · intro hfail
      by_cases h : arguments.length = symbol.param_count
      · right
        obtain ⟨before, argument, after, hsplit, haccepted, _, heq⟩ :=
          hfirst h (by rw [hfail])
        exact ⟨before, argument, after, hsplit, haccepted, by rw [← heq, hfail]⟩
      · exact Or.inl h
    · intro h
      by_cases hlen : arguments.length = symbol.param_count
      · rcases h with h | ⟨before, argument, after, hsplit, haccepted, hresult⟩
        · exact absurd hlen h
        · rw [hagree hlen, hsplit,
            analyze_arguments_rejected analyzer argument after (by rw [hresult]) before
              haccepted, hresult]
      · exact hdiffer hlen

/-- The call `f(1)` of `int f(int a, int b) { return a; } int main() { return
f(1); }`, analysed in the state that `analyze` has built when it reaches it:
`f` is a function of two parameters, the call has one argument, and the
call, and with it the program, is rejected with the arity error. -/
theorem call_arity_checked_witness :
    analyze_expression state_in_main_of_arity (.FunctionCall "f" [.Number 1])
      = (false, { state_in_main_of_arity with
          error_message := some "Wrong number of arguments for function f" }) ∧
    analyze create_analyzer program_arity
      = (false, { state_in_main_of_arity with
          error_message := some "Wrong number of arguments for function f" }) :=
  ⟨(call_arity_checked state_in_main_of_arity "f" [.Number 1]
      (function_symbol "f" ["int", "int"] 2 0) rfl rfl).1 (by decide),
   rfl⟩

/-! ## Semantic analysis: the two passes of `analyze` -/

theorem find_symbol_newest (older newer : List Symbol) (symbol : Symbol) (level : Int)
    (name : String) (hname : symbol.name = name)
    (hnewer : ∀ other ∈ newer, other.name ≠ name) :
    find_symbol ⟨older ++ symbol :: newer, level⟩ name = some symbol := by
  unfold find_symbol
  simp only [List.reverse_append, List.reverse_cons, List.append_assoc, List.singleton_append,
    List.find?_append]
  have h1 : newer.reverse.find? (fun symbol => symbol.name == name) = none := by
    simp only [List.find?_eq_none, List.mem_reverse]
    intro other hmem
    simpa using hnewer other hmem
  rw [h1, List.find?_cons]
  simp [hname]

theorem analyze_expression_call (analyzer : SemanticAnalyzer) (name : String)
    (arguments : List ASTNode) (symbol : Symbol)
    (hfound : find_symbol analyzer.table name = some symbol)
    (hfunction : symbol.is_function = true) :
    analyze_expression analyzer (.FunctionCall name arguments) =
      if symbol.param_count ≠ arguments.length then
        (false, set_error analyzer ("Wrong number of arguments for function " ++ name))
      else analyze_arguments analyzer arguments := by
  rw [analyze_expression]
  simp only [hfound, hfunction]
  rfl

theorem declared_functions_append (before after : List ASTNode) :
    declared_functions (before ++ after) = declared_functions before ++ declared_functions after := by
  induction before with
  | nil => rfl
  | cons node rest ih =>
    cases node <;> simp [declared_functions, ih]

theorem declared_functions_names (name : String) :
    ∀ nodes : List ASTNode,
      (∀ node ∈ nodes, ∀ parameters body, node ≠ .FunctionDeclaration name parameters body) →
      ∀ entry ∈ declared_functions nodes, entry.1 ≠ name := by
  intro nodes
  induction nodes with
  | nil => intro _ entry h; simp [declared_functions] at h
  | cons node rest ih =>
    intro hnodes entry hentry
    have hrest := ih (fun n hn => hnodes n (List.mem_cons_of_mem _ hn))
    cases node with
    | FunctionDeclaration other parameters body =>
      simp only [declared_functions, List.mem_cons] at hentry
      rcases hentry with h | h
      · rw [h]
        intro heq
        simp only at heq
        exact hnodes _ (List.mem_cons_self _ _) parameters body (by rw [heq])
      · exact hrest entry h
    | _ => exact hrest entry (by simpa [declared_functions] using hentry)

theorem register_functions_spec :
    ∀ (statements : List ASTNode) (table registered : SymbolTable),
      register_functions table statements = some registered →
      registered.current_scope = table.current_scope ∧
      ∃ added, registered.symbols = table.symbols ++ added ∧
        added.map (fun symbol => (symbol.name, symbol.param_count))
          = declared_functions statements ∧
        ∀ symbol ∈ added, symbol.is_function = true ∧
          symbol.scope_level = table.current_scope := by
  intro statements
  induction statements with
  | nil =>
    intro table registered h
    simp only [register_functions, Option.some.injEq] at h
    subst h
    exact ⟨rfl, [], by simp, rfl, by simp⟩
  | cons node rest ih =>
    intro table registered h
    cases node with
    | FunctionDeclaration name parameters body =>
      rw [register_functions] at h
      split at h
      · cases h
      · rename_i param_types _
        obtain ⟨hscope, added, hsymbols, hmap, hall⟩ := ih _ _ h
        simp only at hscope hsymbols hall
        refine ⟨hscope,
          function_symbol name param_types parameters.length table.current_scope :: added,
          ?_, ?_, ?_⟩
        · rw [hsymbols, List.append_assoc]; rfl
        · simp only [List.map_cons, declared_functions, hmap]
          rfl
        · intro symbol hmem
          rcases List.mem_cons.mp hmem with h1 | h1
          · rw [h1]; exact ⟨rfl, rfl⟩
          · exact hall symbol h1
    | _ =>
      simp only [register_functions] at h
      simpa [declared_functions] using ih _ _ h

theorem add_parameters_spec :
    ∀ (parameters : List ASTNode) (table extended : SymbolTable),
      add_parameters table parameters = some extended →
      extended.current_scope = table.current_scope ∧
      ∃ added, extended.symbols = table.symbols ++ added ∧
        ∀ symbol ∈ added, symbol.scope_level = table.current_scope := by
  intro parameters
  induction parameters with
  | nil =>
    intro table extended h
    simp only [add_parameters, Option.some.injEq] at h
    subst h
    exact ⟨rfl, [], by simp, by simp⟩
  | cons node rest ih =>
    intro table extended h
    cases node with
    | VariableDeclaration name type initializer =>
      rw [add_parameters] at h
      obtain ⟨hscope, added, hsymbols, hall⟩ := ih _ _ h
      simp only [add_symbol] at hscope hsymbols hall
      refine ⟨hscope, variable_symbol name type table.current_scope :: added, ?_, ?_⟩
      · rw [hsymbols, List.append_assoc]; rfl
      · intro symbol hmem
        rcases List.mem_cons.mp hmem with h1 | h1
        · rw [h1]; rfl
        · exact hall symbol h1
    | _ => simp [add_parameters] at h

theorem analyze_function_declaration (analyzer : SemanticAnalyzer) (name : String)
    (parameters : List ASTNode) (body : ASTNode) :
    analyze_function analyzer (.FunctionDeclaration name parameters body) =
      match add_parameters (enter_scope analyzer.table) parameters with
      | none =>
        (false, { table := enter_scope analyzer.table, current_function := some name,
                  has_return := false, error_message := analyzer.error_message })
      | some table =>
        and_then
          (analyze_statement
            { table := table, current_function := some name, has_return := false,
              error_message := analyzer.error_message } body)
          (fun analyzer =>
            if !analyzer.has_return && name ≠ "main" then
              (false, set_error analyzer ("Function " ++ name ++ " must return a value"))
            else
              (true, { analyzer with table := exit_scope analyzer.table })) := rfl

theorem analyze_function_restores (node : ASTNode) (analyzer : SemanticAnalyzer)
    (ha : Levelled analyzer.table) (hok : (analyze_function analyzer node).1 = true) :
    (analyze_function analyzer node).2.table = analyzer.table := by
  cases node with
  | FunctionDeclaration name parameters body =>
    rw [analyze_function_declaration] at hok ⊢
    cases hp : add_parameters (enter_scope analyzer.table) parameters with
    | none => rw [hp] at hok; cases hok
    | some table =>
      rw [hp] at hok
      simp only [] at hok ⊢
      obtain ⟨hscope, params, hsymbols, hparams⟩ := add_parameters_spec _ _ _ hp
      have hlevel : Levelled table := by
        intro symbol hmem
        rw [hsymbols] at hmem
        rw [hscope]
        rcases List.mem_append.mp hmem with hm | hm
        · exact levelled_enter ha symbol hm
        · exact le_of_eq (hparams symbol hm)
      have hbody := analyze_statement_scoped body
        { table := table, current_function := some name, has_return := false,
          error_message := analyzer.error_message } hlevel
      rcases hr : analyze_statement
        { table := table, current_function := some name, has_return := false,
          error_message := analyzer.error_message } body with ⟨ok, after⟩
      rw [hr] at hok hbody
      cases ok with
      | false => cases hok
      | true =>
        simp only [and_then] at hok ⊢
        split at hok
        · cases hok
        · rename_i hcheck
          rw [if_neg hcheck]
          obtain ⟨hscope2, added, hsymbols2, hadded⟩ := hbody rfl
          simp only [] at hscope2 hsymbols2 hadded
          have hentered : Scoped { analyzer with table := enter_scope analyzer.table }
              (true, after) := by
            intro _
            refine ⟨hscope2.trans hscope, params ++ added, ?_, ?_⟩
            · simp only []
              rw [hsymbols2, hsymbols, List.append_assoc]
            · intro symbol hmem
              rcases List.mem_append.mp hmem with hm | hm
              · exact hparams symbol hm
              · rw [hadded symbol hm, hscope]
          exact restored_of_scoped ha hentered rfl
  | _ => rfl

theorem analyze_functions_restores :
    ∀ (nodes : List ASTNode) (analyzer : SemanticAnalyzer), Levelled analyzer.table →
      (analyze_functions analyzer nodes).1 = true →
      (analyze_functions analyzer nodes).2.table = analyzer.table := by
  intro nodes
  induction nodes with
  | nil => intro analyzer _ _; rfl
  | cons node rest ih =>
    intro analyzer ha hok
    rw [analyze_functions] at hok ⊢
    have h1 := analyze_function_restores node analyzer ha
    rcases hr : analyze_function analyzer node with ⟨ok, after⟩
    rw [hr] at hok h1
    cases ok with
    | false => cases hok
    | true =>
      simp only [and_then] at hok ⊢
      have htable : after.table = analyzer.table := h1 rfl
      rw [ih after (by rw [htable]; exact ha) hok, htable]

theorem find_symbol_shadowed (table : SymbolTable) (older newer : List Symbol) (name : String)
    (hsymbols : table.symbols = older ++ newer)
    (hnewer : ∃ symbol ∈ newer, symbol.name = name) :
    ∃ symbol ∈ newer, find_symbol table name = some symbol := by
  unfold find_symbol
  rw [hsymbols, List.reverse_append, List.find?_append]
  obtain ⟨witness, hmem, hname⟩ := hnewer
  cases hfind : newer.reverse.find? (fun symbol => symbol.name == name) with
  | none =>
    rw [List.find?_eq_none] at hfind
    have := hfind witness (List.mem_reverse.mpr hmem)
    simp [hname] at this
  | some symbol =>
    exact ⟨symbol, List.mem_reverse.mp (List.mem_of_find?_eq_some hfind), rfl⟩

theorem analyze_expression_call_shadowed (analyzer : SemanticAnalyzer) (name : String)
    (arguments : List ASTNode) (older newer : List Symbol)
    (hsymbols : analyzer.table.symbols = older ++ newer)
    (hnewer : ∃ symbol ∈ newer, symbol.name = name)
    (hvariables : ∀ symbol ∈ newer, symbol.is_function = false) :
    analyze_expression analyzer (.FunctionCall name arguments)
      = (false, set_error analyzer ("Undefined function: " ++ name)) := by
  obtain ⟨symbol, hmem, hfound⟩ := find_symbol_shadowed _ _ _ _ hsymbols hnewer
  rw [analyze_expression]
  simp only [hfound, hvariables symbol hmem]
  rfl
/-! ## C16 to C18: calls of later functions, missing returns, the table at the end -/

/-- C16, the counterexample: in `int f(int g) { return g(1); } int g(int x) {
return x; }` the function `g` is declared after `f` and called in the body of
`f` with one valid argument for its one parameter, and `analyze` rejects the
program with `Undefined function: g`: the parameter `g` of `f` is the newest
symbol of that name. -/
theorem shadowed_forward_call_rejected :
    (analyze create_analyzer program_shadowed).1 = false ∧
    (analyze create_analyzer program_shadowed).2.error_message
      = some "Undefined function: g" ∧
    (analyze_expression (analyze create_analyzer program_shadowed).2 (.Number 1)).1 = true :=
  ⟨rfl, rfl, rfl⟩

/-- C16, amended: the first pass of `analyze` registers every function
declaration of the program before the second pass analyses any body.  In
every state whose symbols are the registered ones followed by parameters and
variables none of which is called `name`, a call of `name` with as many
arguments as the last declaration of `name` in the program has parameters,
each of them accepted, is accepted, wherever that declaration stands in the
program.  In a state in which a parameter or variable called `name` follows
the registered symbols, the call is rejected with `Undefined function:
<name>`. -/
theorem forward_call_accepted (before after : List ASTNode) (name : String)
    (parameters : List ASTNode) (body : ASTNode) (table : SymbolTable)
    (analyzer : SemanticAnalyzer) (locals : List Symbol) (arguments : List ASTNode)
    (hlast : ∀ node ∈ after, ∀ others block, node ≠ .FunctionDeclaration name others block)
    (hregister : register_functions create_analyzer.table
        (before ++ .FunctionDeclaration name parameters body :: after) = some table)
    (hstate : analyzer.table.symbols = table.symbols ++ locals)
    (hlocals : ∀ symbol ∈ locals, symbol.name ≠ name)
    (hcount : arguments.length = parameters.length)
    (harguments : ∀ argument ∈ arguments, (analyze_expression analyzer argument).1 = true) :
    analyze create_analyzer
        (.Program (before ++ .FunctionDeclaration name parameters body :: after))
      = analyze_functions { create_analyzer with table := table }
          (before ++ .FunctionDeclaration name parameters body :: after) ∧
    (∃ symbol, find_symbol analyzer.table name = some symbol ∧ symbol.is_function = true ∧
      symbol.param_count = parameters.length) ∧
    analyze_expression analyzer (.FunctionCall name arguments) = (true, analyzer) ∧
    (∀ (state : SemanticAnalyzer) (shadowing : List Symbol),
      state.table.symbols = table.symbols ++ shadowing →
      (∃ symbol ∈ shadowing, symbol.name = name) →
      (∀ symbol ∈ shadowing, symbol.is_function = false) →
      analyze_expression state (.FunctionCall name arguments)
        = (false, { state with
            error_message := some (format_message ("Undefined function: " ++ name)) })) := by
  obtain ⟨_, added, hsymbols, hmap, hall⟩ := register_functions_spec _ _ _ hregister
  rw [declared_functions_append, declared_functions] at hmap
  obtain ⟨first, second, hadded, _, hsecond⟩ := List.map_eq_append_iff.mp hmap
  obtain ⟨symbol, newer, hsecond2, hsymbol, hnewer⟩ := List.map_eq_cons_iff.mp hsecond
  have hname : symbol.name = name := congrArg Prod.fst hsymbol
  have hparams : symbol.param_count = parameters.length := congrArg Prod.snd hsymbol
  have hnewer_names : ∀ other ∈ newer, other.name ≠ name := by
    intro other hmem
    have := declared_functions_names name after hlast (other.name, other.param_count)
      (by rw [← hnewer]; exact List.mem_map_of_mem _ hmem)
    exact this
  have hfunction : symbol.is_function = true :=
    (hall symbol (by rw [hadded, hsecond2]; simp)).1
  have hfound : find_symbol analyzer.table name = some symbol := by
    have htable : analyzer.table
        = ⟨(create_analyzer.table.symbols ++ first) ++ symbol :: (newer ++ locals),
           analyzer.table.current_scope⟩ := by
      cases ht : analyzer.table with
      | mk symbols current_scope =>
        rw [ht] at hstate
        simp only [] at hstate
        rw [hstate, hsymbols, hadded, hsecond2]
        simp
    rw [htable]
    apply find_symbol_newest _ _ _ _ _ hname
    intro other hmem
    rcases List.mem_append.mp hmem with hm | hm
    · exact hnewer_names other hm
    · exact hlocals other hm
  refine ⟨?_, ⟨symbol, hfound, hfunction, hparams⟩, ?_, ?_⟩
  · rw [analyze, hregister]
  · rw [analyze_expression_call analyzer name arguments symbol hfound hfunction,
      if_neg (by rw [hparams, hcount]; exact fun h => h rfl)]
    have hall := (analyze_arguments_all analyzer arguments).mpr harguments
    exact Prod.ext hall
      ((analyze_arguments_untouched arguments analyzer).2.2.2 hall)
  · intro state shadowing hshadow hnamed hvariables
    exact analyze_expression_call_shadowed state name arguments _ _ hshadow hnamed hvariables

/-- The call `g(n)` of `int f(int n) { return g(n); } int g(int x) { return
x; }`: `g` is declared after `f`, the call stands in the body of `f`, and both
the call and the program are accepted. -/
theorem forward_call_accepted_witness :
    analyze_expression state_in_f_of_forward (.FunctionCall "g" [.Identifier "n"])
      = (true, state_in_f_of_forward) ∧
    (analyze create_analyzer program_forward).1 = true ∧
    (analyze create_analyzer program_forward).2.error_message = none :=
  ⟨(forward_call_accepted
      [.FunctionDeclaration "f" [.VariableDeclaration "n" "int" none]
        (.CompoundStatement [.Return (.FunctionCall "g" [.Identifier "n"])])]
      [] "g" [.VariableDeclaration "x" "int" none]
      (.CompoundStatement [.Return (.Identifier "x")])
      ⟨[function_symbol "f" ["int"] 1 0, function_symbol "g" ["int"] 1 0], 0⟩
      state_in_f_of_forward [variable_symbol "n" "int" 1] [.Identifier "n"]
      (by simp) rfl rfl (by simp [variable_symbol]) rfl
      (by simp only [List.mem_singleton, forall_eq]; rfl)).2.2.1,
   rfl, rfl⟩

/-- C17: the check after the body of a function.  When the parameters have
been added and the body has been accepted, `has_return` tells whether the body
contains a `return` statement; `analyze` fails with `Function <name> must
return a value` exactly when it contains none and the function is not called
`main`, and otherwise goes on after leaving the scope of the function.  The
value that `has_return` had before the function makes no difference. -/
theorem missing_return_iff (analyzer : SemanticAnalyzer) (name : String)
    (parameters : List ASTNode) (body : ASTNode) (table : SymbolTable)
    (after : SemanticAnalyzer)
    (hparameters : add_parameters (enter_scope analyzer.table) parameters = some table)
    (hbody : analyze_statement
        { table := table, current_function := some name, has_return := false,
          error_message := analyzer.error_message } body = (true, after)) :
    after.has_return = contains_return body ∧
    (analyze_function analyzer (.FunctionDeclaration name parameters body)
        = (false, { after with
            error_message :=
              some (format_message ("Function " ++ name ++ " must return a value")) })
      ↔ (contains_return body = false ∧ name ≠ "main")) ∧
    ((contains_return body = true ∨ name = "main") →
      analyze_function analyzer (.FunctionDeclaration name parameters body)
        = (true, { after with table := exit_scope after.table })) ∧
    (∀ rest, contains_return body = false → name ≠ "main" →
      analyze_functions analyzer (.FunctionDeclaration name parameters body :: rest)
        = (false, { after with
            error_message :=
              some (format_message ("Function " ++ name ++ " must return a value")) })) ∧
    (∀ flag, analyze_function { analyzer with has_return := flag }
        (.FunctionDeclaration name parameters body)
      = analyze_function analyzer (.FunctionDeclaration name parameters body)) := by
  have hreturn : after.has_return = contains_return body := by
    have h := (analyze_statement_returns body
      { table := table, current_function := some name, has_return := false,
        error_message := analyzer.error_message }).2
    rw [hbody] at h
    simpa using h rfl
  have hstep : analyze_function analyzer (.FunctionDeclaration name parameters body) =
      if !contains_return body && name ≠ "main" then
        (false, set_error after ("Function " ++ name ++ " must return a value"))
      else (true, { after with table := exit_scope after.table }) := by
    rw [analyze_function_declaration, hparameters]
    simp only [hbody, and_then, hreturn]
  have hfail : contains_return body = false → name ≠ "main" →
      analyze_function analyzer (.FunctionDeclaration name parameters body)
        = (false, { after with
            error_message :=
              some (format_message ("Function " ++ name ++ " must return a value")) }) := by
    intro h1 h2
    rw [hstep, if_pos (by simp [h1, h2])]
    rfl
  have hpass : (contains_return body = true ∨ name = "main") →
      analyze_function analyzer (.FunctionDeclaration name parameters body)
        = (true, { after with table := exit_scope after.table }) := by
    intro h
    rw [hstep, if_neg]
    rcases h with h | h <;> simp [h]
  refine ⟨hreturn, ⟨?_, fun h => hfail h.1 h.2⟩, hpass, ?_, fun _ => rfl⟩
  · intro h
    by_cases hc : contains_return body = false ∧ name ≠ "main"
    · exact hc
    · have : contains_return body = true ∨ name = "main" := by
        by_cases h1 : contains_return body = true
        · exact Or.inl h1
        · right
          by_contra h2
          exact hc ⟨by simpa using h1, h2⟩
      rw [hpass this] at h
      cases h
  · intro rest h1 h2
    rw [analyze_functions, hfail h1 h2]
    rfl

/-- The function `g` of `int f() { return 1; } int g() { }`, reached with
`has_return` still `true` from `f`: its body is accepted and has no `return`,
so the program is rejected with `Function g must return a value`, whereas
`int main() { }` is accepted. -/
theorem missing_return_iff_witness :
    state_after_f.has_return = true ∧
    analyze_function state_after_f (.FunctionDeclaration "g" [] (.CompoundStatement []))
      = (false,
         { table := { symbols := [function_symbol "f" [] 0 0, function_symbol "g" [] 0 0],
                      current_scope := 1 },
           current_function := some "g", has_return := false,
           error_message := some "Function g must return a value" }) ∧
    (analyze create_analyzer program_two_functions).1 = false ∧
    (analyze create_analyzer program_two_functions).2.error_message
      = some "Function g must return a value" ∧
    (analyze create_analyzer program_empty_main).1 = true :=
  ⟨rfl,
   (missing_return_iff state_after_f "g" [] (.CompoundStatement [])
      ⟨[function_symbol "f" [] 0 0, function_symbol "g" [] 0 0], 1⟩
      { table := ⟨[function_symbol "f" [] 0 0, function_symbol "g" [] 0 0], 1⟩,
        current_function := some "g", has_return := false, error_message := none }
      rfl rfl).2.1.mpr ⟨rfl, by decide⟩,
   rfl, rfl, rfl⟩

/-- C18, the counterexample: `analyze` returns true on `int main() { }`, and
the symbol table then holds one symbol, the function `main`. -/
theorem table_not_empty_after_analysis :
    (analyze create_analyzer program_empty_main).1 = true ∧
    (analyze create_analyzer program_empty_main).2.table.symbols
      = [function_symbol "main" [] 0 0] ∧
    (analyze create_analyzer program_empty_main).2.table.symbols.length ≠ 0 :=
  ⟨rfl, rfl, by decide⟩

/-- C18, amended: when `analyze` returns true on a program, every scope has
been left (the level is 0 again) and the table is the one that the first pass
built: one function symbol of level 0 per function declaration, in order, and
no parameter or variable.  It is empty exactly when the program declares no
function. -/
theorem only_functions_remain_after_analysis (statements : List ASTNode)
    (after : SemanticAnalyzer)
    (h : analyze create_analyzer (.Program statements) = (true, after)) :
    after.table.current_scope = 0 ∧
    register_functions create_analyzer.table statements = some after.table ∧
    after.table.symbols.map (fun symbol => (symbol.name, symbol.param_count))
      = declared_functions statements ∧
    (∀ symbol ∈ after.table.symbols, symbol.is_function = true ∧ symbol.scope_level = 0) ∧
    (after.table.symbols = [] ↔ declared_functions statements = []) := by
  rw [analyze] at h
  cases hr : register_functions create_analyzer.table statements with
  | none => rw [hr] at h; cases h
  | some table =>
    rw [hr] at h
    simp only [] at h
    obtain ⟨hscope, added, hsymbols, hmap, hall⟩ := register_functions_spec _ _ _ hr
    have hsymbols2 : table.symbols = added := by simpa [create_analyzer] using hsymbols
    have hscope2 : table.current_scope = 0 := hscope
    have hlevel : Levelled table := by
      intro symbol hmem
      rw [hsymbols2] at hmem
      rw [(hall symbol hmem).2, hscope2]
      rfl
    have hrestore := analyze_functions_restores statements
      { create_analyzer with table := table } hlevel (by rw [h])
    rw [h] at hrestore
    have htable : after.table = table := hrestore
    rw [htable]
    refine ⟨hscope2, rfl, by rw [hsymbols2, hmap], ?_, ?_⟩
    · intro symbol hmem
      rw [hsymbols2] at hmem
      exact hall symbol hmem
    · rw [hsymbols2, ← hmap]
      simp

/-- The program `int main() { int x = 2 + 3 * 4; return x; }` is accepted, and
the table is then the function `main` alone at level 0. -/
theorem only_functions_remain_after_analysis_witness :
    analyze create_analyzer program_x_14
      = (true,
         { table := { symbols := [function_symbol "main" [] 0 0], current_scope := 0 },
           current_function := some "main", has_return := true, error_message := none }) ∧
    register_functions create_analyzer.table
        [.FunctionDeclaration "main" []
          (.CompoundStatement
            [.VariableDeclaration "x" "int"
               (some (.BinaryOp '+' (.Number 2) (.BinaryOp '*' (.Number 3) (.Number 4)))),
             .Return (.Identifier "x")])]
      = some { symbols := [function_symbol "main" [] 0 0], current_scope := 0 } :=
  ⟨rfl,
   (only_functions_remain_after_analysis
      [.FunctionDeclaration "main" []
        (.CompoundStatement
          [.VariableDeclaration "x" "int"
             (some (.BinaryOp '+' (.Number 2) (.BinaryOp '*' (.Number 3) (.Number 4)))),
           .Return (.Identifier "x")])]
      { table := { symbols := [function_symbol "main" [] 0 0], current_scope := 0 },
        current_function := some "main", has_return := true, error_message := none }
      rfl).2.1⟩

/-! ## Lowering of expressions -/

theorem generate_expression_ir_binary (program : IRProgram) (operator : Char)
    (left right : ASTNode) :
    generate_expression_ir program (.BinaryOp operator left right) =
      match generate_expression_ir program left with
      | .error msg => .error msg
      | .ok (left, program) =>
        match generate_expression_ir program right with
        | .error msg => .error msg
        | .ok (right, program) =>
          if operator = '+' then
            .ok ((new_temp program).1, add_instruction (new_temp program).2
              (create_instr IR_ADD (some (new_temp program).1) (some left) (some right)))
          else if operator = '-' then
            .ok ((new_temp program).1, add_instruction (new_temp program).2
              (create_instr IR_SUB (some (new_temp program).1) (some left) (some right)))
          else if operator = '*' then
            .ok ((new_temp program).1, add_instruction (new_temp program).2
              (create_instr IR_MUL (some (new_temp program).1) (some left) (some right)))
          else if operator = '/' then
            .ok ((new_temp program).1, add_instruction (new_temp program).2
              (create_instr IR_DIV (some (new_temp program).1) (some left) (some right)))
          else .error "Unknown operator" := rfl

theorem generate_expression_ir_call (program : IRProgram) (name : String)
    (parameters : List ASTNode) :
    generate_expression_ir program (.FunctionCall name parameters) =
      match generate_arguments_ir program parameters with
      | .error msg => .error msg
      | .ok program =>
        .ok ((new_temp program).1, add_instruction (new_temp program).2
          { create_instr IR_CALL (some (new_temp program).1) (some name) none with
            value := parameters.length }) := rfl

theorem generate_arguments_ir_cons (program : IRProgram) (argument : ASTNode)
    (rest : List ASTNode) :
    generate_arguments_ir program (argument :: rest) =
      match generate_expression_ir program argument with
      | .error msg => .error msg
      | .ok (arg, program) =>
        generate_arguments_ir
          (add_instruction program (create_instr IR_ARG none (some arg) none)) rest := rfl

theorem arithmetic_result (program : IRProgram) (operator : Char) (op : IROpcode)
    (left right : String) (hop : (operator, op) ∈ arithmetic_opcodes) :
    (if operator = '+' then
        (.ok ((new_temp program).1, add_instruction (new_temp program).2
          (create_instr IR_ADD (some (new_temp program).1) (some left) (some right)))
          : Except String (String × IRProgram))
      else if operator = '-' then
        .ok ((new_temp program).1, add_instruction (new_temp program).2
          (create_instr IR_SUB (some (new_temp program).1) (some left) (some right)))
      else if operator = '*' then
        .ok ((new_temp program).1, add_instruction (new_temp program).2
          (create_instr IR_MUL (some (new_temp program).1) (some left) (some right)))
      else if operator = '/' then
        .ok ((new_temp program).1, add_instruction (new_temp program).2
          (create_instr IR_DIV (some (new_temp program).1) (some left) (some right)))
      else .error "Unknown operator")
    = .ok ("t" ++ toString program.temp_count,
        { instructions := program.instructions ++
            [arithmetic_instr op ("t" ++ toString program.temp_count) left right],
          temp_count := program.temp_count + 1, label_count := program.label_count }) := by
  simp only [arithmetic_opcodes, List.mem_cons, Prod.mk.injEq, List.mem_singleton,
    List.not_mem_nil, or_false] at hop
  rcases hop with ⟨h1, h2⟩ | ⟨h1, h2⟩ | ⟨h1, h2⟩ | ⟨h1, h2⟩ <;> subst h1 <;> subst h2 <;> rfl

mutual

theorem generate_expression_ir_appends :
    (node : ASTNode) → (program : IRProgram) → (operand : String) → (result : IRProgram) →
      generate_expression_ir program node = .ok (operand, result) →
      ∃ added, result.instructions = program.instructions ++ added
  | .Number _, program, operand, result, h => by
    cases h
    exact ⟨_, rfl⟩
  | .Identifier _, program, operand, result, h => by
    cases h
    exact ⟨[], by simp⟩
  | .BinaryOp operator left right, program, operand, result, h => by
    rw [generate_expression_ir_binary] at h
    rcases h1 : generate_expression_ir program left with msg | ⟨l, p1⟩
    · rw [h1] at h; cases h
    · rw [h1] at h
      simp only [] at h
      rcases h2 : generate_expression_ir p1 right with msg | ⟨r, p2⟩
      · rw [h2] at h; cases h
      · rw [h2] at h
        simp only [] at h
        obtain ⟨a1, ha1⟩ := generate_expression_ir_appends left program l p1 h1
        obtain ⟨a2, ha2⟩ := generate_expression_ir_appends right p1 r p2 h2
        have hfinal : ∃ instr, result.instructions = p2.instructions ++ [instr] := by
          split_ifs at h <;> (cases h; exact ⟨_, rfl⟩)
        obtain ⟨instr, hinstr⟩ := hfinal
        exact ⟨a1 ++ a2 ++ [instr], by rw [hinstr, ha2, ha1]; simp⟩
  | .FunctionCall name parameters, program, operand, result, h => by
    rw [generate_expression_ir_call] at h
    rcases h1 : generate_arguments_ir program parameters with msg | p1
    · rw [h1] at h; cases h
    · rw [h1] at h
      simp only [] at h
      obtain ⟨a1, ha1⟩ := generate_arguments_ir_appends parameters program p1 h1
      cases h
      exact ⟨a1 ++ [_], by simp [add_instruction, new_temp, ha1]; rfl⟩
  | .Program _, _, _, _, h => by cases h
  | .FunctionDeclaration _ _ _, _, _, _, h => by cases h
  | .CompoundStatement _, _, _, _, h => by cases h
  | .VariableDeclaration _ _ _, _, _, _, h => by cases h
  | .Assignment _ _, _, _, _, h => by cases h
  | .Return _, _, _, _, h => by cases h
  | .If _ _ _, _, _, _, h => by cases h
  | .While _ _, _, _, _, h => by cases h

theorem generate_arguments_ir_appends :
    (arguments : List ASTNode) → (program : IRProgram) → (result : IRProgram) →
      generate_arguments_ir program arguments = .ok result →
      ∃ added, result.instructions = program.instructions ++ added
  | [], program, result, h => by
    cases h
    exact ⟨[], by simp⟩
  | argument :: rest, program, result, h => by
    rw [generate_arguments_ir_cons] at h
    rcases h1 : generate_expression_ir program argument with msg | ⟨arg, p1⟩
    · rw [h1] at h; cases h
    · rw [h1] at h
      simp only [] at h
      obtain ⟨a1, ha1⟩ := generate_expression_ir_appends argument program arg p1 h1
      obtain ⟨a2, ha2⟩ := generate_arguments_ir_appends rest _ result h
      exact ⟨a1 ++ [_] ++ a2, by rw [ha2]; simp [add_instruction, ha1]; rfl⟩

end

theorem arithmetic_lookup_mem (operator : Char) (op : IROpcode)
    (h : arithmetic_opcodes.lookup operator = some op) : (operator, op) ∈ arithmetic_opcodes := by
  generalize arithmetic_opcodes = table at h ⊢
  induction table with
  | nil => simp at h
  | cons x xs ih =>
    obtain ⟨a, b⟩ := x
    by_cases hc : operator = a
    · subst hc
      simp only [List.lookup, beq_self_eq_true, Option.some.injEq] at h
      subst h
      exact List.mem_cons_self _ _
    · have hb : (operator == a) = false := by simpa using hc
      simp only [List.lookup, hb] at h
      exact List.mem_cons_of_mem _ (ih h)

mutual

theorem generate_expression_ir_total :
    (node : ASTNode) → (program : IRProgram) → lowerable node = true →
      ∃ operand result, generate_expression_ir program node = .ok (operand, result)
  | .Number _, program, _ => ⟨_, _, rfl⟩
  | .Identifier _, program, _ => ⟨_, _, rfl⟩
  | .BinaryOp operator left right, program, h => by
    rw [lowerable] at h
    simp only [Bool.and_eq_true] at h
    obtain ⟨⟨hop, hl⟩, hr⟩ := h
    obtain ⟨l, p1, h1⟩ := generate_expression_ir_total left program hl
    obtain ⟨r, p2, h2⟩ := generate_expression_ir_total right p1 hr
    obtain ⟨op, hop⟩ := Option.isSome_iff_exists.mp hop
    have hmem : (operator, op) ∈ arithmetic_opcodes := arithmetic_lookup_mem operator op hop
    rw [generate_expression_ir_binary, h1]
    simp only []
    rw [h2]
    simp only []
    rw [arithmetic_result p2 operator op l r hmem]
    exact ⟨_, _, rfl⟩
  | .FunctionCall name parameters, program, h => by
    rw [lowerable] at h
    obtain ⟨p1, h1⟩ := generate_arguments_ir_total parameters program h
    rw [generate_expression_ir_call, h1]
    exact ⟨_, _, rfl⟩
  | .Program _, _, h => by simp [lowerable] at h
  | .FunctionDeclaration _ _ _, _, h => by simp [lowerable] at h
  | .CompoundStatement _, _, h => by simp [lowerable] at h
  | .VariableDeclaration _ _ _, _, h => by simp [lowerable] at h
  | .Assignment _ _, _, h => by simp [lowerable] at h
  | .Return _, _, h => by simp [lowerable] at h
  | .If _ _ _, _, h => by simp [lowerable] at h
  | .While _ _, _, h => by simp [lowerable] at h

theorem generate_arguments_ir_total :
    (arguments : List ASTNode) → (program : IRProgram) → all_lowerable arguments = true →
      ∃ result, generate_arguments_ir program arguments = .ok result
  | [], program, _ => ⟨_, rfl⟩
  | argument :: rest, program, h => by
    rw [all_lowerable] at h
    simp only [Bool.and_eq_true] at h
    obtain ⟨arg, p1, h1⟩ := generate_expression_ir_total argument program h.1
    rw [generate_arguments_ir_cons, h1]
    exact generate_arguments_ir_total rest _ h.2

end

theorem generate_parameters_ir_ops :
    ∀ (parameters : List ASTNode) (program : IRProgram),
      ∃ added, (generate_parameters_ir program parameters).instructions
          = program.instructions ++ added ∧
        (∀ instr ∈ added, instr.op = IR_PARAM) ∧
        (generate_parameters_ir program parameters).temp_count = program.temp_count := by
  intro parameters
  induction parameters with
  | nil => intro program; exact ⟨[], by simp [generate_parameters_ir], by simp, rfl⟩
  | cons node rest ih =>
    intro program
    cases node with
    | VariableDeclaration name type initializer =>
      rw [generate_parameters_ir]
      obtain ⟨added, h1, h2, h3⟩ := ih
        (add_instruction program (create_instr IR_PARAM (some name) none none))
      refine ⟨create_instr IR_PARAM (some name) none none :: added, ?_, ?_, ?_⟩
      · rw [h1]; simp [add_instruction]
      · intro instr hmem
        rcases List.mem_cons.mp hmem with h | h
        · rw [h]; rfl
        · exact h2 instr h
      · rw [h3]; rfl
    | _ => exact ih program

theorem generate_functions_ir_ops :
    ∀ (nodes : List ASTNode) (program : IRProgram),
      ∃ added, (generate_functions_ir program nodes).instructions
          = program.instructions ++ added ∧
        (∀ instr ∈ added, instr.op = IR_LABEL ∨ instr.op = IR_PARAM) ∧
        (generate_functions_ir program nodes).temp_count = program.temp_count := by
  intro nodes
  induction nodes with
  | nil => intro program; exact ⟨[], by simp [generate_functions_ir], by simp, rfl⟩
  | cons node rest ih =>
    intro program
    cases node with
    | FunctionDeclaration name parameters body =>
      rw [generate_functions_ir]
      simp only [generate_statement_ir]
      obtain ⟨params, p1, p2, p3⟩ := generate_parameters_ir_ops parameters
        (add_instruction program
          { create_instr IR_LABEL none none none with
            label := some { name := name, number := -1 } })
      obtain ⟨added, h1, h2, h3⟩ := ih (generate_parameters_ir
        (add_instruction program
          { create_instr IR_LABEL none none none with
            label := some { name := name, number := -1 } }) parameters)
      refine ⟨{ create_instr IR_LABEL none none none with
            label := some { name := name, number := -1 } } :: (params ++ added), ?_, ?_, ?_⟩
      · rw [h1, p1]; simp [add_instruction]
      · intro instr hmem
        rcases List.mem_cons.mp hmem with h | h
        · rw [h]; exact Or.inl rfl
        · rcases List.mem_append.mp h with h | h
          · exact Or.inr (p2 instr h)
          · exact h2 instr h
      · rw [h3, p3]; rfl
    | _ => exact ih program

/-! ## C19, C20: lowering of expressions and of statements -/

/-- C19: lowering `BinaryOp(op, L, R)` with `op` one of `+ - * /`.  When `L`
lowers to the operand `l` in `p1` and `R`, from `p1`, to the operand `r` in
`p2`, the node lowers to the temporary `t` numbered after both, and the
instructions are those before, those that `L` added, those that `R` added and
the one instruction `OP t ← l, r`, in that order.  A number is lowered to one
immediate assignment to a fresh temporary and an identifier to itself without
any instruction; a tree built from numbers, identifiers, these operators and
calls always lowers. -/
theorem binary_op_lowering (program p1 p2 : IRProgram) (operator : Char) (op : IROpcode)
    (left right : ASTNode) (l r : String)
    (hop : (operator, op) ∈ arithmetic_opcodes)
    (hleft : generate_expression_ir program left = .ok (l, p1))
    (hright : generate_expression_ir p1 right = .ok (r, p2)) :
    generate_expression_ir program (.BinaryOp operator left right)
      = .ok ("t" ++ toString p2.temp_count,
          { instructions := p2.instructions ++
              [arithmetic_instr op ("t" ++ toString p2.temp_count) l r],
            temp_count := p2.temp_count + 1, label_count := p2.label_count }) ∧
    (∃ added_left added_right,
      p1.instructions = program.instructions ++ added_left ∧
      p2.instructions = p1.instructions ++ added_right ∧
      p2.instructions ++ [arithmetic_instr op ("t" ++ toString p2.temp_count) l r]
        = program.instructions ++ added_left ++ added_right ++
            [arithmetic_instr op ("t" ++ toString p2.temp_count) l r]) ∧
    (∀ (state : IRProgram) (number_value : Int),
      generate_expression_ir state (.Number number_value)
        = .ok ("t" ++ toString state.temp_count,
            { instructions := state.instructions ++
                [assign_immediate ("t" ++ toString state.temp_count) number_value],
              temp_count := state.temp_count + 1, label_count := state.label_count })) ∧
    (∀ (state : IRProgram) (name : String),
      generate_expression_ir state (.Identifier name) = .ok (name, state)) ∧
    (∀ (state : IRProgram) (node : ASTNode), lowerable node = true →
      ∃ operand result, generate_expression_ir state node = .ok (operand, result)) := by
  refine ⟨?_, ?_, fun _ _ => rfl, fun _ _ => rfl,
    fun state node h => generate_expression_ir_total node state h⟩
  · rw [generate_expression_ir_binary, hleft]
    simp only []
    rw [hright]
    simp only []
    exact arithmetic_result p2 operator op l r hop
  · obtain ⟨a1, h1⟩ := generate_expression_ir_appends left program l p1 hleft
    obtain ⟨a2, h2⟩ := generate_expression_ir_appends right p1 r p2 hright
    exact ⟨a1, a2, h1, h2, by rw [h2, h1]⟩

/-- The expression `2 + 3 * 4` on the empty program: `2` is lowered to `t0`,
`3 * 4` to `t3` after `t1` and `t2`, and the sum to `t4`; the five
instructions are `ASSIGN t0 ← 2`, `ASSIGN t1 ← 3`, `ASSIGN t2 ← 4`,
`MUL t3 ← t1, t2`, `ADD t4 ← t0, t3`. -/
theorem binary_op_lowering_witness :
    generate_expression_ir create_ir_program
        (.BinaryOp '+' (.Number 2) (.BinaryOp '*' (.Number 3) (.Number 4)))
      = .ok ("t4",
          { instructions :=
              [assign_immediate "t0" 2, assign_immediate "t1" 3, assign_immediate "t2" 4,
               arithmetic_instr IR_MUL "t3" "t1" "t2",
               arithmetic_instr IR_ADD "t4" "t0" "t3"],
            temp_count := 5, label_count := 0 }) :=
  (binary_op_lowering create_ir_program
    { instructions := [assign_immediate "t0" 2], temp_count := 1, label_count := 0 }
    { instructions :=
        [assign_immediate "t0" 2, assign_immediate "t1" 3, assign_immediate "t2" 4,
         arithmetic_instr IR_MUL "t3" "t1" "t2"],
      temp_count := 4, label_count := 0 }
    '+' IR_ADD (.Number 2) (.BinaryOp '*' (.Number 3) (.Number 4)) "t0" "t3"
    (by decide) rfl rfl).1

/-- C20: `generate_statement_ir` lowers nothing: it returns the program it was
given for every statement, so every instruction that `generate_ir` adds is an
entry `LABEL` or a `PARAM`, and no temporary is allocated.  For
`int main() { return 42; }` the instruction stream is the entry label of
`main` alone: neither the lowering of `42` nor a `RETURN` follows it. -/
theorem statements_are_not_lowered :
    (∀ (program : IRProgram) (node : ASTNode), generate_statement_ir program node = program) ∧
    (∀ (program : IRProgram) (ast : ASTNode),
      ∃ added, (generate_ir program ast).instructions = program.instructions ++ added ∧
        (∀ instr ∈ added, instr.op = IR_LABEL ∨ instr.op = IR_PARAM) ∧
        (generate_ir program ast).temp_count = program.temp_count) ∧
    generate_ir create_ir_program program_return_42
      = { instructions :=
            [{ op := IR_LABEL, dest := none, src1 := none, src2 := none,
               label := some { name := "main", number := -1 }, value := 0 }],
          temp_count := 0, label_count := 0 } ∧
    (∀ instr ∈ (generate_ir create_ir_program program_return_42).instructions,
      instr.op ≠ IR_RETURN) := by
  refine ⟨fun _ _ => rfl, ?_, rfl, by decide⟩
  intro program ast
  cases ast with
  | Program statements => exact generate_functions_ir_ops statements program
  | _ => exact ⟨[], by simp [generate_ir], by simp, rfl⟩

/-! ## Arrays as lists: the element at the end of a prefix -/

theorem get?_after (pre : List α) (x : α) (rest : List α) :
    (pre ++ x :: rest).get? pre.length = some x := by
  induction pre with
  | nil => rfl
  | cons head tail ih => simpa using ih

theorem get?_at_end (pre : List α) : pre.get? pre.length = none := by
  simp

theorem set_after (pre : List α) (x y : α) (rest : List α) :
    (pre ++ x :: rest).set pre.length y = pre ++ y :: rest := by
  simp

theorem get?_after_next (pre : List α) (x y : α) (rest : List α) :
    (pre ++ x :: y :: rest).get? (pre.length + 1) = some y := by
  have := get?_after (pre ++ [x]) y rest
  simpa using this

theorem get?_after_last (pre : List α) (x : α) :
    (pre ++ [x]).get? (pre.length + 1) = none := by
  simp

theorem eraseIdx_after_next (pre : List α) (x y : α) (rest : List α) :
    (pre ++ x :: y :: rest).eraseIdx (pre.length + 1) = pre ++ x :: rest := by
  have := List.eraseIdx_append_of_length_le (l := pre ++ [x]) (k := pre.length + 1)
    (by simp) (y :: rest)
  simpa using this

/-! ## Common subexpression elimination -/

theorem is_computation_assign (instr : IRInstr) (src1 src2 : Option String) :
    is_computation { instr with op := IR_ASSIGN, src2 := src2, src1 := src1 } = false := by
  simp [is_computation]

theorem replace_if_same_eq (current next : IRInstr) (hc : Complete current)
    (hn : Complete next) (hcurrent : is_computation current = true) :
    replace_if_same current next = .ok (replaced current next) := by
  unfold replace_if_same replaced same_computation
  by_cases h1 : is_computation next = true
  · obtain ⟨hd, ha, hb⟩ := hc hcurrent
    obtain ⟨_, hna, hnb⟩ := hn h1
    obtain ⟨d, hd⟩ := Option.isSome_iff_exists.mp hd
    obtain ⟨a, ha⟩ := Option.isSome_iff_exists.mp ha
    obtain ⟨b, hb⟩ := Option.isSome_iff_exists.mp hb
    obtain ⟨na, hna⟩ := Option.isSome_iff_exists.mp hna
    obtain ⟨nb, hnb⟩ := Option.isSome_iff_exists.mp hnb
    simp only [h1, hcurrent, hd, ha, hb, hna, hnb, Bool.not_true, Bool.false_eq_true,
      if_false, Bool.true_and, Option.some.injEq]
    by_cases hop : next.op = current.op
    · by_cases hs1 : na = a
      · by_cases hs2 : nb = b
        · simp [hop, hs1, hs2]
        · have : ¬ b = nb := fun h => hs2 h.symm
          simp [hop, hs1, hs2, this]
      · have : ¬ a = na := fun h => hs1 h.symm
        simp [hop, hs1, this]
    · have : ¬ current.op = next.op := fun h => hop h.symm
      simp [hop, this]
  · simp only [Bool.not_eq_true] at h1
    simp [h1]

theorem common_subexpressions_inner_eq (current : IRInstr) (g : IRInstr → IRInstr) :
    ∀ (rest pre : List IRInstr) (todo : Nat), rest.length ≤ todo →
      (∀ next ∈ rest, replace_if_same current next = .ok (g next)) →
      common_subexpressions_inner current todo pre.length (pre ++ rest)
        = .ok (pre ++ rest.map g) := by
  intro rest
  induction rest with
  | nil =>
    intro pre todo _ _
    cases todo with
    | zero => simp [common_subexpressions_inner]
    | succ todo =>
      rw [common_subexpressions_inner, List.append_nil, get?_at_end]
      simp
  | cons next rest ih =>
    intro pre todo htodo hall
    cases todo with
    | zero => simp at htodo
    | succ todo =>
      rw [common_subexpressions_inner, get?_after]
      simp only [hall next (List.mem_cons_self _ _), set_after]
      have := ih (pre ++ [g next]) todo (by simpa using htodo)
        (fun x hx => hall x (List.mem_cons_of_mem _ hx))
      simpa using this

theorem same_computation_trans {a b c : IRInstr} (hab : same_computation a b = true)
    (hbc : same_computation b c = true) : same_computation a c = true := by
  simp only [same_computation, Bool.and_eq_true, decide_eq_true_eq] at hab hbc ⊢
  obtain ⟨⟨⟨⟨ha, _⟩, h1⟩, h2⟩, h3⟩ := hab
  obtain ⟨⟨⟨⟨_, hc⟩, h4⟩, h5⟩, h6⟩ := hbc
  exact ⟨⟨⟨⟨ha, hc⟩, h1.trans h4⟩, h2.trans h5⟩, h3.trans h6⟩

theorem same_computation_symm {a b : IRInstr} (hab : same_computation a b = true) :
    same_computation b a = true := by
  simp only [same_computation, Bool.and_eq_true, decide_eq_true_eq] at hab ⊢
  obtain ⟨⟨⟨⟨ha, hb⟩, h1⟩, h2⟩, h3⟩ := hab
  exact ⟨⟨⟨⟨hb, ha⟩, h1.symm⟩, h2.symm⟩, h3.symm⟩

theorem rewritten_of_none {before : List IRInstr} {instr : IRInstr}
    (h : before.find? (fun earlier => same_computation earlier instr) = none) :
    rewritten before instr = instr := by
  simp [rewritten, h]

theorem rewritten_of_some {before : List IRInstr} {instr earliest : IRInstr}
    (h : before.find? (fun earlier => same_computation earlier instr) = some earliest) :
    rewritten before instr
      = { instr with op := IR_ASSIGN, src2 := none, src1 := earliest.dest } := by
  simp [rewritten, h]

theorem find?_of_computation_rewritten {before : List IRInstr} {instr : IRInstr}
    (h : is_computation (rewritten before instr) = true) :
    before.find? (fun earlier => same_computation earlier instr) = none := by
  cases hf : before.find? (fun earlier => same_computation earlier instr) with
  | none => rfl
  | some earliest =>
    rw [rewritten_of_some hf, is_computation_assign] at h
    cases h

theorem complete_rewritten {before : List IRInstr} {instr : IRInstr} (h : Complete instr) :
    Complete (rewritten before instr) := by
  cases hf : before.find? (fun earlier => same_computation earlier instr) with
  | none => rw [rewritten_of_none hf]; exact h
  | some earliest =>
    rw [rewritten_of_some hf]
    intro hc
    rw [is_computation_assign] at hc
    cases hc

theorem rewritten_after_skipped {before : List IRInstr} {skipped : IRInstr}
    (h : is_computation (rewritten before skipped) = false) (instr : IRInstr) :
    rewritten (before ++ [skipped]) instr = rewritten before instr := by
  cases hf : before.find? (fun earlier => same_computation earlier instr) with
  | some earliest =>
    have : (before ++ [skipped]).find? (fun earlier => same_computation earlier instr)
        = some earliest := by
      rw [List.find?_append, hf]; rfl
    rw [rewritten_of_some hf, rewritten_of_some this]
  | none =>
    have hskip : same_computation skipped instr = false := by
      by_contra hsame
      simp only [Bool.not_eq_false] at hsame
      cases hs : before.find? (fun earlier => same_computation earlier skipped) with
      | none =>
        rw [rewritten_of_none hs] at h
        simp only [same_computation, Bool.and_eq_true] at hsame
        rw [hsame.1.1.1.1] at h
        cases h
      | some earliest =>
        have hmem := List.mem_of_find?_eq_some hs
        have hsame2 := List.find?_some hs
        have := List.find?_eq_none.mp hf earliest hmem
        simp only [Bool.not_eq_true] at this
        rw [same_computation_trans hsame2 hsame] at this
        cases this
    have : (before ++ [skipped]).find? (fun earlier => same_computation earlier instr)
        = none := by
      rw [List.find?_append, hf]
      simp [hskip]
    rw [rewritten_of_none hf, rewritten_of_none this]

theorem replaced_rewritten (before : List IRInstr) (current instr : IRInstr) :
    replaced current (rewritten before instr) = rewritten (before ++ [current]) instr := by
  cases hf : before.find? (fun earlier => same_computation earlier instr) with
  | some earliest =>
    have : (before ++ [current]).find? (fun earlier => same_computation earlier instr)
        = some earliest := by
      rw [List.find?_append, hf]; rfl
    rw [rewritten_of_some hf, rewritten_of_some this]
    simp [replaced, same_computation, is_computation]
  | none =>
    rw [rewritten_of_none hf]
    by_cases hsame : same_computation current instr = true
    · have : (before ++ [current]).find? (fun earlier => same_computation earlier instr)
          = some current := by
        rw [List.find?_append, hf]
        simp [hsame]
      rw [rewritten_of_some this]
      simp [replaced, hsame]
    · have : (before ++ [current]).find? (fun earlier => same_computation earlier instr)
          = none := by
        rw [List.find?_append, hf]
        simp [hsame]
      rw [rewritten_of_none this]
      simp [replaced, hsame]

theorem common_subexpressions_outer_eq :
    ∀ (rest before done : List IRInstr) (todo : Nat), rest.length ≤ todo →
      (∀ instr ∈ rest, Complete instr) →
      common_subexpressions_outer todo done.length (done ++ rest.map (rewritten before))
        = .ok (done ++ rewritten_after before rest) := by
  intro rest
  induction rest with
  | nil =>
    intro before done todo _ _
    cases todo with
    | zero => simp [common_subexpressions_outer, rewritten_after]
    | succ todo =>
      rw [common_subexpressions_outer]
      simp only [List.map_nil, List.append_nil, get?_at_end, rewritten_after]
  | cons current rest ih =>
    intro before done todo htodo hall
    cases todo with
    | zero => simp at htodo
    | succ todo =>
      have hrest : ∀ instr ∈ rest, Complete instr :=
        fun x hx => hall x (List.mem_cons_of_mem _ hx)
      have hlen : rest.length ≤ todo := by simpa using htodo
      rw [common_subexpressions_outer, List.map_cons, get?_after, rewritten_after]
      simp only []
      by_cases hc : is_computation (rewritten before current) = true
      · simp only [hc, Bool.not_true, Bool.false_eq_true, if_false]
        have hsame : rewritten before current = current :=
          rewritten_of_none (find?_of_computation_rewritten hc)
        have hk : (rest.map (rewritten before)).length ≤
            (done ++ rewritten before current :: rest.map (rewritten before)).length
              - (done.length + 1) := by
          simp only [List.length_append, List.length_cons, List.length_map]
          omega
        have hinner := common_subexpressions_inner_eq (rewritten before current)
          (replaced current) (rest.map (rewritten before))
          (done ++ [rewritten before current]) _ hk
          (by
            intro next hnext
            obtain ⟨x, hx, rfl⟩ := List.mem_map.mp hnext
            rw [hsame]
            exact replace_if_same_eq current _
              (hall current (List.mem_cons_self _ _)) (complete_rewritten (hrest x hx))
              (by rw [← hsame]; exact hc))
        have e1 : (done ++ [rewritten before current]).length = done.length + 1 := by simp
        have e2 : ∀ l : List IRInstr, (done ++ [rewritten before current]) ++ l
            = done ++ rewritten before current :: l := by simp
        rw [e1, e2, e2] at hinner
        rw [hinner]
        simp only [List.map_map]
        have hmap : rest.map (replaced current ∘ rewritten before)
            = rest.map (rewritten (before ++ [current])) :=
          List.map_congr_left (fun x _ => replaced_rewritten before current x)
        rw [hmap]
        have := ih (before ++ [current]) (done ++ [rewritten before current]) todo hlen hrest
        simpa using this
      · simp only [Bool.not_eq_true] at hc
        simp only [hc, Bool.not_false, if_true]
        have hmap : rest.map (rewritten before)
            = rest.map (rewritten (before ++ [current])) :=
          List.map_congr_left (fun x _ => (rewritten_after_skipped hc x).symm)
        rw [hmap]
        have := ih (before ++ [current]) (done ++ [rewritten before current]) todo hlen hrest
        simpa using this

theorem map_rewritten_nil (rest : List IRInstr) : rest.map (rewritten []) = rest := by
  induction rest with
  | nil => rfl
  | cons instr rest ih => rw [List.map_cons, ih]; rfl

theorem rewritten_after_get? :
    ∀ (rest before : List IRInstr) (j : Nat) (instr : IRInstr),
      rest.get? j = some instr →
      (rewritten_after before rest).get? j = some (rewritten (before ++ rest.take j) instr) := by
  intro rest
  induction rest with
  | nil => intro before j instr h; simp at h
  | cons head rest ih =>
    intro before j instr h
    cases j with
    | zero =>
      simp only [List.get?_cons_zero, Option.some.injEq] at h
      subst h
      simp [rewritten_after]
    | succ j =>
      simp only [List.get?_cons_succ] at h
      have := ih (before ++ [head]) j instr h
      simpa [rewritten_after] using this

theorem rewritten_after_length :
    ∀ (rest before : List IRInstr), (rewritten_after before rest).length = rest.length := by
  intro rest
  induction rest with
  | nil => intro before; rfl
  | cons head rest ih => intro before; simp [rewritten_after, ih]

theorem rewritten_dest (before : List IRInstr) (instr : IRInstr) :
    (rewritten before instr).dest = instr.dest := by
  unfold rewritten
  split <;> rfl

theorem eliminate_common_subexpressions_eq (program : IRProgram)
    (hcomplete : ∀ instr ∈ program.instructions, Complete instr) :
    eliminate_common_subexpressions program
      = .ok { program with instructions := rewritten_after [] program.instructions } := by
  have h := common_subexpressions_outer_eq program.instructions [] []
    program.instructions.length (le_refl _) hcomplete
  rw [map_rewritten_nil] at h
  simp only [List.length_nil, List.nil_append] at h
  rw [eliminate_common_subexpressions, h]

/-! ## C26, C27: common subexpression elimination -/

/-- C26: when every computation of the program has a destination and two
sources, `eliminate_common_subexpressions` leaves, at every index, the
instruction rewritten with respect to the instructions in front of it: a
computation with an earlier computation of the same opcode and the same two
source strings has become an `ASSIGN` whose `src1` is the destination of the
earliest of them and whose `src2` is null, and every other instruction is as
it was.  The number of instructions and every destination are unchanged. -/
theorem common_subexpressions_eliminated (program : IRProgram)
    (hcomplete : ∀ instr ∈ program.instructions, Complete instr) :
    eliminate_common_subexpressions program
      = .ok { program with instructions := rewritten_after [] program.instructions } ∧
    (rewritten_after [] program.instructions).length = program.instructions.length ∧
    (∀ j instr, program.instructions.get? j = some instr →
      (rewritten_after [] program.instructions).get? j
        = some (rewritten (program.instructions.take j) instr)) ∧
    (∀ before instr earliest,
      before.find? (fun earlier => same_computation earlier instr) = some earliest →
      rewritten before instr
        = { instr with op := IR_ASSIGN, src2 := none, src1 := earliest.dest }) ∧
    (∀ before instr, (∀ earlier ∈ before, same_computation earlier instr = false) →
      rewritten before instr = instr) ∧
    (∀ before instr, (rewritten before instr).dest = instr.dest) := by
  refine ⟨eliminate_common_subexpressions_eq program hcomplete,
    rewritten_after_length _ _, ?_, fun _ _ _ h => rewritten_of_some h, ?_,
    rewritten_dest⟩
  · intro j instr h
    have := rewritten_after_get? program.instructions [] j instr h
    simpa using this
  · intro before instr h
    apply rewritten_of_none
    rw [List.find?_eq_none]
    intro earlier hmem
    simp [h earlier hmem]

/-- The program `ADD t1 ← a, b`, `MUL t2 ← a, b`, `ADD t3 ← a, b`,
`ADD t4 ← b, a`, `ADD t5 ← a, b`: the third and the fifth instruction become
assignments of `t1`, the others stay. -/
theorem common_subexpressions_eliminated_witness :
    eliminate_common_subexpressions
        { instructions :=
            [arithmetic_instr IR_ADD "t1" "a" "b", arithmetic_instr IR_MUL "t2" "a" "b",
             arithmetic_instr IR_ADD "t3" "a" "b", arithmetic_instr IR_ADD "t4" "b" "a",
             arithmetic_instr IR_ADD "t5" "a" "b"],
          temp_count := 6, label_count := 0 }
      = .ok
        { instructions :=
            [arithmetic_instr IR_ADD "t1" "a" "b", arithmetic_instr IR_MUL "t2" "a" "b",
             { op := IR_ASSIGN, dest := some "t3", src1 := some "t1", src2 := none,
               label := none, value := 0 },
             arithmetic_instr IR_ADD "t4" "b" "a",
             { op := IR_ASSIGN, dest := some "t5", src1 := some "t1", src2 := none,
               label := none, value := 0 }],
          temp_count := 6, label_count := 0 } :=
  (common_subexpressions_eliminated
    { instructions :=
        [arithmetic_instr IR_ADD "t1" "a" "b", arithmetic_instr IR_MUL "t2" "a" "b",
         arithmetic_instr IR_ADD "t3" "a" "b", arithmetic_instr IR_ADD "t4" "b" "a",
         arithmetic_instr IR_ADD "t5" "a" "b"],
      temp_count := 6, label_count := 0 }
    (by
      intro instr hmem
      simp only [List.mem_cons, List.mem_singleton, List.not_mem_nil, or_false] at hmem
      rcases hmem with h | h | h | h | h <;> subst h <;> exact fun _ => ⟨rfl, rfl, rfl⟩)).1.trans
    rfl

/-- C27: `eliminate_common_subexpressions` looks at nothing between the two
computations.  Whatever stands between a computation and a later one with the
same opcode and sources, the later one becomes an `ASSIGN`; in
`ADD t1 ← x, y`, `ASSIGN x ← t9`, `ADD t2 ← x, y` the third instruction becomes
`ASSIGN t2 ← t1` although `x` is overwritten in between. -/
theorem overwritten_operands_still_matched :
    (∀ (first between rest : List IRInstr) (current later : IRInstr)
        (temp_count label_count : Nat),
      (∀ instr ∈ first ++ current :: (between ++ later :: rest), Complete instr) →
      same_computation current later = true →
      ∃ (result : IRProgram) (earliest : IRInstr),
        eliminate_common_subexpressions
            { instructions := first ++ current :: (between ++ later :: rest),
              temp_count := temp_count, label_count := label_count } = .ok result ∧
        result.instructions.get? (first.length + 1 + between.length)
          = some { later with op := IR_ASSIGN, src2 := none, src1 := earliest.dest }) ∧
    eliminate_common_subexpressions
        { instructions :=
            [arithmetic_instr IR_ADD "t1" "x" "y",
             { op := IR_ASSIGN, dest := some "x", src1 := some "t9", src2 := none,
               label := none, value := 0 },
             arithmetic_instr IR_ADD "t2" "x" "y"],
          temp_count := 10, label_count := 0 }
      = .ok
        { instructions :=
            [arithmetic_instr IR_ADD "t1" "x" "y",
             { op := IR_ASSIGN, dest := some "x", src1 := some "t9", src2 := none,
               label := none, value := 0 },
             { op := IR_ASSIGN, dest := some "t2", src1 := some "t1", src2 := none,
               label := none, value := 0 }],
          temp_count := 10, label_count := 0 } := by
  refine ⟨?_, rfl⟩
  intro first between rest current later temp_count label_count hcomplete hsame
  have hindex : first.length + 1 + between.length = (first ++ current :: between).length := by
    simp only [List.length_append, List.length_cons]
    omega
  have hlist : first ++ current :: (between ++ later :: rest)
      = (first ++ current :: between) ++ later :: rest := by simp
  have hget : (first ++ current :: (between ++ later :: rest)).get?
      (first.length + 1 + between.length) = some later := by
    rw [hindex, hlist]
    exact get?_after _ _ _
  have htake : (first ++ current :: (between ++ later :: rest)).take
      (first.length + 1 + between.length) = first ++ current :: between := by
    rw [hindex, hlist]
    exact List.take_left _ _
  have hfind : ∃ earliest, (first ++ current :: between).find?
      (fun earlier => same_computation earlier later) = some earliest := by
    cases hf : (first ++ current :: between).find?
        (fun earlier => same_computation earlier later) with
    | some earliest => exact ⟨earliest, rfl⟩
    | none =>
      have := List.find?_eq_none.mp hf current (by simp)
      simp [hsame] at this
  obtain ⟨earliest, hearliest⟩ := hfind
  refine ⟨_, earliest, eliminate_common_subexpressions_eq _ hcomplete, ?_⟩
  have := rewritten_after_get? _ [] _ later hget
  rw [List.nil_append, htake, rewritten_of_some hearliest] at this
  exact this

/-! ## Strength reduction -/

theorem reduce_instruction_eq (instr : IRInstr)
    (h : instr.op = IR_MUL ∨ instr.op = IR_DIV →
      instr.src1.isSome = true ∧ instr.src2.isSome = true) :
    reduce_instruction instr = .ok (reduced instr) := by
  unfold reduce_instruction reduce_multiplication reduce_division reduced
  by_cases hm : instr.op = IR_MUL
  · obtain ⟨h1, h2⟩ := h (Or.inl hm)
    obtain ⟨a, ha⟩ := Option.isSome_iff_exists.mp h1
    obtain ⟨b, hb⟩ := Option.isSome_iff_exists.mp h2
    by_cases hv : atoi b = 2
    · simp [hm, ha, hb, hv]
    · simp [hm, ha, hb, hv]
  · by_cases hd : instr.op = IR_DIV
    · obtain ⟨h1, h2⟩ := h (Or.inr hd)
      obtain ⟨b, hb⟩ := Option.isSome_iff_exists.mp h2
      by_cases hv : atoi b = 2
      · simp [hd, hb, hv]
      · simp [hd, hb, hv]
    · simp [hm, hd]

theorem reduce_strength_loop_eq :
    ∀ (rest pre : List IRInstr) (todo : Nat), rest.length ≤ todo →
      (∀ instr ∈ rest, reduce_instruction instr = .ok (reduced instr)) →
      reduce_strength_loop todo pre.length (pre ++ rest) = .ok (pre ++ rest.map reduced) := by
  intro rest
  induction rest with
  | nil =>
    intro pre todo _ _
    cases todo with
    | zero => simp [reduce_strength_loop]
    | succ todo =>
      rw [reduce_strength_loop, List.append_nil, get?_at_end]
      simp
  | cons instr rest ih =>
    intro pre todo htodo hall
    cases todo with
    | zero => simp at htodo
    | succ todo =>
      rw [reduce_strength_loop, get?_after]
      simp only [hall instr (List.mem_cons_self _ _), set_after]
      have := ih (pre ++ [reduced instr]) todo (by simpa using htodo)
        (fun x hx => hall x (List.mem_cons_of_mem _ hx))
      simpa using this

/-! ## C28: strength reduction -/

/-- C28: `reduce_strength` tests the second source with `atoi(src2) == 2`, and
`atoi` reads a number from the front of a string that is not one.  On a
program whose multiplications and divisions have both sources, every
instruction becomes `reduced instr`: a `MUL` or `DIV` is rewritten exactly
when `atoi` of its second source is 2.  That is so for `2`, and also for `2x`,
` 2` and `+2`: `MUL t ← a, 2x` becomes `ADD t ← a, a` and `DIV t ← a, 2x`
becomes `SHR t ← a, 1`, while a temporary or an identifier as second source
leaves the instruction as it is. -/
theorem strength_reduced_on_prefix_two :
    (∀ program : IRProgram,
      (∀ instr ∈ program.instructions, instr.op = IR_MUL ∨ instr.op = IR_DIV →
        instr.src1.isSome = true ∧ instr.src2.isSome = true) →
      reduce_strength program
        = .ok { program with instructions := program.instructions.map reduced }) ∧
    atoi "2" = 2 ∧ atoi "2x" = 2 ∧ atoi " 2" = 2 ∧ atoi "+2" = 2 ∧
    atoi "t2" = 0 ∧ atoi "x" = 0 ∧
    reduce_strength
        { instructions :=
            [arithmetic_instr IR_MUL "t1" "a" "2x", arithmetic_instr IR_DIV "t2" "a" "2x",
             arithmetic_instr IR_MUL "t3" "a" "2", arithmetic_instr IR_DIV "t4" "a" "2",
             arithmetic_instr IR_MUL "t5" "a" "t2", arithmetic_instr IR_DIV "t6" "a" "x",
             arithmetic_instr IR_ADD "t7" "a" "2"],
          temp_count := 8, label_count := 0 }
      = .ok
        { instructions :=
            [arithmetic_instr IR_ADD "t1" "a" "a", arithmetic_instr IR_SHR "t2" "a" "1",
             arithmetic_instr IR_ADD "t3" "a" "a", arithmetic_instr IR_SHR "t4" "a" "1",
             arithmetic_instr IR_MUL "t5" "a" "t2", arithmetic_instr IR_DIV "t6" "a" "x",
             arithmetic_instr IR_ADD "t7" "a" "2"],
          temp_count := 8, label_count := 0 } := by
  refine ⟨?_, by decide, by decide, by decide, by decide, by decide, by decide, rfl⟩
  intro program h
  have := reduce_strength_loop_eq program.instructions [] program.instructions.length
    (le_refl _) (fun instr hmem => reduce_instruction_eq instr (h instr hmem))
  simp only [List.length_nil, List.nil_append] at this
  rw [reduce_strength, this]
/-! ## Tail recursion elimination -/

theorem track_function_eq (current_function : Option String) (instr : IRInstr)
    (h : instr.op = IR_LABEL → instr.label.isSome = true) :
    track_function current_function instr
      = .ok (enclosing_function current_function instr) := by
  unfold track_function enclosing_function
  by_cases hl : instr.op = IR_LABEL
  · obtain ⟨label, hlabel⟩ := Option.isSome_iff_exists.mp (h hl)
    simp [hl, hlabel]
  · simp [hl]

theorem guarded_tail {current_function : Option String} {instr : IRInstr}
    {rest : List IRInstr} (h : Guarded current_function (instr :: rest)) :
    Guarded (enclosing_function current_function instr) rest := h.2.2

theorem guarded_skip {current_function : Option String} {instr : IRInstr}
    {rest : List IRInstr} (hr : instr.op = IR_RETURN) (h : Guarded current_function (instr :: rest)) :
    Guarded current_function rest := by
  have := h.2.2
  have he : enclosing_function current_function instr = current_function := by
    simp [enclosing_function, hr]
  rwa [he] at this

theorem tail_recursion_loop_eq :
    ∀ (todo : Nat) (rest done : List IRInstr) (current_function : Option String),
      rest.length ≤ todo → Guarded current_function rest →
      tail_recursion_loop todo done.length current_function (done ++ rest)
        = .ok (done ++ tail_calls_rewritten current_function rest) := by
  intro todo
  induction todo with
  | zero =>
    intro rest done current_function hlen _
    have : rest = [] := List.length_eq_zero.mp (Nat.le_zero.mp hlen)
    subst this
    simp [tail_recursion_loop, tail_calls_rewritten]
  | succ todo ih =>
    intro rest done current_function hlen hguard
    match rest, hlen, hguard with
    | [], _, _ =>
      rw [tail_recursion_loop, List.append_nil, get?_at_end]
      simp [tail_calls_rewritten]
    | [instr], _, hguard =>
      rw [tail_recursion_loop, get?_after]
      simp only [track_function_eq current_function instr hguard.1, tail_calls_rewritten]
      have hstep := ih [] (done ++ [instr]) (enclosing_function current_function instr)
        (Nat.zero_le _) trivial
      simp only [List.length_append, List.length_singleton, List.append_nil,
        tail_calls_rewritten] at hstep
      by_cases hcall : instr.op = IR_CALL
      · obtain ⟨hsrc, hcf⟩ := hguard.2.1 hcall
        obtain ⟨callee, hcallee⟩ := Option.isSome_iff_exists.mp hsrc
        obtain ⟨function, hfunction⟩ := Option.isSome_iff_exists.mp hcf
        simp only [hcall, if_true, hcallee, hfunction, get?_after_last]
        rw [hfunction] at hstep
        by_cases heq : callee = function
        · simp only [heq, if_true]; exact hstep
        · simp only [heq, if_false]; exact hstep
      · simp only [hcall, if_false]
        exact hstep
    | instr :: next :: rest, hlen, hguard =>
      have hlen1 : (next :: rest).length ≤ todo := by simpa using hlen
      have hlen2 : rest.length ≤ todo := by
        simp only [List.length_cons] at hlen
        omega
      rw [tail_recursion_loop, get?_after]
      simp only [track_function_eq current_function instr hguard.1]
      have hkeep := ih (next :: rest) (done ++ [instr])
        (enclosing_function current_function instr) hlen1 (guarded_tail hguard)
      simp only [List.length_append, List.length_singleton, List.append_assoc,
        List.singleton_append] at hkeep
      rw [tail_calls_rewritten]
      by_cases hcall : instr.op = IR_CALL
      · obtain ⟨hsrc, hcf⟩ := hguard.2.1 hcall
        obtain ⟨callee, hcallee⟩ := Option.isSome_iff_exists.mp hsrc
        obtain ⟨function, hfunction⟩ := Option.isSome_iff_exists.mp hcf
        simp only [hcall, if_true, hcallee, hfunction, get?_after_next]
        rw [hfunction] at hkeep
        by_cases heq : callee = function
        · by_cases hret : next.op = IR_RETURN
          · have htest : is_self_call_before_return (some function) instr next = true := by
              simp [is_self_call_before_return, hcall, hcallee, heq, hret]
            simp only [heq, if_true, hret, htest, set_after, eraseIdx_after_next,
              Option.getD_some]
            have hguard2 : Guarded (some function) rest := by
              have := guarded_skip hret (guarded_tail hguard)
              rwa [hfunction] at this
            have hdrop := ih rest
              (done ++ [{ instr with op := IR_JUMP,
                                     label := some { name := function, number := -1 } }])
              (some function) hlen2 hguard2
            simp only [List.length_append, List.length_singleton, List.append_assoc,
              List.singleton_append] at hdrop
            simp only [hcallee, heq] at hdrop
            rw [hdrop]
            simp [jump_to_entry, hcallee, heq]
          · have htest : is_self_call_before_return (some function) instr next = false := by
              simp [is_self_call_before_return, hret]
            simp only [heq, if_true, hret, if_false, htest, Bool.false_eq_true]
            exact hkeep
        · have htest : is_self_call_before_return (some function) instr next = false := by
            simp [is_self_call_before_return, hcallee, heq]
          simp only [heq, if_false, htest, Bool.false_eq_true]
          exact hkeep
      · have htest : is_self_call_before_return
            (enclosing_function current_function instr) instr next = false := by
          simp [is_self_call_before_return, hcall]
        simp only [hcall, if_false, htest, Bool.false_eq_true]
        exact hkeep

theorem enclosing_function_isSome {current_function : Option String}
    (h : current_function.isSome = true) (instr : IRInstr) :
    (enclosing_function current_function instr).isSome = true := by
  unfold enclosing_function
  split
  · split
    · split
      · rfl
      · exact h
    · exact h
  · exact h

theorem guarded_of_some :
    ∀ (rest : List IRInstr) (current_function : Option String),
      current_function.isSome = true →
      (∀ instr ∈ rest, instr.op = IR_LABEL → instr.label.isSome = true) →
      (∀ instr ∈ rest, instr.op = IR_CALL → instr.src1.isSome = true) →
      Guarded current_function rest := by
  intro rest
  induction rest with
  | nil => intro _ _ _ _; trivial
  | cons instr rest ih =>
    intro current_function hcf hlabels hcalls
    have hnext := enclosing_function_isSome hcf instr
    exact ⟨hlabels instr (List.mem_cons_self _ _),
      fun hcall => ⟨hcalls instr (List.mem_cons_self _ _) hcall, hnext⟩,
      ih _ hnext (fun x hx => hlabels x (List.mem_cons_of_mem _ hx))
        (fun x hx => hcalls x (List.mem_cons_of_mem _ hx))⟩

theorem eliminate_tail_recursion_eq (program : IRProgram)
    (h : Guarded none program.instructions) :
    eliminate_tail_recursion program
      = .ok { program with
          instructions := tail_calls_rewritten none program.instructions } := by
  have := tail_recursion_loop_eq program.instructions.length program.instructions [] none
    (le_refl _) h
  simp only [List.length_nil, List.nil_append] at this
  rw [eliminate_tail_recursion, this]

/-! ## C29, C30: tail recursion elimination -/

/-- C29: on a program that begins with the entry label of a function, in which
every label has its `label` and every call its `src1`,
`eliminate_tail_recursion` returns the instruction stream in which exactly the
calls of the enclosing function (the one named by the most recent label
numbered `-1`) that are immediately followed by a `RETURN` have become a
`JUMP` with the label `(name, -1)`, those `RETURN`s are left out, and every
other instruction stands as it was, in order. -/
theorem tail_calls_eliminated (program : IRProgram) (entry : IRInstr)
    (rest : List IRInstr) (name : String)
    (hprogram : program.instructions = entry :: rest)
    (hentry : entry.op = IR_LABEL ∧ entry.label = some { name := name, number := -1 })
    (hlabels : ∀ instr ∈ rest, instr.op = IR_LABEL → instr.label.isSome = true)
    (hcalls : ∀ instr ∈ rest, instr.op = IR_CALL → instr.src1.isSome = true) :
    eliminate_tail_recursion program
      = .ok { program with
          instructions := tail_calls_rewritten none program.instructions } ∧
    (∀ (current_function : Option String) (instr next : IRInstr) (after : List IRInstr),
      is_self_call_before_return (enclosing_function current_function instr) instr next
          = true →
      tail_calls_rewritten current_function (instr :: next :: after)
        = jump_to_entry instr ((enclosing_function current_function instr).getD "") ::
            tail_calls_rewritten (enclosing_function current_function instr) after) ∧
    (∀ (current_function : Option String) (instr next : IRInstr) (after : List IRInstr),
      is_self_call_before_return (enclosing_function current_function instr) instr next
          = false →
      tail_calls_rewritten current_function (instr :: next :: after)
        = instr ::
            tail_calls_rewritten (enclosing_function current_function instr)
              (next :: after)) ∧
    (∀ (current_function : Option String) (instr : IRInstr),
      tail_calls_rewritten current_function [instr] = [instr]) := by
  refine ⟨?_, ?_, ?_, fun _ _ => rfl⟩
  · apply eliminate_tail_recursion_eq
    rw [hprogram]
    have hcf : enclosing_function none entry = some name := by
      simp [enclosing_function, hentry.1, hentry.2]
    refine ⟨fun _ => by rw [hentry.2]; rfl, fun hcall => ?_, ?_⟩
    · rw [hentry.1] at hcall
      cases hcall
    · rw [hcf]
      exact guarded_of_some rest (some name) rfl hlabels hcalls
  · intro current_function instr next after h
    rw [tail_calls_rewritten, if_pos h]
  · intro current_function instr next after h
    rw [tail_calls_rewritten, if_neg (by rw [h]; exact Bool.false_ne_true)]

/-- The stream of `return fact(n);` in `fact`, that is `LABEL fact`,
`PARAM n`, `ARG n`, `CALL t0 ← fact`, `RETURN t0`, loses its `RETURN` and has a
`JUMP` in the place of the `CALL`; the stream of `return n * fact(n);`, where
a `MUL` follows the `CALL`, keeps its `CALL`. -/
theorem tail_calls_eliminated_witness :
    eliminate_tail_recursion
        { instructions :=
            [function_label "fact", create_instr IR_PARAM (some "n") none none,
             create_instr IR_ARG none (some "n") none, call_instr "t0" "fact" 1,
             return_instr "t0"],
          temp_count := 1, label_count := 0 }
      = .ok
        { instructions :=
            [function_label "fact", create_instr IR_PARAM (some "n") none none,
             create_instr IR_ARG none (some "n") none,
             { op := IR_JUMP, dest := some "t0", src1 := some "fact", src2 := none,
               label := some { name := "fact", number := -1 }, value := 1 }],
          temp_count := 1, label_count := 0 } ∧
    eliminate_tail_recursion
        { instructions :=
            [function_label "fact", create_instr IR_PARAM (some "n") none none,
             create_instr IR_ARG none (some "n") none, call_instr "t0" "fact" 1,
             arithmetic_instr IR_MUL "t1" "n" "t0", return_instr "t1"],
          temp_count := 2, label_count := 0 }
      = .ok
        { instructions :=
            [function_label "fact", create_instr IR_PARAM (some "n") none none,
             create_instr IR_ARG none (some "n") none, call_instr "t0" "fact" 1,
             arithmetic_instr IR_MUL "t1" "n" "t0", return_instr "t1"],
          temp_count := 2, label_count := 0 } :=
  ⟨(tail_calls_eliminated
      { instructions :=
          [function_label "fact", create_instr IR_PARAM (some "n") none none,
           create_instr IR_ARG none (some "n") none, call_instr "t0" "fact" 1,
           return_instr "t0"],
        temp_count := 1, label_count := 0 }
      (function_label "fact")
      [create_instr IR_PARAM (some "n") none none, create_instr IR_ARG none (some "n") none,
       call_instr "t0" "fact" 1, return_instr "t0"]
      "fact" rfl ⟨rfl, rfl⟩
      (by
        intro instr hmem hop
        simp only [List.mem_cons, List.mem_singleton, List.not_mem_nil, or_false] at hmem
        rcases hmem with h | h | h | h <;> subst h <;> cases hop)
      (by
        intro instr hmem hop
        simp only [List.mem_cons, List.mem_singleton, List.not_mem_nil, or_false] at hmem
        rcases hmem with h | h | h | h <;> subst h <;> first | rfl | cases hop)).1.trans rfl,
   rfl⟩

/-- C30: `eliminate_tail_recursion` does not look at the operand of the
`RETURN`.  After the entry label of `name`, a call `dest ← name` followed by
`RETURN operand` becomes a jump and the `RETURN` is left out, whatever the
operand; in `LABEL f`, `CALL t0 ← f`, `RETURN x` the instruction `RETURN x` is
deleted although it does not return the result `t0` of the call. -/
theorem return_of_other_operand_deleted :
    (∀ (name dest operand : String) (count : Int) (temp_count label_count : Nat),
      eliminate_tail_recursion
          { instructions :=
              [function_label name, call_instr dest name count, return_instr operand],
            temp_count := temp_count, label_count := label_count }
        = .ok
          { instructions :=
              [function_label name,
               { op := IR_JUMP, dest := some dest, src1 := some name, src2 := none,
                 label := some { name := name, number := -1 }, value := count }],
            temp_count := temp_count, label_count := label_count }) ∧
    eliminate_tail_recursion
        { instructions := [function_label "f", call_instr "t0" "f" 0, return_instr "x"],
          temp_count := 1, label_count := 0 }
      = .ok
        { instructions :=
            [function_label "f",
             { op := IR_JUMP, dest := some "t0", src1 := some "f", src2 := none,
               label := some { name := "f", number := -1 }, value := 0 }],
          temp_count := 1, label_count := 0 } ∧
    "x" ≠ "t0" := by
  refine ⟨?_, rfl, by decide⟩
  intro name dest operand count temp_count label_count
  rw [eliminate_tail_recursion_eq]
  · simp [tail_calls_rewritten, is_self_call_before_return, enclosing_function,
      function_label, call_instr, return_instr, jump_to_entry]
  · refine ⟨fun _ => rfl, fun h => ?_, ⟨fun h => ?_, fun _ => ⟨rfl, ?_⟩, ?_⟩⟩
    · simp [function_label] at h
    · simp [call_instr] at h
    · simp [enclosing_function, function_label, call_instr]
    · exact ⟨fun h => by simp [return_instr] at h, fun h => by simp [return_instr] at h,
        trivial⟩

/-! ## Constant folding -/

theorem constant_operands_snoc (previous : List IRInstr) (prev : IRInstr)
    (src1 src2 : String) :
    constant_operands (previous ++ [prev]) src1 src2 =
      match prev.dest with
      | none => constant_operands previous src1 src2
      | some dest =>
        (if dest = src1 ∧ is_constant prev then some prev.value
           else (constant_operands previous src1 src2).1,
         if dest = src2 ∧ is_constant prev then some prev.value
           else (constant_operands previous src1 src2).2) := by
  unfold constant_operands
  rw [List.foldl_append]
  simp only [List.foldl_cons, List.foldl_nil]

theorem last_constant_snoc (previous : List IRInstr) (prev : IRInstr) (name : String) :
    last_constant (previous ++ [prev]) name =
      if prev.dest = some name ∧ is_constant prev = true then some prev.value
      else last_constant previous name := by
  unfold last_constant
  rw [List.reverse_append, List.reverse_singleton, List.singleton_append, List.find?_cons]
  by_cases h : prev.dest = some name ∧ is_constant prev = true
  · simp [h.1, h.2]
  · rw [if_neg h]
    have : (decide (prev.dest = some name) && is_constant prev) = false := by
      by_contra hc
      simp only [Bool.not_eq_false, Bool.and_eq_true, decide_eq_true_eq] at hc
      exact h hc
    rw [this]

theorem constant_operands_eq (previous : List IRInstr) (src1 src2 : String) :
    constant_operands previous src1 src2
      = (last_constant previous src1, last_constant previous src2) := by
  induction previous using List.reverseRecOn with
  | nil => rfl
  | append_singleton previous prev ih =>
    rw [constant_operands_snoc, last_constant_snoc, last_constant_snoc, ih]
    cases hd : prev.dest with
    | none => simp
    | some dest =>
      simp only [Option.some.injEq]

theorem last_constant_isSome (previous : List IRInstr) (name : String) :
    (last_constant previous name).isSome = true ↔
      ∃ prev ∈ previous, prev.dest = some name ∧ is_constant prev = true := by
  unfold last_constant
  rw [Option.isSome_map', List.find?_isSome]
  simp

theorem is_computation_iff (instr : IRInstr) :
    (instr.op = IR_ADD ∨ instr.op = IR_SUB ∨ instr.op = IR_MUL ∨ instr.op = IR_DIV) ↔
      is_computation instr = true := by
  simp [is_computation, or_assoc]

theorem assign_ne_computation (instr : IRInstr) (result : Int)
    (hc : is_computation instr = true) :
    IRInstr.mk IR_ASSIGN instr.dest none none instr.label result ≠ instr := by
  intro h
  have hop := congrArg IRInstr.op h
  simp only at hop
  simp [is_computation, ← hop] at hc

theorem folded_cases (previous : List IRInstr) (instr : IRInstr) :
    folded previous instr = .ok instr ∨
    (∃ result, folded previous instr = .ok result ∧ result.op = IR_ASSIGN ∧
      is_computation instr = true) ∨
    folded previous instr = .error "Floating point exception" := by
  unfold folded
  by_cases hc : is_computation instr = true
  · rw [if_pos hc]
    cases instr.src1 with
    | none => exact Or.inl rfl
    | some src1 =>
      cases instr.src2 with
      | none => exact Or.inl rfl
      | some src2 =>
        simp only []
        cases last_constant previous src1 with
        | none => exact Or.inl rfl
        | some left_val =>
          cases last_constant previous src2 with
          | none => exact Or.inl rfl
          | some right_val =>
            simp only []
            cases evaluate_constant_expr instr.op left_val right_val with
            | none => exact Or.inr (Or.inr rfl)
            | some result => exact Or.inr (Or.inl ⟨_, rfl, rfl, hc⟩)
  · rw [if_neg hc]
    exact Or.inl rfl

theorem fold_instruction_eq (done : List IRInstr) (instr : IRInstr) (rest : List IRInstr) :
    fold_instruction (done ++ instr :: rest) done.length =
      match folded done instr with
      | .error msg => .error msg
      | .ok result => .ok (done ++ result :: rest, decide (result ≠ instr)) := by
  unfold fold_instruction folded
  rw [get?_after]
  simp only [List.take_left, constant_operands_eq, set_after]
  by_cases hc : is_computation instr = true
  · have hop := (is_computation_iff instr).mpr hc
    rw [if_pos hop, if_pos hc]
    cases h1 : instr.src1 with
    | none => simp
    | some src1 =>
      cases h2 : instr.src2 with
      | none => simp
      | some src2 =>
        simp only []
        cases last_constant done src1 with
        | none => simp
        | some left_val =>
          cases last_constant done src2 with
          | none => simp
          | some right_val =>
            simp only []
            cases evaluate_constant_expr instr.op left_val right_val with
            | none => rfl
            | some result =>
              simp only []
              have hne := assign_ne_computation instr result hc
              simp [hne]
  · have hop : ¬ (instr.op = IR_ADD ∨ instr.op = IR_SUB ∨ instr.op = IR_MUL ∨
        instr.op = IR_DIV) := fun h => hc ((is_computation_iff instr).mp h)
    rw [if_neg hop, if_neg hc]
    simp

theorem fold_pass_beyond :
    ∀ (todo i : Nat) (instructions : List IRInstr) (changed : Bool),
      instructions.length ≤ i →
      fold_pass instructions changed todo i = .ok (instructions, changed) := by
  intro todo
  induction todo with
  | zero => intro i instructions changed _; rfl
  | succ todo ih =>
    intro i instructions changed hi
    rw [fold_pass]
    have hnone : instructions.get? i = none := by simpa using hi
    simp only [fold_instruction, hnone]
    rw [ih (i + 1) instructions _ (by omega)]
    simp

theorem fold_pass_eq :
    ∀ (rest done : List IRInstr) (changed : Bool) (todo : Nat), rest.length ≤ todo →
      fold_pass (done ++ rest) changed todo done.length =
        match folded_after done rest with
        | .error msg => .error msg
        | .ok result => .ok (done ++ result, changed || decide (result ≠ rest)) := by
  intro rest
  induction rest with
  | nil =>
    intro done changed todo _
    rw [fold_pass_beyond todo done.length (done ++ []) changed (by simp)]
    simp [folded_after]
  | cons instr rest ih =>
    intro done changed todo htodo
    cases todo with
    | zero => simp at htodo
    | succ todo =>
      rw [fold_pass, fold_instruction_eq, folded_after]
      cases hf : folded done instr with
      | error msg => rfl
      | ok result =>
        simp only []
        have := ih (done ++ [result]) (changed || decide (result ≠ instr)) todo
          (by simpa using htodo)
        simp only [List.length_append, List.length_singleton, List.append_assoc,
          List.singleton_append] at this
        rw [this]
        cases folded_after (done ++ [result]) rest with
        | error msg => rfl
        | ok rest2 =>
          simp only [Except.ok.injEq, Prod.mk.injEq, true_and]
          by_cases h1 : result = instr <;> by_cases h2 : rest2 = rest <;> simp [h1, h2]

theorem folded_of_not_computation (previous : List IRInstr) (instr : IRInstr)
    (h : is_computation instr = false) : folded previous instr = .ok instr := by
  unfold folded
  rw [if_neg (by rw [h]; exact Bool.false_ne_true)]

theorem is_computation_of_assign (instr : IRInstr) (h : instr.op = IR_ASSIGN) :
    is_computation instr = false := by
  simp [is_computation, h]

theorem folded_idem (previous : List IRInstr) (instr result : IRInstr)
    (h : folded previous instr = .ok result) : folded previous result = .ok result := by
  rcases folded_cases previous instr with h1 | ⟨x, h1, hop, _⟩ | h1
  · rw [h1] at h
    cases h
    exact h1
  · rw [h1] at h
    cases h
    exact folded_of_not_computation _ _ (is_computation_of_assign _ hop)
  · rw [h1] at h
    cases h

theorem folded_after_stable :
    ∀ (rest before result : List IRInstr), folded_after before rest = .ok result →
      folded_after before result = .ok result := by
  intro rest
  induction rest with
  | nil =>
    intro before result h
    cases h
    rfl
  | cons instr rest ih =>
    intro before result h
    rw [folded_after] at h
    cases hf : folded before instr with
    | error msg => rw [hf] at h; cases h
    | ok x =>
      rw [hf] at h
      simp only [] at h
      cases hr : folded_after (before ++ [x]) rest with
      | error msg => rw [hr] at h; cases h
      | ok rest2 =>
        rw [hr] at h
        cases h
        rw [folded_after, folded_idem before instr x hf]
        simp only []
        rw [ih (before ++ [x]) rest2 hr]

theorem folded_after_get? :
    ∀ (rest before result : List IRInstr), folded_after before rest = .ok result →
      result.length = rest.length ∧
      ∀ (i : Nat) (instr : IRInstr), rest.get? i = some instr →
        ∃ x, result.get? i = some x ∧ folded (before ++ result.take i) instr = .ok x := by
  intro rest
  induction rest with
  | nil =>
    intro before result h
    cases h
    exact ⟨rfl, fun i instr hi => by simp at hi⟩
  | cons head rest ih =>
    intro before result h
    rw [folded_after] at h
    cases hf : folded before head with
    | error msg => rw [hf] at h; cases h
    | ok x =>
      rw [hf] at h
      simp only [] at h
      cases hr : folded_after (before ++ [x]) rest with
      | error msg => rw [hr] at h; cases h
      | ok rest2 =>
        rw [hr] at h
        cases h
        obtain ⟨hlen, hget⟩ := ih (before ++ [x]) rest2 hr
        refine ⟨by simp [hlen], ?_⟩
        intro i instr hi
        cases i with
        | zero =>
          simp only [List.get?_cons_zero, Option.some.injEq] at hi
          subst hi
          exact ⟨x, rfl, by simpa using hf⟩
        | succ i =>
          simp only [List.get?_cons_succ] at hi
          obtain ⟨y, hy, hfy⟩ := hget i instr hi
          exact ⟨y, by simpa using hy, by simpa using hfy⟩

theorem constant_folding_loop_eq (instructions : List IRInstr) (fuel : Nat)
    (hfuel : instructions.length + 1 ≤ fuel) :
    constant_folding_loop fuel instructions =
      some (match folded_after [] instructions with
            | .error msg => .error msg
            | .ok result => .ok result) := by
  have hpass : ∀ l : List IRInstr, fold_pass l false l.length 0 =
      match folded_after [] l with
      | .error msg => .error msg
      | .ok result => .ok (result, decide (result ≠ l)) := by
    intro l
    have := fold_pass_eq l [] false l.length (le_refl _)
    simpa using this
  cases fuel with
  | zero => omega
  | succ fuel =>
    rw [constant_folding_loop, hpass]
    cases hf : folded_after [] instructions with
    | error msg => rfl
    | ok result =>
      simp only []
      by_cases hsame : result = instructions
      · simp [hsame]
      · simp only [ne_eq, hsame, not_false_eq_true, decide_True, if_true]
        cases fuel with
        | zero =>
          have hnil : instructions = [] := by
            apply List.length_eq_zero.mp
            omega
          subst hnil
          cases hf
          exact absurd rfl hsame
        | succ fuel =>
          rw [constant_folding_loop, hpass, folded_after_stable instructions [] result hf]
          simp

theorem constant_folding_eq (program : IRProgram) :
    constant_folding program =
      some (match folded_after [] program.instructions with
            | .error msg => .error msg
            | .ok result => .ok { program with instructions := result }) := by
  rw [constant_folding, constant_folding_loop_eq _ _ (le_refl _)]
  cases folded_after [] program.instructions <;> rfl

theorem folded_after_error :
    ∀ (rest before : List IRInstr) (msg : String), folded_after before rest = .error msg →
      msg = "Floating point exception" := by
  intro rest
  induction rest with
  | nil => intro before msg h; cases h
  | cons instr rest ih =>
    intro before msg h
    rw [folded_after] at h
    rcases folded_cases before instr with h1 | ⟨x, h1, _, _⟩ | h1
    · rw [h1] at h
      simp only [] at h
      cases hr : folded_after (before ++ [instr]) rest with
      | error m => rw [hr] at h; cases h; exact ih _ _ hr
      | ok r => rw [hr] at h; cases h
    · rw [h1] at h
      simp only [] at h
      cases hr : folded_after (before ++ [x]) rest with
      | error m => rw [hr] at h; cases h; exact ih _ _ hr
      | ok r => rw [hr] at h; cases h
    · rw [h1] at h
      cases h
      rfl

theorem folded_after_append :
    ∀ (first before second : List IRInstr) (result : List IRInstr),
      folded_after before first = .ok result →
      folded_after before (first ++ second) =
        match folded_after (before ++ result) second with
        | .error msg => .error msg
        | .ok rest => .ok (result ++ rest) := by
  intro first
  induction first with
  | nil =>
    intro before second result h
    cases h
    simp only [List.nil_append, List.append_nil]
    cases folded_after before second <;> rfl
  | cons instr first ih =>
    intro before second result h
    rw [folded_after] at h
    cases hf : folded before instr with
    | error msg => rw [hf] at h; cases h
    | ok x =>
      rw [hf] at h
      simp only [] at h
      cases hr : folded_after (before ++ [x]) first with
      | error msg => rw [hr] at h; cases h
      | ok rest2 =>
        rw [hr] at h
        cases h
        rw [List.cons_append, folded_after, hf]
        simp only []
        rw [ih (before ++ [x]) second rest2 hr]
        simp only [List.append_assoc, List.singleton_append]
        cases folded_after (before ++ x :: rest2) second <;> rfl

theorem wrap32_of_range (z : Int) (h1 : -2147483648 ≤ z) (h2 : z ≤ 2147483647) :
    wrap32 z = z := by
  unfold wrap32
  omega

/-! ## Constant folding: the divisions that trap -/

theorem evaluate_constant_expr_eq_none (op : IROpcode) (left right : Int) :
    evaluate_constant_expr op left right = none ↔
      op = IR_DIV ∧ (right = 0 ∨ (left = -2147483648 ∧ right = -1)) := by
  cases op <;> simp [evaluate_constant_expr]
  by_cases h : right = 0 <;> simp [h]

theorem folded_error_iff (previous : List IRInstr) (instr : IRInstr) :
    (∃ msg, folded previous instr = .error msg) ↔
      ∃ (src1 src2 : String) (left right : Int),
        instr.op = IR_DIV ∧ instr.src1 = some src1 ∧ instr.src2 = some src2 ∧
        last_constant previous src1 = some left ∧
        last_constant previous src2 = some right ∧
        (right = 0 ∨ (left = -2147483648 ∧ right = -1)) := by
  constructor
  · rintro ⟨msg, h⟩
    unfold folded at h
    by_cases hc : is_computation instr = true
    · rw [if_pos hc] at h
      cases h1 : instr.src1 with
      | none => rw [h1] at h; cases h
      | some src1 =>
        cases h2 : instr.src2 with
        | none => rw [h1, h2] at h; cases h
        | some src2 =>
          rw [h1, h2] at h
          simp only [] at h
          cases hl : last_constant previous src1 with
          | none => rw [hl] at h; cases h
          | some left =>
            cases hr : last_constant previous src2 with
            | none => rw [hl, hr] at h; cases h
            | some right =>
              rw [hl, hr] at h
              simp only [] at h
              cases hv : evaluate_constant_expr instr.op left right with
              | some value => rw [hv] at h; cases h
              | none =>
                obtain ⟨hop, htrap⟩ := (evaluate_constant_expr_eq_none _ _ _).mp hv
                exact ⟨src1, src2, left, right, hop, rfl, rfl, hl, hr, htrap⟩
    · rw [if_neg hc] at h
      cases h
  · rintro ⟨src1, src2, left, right, hop, h1, h2, hl, hr, htrap⟩
    refine ⟨"Floating point exception", ?_⟩
    unfold folded
    have hc : is_computation instr = true := by simp [is_computation, hop]
    rw [if_pos hc, h1, h2]
    simp only [hl, hr]
    rw [(evaluate_constant_expr_eq_none _ _ _).mpr ⟨hop, htrap⟩]

theorem folded_after_error_split :
    ∀ (rest before : List IRInstr) (msg : String), folded_after before rest = .error msg →
      ∃ first instr after folded_first, rest = first ++ instr :: after ∧
        folded_after before first = .ok folded_first ∧
        ∃ msg2, folded (before ++ folded_first) instr = .error msg2 := by
  intro rest
  induction rest with
  | nil => intro before msg h; cases h
  | cons instr rest ih =>
    intro before msg h
    rw [folded_after] at h
    cases hf : folded before instr with
    | error msg2 =>
      exact ⟨[], instr, rest, [], rfl, rfl, msg2, by simpa using hf⟩
    | ok x =>
      rw [hf] at h
      simp only [] at h
      cases hr : folded_after (before ++ [x]) rest with
      | ok r => rw [hr] at h; cases h
      | error m =>
        obtain ⟨first, bad, after, folded_first, hsplit, hfirst, msg2, hbad⟩ :=
          ih (before ++ [x]) m hr
        refine ⟨instr :: first, bad, after, x :: folded_first, by rw [hsplit]; rfl, ?_,
          msg2, by simpa using hbad⟩
        rw [folded_after, hf]
        simp only []
        rw [hfirst]

theorem folded_after_error_of_split (before first after folded_first : List IRInstr)
    (instr : IRInstr) (msg : String)
    (hfirst : folded_after before first = .ok folded_first)
    (hbad : folded (before ++ folded_first) instr = .error msg) :
    folded_after before (first ++ instr :: after) = .error msg := by
  rw [folded_after_append first before (instr :: after) folded_first hfirst, folded_after, hbad]

theorem constant_folding_ok_iff (program result : IRProgram) :
    constant_folding program = some (.ok result) ↔
      ∃ folded_list, folded_after [] program.instructions = .ok folded_list ∧
        result = { program with instructions := folded_list } := by
  rw [constant_folding_eq]
  cases hf : folded_after [] program.instructions with
  | error msg => simp
  | ok folded_list =>
    simp only [Option.some.injEq, Except.ok.injEq, exists_eq_left']
    exact eq_comm

/-- The function `constant_folding` fails exactly on the programs with a
division of constants that traps. -/
theorem constant_division_traps_iff (program : IRProgram) :
    ConstantDivisionTraps program ↔ ∃ msg, constant_folding program = some (.error msg) := by
  constructor
  · rintro ⟨before, after, instr, folded_before, src1, src2, left, right, hsplit, hfold, hop,
      h1, h2, hl, hr, htrap⟩
    obtain ⟨folded_list, hlist, hresult⟩ := (constant_folding_ok_iff _ _).mp hfold
    simp only [] at hlist
    rw [hresult] at hl hr
    simp only [] at hl hr
    obtain ⟨msg, hbad⟩ := (folded_error_iff folded_list instr).mpr
      ⟨src1, src2, left, right, hop, h1, h2, hl, hr, htrap⟩
    refine ⟨msg, ?_⟩
    rw [constant_folding_eq, hsplit,
      folded_after_error_of_split [] before after folded_list instr msg hlist
        (by simpa using hbad)]
  · rintro ⟨msg, h⟩
    rw [constant_folding_eq] at h
    cases hf : folded_after [] program.instructions with
    | ok r => rw [hf] at h; cases h
    | error m =>
      obtain ⟨first, instr, after, folded_first, hsplit, hfirst, msg2, hbad⟩ :=
        folded_after_error_split _ _ _ hf
      simp only [List.nil_append] at hbad
      obtain ⟨src1, src2, left, right, hop, h1, h2, hl, hr, htrap⟩ :=
        (folded_error_iff folded_first instr).mp ⟨msg2, hbad⟩
      refine ⟨first, after, instr, { program with instructions := folded_first }, src1, src2,
        left, right, hsplit, ?_, hop, h1, h2, hl, hr, htrap⟩
      rw [constant_folding_eq]
      simp only []
      rw [hfirst]

/-! ## C22 to C24: constant folding -/

/-- When `constant_folding` returns, the program has as many instructions as
before;
no arithmetic instruction is left whose two sources both have an immediate
assignment in front of it; and every instruction is either as it was or was an
arithmetic instruction whose sources had the last immediate values `left` and
`right` in front of it, and is now the immediate assignment, to the same
destination and without sources, of the value of the operation on `left` and
`right`, which is the exact one whenever that fits an `int`. -/
theorem constant_folding_result (program result : IRProgram)
    (h : constant_folding program = some (.ok result)) :
    result.instructions.length = program.instructions.length ∧
    (∀ i instr src1 src2, result.instructions.get? i = some instr →
      is_computation instr = true → instr.src1 = some src1 → instr.src2 = some src2 →
      ¬ ((∃ prev ∈ result.instructions.take i,
            prev.dest = some src1 ∧ is_constant prev = true) ∧
         (∃ prev ∈ result.instructions.take i,
            prev.dest = some src2 ∧ is_constant prev = true))) ∧
    (∀ i old, program.instructions.get? i = some old →
      result.instructions.get? i = some old ∨
      ∃ src1 src2 left right value,
        is_computation old = true ∧ old.src1 = some src1 ∧ old.src2 = some src2 ∧
        last_constant (result.instructions.take i) src1 = some left ∧
        last_constant (result.instructions.take i) src2 = some right ∧
        evaluate_constant_expr old.op left right = some value ∧
        result.instructions.get? i
          = some { old with op := IR_ASSIGN, src1 := none, src2 := none, value := value }) ∧
    (∀ (op : IROpcode) (left right value : Int),
      evaluate_constant_expr op left right = some value →
      op = IR_ADD ∨ op = IR_SUB ∨ op = IR_MUL ∨ op = IR_DIV →
      -2147483648 ≤ exact_result op left right → exact_result op left right ≤ 2147483647 →
      value = exact_result op left right) ∧
    (∀ other : IRProgram, ∃ outcome, constant_folding other = some outcome) ∧
    (∀ (other : IRProgram) (msg : String), constant_folding other = some (.error msg) →
      msg = "Floating point exception") := by
  rw [constant_folding_eq] at h
  cases hf : folded_after [] program.instructions with
  | error msg => rw [hf] at h; cases h
  | ok folded_list =>
    rw [hf] at h
    simp only [Option.some.injEq, Except.ok.injEq] at h
    subst h
    simp only []
    obtain ⟨hlen, hget⟩ := folded_after_get? _ _ _ hf
    obtain ⟨_, hstable⟩ := folded_after_get? _ _ _ (folded_after_stable _ _ _ hf)
    refine ⟨hlen, ?_, ?_, ?_, ?_, ?_⟩
    · intro i instr src1 src2 hi hc h1 h2 ⟨hleft, hright⟩
      obtain ⟨x, hx, hfx⟩ := hstable i instr hi
      rw [hi] at hx
      cases hx
      simp only [List.nil_append] at hfx
      obtain ⟨left, hl⟩ := Option.isSome_iff_exists.mp ((last_constant_isSome _ _).mpr hleft)
      obtain ⟨right, hr⟩ := Option.isSome_iff_exists.mp ((last_constant_isSome _ _).mpr hright)
      unfold folded at hfx
      rw [if_pos hc, h1, h2] at hfx
      simp only [hl, hr] at hfx
      cases hv : evaluate_constant_expr instr.op left right with
      | none => rw [hv] at hfx; cases hfx
      | some value =>
        rw [hv] at hfx
        simp only [Except.ok.injEq] at hfx
        exact assign_ne_computation instr value hc hfx
    · intro i old hi
      obtain ⟨x, hx, hfx⟩ := hget i old hi
      simp only [List.nil_append] at hfx
      unfold folded at hfx
      by_cases hc : is_computation old = true
      · rw [if_pos hc] at hfx
        cases h1 : old.src1 with
        | none => rw [h1] at hfx; cases hfx; exact Or.inl hx
        | some src1 =>
          cases h2 : old.src2 with
          | none => rw [h1, h2] at hfx; cases hfx; exact Or.inl hx
          | some src2 =>
            rw [h1, h2] at hfx
            simp only [] at hfx
            cases hl : last_constant (folded_list.take i) src1 with
            | none => rw [hl] at hfx; cases hfx; exact Or.inl hx
            | some left =>
              cases hr : last_constant (folded_list.take i) src2 with
              | none => rw [hl, hr] at hfx; cases hfx; exact Or.inl hx
              | some right =>
                rw [hl, hr] at hfx
                simp only [] at hfx
                cases hv : evaluate_constant_expr old.op left right with
                | none => rw [hv] at hfx; cases hfx
                | some value =>
                  rw [hv] at hfx
                  cases hfx
                  exact Or.inr ⟨src1, src2, left, right, value, hc, rfl, rfl, hl, hr,
                    hv, hx⟩
      · rw [if_neg hc] at hfx
        cases hfx
        exact Or.inl hx
    · intro op left right value hv hop h1 h2
      rcases hop with rfl | rfl | rfl | rfl
      · simp only [evaluate_constant_expr, Option.some.injEq] at hv
        rw [← hv]
        exact wrap32_of_range _ h1 h2
      · simp only [evaluate_constant_expr, Option.some.injEq] at hv
        rw [← hv]
        exact wrap32_of_range _ h1 h2
      · simp only [evaluate_constant_expr, Option.some.injEq] at hv
        rw [← hv]
        exact wrap32_of_range _ h1 h2
      · simp only [evaluate_constant_expr] at hv
        split at hv
        · cases hv
        · simp only [Option.some.injEq] at hv
          rw [← hv]
          rfl
    · intro other
      exact ⟨_, constant_folding_eq other⟩
    · intro other msg hother
      rw [constant_folding_eq] at hother
      cases hfo : folded_after [] other.instructions with
      | error m =>
        rw [hfo] at hother
        simp only [Option.some.injEq, Except.error.injEq] at hother
        rw [← hother]
        exact folded_after_error _ _ _ hfo
      | ok r => rw [hfo] at hother; cases hother

/-- C22: on every program without a division of constants that traps, that
is by zero or of `INT_MIN` by -1, `constant_folding` returns.  The program it
returns has as many instructions as before; no arithmetic instruction is left
whose two sources both have an immediate assignment in front of it; and every
instruction is either as it was or was an arithmetic instruction whose sources
had the last immediate values `left` and `right` in front of it, and is now
the immediate assignment, to the same destination and without sources, of the
value of the operation on `left` and `right`, which is the exact one whenever
that fits an `int`.  On every program the function returns or fails, and it
fails only with the trap of such a division; a program without `DIV` has
none. -/
theorem constant_folding_folds (program : IRProgram)
    (hsafe : ¬ ConstantDivisionTraps program) :
    ∃ result, constant_folding program = some (.ok result) ∧
      result.instructions.length = program.instructions.length ∧
      (∀ i instr src1 src2, result.instructions.get? i = some instr →
        is_computation instr = true → instr.src1 = some src1 → instr.src2 = some src2 →
        ¬ ((∃ prev ∈ result.instructions.take i,
              prev.dest = some src1 ∧ is_constant prev = true) ∧
           (∃ prev ∈ result.instructions.take i,
              prev.dest = some src2 ∧ is_constant prev = true))) ∧
      (∀ i old, program.instructions.get? i = some old →
        result.instructions.get? i = some old ∨
        ∃ src1 src2 left right value,
          is_computation old = true ∧ old.src1 = some src1 ∧ old.src2 = some src2 ∧
          last_constant (result.instructions.take i) src1 = some left ∧
          last_constant (result.instructions.take i) src2 = some right ∧
          evaluate_constant_expr old.op left right = some value ∧
          result.instructions.get? i
            = some { old with op := IR_ASSIGN, src1 := none, src2 := none, value := value }) ∧
      (∀ (op : IROpcode) (left right value : Int),
        evaluate_constant_expr op left right = some value →
        op = IR_ADD ∨ op = IR_SUB ∨ op = IR_MUL ∨ op = IR_DIV →
        -2147483648 ≤ exact_result op left right → exact_result op left right ≤ 2147483647 →
        value = exact_result op left right) ∧
      (∀ other : IRProgram, ∃ outcome, constant_folding other = some outcome) ∧
      (∀ (other : IRProgram) (msg : String), constant_folding other = some (.error msg) →
        msg = "Floating point exception" ∧ ConstantDivisionTraps other) ∧
      (∀ other : IRProgram, (∀ instr ∈ other.instructions, instr.op ≠ IR_DIV) →
        ¬ ConstantDivisionTraps other) := by
  have hreturns : ∃ result, constant_folding program = some (.ok result) := by
    obtain ⟨outcome, houtcome⟩ : ∃ outcome, constant_folding program = some outcome :=
      ⟨_, constant_folding_eq program⟩
    cases outcome with
    | ok result => exact ⟨result, houtcome⟩
    | error msg => exact absurd ((constant_division_traps_iff program).mpr ⟨msg, houtcome⟩) hsafe
  obtain ⟨result, hresult⟩ := hreturns
  obtain ⟨h1, h2, h3, h4, h5, h6⟩ := constant_folding_result program result hresult
  refine ⟨result, hresult, h1, h2, h3, h4, h5, ?_, ?_⟩
  · intro other msg hother
    exact ⟨h6 other msg hother, (constant_division_traps_iff other).mpr ⟨msg, hother⟩⟩
  · intro other hnone
    rintro ⟨before, after, instr, _, _, _, _, _, hsplit, _, hop, _⟩
    exact hnone instr (by rw [hsplit]; simp) hop

/-- The program `ASSIGN t0 ← 2`, `ASSIGN t1 ← 3`, `ASSIGN t2 ← 4`,
`MUL t3 ← t1, t2`, `ADD t4 ← t0, t3` has no division; it ends with
`ASSIGN t3 ← 12` and `ASSIGN t4 ← 14`. -/
theorem constant_folding_folds_witness :
    constant_folding
        { instructions :=
            [assign_immediate "t0" 2, assign_immediate "t1" 3, assign_immediate "t2" 4,
             arithmetic_instr IR_MUL "t3" "t1" "t2", arithmetic_instr IR_ADD "t4" "t0" "t3"],
          temp_count := 5, label_count := 0 }
      = some (.ok
          { instructions :=
              [assign_immediate "t0" 2, assign_immediate "t1" 3, assign_immediate "t2" 4,
               assign_immediate "t3" 12, assign_immediate "t4" 14],
            temp_count := 5, label_count := 0 }) ∧
    ¬ ConstantDivisionTraps
        { instructions :=
            [assign_immediate "t0" 2, assign_immediate "t1" 3, assign_immediate "t2" 4,
             arithmetic_instr IR_MUL "t3" "t1" "t2", arithmetic_instr IR_ADD "t4" "t0" "t3"],
          temp_count := 5, label_count := 0 } ∧
    ∃ result,
      constant_folding
          { instructions :=
              [assign_immediate "t0" 2, assign_immediate "t1" 3, assign_immediate "t2" 4,
               arithmetic_instr IR_MUL "t3" "t1" "t2",
               arithmetic_instr IR_ADD "t4" "t0" "t3"],
            temp_count := 5, label_count := 0 } = some (.ok result) ∧
      result.instructions.length = 5 :=
  have hsafe : ¬ ConstantDivisionTraps
      { instructions :=
          [assign_immediate "t0" 2, assign_immediate "t1" 3, assign_immediate "t2" 4,
           arithmetic_instr IR_MUL "t3" "t1" "t2", arithmetic_instr IR_ADD "t4" "t0" "t3"],
        temp_count := 5, label_count := 0 } := fun htraps =>
    Exists.elim ((constant_division_traps_iff _).mp htraps) (fun _ hmsg => by cases hmsg)
  ⟨rfl, hsafe,
   Exists.imp (fun _ h => ⟨h.1, h.2.1⟩)
     (constant_folding_folds
       { instructions :=
           [assign_immediate "t0" 2, assign_immediate "t1" 3, assign_immediate "t2" 4,
            arithmetic_instr IR_MUL "t3" "t1" "t2", arithmetic_instr IR_ADD "t4" "t0" "t3"],
         temp_count := 5, label_count := 0 }
       hsafe)⟩

/-- C23: when `constant_folding` returns a program, `constant_folding` on that
program returns the same program: the instruction stream after two
applications is the one after the first. -/
theorem constant_folding_idempotent (program result : IRProgram)
    (h : constant_folding program = some (.ok result)) :
    constant_folding result = some (.ok result) := by
  rw [constant_folding_eq] at h
  cases hf : folded_after [] program.instructions with
  | error msg => rw [hf] at h; cases h
  | ok folded_list =>
    rw [hf] at h
    simp only [Option.some.injEq, Except.ok.injEq] at h
    subst h
    rw [constant_folding_eq]
    simp only []
    rw [folded_after_stable _ _ _ hf]

/-- The program `ASSIGN t0 ← 2`, `ASSIGN t1 ← 3`, `ASSIGN t2 ← 4`,
`MUL t3 ← t1, t2`, `ADD t4 ← t0, t3`: what `constant_folding` makes of it is
left as it is by a second application. -/
theorem constant_folding_idempotent_witness :
    constant_folding
        { instructions :=
            [assign_immediate "t0" 2, assign_immediate "t1" 3, assign_immediate "t2" 4,
             assign_immediate "t3" 12, assign_immediate "t4" 14],
          temp_count := 5, label_count := 0 }
      = some (.ok
          { instructions :=
              [assign_immediate "t0" 2, assign_immediate "t1" 3, assign_immediate "t2" 4,
               assign_immediate "t3" 12, assign_immediate "t4" 14],
            temp_count := 5, label_count := 0 }) :=
  constant_folding_idempotent
    { instructions :=
        [assign_immediate "t0" 2, assign_immediate "t1" 3, assign_immediate "t2" 4,
         arithmetic_instr IR_MUL "t3" "t1" "t2", arithmetic_instr IR_ADD "t4" "t0" "t3"],
      temp_count := 5, label_count := 0 }
    _ rfl

/-- C24: `constant_folding` has no test of the divisor.  At a `DIV` whose
sources have the immediate values `left` and 0 in front of it,
`evaluate_constant_expr` is called and computes `left / 0`, which has no value
in C (the model has `none`, and the run ends with the text of the signal that
the division raises); no error is reported by the optimizer.  For
`ASSIGN t0 ← 1`, `ASSIGN t1 ← 0`, `DIV t2 ← t0, t1` this is what happens. -/
theorem division_by_zero_is_evaluated :
    (∀ left : Int, evaluate_constant_expr IR_DIV left 0 = none) ∧
    (∀ (before folded_before rest : List IRInstr) (instr : IRInstr) (src1 src2 : String)
        (left : Int) (temp_count label_count : Nat),
      instr.op = IR_DIV → instr.src1 = some src1 → instr.src2 = some src2 →
      folded_after [] before = .ok folded_before →
      last_constant folded_before src1 = some left →
      last_constant folded_before src2 = some 0 →
      folded folded_before instr = .error "Floating point exception" ∧
      constant_folding
          { instructions := before ++ instr :: rest,
            temp_count := temp_count, label_count := label_count }
        = some (.error "Floating point exception")) ∧
    constant_folding
        { instructions :=
            [assign_immediate "t0" 1, assign_immediate "t1" 0,
             arithmetic_instr IR_DIV "t2" "t0" "t1"],
          temp_count := 3, label_count := 0 }
      = some (.error "Floating point exception") := by
  refine ⟨fun left => by simp [evaluate_constant_expr], ?_, rfl⟩
  intro before folded_before rest instr src1 src2 left temp_count label_count
    hop h1 h2 hprefix hleft hright
  have hfold : folded folded_before instr = .error "Floating point exception" := by
    unfold folded
    have hc : is_computation instr = true := by simp [is_computation, hop]
    rw [if_pos hc, h1, h2]
    simp only [hleft, hright, hop]
    simp [evaluate_constant_expr]
  refine ⟨hfold, ?_⟩
  rw [constant_folding_eq]
  simp only []
  rw [folded_after_append before [] (instr :: rest) folded_before hprefix]
  simp only [List.nil_append]
  rw [folded_after, hfold]

/-! ## Dead code elimination: marking -/

theorem marked_refl (blocks : List BasicBlock) : Marked blocks blocks := by
  induction blocks with
  | nil => exact List.Forall₂.nil
  | cons block rest ih => exact List.Forall₂.cons ⟨rfl, rfl, id⟩ ih

theorem marked_trans {a b c : List BasicBlock} (hab : Marked a b) (hbc : Marked b c) :
    Marked a c := by
  induction hab generalizing c with
  | nil => cases hbc; exact List.Forall₂.nil
  | cons h _ ih =>
    cases hbc with
    | cons h2 t2 =>
      exact List.Forall₂.cons
        ⟨h2.1.trans h.1, h2.2.1.trans h.2.1, fun hr => h2.2.2 (h.2.2 hr)⟩ (ih t2)

theorem marked_length {a b : List BasicBlock} (h : Marked a b) : b.length = a.length :=
  (List.Forall₂.length_eq h).symm

theorem marked_get? {a b : List BasicBlock} (h : Marked a b) :
    ∀ (k : Nat) (block : BasicBlock), a.get? k = some block →
      ∃ later, b.get? k = some later ∧ later.start = block.start ∧
        later.end_index = block.end_index ∧
        (block.is_reachable = true → later.is_reachable = true) := by
  induction h with
  | nil => intro k block hk; simp at hk
  | cons h _ ih =>
    intro k block hk
    cases k with
    | zero =>
      simp only [List.get?_cons_zero, Option.some.injEq] at hk
      subst hk
      exact ⟨_, rfl, h⟩
    | succ k =>
      simp only [List.get?_cons_succ] at hk ⊢
      exact ih k block hk

theorem marked_set (blocks : List BasicBlock) (j : Nat) (block : BasicBlock)
    (h : blocks.get? j = some block) :
    Marked blocks (blocks.set j { block with is_reachable := true }) := by
  induction blocks generalizing j with
  | nil => simp at h
  | cons head rest ih =>
    cases j with
    | zero =>
      simp only [List.get?_cons_zero, Option.some.injEq] at h
      subst h
      exact List.Forall₂.cons ⟨rfl, rfl, fun _ => rfl⟩ (marked_refl rest)
    | succ j =>
      simp only [List.get?_cons_succ] at h
      exact List.Forall₂.cons ⟨rfl, rfl, id⟩ (ih j h)

theorem mark_reachable_marked (blocks : List BasicBlock) (j : Nat) :
    Marked blocks (mark_reachable blocks j).1 := by
  unfold mark_reachable
  cases h : blocks.get? j with
  | none => exact marked_refl blocks
  | some block =>
    simp only []
    split
    · exact marked_refl blocks
    · exact marked_set blocks j block h

theorem mark_reachable_reached (blocks : List BasicBlock) (j : Nat) (block : BasicBlock)
    (h : (mark_reachable blocks j).1.get? j = some block) : block.is_reachable = true := by
  unfold mark_reachable at h
  cases hb : blocks.get? j with
  | none =>
    rw [hb] at h
    simp only [] at h
    rw [hb] at h
    cases h
  | some old =>
    rw [hb] at h
    simp only [] at h
    by_cases hr : old.is_reachable = true
    · rw [if_pos hr] at h
      simp only [] at h
      rw [hb] at h
      cases h
      exact hr
    · rw [if_neg hr] at h
      simp only [] at h
      have hlt : j < blocks.length := by
        by_contra hge
        have : blocks.get? j = none := by simpa using hge
        rw [this] at hb
        cases hb
      rw [List.get?_eq_getElem?, List.getElem?_set_self hlt] at h
      cases h
      rfl

theorem mark_target_marked (instructions : List IRInstr) (blocks : List BasicBlock)
    (last_instr : IRInstr) (changed : Bool) (middle : List BasicBlock) (flag : Bool)
    (h : mark_target instructions blocks last_instr changed = .ok (middle, flag)) :
    Marked blocks middle := by
  unfold mark_target at h
  split at h
  · cases hf : find_target instructions last_instr.label blocks 0 with
    | error msg => rw [hf] at h; cases h
    | ok target =>
      rw [hf] at h
      cases target with
      | none => cases h; exact marked_refl _
      | some j => cases h; exact mark_reachable_marked _ _
  · cases h; exact marked_refl _

theorem get?_some_of_lt {l : List α} {k : Nat} (h : k < l.length) :
    ∃ x, l.get? k = some x :=
  ⟨l.get ⟨k, h⟩, List.get?_eq_get h⟩

theorem lt_of_get?_some {l : List α} {k : Nat} {x : α} (h : l.get? k = some x) :
    k < l.length := by
  by_contra hge
  have : l.get? k = none := by simpa using hge
  rw [this] at h
  cases h

theorem reached_of_marked {blocks later : List BasicBlock} {i : Nat}
    (hm : Marked blocks later) (h : ReachedUpTo blocks i) : ReachedUpTo later i := by
  intro k block hk hget
  have hlt : k < blocks.length := by
    rw [← marked_length hm]
    exact lt_of_get?_some hget
  obtain ⟨old, hold⟩ := get?_some_of_lt hlt
  obtain ⟨later2, hl2, _, _, hmono⟩ := marked_get? hm k old hold
  rw [hl2] at hget
  cases hget
  exact hmono (h k old hk hold)

theorem mark_successors_marked (instructions : List IRInstr) (blocks : List BasicBlock)
    (i : Nat) (changed : Bool) (result : List BasicBlock) (flag : Bool)
    (h : mark_successors instructions blocks i changed = .ok (result, flag)) :
    Marked blocks result ∧
      (ReachedUpTo blocks i → ReachedUpTo result (i + 1)) := by
  unfold mark_successors at h
  cases hb : blocks.get? i with
  | none =>
    rw [hb] at h
    cases h
    refine ⟨marked_refl _, ?_⟩
    intro hreach k block hk hget
    have hlt := lt_of_get?_some hget
    have hi : blocks.length ≤ i := by simpa using hb
    exact hreach k block (by omega) hget
  | some block =>
    rw [hb] at h
    simp only [] at h
    by_cases hr : block.is_reachable = true
    · simp only [hr, Bool.not_true, Bool.false_eq_true, if_false] at h
      cases hl : instruction_at instructions block.end_index with
      | error msg => rw [hl] at h; cases h
      | ok last_instr =>
        rw [hl] at h
        simp only [] at h
        cases ht : mark_target instructions blocks last_instr changed with
        | error msg => rw [ht] at h; cases h
        | ok pair =>
          obtain ⟨middle, c⟩ := pair
          rw [ht] at h
          simp only [] at h
          have hmid := mark_target_marked _ _ _ _ _ _ ht
          by_cases hnext : i + 1 < middle.length
          · rw [if_pos hnext] at h
            cases h
            refine ⟨marked_trans hmid (mark_reachable_marked _ _), ?_⟩
            intro hreach k later hk hget
            by_cases hki : k = i + 1
            · subst hki
              exact mark_reachable_reached middle (i + 1) later hget
            · exact reached_of_marked (mark_reachable_marked middle (i + 1))
                (reached_of_marked hmid hreach) k later (by omega) hget
          · rw [if_neg hnext] at h
            cases h
            refine ⟨hmid, ?_⟩
            intro hreach k later hk hget
            have hlt := lt_of_get?_some hget
            exact reached_of_marked hmid hreach k later (by omega) hget
    · simp only [Bool.not_eq_true] at hr
      simp only [hr, Bool.not_false, if_true] at h
      cases h
      refine ⟨marked_refl _, ?_⟩
      intro hreach
      have := hreach i block (le_refl _) hb
      rw [hr] at this
      cases this

theorem mark_pass_marked (instructions : List IRInstr) :
    ∀ (todo i : Nat) (blocks : List BasicBlock) (changed : Bool)
      (result : List BasicBlock) (flag : Bool),
      mark_pass instructions todo i blocks changed = .ok (result, flag) →
      Marked blocks result ∧ (ReachedUpTo blocks i → ReachedUpTo result (i + todo)) := by
  intro todo
  induction todo with
  | zero =>
    intro i blocks changed result flag h
    cases h
    exact ⟨marked_refl _, id⟩
  | succ todo ih =>
    intro i blocks changed result flag h
    rw [mark_pass] at h
    cases hs : mark_successors instructions blocks i changed with
    | error msg => rw [hs] at h; cases h
    | ok pair =>
      obtain ⟨middle, c⟩ := pair
      rw [hs] at h
      simp only [] at h
      obtain ⟨hm1, hr1⟩ := mark_successors_marked _ _ _ _ _ _ hs
      obtain ⟨hm2, hr2⟩ := ih (i + 1) middle c result flag h
      refine ⟨marked_trans hm1 hm2, fun hreach => ?_⟩
      have := hr2 (hr1 hreach)
      rwa [Nat.add_assoc, Nat.add_comm 1 todo] at this

theorem all_reached_of_upto {blocks : List BasicBlock} {i : Nat}
    (h : ReachedUpTo blocks i) (hi : blocks.length ≤ i + 1) : AllReached blocks := by
  intro block hmem
  obtain ⟨k, hk⟩ := List.get?_of_mem hmem
  have hlt := lt_of_get?_some hk
  exact h k block (by omega) hk

theorem mark_loop_marked (instructions : List IRInstr) :
    ∀ (fuel : Nat) (blocks result : List BasicBlock),
      ReachedUpTo blocks 0 →
      mark_loop instructions fuel blocks = some (.ok result) →
      Marked blocks result ∧ AllReached result := by
  intro fuel
  induction fuel with
  | zero => intro blocks result _ h; cases h
  | succ fuel ih =>
    intro blocks result h0 h
    rw [mark_loop] at h
    cases hp : mark_pass instructions blocks.length 0 blocks false with
    | error msg => rw [hp] at h; cases h
    | ok pair =>
      obtain ⟨middle, c⟩ := pair
      rw [hp] at h
      simp only [] at h
      obtain ⟨hm, hr⟩ := mark_pass_marked _ _ _ _ _ _ _ hp
      have hall : AllReached middle :=
        all_reached_of_upto (hr h0) (by rw [marked_length hm]; omega)
      by_cases hc : c = true
      · rw [if_pos hc] at h
        have h0' : ReachedUpTo middle 0 := fun k block _ hget =>
          hall block (List.get?_mem hget)
        obtain ⟨hm2, hr2⟩ := ih middle result h0' h
        exact ⟨marked_trans hm hm2, hr2⟩
      · rw [if_neg hc] at h
        cases h
        exact ⟨hm, hall⟩

/-! ## Dead code elimination: the blocks cover the program -/

theorem set_last_end_dropLast (blocks : List BasicBlock) (value : Int) :
    (set_last_end blocks value).dropLast = blocks.dropLast := by
  unfold set_last_end
  cases h : blocks.getLast? with
  | none => rfl
  | some block => simp

theorem set_last_end_getLast? (blocks : List BasicBlock) (value : Int)
    (newest : BasicBlock) (h : blocks.getLast? = some newest) :
    (set_last_end blocks value).getLast? = some { newest with end_index := value } := by
  unfold set_last_end
  rw [h]
  simp

theorem getLast?_isSome_of_ne_nil {blocks : List BasicBlock} (h : blocks ≠ []) :
    ∃ newest, blocks.getLast? = some newest := by
  cases hl : blocks.getLast? with
  | none => exact absurd (List.getLast?_eq_none_iff.mp hl) h
  | some newest => exact ⟨newest, rfl⟩

theorem mem_of_getLast?_eq {blocks : List BasicBlock} {newest : BasicBlock}
    (h : blocks.getLast? = some newest) : newest ∈ blocks :=
  List.mem_of_getLast?_eq_some h

theorem find_basic_blocks_loop_partitioned (instructions : List IRInstr) :
    ∀ (todo i : Nat) (current_start : Int) (blocks : List BasicBlock),
      i + todo = instructions.length → Partitioned i current_start blocks →
      ∃ final_start,
        Partitioned instructions.length final_start
          (find_basic_blocks_loop instructions todo i current_start blocks) := by
  intro todo
  induction todo with
  | zero =>
    intro i current_start blocks hi hp
    have : i = instructions.length := by omega
    subst this
    exact ⟨current_start, hp⟩
  | succ todo ih =>
    intro i current_start blocks hi hp
    rw [find_basic_blocks_loop]
    obtain ⟨instr, hinstr⟩ := get?_some_of_lt (l := instructions) (k := i) (by omega)
    rw [hinstr]
    simp only []
    obtain ⟨hcs, hcover, hnewest, hne⟩ := hp
    by_cases hleader : instr.op = IR_LABEL ∨ i = 0
    · rw [if_pos hleader]
      apply ih (i + 1) i _ (by omega)
      refine ⟨by push_cast; omega, ?_, ?_, fun _ => by simp⟩
      · intro read hread
        rw [List.dropLast_concat]
        by_cases hlow : (read : Int) < current_start
        · obtain ⟨block, hmem, hc⟩ := hcover read hlow
          refine ⟨block, ?_, hc⟩
          have : block ∈ (set_last_end blocks ((i : Int) - 1)).dropLast := by
            rw [set_last_end_dropLast]; exact hmem
          exact List.mem_of_mem_dropLast this
        · have hipos : 0 < i := by omega
          obtain ⟨newest, hlast⟩ := getLast?_isSome_of_ne_nil (hne hipos)
          refine ⟨{ newest with end_index := (i : Int) - 1 },
            mem_of_getLast?_eq (set_last_end_getLast? blocks _ newest hlast), ?_, ?_⟩
          · have := hnewest newest hlast
            simp only []
            omega
          · simp only []
            omega
      · intro newest hlast
        rw [List.getLast?_concat] at hlast
        cases hlast
        exact hcs
    · rw [if_neg hleader]
      apply ih (i + 1) current_start blocks (by omega)
      have hipos : 0 < i := by
        by_contra h0
        exact hleader (Or.inr (by omega))
      exact ⟨by push_cast; omega, hcover, hnewest, fun _ => hne hipos⟩

theorem find_basic_blocks_covers (instructions : List IRInstr) (read : Nat)
    (hread : read < instructions.length) :
    ∃ block ∈ find_basic_blocks instructions, covers block read := by
  obtain ⟨final_start, hcs, hcover, hnewest, hne⟩ :=
    find_basic_blocks_loop_partitioned instructions instructions.length 0 0 []
      (by omega) ⟨by simp, fun r hr => by omega, fun _ h => by simp at h, fun h => by omega⟩
  unfold find_basic_blocks
  by_cases hlow : (read : Int) < final_start
  · obtain ⟨block, hmem, hc⟩ := hcover read hlow
    refine ⟨block, ?_, hc⟩
    have : block ∈ (set_last_end (find_basic_blocks_loop instructions instructions.length
        0 0 []) ((instructions.length : Int) - 1)).dropLast := by
      rw [set_last_end_dropLast]; exact hmem
    exact List.mem_of_mem_dropLast this
  · obtain ⟨newest, hlast⟩ := getLast?_isSome_of_ne_nil (hne (by omega))
    refine ⟨{ newest with end_index := (instructions.length : Int) - 1 },
      mem_of_getLast?_eq (set_last_end_getLast? _ _ newest hlast), ?_, ?_⟩
    · have := hnewest newest hlast
      simp only []
      omega
    · simp only []
      omega

/-! ## Dead code elimination: nothing is removed -/

theorem keep_of_covered {blocks result : List BasicBlock} {read : Nat}
    (hm : Marked blocks result) (hall : AllReached result)
    (hcover : ∃ block ∈ blocks, covers block read) : keep result read = true := by
  obtain ⟨block, hmem, hc⟩ := hcover
  obtain ⟨k, hk⟩ := List.get?_of_mem hmem
  obtain ⟨later, hl, hs, he, _⟩ := marked_get? hm k block hk
  unfold keep
  rw [List.any_eq_true]
  refine ⟨later, List.get?_mem hl, ?_⟩
  have hr := hall later (List.get?_mem hl)
  simp only [hr, Bool.true_and, Bool.and_eq_true, decide_eq_true_eq, hs, he]
  exact hc

theorem remove_unreachable_all (blocks : List BasicBlock) :
    ∀ (instructions : List IRInstr) (read : Nat),
      (∀ k, k < instructions.length → keep blocks (read + k) = true) →
      remove_unreachable blocks instructions read = instructions := by
  intro instructions
  induction instructions with
  | nil => intro read _; rfl
  | cons instr rest ih =>
    intro read h
    rw [remove_unreachable]
    have h0 := h 0 (by simp)
    simp only [Nat.add_zero] at h0
    rw [if_pos h0, ih (read + 1)]
    intro k hk
    have := h (k + 1) (by simpa using hk)
    rwa [Nat.add_assoc, Nat.add_comm 1 k]

theorem mark_reachable_of_all_reached {blocks : List BasicBlock} (h : AllReached blocks)
    (j : Nat) : mark_reachable blocks j = (blocks, false) := by
  unfold mark_reachable
  cases hb : blocks.get? j with
  | none => rfl
  | some block =>
    simp only []
    rw [if_pos (h block (List.get?_mem hb))]

theorem mark_successors_of_all_reached (instructions : List IRInstr)
    {blocks : List BasicBlock} (hall : AllReached blocks) (i : Nat) (changed : Bool)
    (result : List BasicBlock) (flag : Bool)
    (h : mark_successors instructions blocks i changed = .ok (result, flag)) :
    result = blocks ∧ flag = changed := by
  unfold mark_successors at h
  cases hb : blocks.get? i with
  | none => rw [hb] at h; cases h; exact ⟨rfl, rfl⟩
  | some block =>
    rw [hb] at h
    simp only [] at h
    have hr := hall block (List.get?_mem hb)
    simp only [hr, Bool.not_true, Bool.false_eq_true, if_false] at h
    cases hl : instruction_at instructions block.end_index with
    | error msg => rw [hl] at h; cases h
    | ok last_instr =>
      rw [hl] at h
      simp only [] at h
      have htarget : ∀ pair, mark_target instructions blocks last_instr changed = .ok pair →
          pair = (blocks, changed) := by
        intro pair hp
        unfold mark_target at hp
        split at hp
        · cases hf : find_target instructions last_instr.label blocks 0 with
          | error msg => rw [hf] at hp; cases hp
          | ok target =>
            rw [hf] at hp
            cases target with
            | none => cases hp; rfl
            | some j =>
              simp only [mark_reachable_of_all_reached hall, Bool.or_false] at hp
              cases hp
              rfl
        · cases hp; rfl
      cases ht : mark_target instructions blocks last_instr changed with
      | error msg => rw [ht] at h; cases h
      | ok pair =>
        rw [ht] at h
        rw [htarget pair ht] at h
        simp only [mark_reachable_of_all_reached hall, Bool.or_false, ite_self] at h
        cases h
        exact ⟨rfl, rfl⟩

theorem mark_pass_of_all_reached (instructions : List IRInstr) {blocks : List BasicBlock}
    (hall : AllReached blocks) :
    ∀ (todo i : Nat) (changed : Bool) (result : List BasicBlock) (flag : Bool),
      mark_pass instructions todo i blocks changed = .ok (result, flag) →
      result = blocks ∧ flag = changed := by
  intro todo
  induction todo with
  | zero => intro i changed result flag h; cases h; exact ⟨rfl, rfl⟩
  | succ todo ih =>
    intro i changed result flag h
    rw [mark_pass] at h
    cases hs : mark_successors instructions blocks i changed with
    | error msg => rw [hs] at h; cases h
    | ok pair =>
      obtain ⟨middle, c⟩ := pair
      rw [hs] at h
      simp only [] at h
      obtain ⟨h1, h2⟩ := mark_successors_of_all_reached instructions hall i changed middle c hs
      subst h1; subst h2
      exact ih (i + 1) c result flag h

theorem mark_loop_terminates (instructions : List IRInstr) (fuel : Nat)
    (blocks : List BasicBlock) (h0 : ReachedUpTo blocks 0) :
    mark_loop instructions (fuel + 2) blocks ≠ none := by
  rw [mark_loop]
  cases hp : mark_pass instructions blocks.length 0 blocks false with
  | error msg => simp
  | ok pair =>
    obtain ⟨middle, c⟩ := pair
    simp only []
    obtain ⟨hm, hr⟩ := mark_pass_marked _ _ _ _ _ _ _ hp
    have hall : AllReached middle :=
      all_reached_of_upto (hr h0) (by rw [marked_length hm]; omega)
    by_cases hc : c = true
    · rw [if_pos hc, mark_loop]
      cases hp2 : mark_pass instructions middle.length 0 middle false with
      | error msg => simp
      | ok pair2 =>
        obtain ⟨last, c2⟩ := pair2
        obtain ⟨_, h2⟩ := mark_pass_of_all_reached instructions hall _ _ _ _ _ hp2
        subst h2
        simp
    · rw [if_neg hc]
      simp

theorem reached_entry (entry : BasicBlock) (rest : List BasicBlock) :
    ReachedUpTo ({ entry with is_reachable := true } :: rest) 0 := by
  intro k block hk hget
  have : k = 0 := by omega
  subst this
  simp only [List.get?_cons_zero, Option.some.injEq] at hget
  rw [← hget]

theorem marked_entry (entry : BasicBlock) (rest : List BasicBlock) :
    Marked (entry :: rest) ({ entry with is_reachable := true } :: rest) :=
  List.Forall₂.cons ⟨rfl, rfl, fun _ => rfl⟩ (marked_refl rest)

/-! ## C25: dead code elimination -/

/-- C25: `dead_code_elimination` deletes nothing.  The marking loop marks the
block after every marked block, whatever the last instruction of the block is,
so every block is marked in the end; and every instruction lies in a block.
Whenever the function returns, the program is the one it was given, and the
marking loop always ends.  In `LABEL main`, `RETURN t0`, `LABEL L0`,
`ASSIGN t1 ← 1` the blocks are the index ranges 0 to 1 and 0 to 3, both end up
marked, and the block at `LABEL L0`, which only follows a `RETURN`, is kept. -/
theorem dead_code_is_never_eliminated :
    (∀ program result : IRProgram,
      dead_code_elimination program = some (.ok result) → result = program) ∧
    (∀ program : IRProgram, dead_code_elimination program ≠ none) ∧
    find_basic_blocks
        [function_label "main", return_instr "t0",
         { op := IR_LABEL, dest := none, src1 := none, src2 := none,
           label := some { name := "L0", number := 0 }, value := 0 },
         assign_immediate "t1" 1]
      = [{ start := 0, end_index := 1, is_reachable := false },
         { start := 0, end_index := 3, is_reachable := false }] ∧
    dead_code_elimination
        { instructions :=
            [function_label "main", return_instr "t0",
             { op := IR_LABEL, dest := none, src1 := none, src2 := none,
               label := some { name := "L0", number := 0 }, value := 0 },
             assign_immediate "t1" 1],
          temp_count := 2, label_count := 1 }
      = some (.ok
          { instructions :=
              [function_label "main", return_instr "t0",
               { op := IR_LABEL, dest := none, src1 := none, src2 := none,
                 label := some { name := "L0", number := 0 }, value := 0 },
               assign_immediate "t1" 1],
            temp_count := 2, label_count := 1 }) := by
  refine ⟨?_, ?_, rfl, rfl⟩
  · intro program result h
    unfold dead_code_elimination at h
    cases hb : find_basic_blocks program.instructions with
    | nil => rw [hb] at h; cases h
    | cons entry rest =>
      rw [hb] at h
      simp only [] at h
      cases hl : mark_loop program.instructions (rest.length + 2)
          ({ entry with is_reachable := true } :: rest) with
      | none => rw [hl] at h; cases h
      | some outcome =>
        rw [hl] at h
        cases outcome with
        | error msg => cases h
        | ok blocks =>
          simp only [Option.some.injEq, Except.ok.injEq] at h
          obtain ⟨hm, hall⟩ := mark_loop_marked _ _ _ _ (reached_entry entry rest) hl
          have hm2 : Marked (find_basic_blocks program.instructions) blocks := by
            rw [hb]
            exact marked_trans (marked_entry entry rest) hm
          have hkeep : remove_unreachable blocks program.instructions 0
              = program.instructions := by
            apply remove_unreachable_all
            intro k hk
            rw [Nat.zero_add]
            exact keep_of_covered hm2 hall (find_basic_blocks_covers _ k hk)
          rw [hkeep] at h
          rw [← h]
  · intro program
    unfold dead_code_elimination
    cases hb : find_basic_blocks program.instructions with
    | nil => simp
    | cons entry rest =>
      simp only []
      have := mark_loop_terminates program.instructions rest.length
        ({ entry with is_reachable := true } :: rest) (reached_entry entry rest)
      cases hl : mark_loop program.instructions (rest.length + 2)
          ({ entry with is_reachable := true } :: rest) with
      | none => exact absurd hl this
      | some outcome => cases outcome <;> simp

/-! ## The names of the temporaries -/

theorem temp_names_append (start first second : Nat) :
    temp_names start first ++ temp_names (start + first) second
      = temp_names start (first + second) := by
  unfold temp_names
  rw [← List.map_append, List.range'_append_1, Nat.add_comm second first]

theorem allocates_refl (state : IRProgram) : Allocates state state :=
  ⟨le_refl _, [], by simp, by simp [destinations, temp_names]⟩

theorem allocates_trans {a b c : IRProgram} (hab : Allocates a b) (hbc : Allocates b c) :
    Allocates a c := by
  obtain ⟨h1, x, hx, dx⟩ := hab
  obtain ⟨h2, y, hy, dy⟩ := hbc
  refine ⟨le_trans h1 h2, x ++ y, by rw [hy, hx, List.append_assoc], ?_⟩
  have hstart : b.temp_count = a.temp_count + (b.temp_count - a.temp_count) := by omega
  have hcount : c.temp_count - a.temp_count
      = (b.temp_count - a.temp_count) + (c.temp_count - b.temp_count) := by omega
  unfold destinations at dx dy ⊢
  rw [List.filterMap_append, dx, dy, hcount, ← temp_names_append, ← hstart]

theorem allocates_temp (state : IRProgram) (instr : IRInstr)
    (h : instr.dest = some ("t" ++ toString state.temp_count)) :
    Allocates state (add_instruction (new_temp state).2 instr) := by
  refine ⟨by simp [add_instruction, new_temp], [instr], rfl, ?_⟩
  simp [destinations, temp_names, add_instruction, new_temp, h]

theorem allocates_none (state : IRProgram) (instr : IRInstr) (h : instr.dest = none) :
    Allocates state (add_instruction state instr) := by
  refine ⟨le_refl _, [instr], rfl, ?_⟩
  simp [destinations, temp_names, add_instruction, h]

mutual

theorem generate_expression_ir_allocates :
    (node : ASTNode) → (program : IRProgram) → (operand : String) → (result : IRProgram) →
      generate_expression_ir program node = .ok (operand, result) → Allocates program result
  | .Number _, program, operand, result, h => by
    cases h
    exact allocates_temp program _ rfl
  | .Identifier _, program, operand, result, h => by
    cases h
    exact allocates_refl _
  | .BinaryOp operator left right, program, operand, result, h => by
    rw [generate_expression_ir_binary] at h
    rcases h1 : generate_expression_ir program left with msg | ⟨l, p1⟩
    · rw [h1] at h; cases h
    · rw [h1] at h
      simp only [] at h
      rcases h2 : generate_expression_ir p1 right with msg | ⟨r, p2⟩
      · rw [h2] at h; cases h
      · rw [h2] at h
        simp only [] at h
        have a1 := generate_expression_ir_allocates left program l p1 h1
        have a2 := generate_expression_ir_allocates right p1 r p2 h2
        have a3 : Allocates p2 result := by
          split_ifs at h <;> (cases h; exact allocates_temp p2 _ rfl)
        exact allocates_trans (allocates_trans a1 a2) a3
  | .FunctionCall name parameters, program, operand, result, h => by
    rw [generate_expression_ir_call] at h
    rcases h1 : generate_arguments_ir program parameters with msg | p1
    · rw [h1] at h; cases h
    · rw [h1] at h
      simp only [] at h
      have a1 := generate_arguments_ir_allocates parameters program p1 h1
      cases h
      exact allocates_trans a1 (allocates_temp p1 _ rfl)
  | .Program _, _, _, _, h => by cases h
  | .FunctionDeclaration _ _ _, _, _, _, h => by cases h
  | .CompoundStatement _, _, _, _, h => by cases h
  | .VariableDeclaration _ _ _, _, _, _, h => by cases h
  | .Assignment _ _, _, _, _, h => by cases h
  | .Return _, _, _, _, h => by cases h
  | .If _ _ _, _, _, _, h => by cases h
  | .While _ _, _, _, _, h => by cases h

theorem generate_arguments_ir_allocates :
    (arguments : List ASTNode) → (program : IRProgram) → (result : IRProgram) →
      generate_arguments_ir program arguments = .ok result → Allocates program result
  | [], program, result, h => by
    cases h
    exact allocates_refl _
  | argument :: rest, program, result, h => by
    rw [generate_arguments_ir_cons] at h
    rcases h1 : generate_expression_ir program argument with msg | ⟨arg, p1⟩
    · rw [h1] at h; cases h
    · rw [h1] at h
      simp only [] at h
      have a1 := generate_expression_ir_allocates argument program arg p1 h1
      have a2 := generate_arguments_ir_allocates rest _ result h
      exact allocates_trans (allocates_trans a1 (allocates_none p1 _ rfl)) a2

end

theorem emit_output_length (gen : CodeGenerator) (text : String) :
    (emit gen text).output.length = gen.output.length + text.length := by
  simp [emit, String.length_append]

theorem emit_string_longer (gen result : CodeGenerator) (before after : String)
    (argument : Option String)
    (h : emit_string gen before argument after = .ok result) :
    gen.output.length + after.length ≤ result.output.length := by
  unfold emit_string at h
  cases argument with
  | none => cases h
  | some text =>
    simp only [Except.ok.injEq] at h
    rw [← h, emit_output_length]
    simp only [String.length_append]
    omega

theorem emit_label_name_longer (gen result : CodeGenerator) (before after : String)
    (label : Option IRLabel)
    (h : emit_label_name gen before label after = .ok result) :
    gen.output.length + after.length ≤ result.output.length := by
  unfold emit_label_name at h
  cases label with
  | none => cases h
  | some label =>
    simp only [Except.ok.injEq] at h
    rw [← h, emit_output_length]
    simp only [String.length_append]
    omega

theorem emit_arithmetic_longer (gen result : CodeGenerator) (mnemonic : String)
    (instr : IRInstr) (h : emit_arithmetic gen mnemonic instr = .ok result) :
    gen.output.length < result.output.length := by
  unfold emit_arithmetic at h
  cases h1 : emit_string gen "    movq " instr.src1 ", %rax\n" with
  | error msg => rw [h1] at h; cases h
  | ok gen1 =>
    rw [h1] at h
    simp only [] at h
    cases h2 : emit_string gen1 ("    " ++ mnemonic ++ " ") instr.src2 ", %rax\n" with
    | error msg => rw [h2] at h; cases h
    | ok gen2 =>
      rw [h2] at h
      simp only [] at h
      have l1 := emit_string_longer _ _ _ _ _ h1
      have l2 := emit_string_longer _ _ _ _ _ h2
      have l3 := emit_string_longer _ _ _ _ _ h
      have e1 : (", %rax\n" : String).length = 7 := by decide
      have e3 : ("\n" : String).length = 1 := by decide
      omega

/-- An instruction of one of the ten opcodes whose case of the `switch` calls
`emit` makes the output longer. -/
theorem generate_instruction_code_longer (gen result : CodeGenerator) (instr : IRInstr)
    (hop : instr.op = IR_ADD ∨ instr.op = IR_SUB ∨ instr.op = IR_MUL ∨ instr.op = IR_DIV ∨
      instr.op = IR_ASSIGN ∨ instr.op = IR_LABEL ∨ instr.op = IR_JUMP ∨
      instr.op = IR_JUMPZ ∨ instr.op = IR_JUMPNZ ∨ instr.op = IR_RETURN)
    (h : generate_instruction_code gen instr = .ok result) :
    gen.output.length < result.output.length := by
  have e1 : (", %rax\n" : String).length = 7 := by decide
  have e3 : ("\n" : String).length = 1 := by decide
  have e4 : (":\n" : String).length = 2 := by decide
  unfold generate_instruction_code at h
  rcases hop with hop | hop | hop | hop | hop | hop | hop | hop | hop | hop <;>
    rw [hop] at h <;> simp only [] at h
  · exact emit_arithmetic_longer _ _ _ _ h
  · exact emit_arithmetic_longer _ _ _ _ h
  · exact emit_arithmetic_longer _ _ _ _ h
  · cases h1 : emit_string gen "    movq " instr.src1 ", %rax\n" with
    | error msg => rw [h1] at h; cases h
    | ok gen1 =>
      rw [h1] at h
      simp only [] at h
      cases h2 : emit_string (emit gen1 "    cqto\n") "    idivq " instr.src2 "\n" with
      | error msg => rw [h2] at h; cases h
      | ok gen2 =>
        rw [h2] at h
        simp only [] at h
        have l1 := emit_string_longer _ _ _ _ _ h1
        have l2 := emit_string_longer _ _ _ _ _ h2
        have l3 := emit_string_longer _ _ _ _ _ h
        rw [emit_output_length] at l2
        omega
  · have l := emit_string_longer _ _ _ _ _ h
    cases hs : instr.src1 with
    | none =>
      rw [hs] at l
      simp only [emit_output_length] at l
      omega
    | some src1 =>
      rw [hs] at l
      simp only [emit_output_length] at l
      omega
  · cases h1 : emit_label_name gen "" instr.label ":\n" with
    | error msg => rw [h1] at h; cases h
    | ok gen1 =>
      rw [h1] at h
      simp only [] at h
      have l1 := emit_label_name_longer _ _ _ _ _ h1
      cases hl : instr.label with
      | none => rw [hl] at h; cases h
      | some label =>
        rw [hl] at h
        simp only [] at h
        split at h
        · simp only [Except.ok.injEq] at h
          rw [← h]
          simp only [emit_output_length]
          omega
        · simp only [Except.ok.injEq] at h
          rw [← h]
          omega
  · have l := emit_label_name_longer _ _ _ _ _ h
    omega
  · cases h1 : emit_string gen "    cmpq $0, " instr.src1 "\n" with
    | error msg => rw [h1] at h; cases h
    | ok gen1 =>
      rw [h1] at h
      simp only [] at h
      have l1 := emit_string_longer _ _ _ _ _ h1
      have l := emit_label_name_longer _ _ _ _ _ h
      omega
  · cases h1 : emit_string gen "    cmpq $0, " instr.src1 "\n" with
    | error msg => rw [h1] at h; cases h
    | ok gen1 =>
      rw [h1] at h
      simp only [] at h
      have l1 := emit_string_longer _ _ _ _ _ h1
      have l := emit_label_name_longer _ _ _ _ _ h
      omega
  · simp only [Except.ok.injEq] at h
    rw [← h]
    simp only [emit_output_length]
    have e5 : ("    ret\n" : String).length = 8 := by decide
    cases instr.src1 with
    | none => simp only []; omega
    | some src1 => simp only [emit_output_length]; omega

/-! ## C31: the emission of each opcode -/

/-- C31: `generate_code_from_ir` does not emit code for every opcode.  For an
instruction of one of the ten opcodes `ADD`, `SUB`, `MUL`, `DIV`, `ASSIGN`,
`LABEL`, `JUMP`, `JUMPZ`, `JUMPNZ`, `RETURN` the output grows, but for an
instruction with the opcode `CALL`, `PARAM`, `ARG`, `COMPARE`, `LOAD`, `STORE`
or `SHR` nothing is written at all.  For `LABEL main`, `CALL t0 ← f`,
`RETURN t0` the output has the label of `main`, the prologue and the return
sequence, and neither `call f` nor `movq %rax, t0`. -/
theorem call_emits_no_code :
    (∀ (gen : CodeGenerator) (instr : IRInstr),
      instr.op = IR_CALL ∨ instr.op = IR_PARAM ∨ instr.op = IR_ARG ∨
        instr.op = IR_COMPARE ∨ instr.op = IR_LOAD ∨ instr.op = IR_STORE ∨
        instr.op = IR_SHR →
      generate_instruction_code gen instr = .ok gen) ∧
    (∀ (gen result : CodeGenerator) (instr : IRInstr),
      instr.op = IR_ADD ∨ instr.op = IR_SUB ∨ instr.op = IR_MUL ∨ instr.op = IR_DIV ∨
        instr.op = IR_ASSIGN ∨ instr.op = IR_LABEL ∨ instr.op = IR_JUMP ∨
        instr.op = IR_JUMPZ ∨ instr.op = IR_JUMPNZ ∨ instr.op = IR_RETURN →
      generate_instruction_code gen instr = .ok result →
      gen.output.length < result.output.length) ∧
    generate_code_from_ir create_generator
        { instructions := [call_instr "t0" "f" 0], temp_count := 1, label_count := 0 }
      = .ok { create_generator with output := "    .global main\n    .text\n" } ∧
    generate_code_from_ir create_generator program_call_f
      = .ok { create_generator with
              output := "    .global main\n    .text\nmain:\n    pushq %rbp\n" ++
                "    movq %rsp, %rbp\n    movq t0, %rax\n    movq %rbp, %rsp\n" ++
                "    popq %rbp\n    ret\n" } := by
  refine ⟨?_, fun gen result instr hop h => generate_instruction_code_longer gen result instr hop h,
    rfl, rfl⟩
  intro gen instr h
  unfold generate_instruction_code
  rcases h with h | h | h | h | h | h | h <;> rw [h]

/-! ## Basic blocks: the second block starts where the first one does -/

theorem set_last_end_cons_cons (first second : BasicBlock) (more : List BasicBlock)
    (value : Int) :
    set_last_end (first :: second :: more) value
      = first :: set_last_end (second :: more) value := by
  unfold set_last_end
  rw [List.getLast?_cons_cons]
  cases h : (second :: more).getLast? with
  | none => rfl
  | some block => simp [List.dropLast]

theorem set_last_end_cons_start (second : BasicBlock) (more : List BasicBlock) (value : Int)
    (hvalue : 0 ≤ value) (hend : 0 ≤ second.end_index) :
    ∃ second2 more2, set_last_end (second :: more) value = second2 :: more2 ∧
      second2.start = second.start ∧ 0 ≤ second2.end_index := by
  cases more with
  | nil => exact ⟨{ second with end_index := value }, [], rfl, rfl, hvalue⟩
  | cons third more =>
    rw [set_last_end_cons_cons]
    exact ⟨second, _, rfl, rfl, hend⟩

theorem first_two_overlap_set_last_end {blocks : List BasicBlock} (h : FirstTwoOverlap blocks)
    (value : Int) (hvalue : 0 ≤ value) : FirstTwoOverlap (set_last_end blocks value) := by
  obtain ⟨first, second, more, hb, h1, h2, h3, h4⟩ := h
  subst hb
  rw [set_last_end_cons_cons]
  obtain ⟨second2, more2, he, hs, hend⟩ := set_last_end_cons_start second more value hvalue h4
  rw [he]
  exact ⟨first, second2, more2, rfl, h1, h2, hs.trans h3, hend⟩

theorem first_two_overlap_append {blocks : List BasicBlock} (h : FirstTwoOverlap blocks)
    (added : List BasicBlock) : FirstTwoOverlap (blocks ++ added) := by
  obtain ⟨first, second, more, hb, h1, h2, h3, h4⟩ := h
  subst hb
  exact ⟨first, second, more ++ added, rfl, h1, h2, h3, h4⟩

theorem find_basic_blocks_loop_overlap (instructions : List IRInstr) :
    ∀ (todo i : Nat) (current_start : Int) (blocks : List BasicBlock),
      0 < i → FirstTwoOverlap blocks →
      FirstTwoOverlap (find_basic_blocks_loop instructions todo i current_start blocks) := by
  intro todo
  induction todo with
  | zero => intro i current_start blocks _ h; exact h
  | succ todo ih =>
    intro i current_start blocks hi h
    rw [find_basic_blocks_loop]
    cases hget : instructions.get? i with
    | none => exact h
    | some instr =>
      simp only []
      split
      · exact ih (i + 1) _ _ (by omega)
          (first_two_overlap_append (first_two_overlap_set_last_end h _ (by omega)) _)
      · exact ih (i + 1) _ _ (by omega) h

theorem find_basic_blocks_loop_first_label (instructions : List IRInstr) (j : Nat)
    (label : IRInstr) (hget : instructions.get? j = some label) (hop : label.op = IR_LABEL) :
    ∀ (todo i : Nat), 0 < i → i ≤ j → j < i + todo →
      FirstTwoOverlap
        (find_basic_blocks_loop instructions todo i 0
          [{ start := 0, end_index := -1, is_reachable := false }]) := by
  intro todo
  induction todo with
  | zero => intro i _ h1 h2; omega
  | succ todo ih =>
    intro i hi h1 h2
    rw [find_basic_blocks_loop]
    obtain ⟨instr, hinstr⟩ := get?_some_of_lt (l := instructions) (k := i)
      (by have := lt_of_get?_some hget; omega)
    rw [hinstr]
    simp only []
    by_cases hleader : instr.op = IR_LABEL ∨ i = 0
    · rw [if_pos hleader]
      apply find_basic_blocks_loop_overlap instructions todo (i + 1) _ _ (by omega)
      exact ⟨{ start := 0, end_index := (i : Int) - 1, is_reachable := false },
        { start := 0, end_index := (i : Int) - 1, is_reachable := false }, [], rfl, rfl,
        by simp only []; omega, rfl, by simp only []; omega⟩
    · rw [if_neg hleader]
      have hne : i ≠ j := by
        intro heq
        subst heq
        rw [hinstr] at hget
        cases hget
        exact hleader (Or.inl hop)
      exact ih (i + 1) (by omega) (by omega) (by omega)

theorem find_basic_blocks_overlap (instructions : List IRInstr) (j : Nat) (label : IRInstr)
    (hj : 0 < j) (hget : instructions.get? j = some label) (hop : label.op = IR_LABEL) :
    FirstTwoOverlap (find_basic_blocks instructions) := by
  have hlt := lt_of_get?_some hget
  unfold find_basic_blocks
  apply first_two_overlap_set_last_end _ _ (by omega)
  obtain ⟨n, hn⟩ : ∃ n, instructions.length = n + 1 := ⟨instructions.length - 1, by omega⟩
  rw [hn, find_basic_blocks_loop]
  obtain ⟨instr, hinstr⟩ := get?_some_of_lt (l := instructions) (k := 0) (by omega)
  rw [hinstr]
  simp only [or_true, if_true]
  exact find_basic_blocks_loop_first_label instructions j label hget hop n 1 (by omega)
    (by omega) (by omega)

/-! ## C32: the blocks of `find_basic_blocks` -/

/-- C32: the blocks of `find_basic_blocks` do not partition the program.  The
function stores `current_start` in the new block before it sets it to the
index of the label, so a block starts where the block in front of it starts.
Whenever an instruction after the first one is a `LABEL`, there are a first
and a second block that both start at index 0: the second block does not start
one after the end of the first one, and index 0 lies in both. -/
theorem blocks_do_not_partition (instructions : List IRInstr) (j : Nat) (label : IRInstr)
    (hj : 0 < j) (hget : instructions.get? j = some label) (hop : label.op = IR_LABEL) :
    ∃ first second more, find_basic_blocks instructions = first :: second :: more ∧
      first.start = 0 ∧ second.start = 0 ∧
      second.start ≠ first.end_index + 1 ∧
      covers first 0 ∧ covers second 0 := by
  obtain ⟨first, second, more, hb, h1, h2, h3, h4⟩ :=
    find_basic_blocks_overlap instructions j label hj hget hop
  refine ⟨first, second, more, hb, h1, h3, by omega, ⟨?_, ?_⟩, ⟨?_, ?_⟩⟩
  · rw [h1]; rfl
  · exact_mod_cast h2
  · rw [h3]; rfl
  · exact_mod_cast h4

/-- The IR that `generate_ir` makes of
`int f(int n) { return g(n); } int g(int x) { return x; }` is `LABEL f`,
`PARAM n`, `LABEL g`, `PARAM x`; its blocks are the index ranges 0 to 1 and
0 to 3. -/
theorem blocks_do_not_partition_witness :
    (generate_ir create_ir_program program_forward).instructions
      = [function_label "f", create_instr IR_PARAM (some "n") none none,
         function_label "g", create_instr IR_PARAM (some "x") none none] ∧
    find_basic_blocks (generate_ir create_ir_program program_forward).instructions
      = [{ start := 0, end_index := 1, is_reachable := false },
         { start := 0, end_index := 3, is_reachable := false }] ∧
    ∃ first second more,
      find_basic_blocks (generate_ir create_ir_program program_forward).instructions
        = first :: second :: more ∧
      first.start = 0 ∧ second.start = 0 ∧
      second.start ≠ first.end_index + 1 ∧
      covers first 0 ∧ covers second 0 :=
  ⟨rfl, rfl,
   blocks_do_not_partition (generate_ir create_ir_program program_forward).instructions 2
     (function_label "g") (by decide) rfl rfl⟩

/-! ## Dead code elimination: the bounds of the blocks -/

theorem in_bounds_set_last_end {count : Nat} {blocks : List BasicBlock} {value : Int}
    (hfront : InBounds count blocks.dropLast)
    (hnewest : ∀ newest, blocks.getLast? = some newest →
      0 ≤ newest.start ∧ newest.start < (count : Int))
    (h0 : 0 ≤ value) (h1 : value < (count : Int)) :
    InBounds count (set_last_end blocks value) := by
  unfold set_last_end
  cases hlast : blocks.getLast? with
  | none =>
    have : blocks = [] := List.getLast?_eq_none_iff.mp hlast
    subst this
    intro block hmem
    cases hmem
  | some newest =>
    intro block hmem
    simp only [] at hmem
    rcases List.mem_append.mp hmem with hm | hm
    · exact hfront block hm
    · simp only [List.mem_singleton] at hm
      subst hm
      exact ⟨(hnewest newest hlast).1, (hnewest newest hlast).2, h0, h1⟩

theorem find_basic_blocks_loop_bounded (instructions : List IRInstr) :
    ∀ (todo i : Nat) (current_start : Int) (blocks : List BasicBlock),
      i + todo = instructions.length →
      0 ≤ current_start → current_start ≤ (i : Int) → (blocks ≠ [] → 0 < i) →
      InBounds instructions.length blocks.dropLast →
      (∀ newest, blocks.getLast? = some newest →
        0 ≤ newest.start ∧ newest.start < (instructions.length : Int)) →
      InBounds instructions.length
        (find_basic_blocks_loop instructions todo i current_start blocks).dropLast ∧
      ∀ newest,
        (find_basic_blocks_loop instructions todo i current_start blocks).getLast?
          = some newest →
        0 ≤ newest.start ∧ newest.start < (instructions.length : Int) := by
  intro todo
  induction todo with
  | zero =>
    intro i current_start blocks _ _ _ _ hfront hnewest
    exact ⟨hfront, hnewest⟩
  | succ todo ih =>
    intro i current_start blocks hi hcs0 hcs hne hfront hnewest
    rw [find_basic_blocks_loop]
    obtain ⟨instr, hinstr⟩ := get?_some_of_lt (l := instructions) (k := i) (by omega)
    rw [hinstr]
    simp only []
    by_cases hleader : instr.op = IR_LABEL ∨ i = 0
    · rw [if_pos hleader]
      apply ih (i + 1) i _ (by omega) (by omega) (by push_cast; omega) (fun _ => by omega)
      · rw [List.dropLast_concat]
        by_cases hempty : blocks = []
        · subst hempty
          intro block hmem
          simp [set_last_end] at hmem
        · exact in_bounds_set_last_end hfront hnewest (by have := hne hempty; omega)
            (by omega)
      · intro newest hlast
        rw [List.getLast?_concat] at hlast
        cases hlast
        simp only []
        omega
    · rw [if_neg hleader]
      exact ih (i + 1) current_start blocks (by omega) hcs0 (by push_cast; omega)
        (fun _ => by omega) hfront hnewest

theorem find_basic_blocks_in_bounds (instructions : List IRInstr) (hne : instructions ≠ []) :
    InBounds instructions.length (find_basic_blocks instructions) := by
  have hpos : 0 < instructions.length := List.length_pos.mpr hne
  obtain ⟨hfront, hnewest⟩ :=
    find_basic_blocks_loop_bounded instructions instructions.length 0 0 [] (by omega)
      (le_refl _) (by simp) (fun h => absurd rfl h) (by intro block hmem; cases hmem)
      (by intro newest h; cases h)
  unfold find_basic_blocks
  exact in_bounds_set_last_end hfront hnewest (by omega) (by omega)

theorem find_basic_blocks_ne_nil (instructions : List IRInstr) (hne : instructions ≠ []) :
    find_basic_blocks instructions ≠ [] := by
  obtain ⟨block, hmem, _⟩ := find_basic_blocks_covers instructions 0 (List.length_pos.mpr hne)
  intro h
  rw [h] at hmem
  cases hmem

theorem in_bounds_of_marked {count : Nat} {blocks later : List BasicBlock}
    (hm : Marked blocks later) (h : InBounds count blocks) : InBounds count later := by
  intro block hmem
  obtain ⟨k, hk⟩ := List.get?_of_mem hmem
  have hlt : k < blocks.length := by
    rw [← marked_length hm]
    exact lt_of_get?_some hk
  obtain ⟨old, hold⟩ := get?_some_of_lt hlt
  obtain ⟨later2, hl2, hs, he, _⟩ := marked_get? hm k old hold
  rw [hl2] at hk
  cases hk
  rw [hs, he]
  exact h old (List.get?_mem hold)

/-! ## Dead code elimination: no invalid read in a labelled program -/

theorem instruction_at_ok (instructions : List IRInstr) (index : Int) (h0 : 0 ≤ index)
    (h1 : index < (instructions.length : Int)) :
    ∃ instr, instruction_at instructions index = .ok instr ∧ instr ∈ instructions := by
  unfold instruction_at
  rw [if_neg (by omega)]
  obtain ⟨instr, hinstr⟩ := get?_some_of_lt (l := instructions) (k := index.toNat) (by omega)
  rw [hinstr]
  exact ⟨instr, rfl, List.get?_mem hinstr⟩

theorem find_target_ok (instructions : List IRInstr) (hl : Labelled instructions)
    (jump_label : IRLabel) :
    ∀ (blocks : List BasicBlock) (j : Nat), InBounds instructions.length blocks →
      ∃ target, find_target instructions (some jump_label) blocks j = .ok target := by
  intro blocks
  induction blocks with
  | nil => intro j _; exact ⟨none, rfl⟩
  | cons target rest ih =>
    intro j hb
    have ht := hb target (by simp)
    have hrest : InBounds instructions.length rest := fun block hmem => hb block (by simp [hmem])
    obtain ⟨first_instr, hfirst, hmem⟩ := instruction_at_ok instructions target.start ht.1 ht.2.1
    rw [find_target, hfirst]
    simp only []
    by_cases hop : first_instr.op = IR_LABEL
    · rw [if_pos hop]
      have hsome := hl first_instr hmem (Or.inl hop)
      cases hlabel : first_instr.label with
      | none => rw [hlabel] at hsome; cases hsome
      | some label =>
        simp only []
        by_cases hname : label.name = jump_label.name
        · rw [if_pos hname]; exact ⟨some j, rfl⟩
        · rw [if_neg hname]; exact ih (j + 1) hrest
    · rw [if_neg hop]; exact ih (j + 1) hrest

theorem mark_target_ok (instructions : List IRInstr) (hl : Labelled instructions)
    (blocks : List BasicBlock) (hb : InBounds instructions.length blocks)
    (last_instr : IRInstr) (hmem : last_instr ∈ instructions) (changed : Bool) :
    ∃ result, mark_target instructions blocks last_instr changed = .ok result := by
  unfold mark_target
  by_cases hop : last_instr.op = IR_JUMP ∨ last_instr.op = IR_JUMPZ ∨ last_instr.op = IR_JUMPNZ
  · rw [if_pos hop]
    have hsome := hl last_instr hmem (Or.inr hop)
    cases hlabel : last_instr.label with
    | none => rw [hlabel] at hsome; cases hsome
    | some jump_label =>
      obtain ⟨target, ht⟩ := find_target_ok instructions hl jump_label blocks 0 hb
      rw [ht]
      cases target with
      | none => exact ⟨_, rfl⟩
      | some j => exact ⟨_, rfl⟩
  · rw [if_neg hop]; exact ⟨_, rfl⟩

theorem mark_successors_ok (instructions : List IRInstr) (hl : Labelled instructions)
    (blocks : List BasicBlock) (hb : InBounds instructions.length blocks) (i : Nat)
    (changed : Bool) :
    ∃ result, mark_successors instructions blocks i changed = .ok result := by
  unfold mark_successors
  cases hget : blocks.get? i with
  | none => exact ⟨_, rfl⟩
  | some block =>
    simp only []
    split
    · exact ⟨_, rfl⟩
    · have hblock := hb block (List.get?_mem hget)
      obtain ⟨last_instr, hlast, hmem⟩ :=
        instruction_at_ok instructions block.end_index hblock.2.2.1 hblock.2.2.2
      rw [hlast]
      simp only []
      obtain ⟨result, hr⟩ := mark_target_ok instructions hl blocks hb last_instr hmem changed
      rw [hr]
      simp only []
      split
      · exact ⟨_, rfl⟩
      · exact ⟨_, rfl⟩

theorem mark_pass_ok (instructions : List IRInstr) (hl : Labelled instructions) :
    ∀ (todo i : Nat) (blocks : List BasicBlock) (changed : Bool),
      InBounds instructions.length blocks →
      ∃ result, mark_pass instructions todo i blocks changed = .ok result := by
  intro todo
  induction todo with
  | zero => intro i blocks changed _; exact ⟨_, rfl⟩
  | succ todo ih =>
    intro i blocks changed hb
    obtain ⟨⟨middle, c⟩, hs⟩ := mark_successors_ok instructions hl blocks hb i changed
    rw [mark_pass, hs]
    simp only []
    exact ih (i + 1) middle c
      (in_bounds_of_marked (mark_successors_marked _ _ _ _ _ _ hs).1 hb)

/-- In a labelled program the marking loop ends without an invalid read, with
every block marked, and it takes no more sweeps than there are blocks. -/
theorem mark_loop_ok (instructions : List IRInstr) (hl : Labelled instructions)
    (blocks : List BasicBlock) (hb : InBounds instructions.length blocks)
    (hne : blocks ≠ []) (h0 : ReachedUpTo blocks 0) :
    ∃ result, Marked blocks result ∧ AllReached result ∧
      ∀ fuel, blocks.length ≤ fuel →
        mark_loop instructions fuel blocks = some (.ok result) := by
  obtain ⟨⟨middle, c⟩, hp⟩ := mark_pass_ok instructions hl blocks.length 0 blocks false hb
  obtain ⟨hm, hr⟩ := mark_pass_marked _ _ _ _ _ _ _ hp
  have hall : AllReached middle :=
    all_reached_of_upto (hr h0) (by rw [marked_length hm]; omega)
  have hlen : 0 < blocks.length := List.length_pos.mpr hne
  refine ⟨middle, hm, hall, ?_⟩
  intro fuel hfuel
  by_cases hc : c = true
  · have htwo : 2 ≤ blocks.length := by
      by_contra hshort
      have hall0 : AllReached blocks := all_reached_of_upto h0 (by omega)
      have := (mark_pass_of_all_reached instructions hall0 _ _ _ _ _ hp).2
      rw [this] at hc
      cases hc
    obtain ⟨f, hf⟩ : ∃ f, fuel = f + 2 := ⟨fuel - 2, by omega⟩
    subst hf
    rw [mark_loop, hp]
    simp only []
    rw [if_pos hc, mark_loop]
    obtain ⟨⟨last, c2⟩, hp2⟩ := mark_pass_ok instructions hl middle.length 0 middle false
      (in_bounds_of_marked hm hb)
    obtain ⟨h1, h2⟩ := mark_pass_of_all_reached instructions hall _ _ _ _ _ hp2
    subst h1; subst h2
    rw [hp2]
    simp
  · obtain ⟨f, hf⟩ : ∃ f, fuel = f + 1 := ⟨fuel - 1, by omega⟩
    subst hf
    rw [mark_loop, hp]
    simp only []
    rw [if_neg hc]

/-- Whatever the program is, the marking loop stops within as many sweeps as
there are blocks, when there is a block and the first one is marked. -/
theorem mark_loop_within (instructions : List IRInstr) (blocks : List BasicBlock)
    (hne : blocks ≠ []) (h0 : ReachedUpTo blocks 0) :
    mark_loop instructions blocks.length blocks ≠ none := by
  have hlen : 0 < blocks.length := List.length_pos.mpr hne
  by_cases htwo : 2 ≤ blocks.length
  · obtain ⟨f, hf⟩ : ∃ f, blocks.length = f + 2 := ⟨blocks.length - 2, by omega⟩
    rw [hf]
    exact mark_loop_terminates instructions f blocks h0
  · have hone : blocks.length = 1 := by omega
    have hall0 : AllReached blocks := all_reached_of_upto h0 (by omega)
    rw [hone, mark_loop]
    cases hp : mark_pass instructions blocks.length 0 blocks false with
    | error msg => simp
    | ok pair =>
      obtain ⟨middle, c⟩ := pair
      obtain ⟨_, h2⟩ := mark_pass_of_all_reached instructions hall0 _ _ _ _ _ hp
      subst h2
      simp

/-- Whenever `dead_code_elimination` returns, the program is the one it was
given. -/
theorem dead_code_elimination_keeps (program result : IRProgram)
    (h : dead_code_elimination program = some (.ok result)) : result = program := by
  unfold dead_code_elimination at h
  cases hb : find_basic_blocks program.instructions with
  | nil => rw [hb] at h; cases h
  | cons entry rest =>
    rw [hb] at h
    simp only [] at h
    cases hl : mark_loop program.instructions (rest.length + 2)
        ({ entry with is_reachable := true } :: rest) with
    | none => rw [hl] at h; cases h
    | some outcome =>
      rw [hl] at h
      cases outcome with
      | error msg => cases h
      | ok blocks =>
        simp only [Option.some.injEq, Except.ok.injEq] at h
        obtain ⟨hm, hall⟩ := mark_loop_marked _ _ _ _ (reached_entry entry rest) hl
        have hm2 : Marked (find_basic_blocks program.instructions) blocks := by
          rw [hb]
          exact marked_trans (marked_entry entry rest) hm
        have hkeep : remove_unreachable blocks program.instructions 0
            = program.instructions := by
          apply remove_unreachable_all
          intro k hk
          rw [Nat.zero_add]
          exact keep_of_covered hm2 hall (find_basic_blocks_covers _ k hk)
        rw [hkeep] at h
        rw [← h]

/-! ## Dead code elimination: the only invalid read is that of a missing block -/

theorem find_target_error (instructions : List IRInstr) :
    ∀ (blocks : List BasicBlock) (jump_label : Option IRLabel) (j : Nat) (msg : String),
      InBounds instructions.length blocks →
      find_target instructions jump_label blocks j = .error msg → msg = "null label" := by
  intro blocks
  induction blocks with
  | nil => intro jump_label j msg _ h; cases h
  | cons target rest ih =>
    intro jump_label j msg hb h
    have ht := hb target (by simp)
    have hrest : InBounds instructions.length rest := fun block hmem => hb block (by simp [hmem])
    obtain ⟨first_instr, hfirst, _⟩ := instruction_at_ok instructions target.start ht.1 ht.2.1
    rw [find_target, hfirst] at h
    simp only [] at h
    split at h
    · split at h
      · split at h
        · cases h
        · exact ih _ _ _ hrest h
      · cases h
        rfl
    · exact ih _ _ _ hrest h

theorem mark_target_error (instructions : List IRInstr) (blocks : List BasicBlock)
    (hb : InBounds instructions.length blocks) (last_instr : IRInstr) (changed : Bool)
    (msg : String) (h : mark_target instructions blocks last_instr changed = .error msg) :
    msg = "null label" := by
  unfold mark_target at h
  split at h
  · cases hf : find_target instructions last_instr.label blocks 0 with
    | error msg2 =>
      rw [hf] at h
      cases h
      exact find_target_error instructions blocks _ 0 _ hb hf
    | ok target =>
      rw [hf] at h
      cases target <;> cases h
  · cases h

theorem mark_successors_error (instructions : List IRInstr) (blocks : List BasicBlock)
    (hb : InBounds instructions.length blocks) (i : Nat) (changed : Bool) (msg : String)
    (h : mark_successors instructions blocks i changed = .error msg) :
    msg = "null label" := by
  unfold mark_successors at h
  cases hget : blocks.get? i with
  | none => rw [hget] at h; cases h
  | some block =>
    rw [hget] at h
    simp only [] at h
    split at h
    · cases h
    · have hblock := hb block (List.get?_mem hget)
      obtain ⟨last_instr, hlast, _⟩ :=
        instruction_at_ok instructions block.end_index hblock.2.2.1 hblock.2.2.2
      rw [hlast] at h
      simp only [] at h
      cases ht : mark_target instructions blocks last_instr changed with
      | error msg2 =>
        rw [ht] at h
        cases h
        exact mark_target_error instructions blocks hb last_instr changed _ ht
      | ok pair =>
        rw [ht] at h
        simp only [] at h
        split at h <;> cases h

theorem mark_pass_error (instructions : List IRInstr) :
    ∀ (todo i : Nat) (blocks : List BasicBlock) (changed : Bool) (msg : String),
      InBounds instructions.length blocks →
      mark_pass instructions todo i blocks changed = .error msg → msg = "null label" := by
  intro todo
  induction todo with
  | zero => intro i blocks changed msg _ h; cases h
  | succ todo ih =>
    intro i blocks changed msg hb h
    rw [mark_pass] at h
    cases hs : mark_successors instructions blocks i changed with
    | error msg2 =>
      rw [hs] at h
      cases h
      exact mark_successors_error instructions blocks hb i changed _ hs
    | ok pair =>
      obtain ⟨middle, c⟩ := pair
      rw [hs] at h
      simp only [] at h
      exact ih (i + 1) middle c msg
        (in_bounds_of_marked (mark_successors_marked _ _ _ _ _ _ hs).1 hb) h

theorem mark_loop_error (instructions : List IRInstr) :
    ∀ (fuel : Nat) (blocks : List BasicBlock) (msg : String),
      InBounds instructions.length blocks →
      mark_loop instructions fuel blocks = some (.error msg) → msg = "null label" := by
  intro fuel
  induction fuel with
  | zero => intro blocks msg _ h; cases h
  | succ fuel ih =>
    intro blocks msg hb h
    rw [mark_loop] at h
    cases hp : mark_pass instructions blocks.length 0 blocks false with
    | error msg2 =>
      rw [hp] at h
      simp only [Option.some.injEq, Except.error.injEq] at h
      subst h
      exact mark_pass_error instructions _ _ _ _ _ hb hp
    | ok pair =>
      obtain ⟨middle, c⟩ := pair
      rw [hp] at h
      simp only [] at h
      split at h
      · exact ih middle msg (in_bounds_of_marked (mark_pass_marked _ _ _ _ _ _ _ hp).1 hb) h
      · cases h

theorem dead_code_elimination_error (program : IRProgram) (hne : program.instructions ≠ [])
    (msg : String) (h : dead_code_elimination program = some (.error msg)) :
    msg = "null label" := by
  unfold dead_code_elimination at h
  have hb := find_basic_blocks_in_bounds program.instructions hne
  cases hblocks : find_basic_blocks program.instructions with
  | nil => exact absurd hblocks (find_basic_blocks_ne_nil _ hne)
  | cons entry rest =>
    rw [hblocks] at h hb
    simp only [] at h
    cases hl : mark_loop program.instructions (rest.length + 2)
        ({ entry with is_reachable := true } :: rest) with
    | none => rw [hl] at h; cases h
    | some outcome =>
      rw [hl] at h
      cases outcome with
      | ok blocks => cases h
      | error msg2 =>
        simp only [Option.some.injEq, Except.error.injEq] at h
        subst h
        exact mark_loop_error program.instructions _ _ _
          (in_bounds_of_marked (marked_entry entry rest) hb) hl

/-! ## C33: the marking loop of `dead_code_elimination` -/

/-- C33: on a program that is not empty, `find_basic_blocks` stores at least
one block, and the marking loop of `dead_code_elimination`, started with the
first block marked, stops within as many sweeps over the blocks as there are
blocks.  When it ends, the first block is still the first block and is marked,
and every instruction that lies in it is kept by the loop that removes
instructions.  When every `LABEL`, `JUMP`, `JUMPZ` and `JUMPNZ` carries a
label, the loop does end, without an invalid read. -/
theorem reachability_loop_converges (program : IRProgram)
    (hne : program.instructions ≠ []) :
    ∃ entry rest, find_basic_blocks program.instructions = entry :: rest ∧
      mark_loop program.instructions (entry :: rest).length
          ({ entry with is_reachable := true } :: rest) ≠ none ∧
      (∀ blocks,
        mark_loop program.instructions (entry :: rest).length
            ({ entry with is_reachable := true } :: rest) = some (.ok blocks) →
        (∃ first others, blocks = first :: others ∧ first.is_reachable = true ∧
          first.start = entry.start ∧ first.end_index = entry.end_index) ∧
        ∀ read, covers entry read → keep blocks read = true) ∧
      (Labelled program.instructions →
        ∃ blocks,
          mark_loop program.instructions (entry :: rest).length
              ({ entry with is_reachable := true } :: rest) = some (.ok blocks)) := by
  cases hblocks : find_basic_blocks program.instructions with
  | nil => exact absurd hblocks (find_basic_blocks_ne_nil _ hne)
  | cons entry rest =>
    have hlen : (entry :: rest).length
        = ({ entry with is_reachable := true } :: rest : List BasicBlock).length := rfl
    refine ⟨entry, rest, rfl, ?_, ?_, ?_⟩
    · rw [hlen]
      exact mark_loop_within _ _ (by simp) (reached_entry entry rest)
    · intro blocks hloop
      obtain ⟨hm, hall⟩ := mark_loop_marked _ _ _ _ (reached_entry entry rest) hloop
      constructor
      · cases hm with
        | cons hfirst hothers =>
          rename_i first others
          exact ⟨first, others, rfl, hall first (by simp), hfirst.1, hfirst.2.1⟩
      · intro read hcover
        exact keep_of_covered hm hall
          ⟨{ entry with is_reachable := true }, by simp, hcover⟩
    · intro hl
      have hb := find_basic_blocks_in_bounds program.instructions hne
      rw [hblocks] at hb
      obtain ⟨result, _, _, hfuel⟩ := mark_loop_ok program.instructions hl
        ({ entry with is_reachable := true } :: rest)
        (in_bounds_of_marked (marked_entry entry rest) hb) (by simp)
        (reached_entry entry rest)
      exact ⟨result, hfuel _ (le_of_eq hlen.symm)⟩

/-- The program `program_branch` has two blocks, the index ranges 0 to 2 and
0 to 4; the marking loop ends at its second sweep with both marked. -/
theorem reachability_loop_converges_witness :
    program_branch.instructions ≠ [] ∧
    find_basic_blocks program_branch.instructions
      = [{ start := 0, end_index := 2, is_reachable := false },
         { start := 0, end_index := 4, is_reachable := false }] ∧
    mark_loop program_branch.instructions 1
        [{ start := 0, end_index := 2, is_reachable := true },
         { start := 0, end_index := 4, is_reachable := false }] = none ∧
    mark_loop program_branch.instructions 2
        [{ start := 0, end_index := 2, is_reachable := true },
         { start := 0, end_index := 4, is_reachable := false }]
      = some (.ok [{ start := 0, end_index := 2, is_reachable := true },
                   { start := 0, end_index := 4, is_reachable := true }]) ∧
    ∃ entry rest, find_basic_blocks program_branch.instructions = entry :: rest ∧
      mark_loop program_branch.instructions (entry :: rest).length
          ({ entry with is_reachable := true } :: rest) ≠ none ∧
      (∀ blocks,
        mark_loop program_branch.instructions (entry :: rest).length
            ({ entry with is_reachable := true } :: rest) = some (.ok blocks) →
        (∃ first others, blocks = first :: others ∧ first.is_reachable = true ∧
          first.start = entry.start ∧ first.end_index = entry.end_index) ∧
        ∀ read, covers entry read → keep blocks read = true) ∧
      (Labelled program_branch.instructions →
        ∃ blocks,
          mark_loop program_branch.instructions (entry :: rest).length
              ({ entry with is_reachable := true } :: rest) = some (.ok blocks)) :=
  ⟨by decide, rfl, rfl, rfl, reachability_loop_converges program_branch (by decide)⟩

/-! ## C39: `dead_code_elimination` on a labelled program -/

/-- C39: on a program that is not empty and in which every `LABEL`, `JUMP`,
`JUMPZ` and `JUMPNZ` carries a label, `dead_code_elimination` returns, and it
returns the program it was given: the marking loop ends with every block
marked, every instruction index lies in a marked block, and the loop that
removes instructions keeps all of them, in order. -/
theorem dead_code_elimination_is_identity (program : IRProgram)
    (hne : program.instructions ≠ []) (hl : Labelled program.instructions) :
    dead_code_elimination program = some (.ok program) ∧
    ∃ entry rest blocks, find_basic_blocks program.instructions = entry :: rest ∧
      mark_loop program.instructions (rest.length + 2)
          ({ entry with is_reachable := true } :: rest) = some (.ok blocks) ∧
      AllReached blocks ∧
      (∀ read, read < program.instructions.length →
        ∃ block ∈ blocks, block.is_reachable = true ∧ covers block read) ∧
      remove_unreachable blocks program.instructions 0 = program.instructions := by
  have hb := find_basic_blocks_in_bounds program.instructions hne
  cases hblocks : find_basic_blocks program.instructions with
  | nil => exact absurd hblocks (find_basic_blocks_ne_nil _ hne)
  | cons entry rest =>
    rw [hblocks] at hb
    obtain ⟨blocks, hm, hall, hfuel⟩ := mark_loop_ok program.instructions hl
      ({ entry with is_reachable := true } :: rest)
      (in_bounds_of_marked (marked_entry entry rest) hb) (by simp)
      (reached_entry entry rest)
    have hloop := hfuel (rest.length + 2) (by simp)
    have hm2 : Marked (find_basic_blocks program.instructions) blocks := by
      rw [hblocks]
      exact marked_trans (marked_entry entry rest) hm
    have hkeep : remove_unreachable blocks program.instructions 0
        = program.instructions := by
      apply remove_unreachable_all
      intro k hk
      rw [Nat.zero_add]
      exact keep_of_covered hm2 hall (find_basic_blocks_covers _ k hk)
    refine ⟨?_, entry, rest, blocks, rfl, hloop, hall, ?_, hkeep⟩
    · unfold dead_code_elimination
      rw [hblocks]
      simp only []
      rw [hloop]
      simp only [hkeep]
    · intro read hread
      obtain ⟨block, hmem, hcover⟩ := find_basic_blocks_covers program.instructions read hread
      obtain ⟨k, hk⟩ := List.get?_of_mem hmem
      obtain ⟨later, hlater, hs, he, _⟩ := marked_get? hm2 k block hk
      refine ⟨later, List.get?_mem hlater, hall later (List.get?_mem hlater), ?_⟩
      unfold covers
      rw [hs, he]
      exact hcover

/-- The program `program_branch` is returned unchanged, although its third
instruction `ASSIGN t1 ← 1` is followed by the label that the jump in front of
it goes to. -/
theorem dead_code_elimination_is_identity_witness :
    program_branch.instructions ≠ [] ∧ Labelled program_branch.instructions ∧
    dead_code_elimination program_branch = some (.ok program_branch) ∧
    ∃ entry rest blocks, find_basic_blocks program_branch.instructions = entry :: rest ∧
      mark_loop program_branch.instructions (rest.length + 2)
          ({ entry with is_reachable := true } :: rest) = some (.ok blocks) ∧
      AllReached blocks ∧
      (∀ read, read < program_branch.instructions.length →
        ∃ block ∈ blocks, block.is_reachable = true ∧ covers block read) ∧
      remove_unreachable blocks program_branch.instructions 0
        = program_branch.instructions :=
  ⟨by decide, by unfold Labelled; decide,
   dead_code_elimination_is_identity program_branch (by decide)
     (by unfold Labelled; decide)⟩

/-! ## C40: `dead_code_elimination` on the empty program -/

/-- C40: `dead_code_elimination` is not defined on the empty program.  For a
source without functions `generate_ir` leaves the program empty;
`find_basic_blocks` then stores no block, and the statement
`program->blocks[0]->is_reachable = true` reads a block that does not exist.
The driver `optimize_ir` runs into the same read.  On every other program the
bounds of the blocks are indices of the instruction array, and the function
reads no block and no instruction that does not exist. -/
theorem dead_code_elimination_reads_missing_block :
    generate_ir create_ir_program (.Program []) = create_ir_program ∧
    find_basic_blocks create_ir_program.instructions = [] ∧
    dead_code_elimination create_ir_program = some (.error "invalid read") ∧
    optimize_ir create_ir_program = some (.error "invalid read") ∧
    (∀ program : IRProgram, program.instructions = [] →
      dead_code_elimination program = some (.error "invalid read")) ∧
    (∀ program : IRProgram, program.instructions ≠ [] →
      InBounds program.instructions.length (find_basic_blocks program.instructions) ∧
      dead_code_elimination program ≠ some (.error "invalid read")) := by
  refine ⟨rfl, rfl, rfl, rfl, ?_, ?_⟩
  · intro program h
    unfold dead_code_elimination
    rw [h]
    rfl
  · intro program hne
    refine ⟨find_basic_blocks_in_bounds _ hne, ?_⟩
    intro h
    have := dead_code_elimination_error program hne _ h
    revert this
    decide

/-! ## C34: constant folding and the definition that reaches a use -/

/-- C34: `constant_folding` does not look at the definition that reaches a
use.  Its inner loop takes the value of the last immediate assignment to the
operand and steps over every other instruction, also over one that assigns
something else to the operand: an instruction that is not an immediate
assignment never changes what the loop has found.  In `ASSIGN x ← 5`,
`ASSIGN x ← y`, `ASSIGN t0 ← 1`, `ADD t1 ← x, t0` the operand `x` holds the
value of `y` at the addition, and the addition is folded to `ASSIGN t1 ← 6`. -/
theorem redefined_operand_is_folded :
    (∀ (previous : List IRInstr) (redefinition : IRInstr) (src1 src2 : String),
      is_constant redefinition = false →
      constant_operands (previous ++ [redefinition]) src1 src2
        = constant_operands previous src1 src2) ∧
    constant_operands
        [assign_immediate "x" 5, copy_instr "x" "y", assign_immediate "t0" 1] "x" "t0"
      = (some 5, some 1) ∧
    constant_folding program_redefined
      = some (.ok { program_redefined with
          instructions :=
            [assign_immediate "x" 5, copy_instr "x" "y", assign_immediate "t0" 1,
             assign_immediate "t1" 6] }) := by
  refine ⟨?_, rfl, rfl⟩
  intro previous redefinition src1 src2 h
  rw [constant_operands_snoc]
  cases redefinition.dest with
  | none => rfl
  | some dest => simp [h]

/-! ## The symbol table as a stack of scopes -/

theorem symbols_split_at_level :
    ∀ (symbols : List Symbol) (level : Int),
      (∀ symbol ∈ symbols, symbol.scope_level ≤ level) →
      symbols.Pairwise (fun older newer => older.scope_level ≤ newer.scope_level) →
      symbols = symbols_off_level symbols level ++ symbols_of_level symbols level := by
  intro symbols
  induction symbols with
  | nil => intro level _ _; rfl
  | cons symbol rest ih =>
    intro level hle hsorted
    have hrest := ih level (fun s hs => hle s (by simp [hs])) (List.Pairwise.of_cons hsorted)
    by_cases hlevel : symbol.scope_level = level
    · have hall : ∀ s ∈ rest, s.scope_level = level := by
        intro s hs
        have h1 := List.rel_of_pairwise_cons hsorted hs
        have h2 := hle s (by simp [hs])
        omega
      have hoff : symbols_off_level (symbol :: rest) level = [] := by
        unfold symbols_off_level
        rw [List.filter_eq_nil_iff]
        intro s hs
        rcases List.mem_cons.mp hs with h | h
        · subst h; simp [hlevel]
        · simp [hall s h]
      have hof : symbols_of_level (symbol :: rest) level = symbol :: rest := by
        unfold symbols_of_level
        rw [List.filter_eq_self]
        intro s hs
        rcases List.mem_cons.mp hs with h | h
        · subst h; simp [hlevel]
        · simp [hall s h]
      rw [hoff, hof]
      rfl
    · have hoff : symbols_off_level (symbol :: rest) level
          = symbol :: symbols_off_level rest level := by
        unfold symbols_off_level
        rw [List.filter_cons_of_pos (by simp [hlevel])]
      have hof : symbols_of_level (symbol :: rest) level = symbols_of_level rest level := by
        unfold symbols_of_level
        rw [List.filter_cons_of_neg (by simp [hlevel])]
      rw [hoff, hof, List.cons_append, ← hrest]

theorem exit_scope_loop_pops (old : List Symbol) (level : Int) :
    ∀ (added : List Symbol) (k : Nat), k ≤ added.length →
      (∀ symbol ∈ added, symbol.scope_level = level) →
      exit_scope_loop k ⟨old ++ added, level⟩
        = ⟨(old ++ added).take ((old ++ added).length - k), level⟩ := by
  intro added
  induction added using List.reverseRecOn with
  | nil =>
    intro k hk _
    have : k = 0 := by simpa using hk
    subst this
    simp [exit_scope_loop]
  | append_singleton added symbol ih =>
    intro k hk hadded
    cases k with
    | zero => simp [exit_scope_loop]
    | succ k =>
      rw [exit_scope_loop]
      have hlast : (old ++ (added ++ [symbol])).getLast? = some symbol := by
        rw [← List.append_assoc]; simp
      simp only [hlast]
      rw [if_pos (hadded symbol (by simp))]
      have hdrop : (old ++ (added ++ [symbol])).dropLast = old ++ added := by
        rw [← List.append_assoc]; simp
      simp only [hdrop]
      rw [ih k (by simpa using hk) (fun s hs => hadded s (by simp [hs]))]
      have hlen : (old ++ (added ++ [symbol])).length - (k + 1) = (old ++ added).length - k := by
        simp only [List.length_append, List.length_singleton]
        omega
      rw [hlen, ← List.append_assoc old added [symbol],
        List.take_append_of_le_length (Nat.sub_le _ _)]

theorem stacked_add_symbol {table : SymbolTable} (h : Stacked table) (name type : String) :
    Stacked (add_symbol table name type) := by
  obtain ⟨hlevel, hsorted⟩ := h
  constructor
  · intro symbol hmem
    simp only [add_symbol, List.mem_append, List.mem_singleton] at hmem ⊢
    rcases hmem with hm | hm
    · exact hlevel symbol hm
    · subst hm; exact le_refl _
  · simp only [add_symbol]
    rw [List.pairwise_append]
    refine ⟨hsorted, List.pairwise_singleton _ _, ?_⟩
    intro older holder newer hnewer
    simp only [List.mem_singleton] at hnewer
    subst hnewer
    exact hlevel older holder

theorem stacked_enter_scope {table : SymbolTable} (h : Stacked table) :
    Stacked (enter_scope table) :=
  ⟨levelled_enter h.1, h.2⟩

/-- On a table whose symbols stand in the order of their levels, `exit_scope`
keeps the symbols that are not of the current level. -/
theorem exit_scope_of_stacked {table : SymbolTable} (h : Stacked table) :
    exit_scope table
      = ⟨symbols_off_level table.symbols table.current_scope, table.current_scope - 1⟩ := by
  obtain ⟨hlevel, hsorted⟩ := h
  have hsplit := symbols_split_at_level table.symbols table.current_scope hlevel hsorted
  have htable : table
      = ⟨symbols_off_level table.symbols table.current_scope ++
          symbols_of_level table.symbols table.current_scope, table.current_scope⟩ := by
    cases table with
    | mk symbols current_scope => simp only [] at hsplit ⊢; rw [← hsplit]
  rw [htable, exit_scope_append]
  · simp only []
    rw [← hsplit]
  · intro symbol hmem
    unfold symbols_off_level at hmem
    simpa using (List.mem_filter.mp hmem).2
  · intro symbol hmem
    unfold symbols_of_level at hmem
    simpa using (List.mem_filter.mp hmem).2

theorem stacked_exit_scope {table : SymbolTable} (h : Stacked table) :
    Stacked (exit_scope table) := by
  rw [exit_scope_of_stacked h]
  obtain ⟨hlevel, hsorted⟩ := h
  constructor
  · intro symbol hmem
    simp only [] at hmem ⊢
    unfold symbols_off_level at hmem
    have h1 := hlevel symbol (List.mem_filter.mp hmem).1
    have h2 : symbol.scope_level ≠ table.current_scope := by
      simpa using (List.mem_filter.mp hmem).2
    omega
  · exact List.Pairwise.sublist (List.filter_sublist _) hsorted

theorem stacked_apply_steps :
    ∀ (steps : List TableStep) (table result : SymbolTable), Stacked table →
      apply_steps table steps = some result → Stacked result := by
  intro steps
  induction steps with
  | nil =>
    intro table result h hr
    simp only [apply_steps, Option.some.injEq] at hr
    rw [← hr]
    exact h
  | cons step rest ih =>
    intro table result h hr
    cases step with
    | add name type => exact ih _ _ (stacked_add_symbol h name type) hr
    | enter => exact ih _ _ (stacked_enter_scope h) hr
    | exit =>
      rw [apply_steps] at hr
      split at hr
      · exact ih _ _ (stacked_exit_scope h) hr
      · cases hr

/-! ## C35: what `exit_scope` removes -/

/-- C35: on every symbol table that is reached from the empty table by calls
of `add_symbol`, `enter_scope` and `exit_scope`, each `exit_scope` matching an
earlier `enter_scope`, the symbols of the current level are the end of the
array; `exit_scope` removes them and no other symbol, the other symbols stay
in their order, and the level is decremented.  The loop removes the newest
symbol first: after `k` iterations, the `k` newest symbols are gone. -/
theorem exit_scope_removes_current_level (steps : List TableStep) (table : SymbolTable)
    (h : apply_steps ⟨[], 0⟩ steps = some table) :
    table.symbols
      = symbols_off_level table.symbols table.current_scope ++
        symbols_of_level table.symbols table.current_scope ∧
    exit_scope table
      = ⟨symbols_off_level table.symbols table.current_scope, table.current_scope - 1⟩ ∧
    (∀ k, k ≤ (symbols_of_level table.symbols table.current_scope).length →
      exit_scope_loop k table
        = ⟨table.symbols.take (table.symbols.length - k), table.current_scope⟩) := by
  have hempty : Stacked ⟨[], 0⟩ :=
    ⟨fun symbol hmem => absurd hmem (List.not_mem_nil symbol), List.Pairwise.nil⟩
  have hstacked := stacked_apply_steps steps _ table hempty h
  have hsplit := symbols_split_at_level table.symbols table.current_scope hstacked.1 hstacked.2
  refine ⟨hsplit, exit_scope_of_stacked hstacked, ?_⟩
  intro k hk
  have hpops := exit_scope_loop_pops (symbols_off_level table.symbols table.current_scope)
    table.current_scope (symbols_of_level table.symbols table.current_scope) k hk
    (by
      intro symbol hmem
      unfold symbols_of_level at hmem
      simpa using (List.mem_filter.mp hmem).2)
  rw [← hsplit] at hpops
  exact hpops

/-- A sequence of eleven steps with three scopes, the innermost one left and
entered again: the table then has `f` at level 0, `a` at level 1, `b` at
level 2, and `c` and `d` at level 3.  The call of `exit_scope` removes `c` and
`d` and leaves level 2; the first iteration of its loop removes `d`. -/
theorem exit_scope_removes_current_level_witness :
    apply_steps ⟨[], 0⟩
        [.add "f" "function", .enter, .add "a" "int", .enter, .add "b" "int", .enter,
         .add "c" "int", .exit, .enter, .add "c" "int", .add "d" "int"]
      = some ⟨[variable_symbol "f" "function" 0, variable_symbol "a" "int" 1,
               variable_symbol "b" "int" 2, variable_symbol "c" "int" 3,
               variable_symbol "d" "int" 3], 3⟩ ∧
    exit_scope ⟨[variable_symbol "f" "function" 0, variable_symbol "a" "int" 1,
                 variable_symbol "b" "int" 2, variable_symbol "c" "int" 3,
                 variable_symbol "d" "int" 3], 3⟩
      = ⟨[variable_symbol "f" "function" 0, variable_symbol "a" "int" 1,
          variable_symbol "b" "int" 2], 2⟩ ∧
    exit_scope_loop 1 ⟨[variable_symbol "f" "function" 0, variable_symbol "a" "int" 1,
                        variable_symbol "b" "int" 2, variable_symbol "c" "int" 3,
                        variable_symbol "d" "int" 3], 3⟩
      = ⟨[variable_symbol "f" "function" 0, variable_symbol "a" "int" 1,
          variable_symbol "b" "int" 2, variable_symbol "c" "int" 3], 3⟩ :=
  ⟨rfl,
   (exit_scope_removes_current_level
      [.add "f" "function", .enter, .add "a" "int", .enter, .add "b" "int", .enter,
       .add "c" "int", .exit, .enter, .add "c" "int", .add "d" "int"]
      ⟨[variable_symbol "f" "function" 0, variable_symbol "a" "int" 1,
        variable_symbol "b" "int" 2, variable_symbol "c" "int" 3,
        variable_symbol "d" "int" 3], 3⟩ rfl).2.1,
   rfl⟩

/-! ## C36: symbols with the same name at the same level -/

/-- C36: symbols with the same name do share a level.  The parameters of a
function are added without a lookup, and so are the functions in the first
pass of `analyze`.  `analyze` accepts `int f(int a, int a) { return a; }`,
and the body is analysed in a table with two symbols `a` of level 1; it
accepts `int f() { return 1; } int f() { return 2; }` and returns a table with
two symbols `f` of level 0.  Only a local declaration is looked up first: it
is accepted only when no symbol of any level has its name. -/
theorem duplicate_names_share_a_level :
    (analyze create_analyzer program_duplicate_parameter).1 = true ∧
    register_functions create_analyzer.table
        [.FunctionDeclaration "f"
          [.VariableDeclaration "a" "int" none, .VariableDeclaration "a" "int" none]
          (.CompoundStatement [.Return (.Identifier "a")])]
      = some ⟨[function_symbol "f" ["int", "int"] 2 0], 0⟩ ∧
    add_parameters (enter_scope ⟨[function_symbol "f" ["int", "int"] 2 0], 0⟩)
        [.VariableDeclaration "a" "int" none, .VariableDeclaration "a" "int" none]
      = some ⟨[function_symbol "f" ["int", "int"] 2 0, variable_symbol "a" "int" 1,
               variable_symbol "a" "int" 1], 1⟩ ∧
    ¬ DistinctPerLevel
        ⟨[function_symbol "f" ["int", "int"] 2 0, variable_symbol "a" "int" 1,
          variable_symbol "a" "int" 1], 1⟩ ∧
    analyze create_analyzer program_duplicate_function
      = (true,
         { table := ⟨[function_symbol "f" [] 0 0, function_symbol "f" [] 0 0], 0⟩,
           current_function := some "f", has_return := true, error_message := none }) ∧
    ¬ DistinctPerLevel (analyze create_analyzer program_duplicate_function).2.table ∧
    (∀ (table : SymbolTable) (name type1 type2 : String),
      ∃ result,
        add_parameters table
            [.VariableDeclaration name type1 none, .VariableDeclaration name type2 none]
          = some result ∧
        ¬ DistinctPerLevel result) ∧
    (∀ (analyzer : SemanticAnalyzer) (name type : String) (initializer : Option ASTNode),
      (analyze_statement analyzer (.VariableDeclaration name type initializer)).1 = true →
      find_symbol analyzer.table name = none) := by
  refine ⟨rfl, rfl, rfl, ?_, rfl, ?_, ?_, ?_⟩
  · unfold DistinctPerLevel
    decide
  · unfold DistinctPerLevel
    decide
  · intro table name type1 type2
    refine ⟨_, rfl, ?_⟩
    unfold DistinctPerLevel
    simp only [add_symbol, List.append_assoc, List.singleton_append]
    rw [List.pairwise_append]
    intro h
    have := List.rel_of_pairwise_cons h.2.1 (List.mem_singleton.mpr rfl)
    exact this ⟨rfl, rfl⟩
  · intro analyzer name type initializer h
    rw [analyze_statement_declaration] at h
    cases hf : find_symbol analyzer.table name with
    | none => rfl
    | some symbol => rw [hf] at h; cases h

/-! ## Lookup after `add_symbol` -/

/-- The table that an accepted program leaves is the one that the first pass
of `analyze` built. -/
theorem analyze_keeps_registered (statements : List ASTNode) (after : SemanticAnalyzer)
    (h : analyze create_analyzer (.Program statements) = (true, after)) :
    register_functions create_analyzer.table statements = some after.table := by
  rw [analyze] at h
  cases hr : register_functions create_analyzer.table statements with
  | none => rw [hr] at h; cases h
  | some table =>
    rw [hr] at h
    simp only [] at h
    obtain ⟨hscope, added, hsymbols, _, hall⟩ := register_functions_spec _ _ _ hr
    have hsymbols2 : table.symbols = added := by simpa [create_analyzer] using hsymbols
    have hlevel : Levelled table := by
      intro symbol hmem
      rw [hsymbols2] at hmem
      rw [(hall symbol hmem).2, hscope]
    have hrestore := analyze_functions_restores statements
      { create_analyzer with table := table } hlevel (by rw [h])
    rw [h] at hrestore
    have htable : after.table = table := hrestore
    rw [htable]

theorem analyze_statement_if_restores (analyzer : SemanticAnalyzer)
    (ha : Levelled analyzer.table) (condition if_body : ASTNode) (else_body : Option ASTNode)
    (hok : (analyze_statement analyzer (.If condition if_body else_body)).1 = true) :
    (analyze_statement analyzer (.If condition if_body else_body)).2.table
      = analyzer.table := by
  cases else_body with
  | none =>
    rw [analyze_statement_if] at hok ⊢
    exact restored_of_scoped ha (scoped_and_then (levelled_enter ha)
      (scoped_of_untouched (analyze_expression_untouched condition _))
      (fun b hb => analyze_statement_scoped if_body b hb)) hok
  | some else_body =>
    rw [analyze_statement_if_else] at hok ⊢
    exact restored_of_scoped ha (scoped_and_then (levelled_enter ha)
      (scoped_and_then (levelled_enter ha)
        (scoped_of_untouched (analyze_expression_untouched condition _))
        (fun b hb => analyze_statement_scoped if_body b hb))
      (fun b hb => analyze_statement_scoped else_body b hb)) hok

theorem analyze_statement_while_restores (analyzer : SemanticAnalyzer)
    (ha : Levelled analyzer.table) (condition body : ASTNode)
    (hok : (analyze_statement analyzer (.While condition body)).1 = true) :
    (analyze_statement analyzer (.While condition body)).2.table = analyzer.table := by
  rw [analyze_statement_while] at hok ⊢
  exact restored_of_scoped ha (scoped_and_then (levelled_enter ha)
    (scoped_of_untouched (analyze_expression_untouched condition _))
    (fun b hb => analyze_statement_scoped body b hb)) hok

theorem analyze_statement_compound_restores (analyzer : SemanticAnalyzer)
    (ha : Levelled analyzer.table) (statements : List ASTNode)
    (hok : (analyze_statement analyzer (.CompoundStatement statements)).1 = true) :
    (analyze_statement analyzer (.CompoundStatement statements)).2.table
      = analyzer.table := by
  rw [analyze_statement_compound] at hok ⊢
  have h := analyze_statements_scoped statements
    { analyzer with table := enter_scope analyzer.table } (levelled_enter ha)
  revert hok h
  generalize analyze_statements { analyzer with table := enter_scope analyzer.table }
    statements = result
  intro hok h
  obtain ⟨ok, b⟩ := result
  cases ok with
  | false => cases hok
  | true => exact restored_of_scoped ha h rfl

/-- The table in which the second pass of `analyze` analyses the body of a
function has no symbol of a deeper level than the current one. -/
theorem levelled_body_table (statements parameters : List ASTNode)
    (registered table : SymbolTable)
    (hr : register_functions create_analyzer.table statements = some registered)
    (hp : add_parameters (enter_scope registered) parameters = some table) :
    Levelled table := by
  obtain ⟨hscope, added, hsymbols, _, hall⟩ := register_functions_spec _ _ _ hr
  have hsymbols2 : registered.symbols = added := by simpa [create_analyzer] using hsymbols
  have hlevel : Levelled registered := by
    intro symbol hmem
    rw [hsymbols2] at hmem
    rw [(hall symbol hmem).2, hscope]
  obtain ⟨hscope2, params, hsymbols3, hparams⟩ := add_parameters_spec _ _ _ hp
  intro symbol hmem
  rw [hsymbols3] at hmem
  rw [hscope2]
  rcases List.mem_append.mp hmem with hm | hm
  · exact levelled_enter hlevel symbol hm
  · exact le_of_eq (hparams symbol hm)

/-- C38: when `analyze`, started on a fresh analyzer, returns true on a
program, the level is 0 and the table is the one that the first pass built:
one function symbol of level 0 for each function declaration, in the order of
the declarations, and nothing else, so every parameter and every local
variable has been removed.  The body of each function is analysed in a table
without a symbol of a deeper level than the current one, an accepted statement
keeps the table so, and on such a table an accepted `if`, `while` or compound
statement leaves the table and the level as it found them. -/
theorem analysis_leaves_scopes_balanced (statements : List ASTNode)
    (after : SemanticAnalyzer)
    (h : analyze create_analyzer (.Program statements) = (true, after)) :
    after.table.current_scope = 0 ∧
    after.table.symbols.map (fun symbol => (symbol.name, symbol.param_count))
      = declared_functions statements ∧
    (∀ symbol ∈ after.table.symbols, symbol.is_function = true ∧ symbol.scope_level = 0) ∧
    (∀ (parameters : List ASTNode) (table : SymbolTable),
      add_parameters (enter_scope after.table) parameters = some table → Levelled table) ∧
    (∀ (analyzer : SemanticAnalyzer) (node : ASTNode), Levelled analyzer.table →
      (analyze_statement analyzer node).1 = true →
      Levelled (analyze_statement analyzer node).2.table) ∧
    (∀ (analyzer : SemanticAnalyzer) (condition if_body : ASTNode)
        (else_body : Option ASTNode), Levelled analyzer.table →
      (analyze_statement analyzer (.If condition if_body else_body)).1 = true →
      (analyze_statement analyzer (.If condition if_body else_body)).2.table
        = analyzer.table) ∧
    (∀ (analyzer : SemanticAnalyzer) (condition body : ASTNode), Levelled analyzer.table →
      (analyze_statement analyzer (.While condition body)).1 = true →
      (analyze_statement analyzer (.While condition body)).2.table = analyzer.table) ∧
    (∀ (analyzer : SemanticAnalyzer) (body : List ASTNode), Levelled analyzer.table →
      (analyze_statement analyzer (.CompoundStatement body)).1 = true →
      (analyze_statement analyzer (.CompoundStatement body)).2.table = analyzer.table) := by
  have hr := analyze_keeps_registered statements after h
  obtain ⟨hscope, added, hsymbols, hmap, hall⟩ := register_functions_spec _ _ _ hr
  have hsymbols2 : after.table.symbols = added := by simpa [create_analyzer] using hsymbols
  refine ⟨hscope, by rw [hsymbols2, hmap], ?_, ?_, ?_, ?_, ?_, ?_⟩
  · intro symbol hmem
    rw [hsymbols2] at hmem
    exact hall symbol hmem
  · intro parameters table hp
    exact levelled_body_table statements parameters after.table table hr hp
  · intro analyzer node ha hok
    have hs := analyze_statement_scoped node analyzer ha
    rcases hres : analyze_statement analyzer node with ⟨ok, b⟩
    rw [hres] at hok hs
    simp only [] at hok
    subst hok
    exact levelled_of_scoped ha hs
  · intro analyzer condition if_body else_body ha hok
    exact analyze_statement_if_restores analyzer ha condition if_body else_body hok
  · intro analyzer condition body ha hok
    exact analyze_statement_while_restores analyzer ha condition body hok
  · intro analyzer body ha hok
    exact analyze_statement_compound_restores analyzer ha body hok

/-- The program `program_nested_scopes`, with a parameter, declarations in
both arms of an `if` and in the body of a `while`, is accepted; the table is
then the functions `f` and `main` at level 0. -/
theorem analysis_leaves_scopes_balanced_witness :
    analyze create_analyzer program_nested_scopes
      = (true,
         { table := { symbols := [function_symbol "f" ["int"] 1 0,
                                  function_symbol "main" [] 0 0],
                      current_scope := 0 },
           current_function := some "main", has_return := true, error_message := none }) ∧
    declared_functions
        [.FunctionDeclaration "f" [.VariableDeclaration "n" "int" none]
           (.CompoundStatement
             [.VariableDeclaration "x" "int" (some (.Identifier "n")),
              .If (.Identifier "x")
                (.CompoundStatement [.VariableDeclaration "y" "int" (some (.Number 2))])
                (some (.CompoundStatement
                  [.VariableDeclaration "y" "int" (some (.Number 3))])),
              .While (.Identifier "x") (.VariableDeclaration "z" "int" (some (.Number 4))),
              .Return (.Identifier "x")]),
         .FunctionDeclaration "main" []
           (.CompoundStatement [.Return (.FunctionCall "f" [.Number 1])])]
      = [("f", 1), ("main", 0)] :=
  ⟨rfl,
   (analysis_leaves_scopes_balanced
      [.FunctionDeclaration "f" [.VariableDeclaration "n" "int" none]
         (.CompoundStatement
           [.VariableDeclaration "x" "int" (some (.Identifier "n")),
            .If (.Identifier "x")
              (.CompoundStatement [.VariableDeclaration "y" "int" (some (.Number 2))])
              (some (.CompoundStatement
                [.VariableDeclaration "y" "int" (some (.Number 3))])),
            .While (.Identifier "x") (.VariableDeclaration "z" "int" (some (.Number 4))),
            .Return (.Identifier "x")]),
       .FunctionDeclaration "main" []
         (.CompoundStatement [.Return (.FunctionCall "f" [.Number 1])])]
      { table := { symbols := [function_symbol "f" ["int"] 1 0,
                               function_symbol "main" [] 0 0],
                   current_scope := 0 },
        current_function := some "main", has_return := true, error_message := none }
      rfl).2.1⟩

/-! ## C37: the scope of an `if` and of a `while` -/

theorem labelled_append {first second : List IRInstr} (h1 : Labelled first)
    (h2 : Labelled second) : Labelled (first ++ second) := by
  intro instr hmem hop
  rcases List.mem_append.mp hmem with h | h
  · exact h1 instr h hop
  · exact h2 instr h hop

theorem generate_parameters_ir_labelled (parameters : List ASTNode) (program : IRProgram)
    (h : Labelled program.instructions) :
    Labelled (generate_parameters_ir program parameters).instructions := by
  obtain ⟨added, h1, h2, _⟩ := generate_parameters_ir_ops parameters program
  rw [h1]
  apply labelled_append h
  intro instr hmem hop
  rw [h2 instr hmem] at hop
  rcases hop with hop | hop | hop | hop <;> cases hop

theorem generate_functions_ir_labelled :
    ∀ (nodes : List ASTNode) (program : IRProgram), Labelled program.instructions →
      Labelled (generate_functions_ir program nodes).instructions := by
  intro nodes
  induction nodes with
  | nil => intro program h; exact h
  | cons node rest ih =>
    intro program h
    cases node with
    | FunctionDeclaration name parameters body =>
      rw [generate_functions_ir]
      simp only [generate_statement_ir]
      apply ih
      apply generate_parameters_ir_labelled
      simp only [add_instruction]
      apply labelled_append h
      intro instr hmem _
      simp only [List.mem_singleton] at hmem
      rw [hmem]
      rfl
    | _ => exact ih program h

/-- Every `LABEL` that `generate_ir` appends carries its label, and it appends
no jump: the program it makes from the empty one is labelled. -/
theorem generate_ir_labelled (node : ASTNode) :
    Labelled (generate_ir create_ir_program node).instructions := by
  have hempty : Labelled create_ir_program.instructions := by
    intro instr hmem
    cases hmem
  cases node with
  | Program statements => exact generate_functions_ir_labelled statements _ hempty
  | _ => exact hempty

end CompilerDc
